import Mathlib

/-!
# sdhash 1.7 : Bloom-filter similarity digests

A shallow embedding of the digest comparison and feature scoring code of
`sdhash-c-1.7` (`bf_utils.c`, `sdbf_core.c`, `sdbf.h`), followed by the
properties established for it.

Conventions of the embedding.

* Memory regions of bytes (`uint8_t *`) are `List Nat`; a read is `getD _ 0`.
* C unsigned integers are `Nat` reduced `% 2 ^ w` wherever the C type can wrap.
* `uint64_t *` and `uint16_t *` views of a byte region are little-endian words.
-/

namespace Sdhash

/-! ## Constants of `sdbf.h` -/

/-- Constant `BF_SIZE`. -/
def BF_SIZE : Nat := 256

/-- Constant `MIN_ELEM_COUNT`. -/
def MIN_ELEM_COUNT : Nat := 6

/-- Constant `MIN_REF_ELEM_COUNT`. -/
def MIN_REF_ELEM_COUNT : Nat := 64

/-- Table `BITS[]`. -/
def BITS : List Nat := [0x01, 0x02, 0x04, 0x08, 0x10, 0x20, 0x40, 0x80]

/-- Table `BF_CLASS_MASKS[]`. -/
def BF_CLASS_MASKS : List Nat := [0x7FF, 0x7FFF, 0x7FFFF, 0x7FFFFF, 0x7FFFFFF, 0xFFFFFFFF]

/-- Modulus of `uint8_t`. -/
def U8 : Nat := 2 ^ 8

/-- Modulus of `uint16_t`. -/
def U16 : Nat := 2 ^ 16

/-- Modulus of `uint32_t`. -/
def U32 : Nat := 2 ^ 32

/-- Modulus of `uint64_t`. -/
def U64 : Nat := 2 ^ 64

/-- Conversion of a signed C integer to `uint32_t`. -/
def toU32 (z : Int) : Nat := (z % (2 ^ 32 : Int)).toNat

/-- Conversion of an unsigned 32-bit pattern to `int32_t`. -/
def toI32 (n : Nat) : Int :=
  if n % U32 < 2 ^ 31 then ((n % U32 : Nat) : Int) else ((n % U32 : Nat) : Int) - 2 ^ 32

/-! ## `bf_utils.c` : bit tables and population counts -/

/-- Entry `bit_count_16[byte]` after `init_bit_count_16`: the inner loop over
`bit = 0 .. 15` incrementing the (`uint8_t`) entry when `byte & 0x1 << bit`. -/
def bit_count_16 (byte : Nat) : Nat :=
  (List.range 16).foldl
    (fun cnt bit => if byte &&& (0x1 <<< bit) ≠ 0 then (cnt + 1) % U8 else cnt) 0

/-- Little-endian value of a byte sequence. -/
def le_word : List Nat → Nat
  | [] => 0
  | b :: bs => b + 256 * le_word bs

/-- Read `((uint64_t *)p)[i]`. -/
def load64 (p : List Nat) (i : Nat) : Nat :=
  le_word ((List.range 8).map (fun k => p.getD (8 * i + k) 0))

/-- Value `buff16[j]` once `buff64[j/4] = f1_64[j/4] & f2_64[j/4]` has been stored:
`buff16` aliases `buff64`, four 16-bit words per 64-bit word. -/
def buff16 (f1 f2 : List Nat) (j : Nat) : Nat :=
  ((load64 f1 (j / 4) &&& load64 f2 (j / 4)) >>> (16 * (j % 4))) % U16

/-- The statements `result += bit_count_16[buff16[j]]` for `j = lo .. lo+n-1`. -/
def add_counts (f1 f2 : List Nat) (lo n : Nat) (result : Nat) : Nat :=
  (List.range' lo n).foldl (fun r j => (r + bit_count_16 (buff16 f1 f2 j)) % U32) result

/-- Function `bf_bitcount`: number of common bits of two filters of `bf_size` bytes. -/
def bf_bitcount (bfilter_1 bfilter_2 : List Nat) (bf_size : Nat) : Nat :=
  add_counts bfilter_1 bfilter_2 0 (bf_size / 2) 0

/-- Function `bf_bitcount_cut_256`: the tiered count with three early exits.
`cut_off` is `uint32_t`, `slack` is `int32_t` (converted to unsigned in the sums). -/
def bf_bitcount_cut_256 (bfilter_1 bfilter_2 : List Nat) (cut_off : Nat) (slack : Int) : Nat :=
  let result := add_counts bfilter_1 bfilter_2 0 16 0
  if cut_off > 0 ∧ (8 * result + toU32 slack) % U32 < cut_off then 0
  else
    let result := add_counts bfilter_1 bfilter_2 16 16 result
    if cut_off > 0 ∧ (4 * result + toU32 slack) % U32 < cut_off then 0
    else
      let result := add_counts bfilter_1 bfilter_2 32 32 result
      if cut_off > 0 ∧ (2 * result + toU32 slack) % U32 < cut_off then 0
      else add_counts bfilter_1 bfilter_2 64 64 result

/-! ## Reference notions the code is compared with -/

/-- Number of set bits among the low `w` bits of `x`. -/
def popcount (w x : Nat) : Nat := (List.range w).countP (fun b => x.testBit b)

/-- Number of set bits of the bytewise AND of the first `n` bytes of two regions. -/
def popcount_and (f1 f2 : List Nat) (n : Nat) : Nat :=
  ((List.range n).map (fun i => popcount 8 (f1.getD i 0 &&& f2.getD i 0))).sum

/-- Number of set bits of the first `n` bytes of a region. -/
def popcount_bytes (f : List Nat) (n : Nat) : Nat :=
  ((List.range n).map (fun i => popcount 8 (f.getD i 0))).sum

/-- A region holds at least `n` bytes, each below 256. -/
def IsBytes (f : List Nat) (n : Nat) : Prop := n ≤ f.length ∧ ∀ x ∈ f, x < 256

instance (f : List Nat) (n : Nat) : Decidable (IsBytes f n) := by
  unfold IsBytes; infer_instance

/-- Result of `bf_sha1_insert`: the filter and hash words after the call (both are
modified in place) and the returned count. -/
structure InsertResult where
  bf : List Nat
  sha1_hash : List Nat
  insert_cnt : Nat
deriving DecidableEq, Repr

/-- One iteration `i` of the loop of `bf_sha1_insert`. -/
def bf_sha1_insert_step (bit_mask : Nat) (st : InsertResult) (i : Nat) : InsertResult :=
  let sha1_hash := st.sha1_hash.set i (st.sha1_hash.getD i 0 &&& bit_mask)
  let k := sha1_hash.getD i 0 >>> 3
  let insert_cnt :=
    if st.bf.getD k 0 &&& BITS.getD (sha1_hash.getD i 0 &&& 0x7) 0 = 0
    then (st.insert_cnt + 1) % U32 else st.insert_cnt
  { bf := st.bf.set k (st.bf.getD k 0 ||| BITS.getD (sha1_hash.getD i 0 &&& 0x7) 0),
    sha1_hash := sha1_hash,
    insert_cnt := insert_cnt }

/-- Function `bf_sha1_insert`: insert a SHA-1 hash (five 32-bit words) into a filter;
returns the number of bits found clear. -/
def bf_sha1_insert (bf : List Nat) (bf_class : Nat) (sha1_hash : List Nat) : InsertResult :=
  (List.range 5).foldl (bf_sha1_insert_step (BF_CLASS_MASKS.getD bf_class 0))
    { bf := bf, sha1_hash := sha1_hash, insert_cnt := 0 }

/-- The effect of one loop iteration of `bf_sha1_insert` on the filter and the count, as a
function of the masked word `x` (used to state the loop unrolled). -/
def set_pos (s : List Nat × Nat) (x : Nat) : List Nat × Nat :=
  (s.1.set (x >>> 3) (s.1.getD (x >>> 3) 0 ||| BITS.getD (x &&& 0x7) 0),
   if s.1.getD (x >>> 3) 0 &&& BITS.getD (x &&& 0x7) 0 = 0 then (s.2 + 1) % U32 else s.2)

/-- Bit `p` of a filter: bit `p & 7` of byte `p >> 3`. -/
def bf_bit (bf : List Nat) (p : Nat) : Bool := (bf.getD (p >>> 3) 0).testBit (p &&& 7)

/-! ## Double-precision arithmetic

A `double` is represented by the rational number it denotes. Every arithmetic operation
of the C code is the exact operation followed by the rounding `rnd` of the model; `pow`
is the C library function at an exponent that is an unsigned integer. The definitions are
parametric in the model, so that the results hold for every rounding with the properties
stated in `FloatModel.Sound` (round-to-nearest binary64 is monotone and leaves integers
of magnitude up to `2 ^ 53` unchanged); `exactFloat` is the model without rounding error.
Infinities and NaN are not represented: a division by zero yields `0` as in `ℚ`. -/

/-- A model of the `double` operations used by the comparator. -/
structure FloatModel where
  rnd : ℚ → ℚ
  pow : ℚ → Nat → ℚ

/-- The model without rounding error. -/
def exactFloat : FloatModel := { rnd := fun x => x, pow := fun x n => x ^ n }

/-- Properties of a rounding used by the proofs: monotone, and exact on the integers of
magnitude at most `2 ^ 53`. -/
def FloatModel.Sound (fm : FloatModel) : Prop :=
  (∀ x y : ℚ, x ≤ y → fm.rnd x ≤ fm.rnd y)
  ∧ (∀ z : Int, |z| ≤ 2 ^ 53 → fm.rnd (z : ℚ) = (z : ℚ))

/-- C `lround` / `round`: nearest integer, halfway cases away from zero. -/
def c_lround (x : ℚ) : Int :=
  if 0 ≤ x then Rat.floor (x + 1 / 2) else - Rat.floor (-x + 1 / 2)

/-- Subtraction of `uint32_t` values. -/
def usub32 (a b : Nat) : Nat := (a % U32 + U32 - b % U32) % U32

/-! ## `bf_utils.c` : match estimate and element counts -/

/-- Contents of `bf_est_cache[256][256]` (entries are `uint16_t`); meaningful for
indices below 256. -/
abbrev EstCache := Nat → Nat → Nat

/-- The cache as zeroed by `init_bit_count_16`. -/
def empty_cache : EstCache := fun _ _ => 0

/-- The uncached computation of `bf_match_est`:
`round((double)m*(1 - pow(ex,k*s1) - pow(ex,k*s2) + pow(ex,k*(s1+s2-common))))` with
`ex = 1-1.0/m`, converted to `uint32_t`. -/
def bf_match_est_formula (fm : FloatModel) (m k s1 s2 common : Nat) : Nat :=
  let ex := fm.rnd (1 - fm.rnd (1 / (m : ℚ)))
  let p1 := fm.pow ex ((k * s1) % U32)
  let p2 := fm.pow ex ((k * s2) % U32)
  let p3 := fm.pow ex ((k * usub32 (s1 + s2) common) % U32)
  toU32 (c_lround (fm.rnd ((m : ℚ) * fm.rnd (fm.rnd (fm.rnd (1 - p1) - p2) + p3))))

/-- Function `bf_match_est`, with the cache passed explicitly: returns the estimate and
the cache after the call. -/
def bf_match_est (fm : FloatModel) (cache : EstCache) (m k s1 s2 common : Nat) :
    Nat × EstCache :=
  if common = 0 ∧ cache s1 s2 ≠ 0 then (cache s1 s2, cache)
  else
    (bf_match_est_formula fm m k s1 s2 common,
      fun a b => if a = s1 ∧ b = s2 then bf_match_est_formula fm m k s1 s2 common % U16
                 else cache a b)

/-- Digest descriptor `sdbf_t`. `name` is the C string as its bytes; `hamming` and
`elem_counts` are `none` for a null pointer. -/
structure sdbf_t where
  name : List Nat
  bf_count : Nat
  bf_size : Nat
  hash_count : Nat
  mask : Nat
  max_elem : Nat
  last_count : Nat
  buffer : List Nat
  hamming : Option (List Nat)
  elem_counts : Option (List Nat)
  dd_block_size : Nat
deriving DecidableEq, Repr

/-- Function `get_elem_count` (returns `int32_t`); `index` is `uint64_t` and
`sdbf->bf_count-1` is computed in `uint32_t`. -/
def get_elem_count (sdbf : sdbf_t) (index : Nat) : Int :=
  match sdbf.elem_counts with
  | none => toI32 (if index < usub32 sdbf.bf_count 1 then sdbf.max_elem else sdbf.last_count)
  | some ec => toI32 (ec.getD index 0)

/-! ## `sdbf_core.c` : comparison of two digests -/

/-- Read `((uint16_t *)p)[j]`. -/
def load16 (p : List Nat) (j : Nat) : Nat := le_word [p.getD (2 * j) 0, p.getD (2 * j + 1) 0]

/-- Function `compute_hamming`: the Hamming weight of each filter (`uint16_t` sums over
the `BF_SIZE/2` 16-bit words of the filter), stored in the descriptor. The word index
`pos` is a `uint32_t` that is incremented once per word: in turn `j` of filter `i` it is
`i*(BF_SIZE/2) + j` modulo 2^32. -/
def compute_hamming (sdbf : sdbf_t) : sdbf_t :=
  { sdbf with hamming := some ((List.range sdbf.bf_count).map (fun i =>
      (List.range (BF_SIZE / 2)).foldl
        (fun h j =>
          (h + bit_count_16 (load16 sdbf.buffer ((i * (BF_SIZE / 2) + j) % U32))) % U16) 0)) }

/-- C `strcmp` on strings given by their bytes: the difference of the first bytes that
differ (the end of a string reads as the byte 0). -/
def strcmp : List Nat → List Nat → Int
  | [], [] => 0
  | [], b :: _ => - (b : Int)
  | a :: _, [] => (a : Int)
  | a :: as, b :: bs => if a = b then strcmp as bs else (a : Int) - (b : Int)

/-- Task descriptor `sdbf_task_t` (the semaphores and the result field are left out). -/
structure sdbf_task_t where
  tid : Nat
  tcount : Nat
  ref_sdbf : sdbf_t
  ref_index : Nat
  tgt_sdbf : sdbf_t

/-- The indices `i = tid, tid+tcount, ...` below `comp_cnt`, in increasing order
(`tcount ≥ 1`): the target filters visited by the loop of `sdbf_max_score`, and the blocks
that the partition by `i mod tcount` gives to worker `tid`. -/
def target_indices (tid tcount comp_cnt : Nat) : List Nat :=
  (List.range comp_cnt).filter (fun i => tid ≤ i ∧ (i - tid) % tcount = 0)

/-- Entry `sdbf->hamming[i]`. -/
def hamming_at (sdbf : sdbf_t) (i : Nat) : Nat := (sdbf.hamming.getD []).getD i 0

/-- Body of the loop of `sdbf_max_score` for the target filter `i`; the state is
`max_score` and the estimate cache. The byte offsets `task->ref_index*bf_size` and
`i*bf_size` of the two filters are products of `uint32_t` values, taken modulo 2^32. -/
def sdbf_max_score_step (fm : FloatModel) (task : sdbf_task_t) (s1 : Nat)
    (st : ℚ × EstCache) (i : Nat) : ℚ × EstCache :=
  let bf_size := task.ref_sdbf.bf_size
  let bf_1 := task.ref_sdbf.buffer.drop ((task.ref_index * bf_size) % U32)
  let e1_cnt := hamming_at task.ref_sdbf task.ref_index
  let bf_2 := task.tgt_sdbf.buffer.drop ((i * bf_size) % U32)
  let s2 := toU32 (get_elem_count task.tgt_sdbf i)
  if task.ref_sdbf.bf_count > 1 ∧ s2 < MIN_REF_ELEM_COUNT then st
  else
    let e2_cnt := hamming_at task.tgt_sdbf i
    let max_est := if e1_cnt < e2_cnt then e1_cnt else e2_cnt
    let est := bf_match_est fm st.2 ((8 * bf_size) % U32) task.ref_sdbf.hash_count s1 s2 0
    let min_est := est.1
    let cut_off := toU32 (c_lround (fm.rnd
      (fm.rnd (fm.rnd (3 / 10) * (usub32 max_est min_est : ℚ)) + (min_est : ℚ))))
    let match_0 := bf_bitcount_cut_256 bf_1 bf_2 cut_off 48
    let match_1 := if match_0 > 0 then bf_bitcount_cut_256 bf_1 bf_2 0 0 else match_0
    let score : ℚ :=
      if match_1 ≤ cut_off then 0
      else fm.rnd ((usub32 match_1 cut_off : ℚ) / (usub32 max_est cut_off : ℚ))
    (if score > st.1 then score else st.1, est.2)

/-- State of the comparator that outlives a call: the estimate cache and the field
`result` of each entry of the static `tasklist` (zero after allocation). -/
structure CmpState where
  cache : EstCache
  result : Nat → ℚ

/-- The comparator state of a fresh process. -/
def init_state : CmpState := { cache := empty_cache, result := fun _ => 0 }

/-- Function `sdbf_max_score`: the maximum score of one reference filter against the
target filters of the task's slice; `-1` when there is no answer. Returns the value
returned by the call and the state after it: `task->result` is assigned at the end of
the function only, not on the early return. -/
def sdbf_max_score (fm : FloatModel) (st : CmpState) (task : sdbf_task_t) : ℚ × CmpState :=
  let s1 := toU32 (get_elem_count task.ref_sdbf task.ref_index)
  if s1 < MIN_ELEM_COUNT then (-1, st)
  else
    let r := (target_indices task.tid task.tcount task.tgt_sdbf.bf_count).foldl
      (sdbf_max_score_step fm task s1) (-1, st.cache)
    (r.1, { cache := r.2, result := fun t => if t = task.tid then r.1 else st.result t })

/-- The canonical order chosen by `sdbf_score`: the digests are exchanged when the
condition of the `if` holds. Returns the reference, the target and the `swap` flag. -/
def sdbf_score_order (sdbf_1 sdbf_2 : sdbf_t) : sdbf_t × sdbf_t × Nat :=
  if (sdbf_1.bf_count > sdbf_2.bf_count) ∨
      (sdbf_1.bf_count = sdbf_2.bf_count ∧
        ((get_elem_count sdbf_1 (usub32 sdbf_1.bf_count 1)
            > get_elem_count sdbf_2 (usub32 sdbf_2.bf_count 1)) ∨
          strcmp sdbf_1.name sdbf_2.name > 0))
  then (sdbf_2, sdbf_1, 1) else (sdbf_1, sdbf_2, 0)

/-- The value `max_score` obtained for the reference filter `i`. When `thread_cnt < 2` it
is the value returned by `sdbf_max_score`. Otherwise every worker `t` runs
`sdbf_max_score` on its task (here one after the other; each writes its own `result`
only) and `max_score` is the maximum of the fields `tasklist[t].result`. -/
def sdbf_score_max (fm : FloatModel) (thread_cnt : Nat) (ref tgt : sdbf_t)
    (st : CmpState) (i : Nat) : ℚ × CmpState :=
  if thread_cnt < 2 then
    sdbf_max_score fm st
      { tid := 0, tcount := thread_cnt, ref_sdbf := ref, ref_index := i, tgt_sdbf := tgt }
  else
    let st1 := (List.range thread_cnt).foldl
      (fun (s : CmpState) t => (sdbf_max_score fm s
        { tid := t, tcount := thread_cnt, ref_sdbf := ref, ref_index := i,
          tgt_sdbf := tgt }).2) st
    ((List.range' 1 (thread_cnt - 1)).foldl
      (fun (m : ℚ) t => if st1.result t > m then st1.result t else m) (st1.result 0), st1)

/-- Result of `sdbf_score`: the returned score, the value stored in `*swap`, and the
comparator state after the call. -/
structure ScoreResult where
  score : Int
  swap : Nat
  state : CmpState

/-- The accumulation `score_sum = (score_sum < 0) ? max_score : score_sum + max_score`
over the reference filters `0 .. bf_count-1`, starting from `-1`. -/
def sdbf_score_sum (fm : FloatModel) (thread_cnt : Nat) (ref tgt : sdbf_t)
    (st : CmpState) : ℚ × CmpState :=
  (List.range ref.bf_count).foldl
    (fun (acc : ℚ × CmpState) i =>
      let r := sdbf_score_max fm thread_cnt ref tgt acc.2 i
      (if acc.1 < 0 then r.1 else fm.rnd (acc.1 + r.1), r.2))
    (-1, st)

/-- The statement `if( !sdbf->hamming) compute_hamming( sdbf);` of `sdbf_score`. -/
def with_hamming (d : sdbf_t) : sdbf_t := if d.hamming = none then compute_hamming d else d

/-- Function `sdbf_score`: the score between two digests (`map_on` only prints and is
left out; `thread_cnt` is `sdbf_sys.thread_cnt`, at least 1). -/
def sdbf_score (fm : FloatModel) (thread_cnt : Nat) (st : CmpState)
    (sdbf_1 sdbf_2 : sdbf_t) : ScoreResult :=
  let ord := sdbf_score_order (with_hamming sdbf_1) (with_hamming sdbf_2)
  let sum := sdbf_score_sum fm thread_cnt ord.1 ord.2.1 st
  let denom := ord.1.bf_count
  { score := if sum.1 < 0 then -1
             else c_lround (fm.rnd (fm.rnd (100 * sum.1) / (denom : ℚ))),
    swap := ord.2.2,
    state := sum.2 }

/-- The Hamming weights recorded in a digest are the population counts of its filters. -/
def HammingOK (d : sdbf_t) : Prop :=
  ∀ i, i < d.bf_count → hamming_at d i = popcount_bytes (d.buffer.drop (i * 256)) 256

/-- The element count of every filter of a digest is at most 255 (the estimate cache is
indexed by element counts). -/
def CountsOK (d : sdbf_t) : Prop :=
  d.max_elem ≤ 255 ∧ d.last_count ≤ 255 ∧ ∀ ec, d.elem_counts = some ec → ∀ x ∈ ec, x ≤ 255

/-- A well-formed digest of 256-byte filters: the buffer holds `bf_count` filters,
fewer than 2^24 of them (the byte offset `i*bf_size` of every filter fits `uint32_t`, in
which the comparator computes it), the Hamming weights (when present) are the population
counts of the filters, and the element counts are at most 255. -/
def WellFormed (d : sdbf_t) : Prop :=
  d.bf_size = 256 ∧ 256 * d.bf_count < U32 ∧ IsBytes d.buffer (256 * d.bf_count)
  ∧ (d.hamming ≠ none → HammingOK d) ∧ CountsOK d

/-- Hypotheses on a task under which the scores are bounded: 256-byte filters, byte
buffers, true Hamming weights, a reference index inside the reference digest, and filter
offsets that fit `uint32_t`. -/
def TaskOK (task : sdbf_task_t) : Prop :=
  task.ref_sdbf.bf_size = 256
  ∧ (∀ x ∈ task.ref_sdbf.buffer, x < 256) ∧ (∀ x ∈ task.tgt_sdbf.buffer, x < 256)
  ∧ HammingOK task.ref_sdbf ∧ HammingOK task.tgt_sdbf
  ∧ task.ref_index < task.ref_sdbf.bf_count
  ∧ 256 * task.ref_sdbf.bf_count < U32 ∧ 256 * task.tgt_sdbf.bf_count < U32

/-- Hypotheses on the reference and target digests under which the scores are bounded. -/
def PairOK (ref tgt : sdbf_t) : Prop :=
  ref.bf_size = 256
  ∧ (∀ x ∈ ref.buffer, x < 256) ∧ (∀ x ∈ tgt.buffer, x < 256)
  ∧ HammingOK ref ∧ HammingOK tgt
  ∧ 256 * ref.bf_count < U32 ∧ 256 * tgt.bf_count < U32

/-- Every non-zero entry of the cache (indices below 256) holds the estimate for
`common = 0` with the parameters `m`, `k`. -/
def Coherent (fm : FloatModel) (m k : Nat) (cache : EstCache) : Prop :=
  ∀ s1 s2, s1 < 256 → s2 < 256 → cache s1 s2 ≠ 0 →
    cache s1 s2 = bf_match_est_formula fm m k s1 s2 0

/-- The estimates for element counts below 256 fit the 16-bit cache entries. -/
def EstSmall (fm : FloatModel) (m k : Nat) : Prop :=
  ∀ s1 s2, s1 < 256 → s2 < 256 → bf_match_est_formula fm m k s1 s2 0 < U16

/-- The order of the claim about `sdbf_score`: exchange exactly when the first digest has
more filters, or as many filters and a larger last element count, or as many filters, the
same last element count and a name that compares greater. -/
def swap_by_order (d1 d2 : sdbf_t) : Prop :=
  d1.bf_count > d2.bf_count
  ∨ (d1.bf_count = d2.bf_count
      ∧ get_elem_count d1 (usub32 d1.bf_count 1) > get_elem_count d2 (usub32 d2.bf_count 1))
  ∨ (d1.bf_count = d2.bf_count
      ∧ get_elem_count d1 (usub32 d1.bf_count 1) = get_elem_count d2 (usub32 d2.bf_count 1)
      ∧ strcmp d1.name d2.name > 0)

instance (d1 d2 : sdbf_t) : Decidable (swap_by_order d1 d2) := by
  unfold swap_by_order; infer_instance

/-! ## Example digests -/

/-- A filter whose first 128 bytes are `0xFF` and whose last 128 bytes are zero. -/
def filter_lo : List Nat := List.replicate 128 255 ++ List.replicate 128 0

/-- A filter whose first 128 bytes are zero and whose last 128 bytes are `0xFF`. -/
def filter_hi : List Nat := List.replicate 128 0 ++ List.replicate 128 255

/-- A stream-shape digest with the default parameters (256-byte filters, 5 hashes, mask
`0x7FF`, at most 160 elements per filter) and no Hamming weights computed yet. -/
def stream_digest (name buffer : List Nat) (bf_count last_count : Nat) : sdbf_t :=
  { name := name, bf_count := bf_count, bf_size := 256, hash_count := 5, mask := 0x7FF,
    max_elem := 160, last_count := last_count, buffer := buffer, hamming := none,
    elem_counts := none, dd_block_size := 0 }

/-- Two full filters `filter_lo`, `filter_hi`, named "a". -/
def digest_lo_hi : sdbf_t := stream_digest [97] (filter_lo ++ filter_hi) 2 160

/-- Two full filters `filter_lo`, `filter_lo`, named "a". -/
def digest_lo_lo : sdbf_t := stream_digest [97] (filter_lo ++ filter_lo) 2 160

/-- One empty filter recorded with 3 elements, named "b". -/
def digest_b3 : sdbf_t := stream_digest [98] (List.replicate 256 0) 1 3

/-- One empty filter recorded with 10 elements, named "a". -/
def digest_a10 : sdbf_t := stream_digest [97] (List.replicate 256 0) 1 10

/-- Two empty filters named "a", recorded with `max_elem = 10` and `last_count = 10`, with
the Hamming weights already computed. -/
def digest_m10 : sdbf_t :=
  { stream_digest [97] (List.replicate 512 0) 2 10 with max_elem := 10, hamming := some [0, 0] }

/-- The digest `digest_m10` recorded with `max_elem = 100`. -/
def digest_m100 : sdbf_t :=
  { stream_digest [97] (List.replicate 512 0) 2 10 with max_elem := 100, hamming := some [0, 0] }

/-! ## `sdbf_core.c` : feature scores -/

/-- Global parameters `sdbf_parameters_t`. -/
structure sdbf_parameters_t where
  thread_cnt : Nat
  entr_win_size : Nat
  bf_size : Nat
  block_size : Nat
  pop_win_size : Nat
  threshold : Nat
  max_elem : Nat
  output_threshold : Int
  warnings : Nat
  sample_size : Nat
deriving DecidableEq, Repr

/-- The parameters `sdbf_sys` of `sdhash.c` (stream mode, `_MAX_ELEM_COUNT = 160`). -/
def sdbf_sys : sdbf_parameters_t :=
  { thread_cnt := 1, entr_win_size := 64, bf_size := 256, block_size := 4 * 1024,
    pop_win_size := 64, threshold := 16, max_elem := 160, output_threshold := 1,
    warnings := 0, sample_size := 0 }

/-- Ways in which the model of a C function stops without a result: an access outside
the array it is given, or the exhaustion of the fuel of a loop. -/
inductive Fault where
  | out_of_bounds
  | out_of_fuel
deriving DecidableEq, Repr

instance {α : Type} [DecidableEq α] : DecidableEq (Except Fault α) := fun a b =>
  match a, b with
  | .ok x, .ok y =>
    if h : x = y then isTrue (by rw [h]) else isFalse (fun h1 => by cases h1; exact h rfl)
  | .error e, .error f =>
    if h : e = f then isTrue (by rw [h]) else isFalse (fun h1 => by cases h1; exact h rfl)
  | .ok _, .error _ => isFalse (fun h1 => by cases h1)
  | .error _, .ok _ => isFalse (fun h1 => by cases h1)

/-- Subtraction of `uint64_t` values. -/
def usub64 (a b : Nat) : Nat := (a % U64 + U64 - b % U64) % U64

/-- Read `a[k]`. -/
def rd (a : List Nat) (k : Nat) : Except Fault Nat :=
  match a[k]? with
  | some v => .ok v
  | none => .error .out_of_bounds

/-- The statement `a[k]++` on an array of `uint16_t`. -/
def incr16 (a : List Nat) (k : Nat) : Except Fault (List Nat) :=
  match a[k]? with
  | some v => .ok (a.set k ((v + 1) % U16))
  | none => .error .out_of_bounds

/-- The statement `a[k]++` on an array of `int32_t`: the entry becomes `v + 1` reduced to
32 bits in two's complement, so that the increment of `INT32_MAX` gives `INT32_MIN` (the
overflow of a signed integer is undefined in C; this is what the machine addition does). -/
def incr32 (a : List Int) (k : Nat) : Except Fault (List Int) :=
  match a[k]? with
  | some v => .ok (a.set k (toI32 (toU32 (v + 1))))
  | none => .error .out_of_bounds

/-- The statement `bzero( a, n*sizeof( uint16_t))`. -/
def bzero16 (a : List Nat) (n : Nat) : Except Fault (List Nat) :=
  if n ≤ a.length then .ok (List.replicate n 0 ++ a.drop n) else .error .out_of_bounds

/-- Body of the inner `for` loop of `gen_chunk_scores` at position `j`, on the state
`(min_pos, min_rank)` and a rank `r = chunk_ranks[j]` already read. -/
def scan_update (st : Nat × Nat) (j r : Nat) : Nat × Nat :=
  if r < st.2 ∧ r ≠ 0 then (j, r)
  else if st.1 = j - 1 ∧ r = st.2 then (j, st.2)
  else st

/-- Body of the inner `for` loop of `gen_chunk_scores` at position `j`. -/
def scan_step (chunk_ranks : List Nat) (st : Nat × Nat) (j : Nat) : Except Fault (Nat × Nat) :=
  match rd chunk_ranks j with
  | .ok r => .ok (scan_update st j r)
  | .error e => .error e

/-- The full scan of the window starting at `i`: `min_pos = i; min_rank = chunk_ranks[i];`
followed by the loop over `j = i+1 .. i+pop_win-1`. Returns `(min_pos, min_rank)`. -/
def full_scan (chunk_ranks : List Nat) (i pop_win : Nat) : Except Fault (Nat × Nat) :=
  match rd chunk_ranks i with
  | .ok r => (List.range' (i + 1) (pop_win - 1)).foldlM (scan_step chunk_ranks) (i, r)
  | .error e => .error e

/-- The `while` loop of `gen_chunk_scores` ("sliding on the cheap"); `limit` is
`chunk_size-pop_win`. Returns `i` and the scores after the loop. -/
def slide_loop (chunk_ranks : List Nat) (limit pop_win min_rank : Nat) :
    Nat → Nat → Nat → List Nat → Except Fault (Nat × List Nat)
  | 0, _, _, _ => .error .out_of_fuel
  | fuel + 1, i, min_pos, chunk_scores =>
    match rd chunk_ranks ((i + pop_win) % U64) with
    | .error e => .error e
    | .ok r =>
      if r ≥ min_rank ∧ i < min_pos ∧ i < (limit + 1) % U64 then
        match incr16 chunk_scores (if r = min_rank then (i + pop_win) % U64 else min_pos) with
        | .error e => .error e
        | .ok scores =>
          slide_loop chunk_ranks limit pop_win min_rank fuel ((i + 1) % U64)
            (if r = min_rank then (i + pop_win) % U64 else min_pos) scores
      else .ok (i, chunk_scores)

/-- The outer `for` loop of `gen_chunk_scores`, from the state `(i, min_pos, min_rank)`. -/
def score_loop (chunk_ranks : List Nat) (limit pop_win : Nat) :
    Nat → Nat → Nat → Nat → List Nat → Except Fault (List Nat)
  | 0, _, _, _, _ => .error .out_of_fuel
  | fuel + 1, i, min_pos, min_rank, chunk_scores =>
    if i < limit then
      match (if i > 0 ∧ min_rank > 0
             then slide_loop chunk_ranks limit pop_win min_rank (chunk_ranks.length + 1)
                    i min_pos chunk_scores
             else .ok (i, chunk_scores)) with
      | .error e => .error e
      | .ok (i1, scores1) =>
        match full_scan chunk_ranks i1 pop_win with
        | .error e => .error e
        | .ok (min_pos1, min_rank1) =>
          match rd chunk_ranks min_pos1 with
          | .error e => .error e
          | .ok r =>
            match (if r > 0 then incr16 scores1 min_pos1 else .ok scores1) with
            | .error e => .error e
            | .ok scores2 =>
              score_loop chunk_ranks limit pop_win fuel ((i1 + 1) % U64) min_pos1 min_rank1
                scores2
    else .ok chunk_scores

/-- The histogram loop of `gen_chunk_scores`: `score_histo[chunk_scores[i]]++` for
`i < chunk_size-pop_win` (`i` is a `uint64_t`, the entries of `score_histo` are
`int32_t`). -/
def histo_loop (chunk_scores : List Nat) (limit : Nat) (score_histo : List Int) :
    Except Fault (List Int) :=
  (List.range limit).foldlM
    (fun h i => match rd chunk_scores i with
      | .ok s => incr32 h s
      | .error e => .error e) score_histo

/-- Function `gen_chunk_scores`. `chunk_ranks` and `chunk_scores` are the arrays the
pointers refer to, `score_histo` is `none` for a null pointer. Returns the score array
and the histogram after the call, or the fault met. The fuel of the loops is the number
of ranks plus one: every iteration reads a rank at a larger index. -/
def gen_chunk_scores (sys : sdbf_parameters_t) (chunk_ranks : List Nat) (chunk_size : Nat)
    (chunk_scores : List Nat) (score_histo : Option (List Int)) :
    Except Fault (List Nat × Option (List Int)) :=
  match rd chunk_ranks 0 with
  | .error e => .error e
  | .ok min_rank =>
    match bzero16 chunk_scores chunk_size with
    | .error e => .error e
    | .ok scores0 =>
      match score_loop chunk_ranks (usub64 chunk_size sys.pop_win_size) sys.pop_win_size
          (chunk_ranks.length + 1) 0 0 min_rank scores0 with
      | .error e => .error e
      | .ok scores =>
        match score_histo with
        | none => .ok (scores, none)
        | some h =>
          match histo_loop scores (usub64 chunk_size sys.pop_win_size) h with
          | .error e => .error e
          | .ok h1 => .ok (scores, some h1)

/-- The rightmost position of minimum rank in the window `[i, i+w)`. -/
def rightmost_min (ranks : List Nat) (i w : Nat) : Nat :=
  (List.range' (i + 1) (w - 1)).foldl
    (fun p j => if ranks.getD j 0 ≤ ranks.getD p 0 then j else p) i

/-- The definitional score of position `p`: the number of window starts `i` in
`[0, chunk_size - w)` for which `p` is the rightmost position of minimum rank in
`[i, i+w)` and `rank[p] > 0`. -/
def def_score (ranks : List Nat) (chunk_size w p : Nat) : Nat :=
  (List.range (chunk_size - w)).countP
    (fun i => decide (rightmost_min ranks i w = p ∧ ranks.getD p 0 > 0))

/-- The position and rank selected for the window `[i, i+w)` by the rule of the full
scan: start at `i`; a later rank that is non-zero and strictly smaller than the current
minimum becomes the minimum; a rank equal to the current minimum moves the position when
it directly follows it. -/
def scan_select (ranks : List Nat) (i w : Nat) : Nat × Nat :=
  (List.range' (i + 1) (w - 1)).foldl
    (fun st j => scan_update st j (ranks.getD j 0)) (i, ranks.getD i 0)

/-- The score of position `p` under the rule of the full scan: the number of window
starts `i` in `[0, chunk_size - w)` whose selected position is `p`, with `rank[p] > 0`. -/
def scan_score (ranks : List Nat) (chunk_size w p : Nat) : Nat :=
  (List.range (chunk_size - w)).countP
    (fun i => decide ((scan_select ranks i w).1 = p ∧ ranks.getD p 0 > 0))

/-- The cheap slide is not taken: for every window start `i > 0`, with `(p, r)` selected
for the window before it, not (`r > 0` and `rank[i+w] ≥ r` and `i < p`). -/
def NoSlide (ranks : List Nat) (chunk_size w : Nat) : Prop :=
  ∀ i ∈ List.range (chunk_size - w), 0 < i →
    ¬ ((scan_select ranks (i - 1) w).2 > 0
        ∧ ranks.getD (i + w) 0 ≥ (scan_select ranks (i - 1) w).2
        ∧ i < (scan_select ranks (i - 1) w).1)

instance (ranks : List Nat) (chunk_size w : Nat) : Decidable (NoSlide ranks chunk_size w) := by
  unfold NoSlide; infer_instance

/-- The update of the score array for the window starting at `i` under the rule of the
full scan. -/
def scan_acc (ranks : List Nat) (w : Nat) (scores : List Nat) (i : Nat) : List Nat :=
  if ranks.getD (scan_select ranks i w).1 0 > 0
  then scores.set (scan_select ranks i w).1 ((scores.getD (scan_select ranks i w).1 0 + 1) % U16)
  else scores

/-- Ranks of one window of 65 positions: 5, then 0, then 9 throughout. -/
def ranks_zero : List Nat := [5, 0] ++ List.replicate 63 9

/-- Ranks of one window of 65 positions: 3, 5, 3, then 9 throughout. -/
def ranks_tie : List Nat := [3, 5, 3] ++ List.replicate 62 9

/-- Ranks of 68 positions, all non-zero and pairwise distinct: `100 + k` at position `k`,
except 50 at position 10 and 10, 200, 5, 1 at positions 64 to 67. -/
def ranks_slide : List Nat :=
  (List.range 68).map (fun k => if k = 10 then 50 else if k = 64 then 10
    else if k = 65 then 200 else if k = 66 then 5 else if k = 67 then 1 else 100 + k)

/-- Ranks of 66 positions (two windows): 5, 0, 5, then 9 throughout. -/
def ranks_two : List Nat := [5, 0, 5] ++ List.replicate 63 9

/-- Table `ENTR64_RANKS[]` of `sdbf.h`: rank of each of the 1001 entropy bins. -/
def ENTR64_RANKS : List Nat :=
  [
   0, 0, 0, 0, 0, 0, 0, 0, 0, 0, 0, 0, 0, 0, 0, 0, 0, 0, 0, 0,
   0, 0, 0, 0, 0, 0, 0, 0, 0, 0, 0, 0, 0, 0, 0, 0, 0, 0, 0, 0,
   0, 0, 0, 0, 0, 0, 0, 0, 0, 0, 0, 0, 0, 0, 0, 0, 0, 0, 0, 0,
   0, 0, 0, 0, 0, 0, 0, 0, 0, 0, 0, 0, 0, 0, 0, 0, 0, 0, 0, 0,
   0, 0, 0, 0, 0, 0, 0, 0, 0, 0, 0, 0, 0, 0, 0, 0, 0, 0, 0, 0,
   101, 102, 106, 112, 108, 107, 103, 100, 109, 113, 128, 131, 141, 111, 146, 153, 148, 134, 145, 110,
   114, 116, 130, 124, 119, 105, 104, 118, 120, 132, 164, 180, 160, 229, 257, 211, 189, 154, 127, 115,
   129, 142, 138, 125, 136, 126, 155, 156, 172, 144, 158, 117, 203, 214, 221, 207, 201, 123, 122, 121,
   135, 140, 157, 150, 170, 387, 390, 365, 368, 341, 165, 166, 194, 174, 184, 133, 139, 137, 149, 173,
   162, 152, 159, 167, 190, 209, 238, 215, 222, 206, 205, 181, 176, 168, 147, 143, 169, 161, 249, 258,
   259, 254, 262, 217, 185, 186, 177, 183, 175, 188, 192, 195, 182, 151, 163, 199, 239, 265, 268, 242,
   204, 197, 193, 191, 218, 208, 171, 178, 241, 200, 236, 293, 301, 256, 260, 290, 240, 216, 237, 255,
   232, 233, 225, 210, 196, 179, 202, 212, 420, 429, 425, 421, 427, 250, 224, 234, 219, 230, 220, 269,
   247, 261, 235, 327, 332, 337, 342, 340, 252, 187, 223, 198, 245, 243, 263, 228, 248, 231, 275, 264,
   298, 310, 305, 309, 270, 266, 251, 244, 213, 227, 273, 284, 281, 318, 317, 267, 291, 278, 279, 303,
   452, 456, 453, 446, 450, 253, 226, 246, 271, 277, 295, 302, 299, 274, 276, 285, 292, 289, 272, 300,
   297, 286, 314, 311, 287, 283, 288, 280, 296, 304, 308, 282, 402, 404, 401, 415, 418, 313, 320, 307,
   315, 294, 306, 326, 321, 331, 336, 334, 316, 328, 322, 324, 325, 330, 329, 312, 319, 323, 352, 345,
   358, 373, 333, 346, 338, 351, 343, 405, 389, 396, 392, 411, 378, 350, 388, 407, 423, 419, 409, 395,
   353, 355, 428, 441, 449, 474, 475, 432, 457, 448, 435, 462, 470, 467, 468, 473, 426, 494, 487, 506,
   504, 517, 465, 459, 439, 472, 522, 520, 541, 540, 527, 482, 483, 476, 480, 721, 752, 751, 728, 730,
   490, 493, 495, 512, 536, 535, 515, 528, 518, 507, 513, 514, 529, 516, 498, 492, 519, 508, 544, 547,
   550, 546, 545, 511, 532, 543, 610, 612, 619, 649, 691, 561, 574, 591, 572, 553, 551, 565, 597, 593,
   580, 581, 642, 578, 573, 626, 696, 584, 585, 595, 590, 576, 579, 583, 605, 569, 560, 558, 570, 556,
   571, 656, 657, 622, 624, 631, 555, 566, 564, 562, 557, 582, 589, 603, 598, 604, 586, 577, 588, 613,
   615, 632, 658, 625, 609, 614, 592, 600, 606, 646, 660, 666, 679, 685, 640, 645, 675, 681, 672, 747,
   723, 722, 697, 686, 601, 647, 677, 741, 753, 750, 715, 707, 651, 638, 648, 662, 667, 670, 684, 674,
   693, 678, 664, 652, 663, 639, 680, 682, 698, 695, 702, 650, 676, 669, 665, 688, 687, 701, 700, 706,
   683, 718, 703, 713, 720, 716, 735, 719, 737, 726, 744, 736, 742, 740, 739, 731, 711, 725, 710, 704,
   708, 689, 729, 727, 738, 724, 733, 692, 659, 705, 654, 690, 655, 671, 628, 634, 621, 616, 630, 599,
   629, 611, 620, 607, 623, 618, 617, 635, 636, 641, 637, 633, 644, 653, 699, 694, 714, 734, 732, 746,
   749, 755, 745, 757, 756, 758, 759, 761, 763, 765, 767, 771, 773, 774, 775, 778, 782, 784, 786, 788,
   793, 794, 797, 798, 803, 804, 807, 809, 816, 818, 821, 823, 826, 828, 829, 834, 835, 839, 843, 846,
   850, 859, 868, 880, 885, 893, 898, 901, 904, 910, 911, 913, 916, 919, 922, 924, 930, 927, 931, 938,
   940, 937, 939, 941, 934, 936, 932, 933, 929, 928, 926, 925, 923, 921, 920, 918, 917, 915, 914, 912,
   909, 908, 907, 906, 900, 903, 902, 905, 896, 899, 897, 895, 891, 894, 892, 889, 883, 890, 888, 879,
   887, 886, 882, 878, 884, 877, 875, 872, 876, 870, 867, 874, 873, 871, 869, 881, 863, 865, 864, 860,
   853, 855, 852, 849, 857, 856, 862, 858, 861, 854, 851, 848, 847, 845, 844, 841, 840, 837, 836, 833,
   832, 831, 830, 827, 824, 825, 822, 820, 819, 817, 815, 812, 814, 810, 808, 806, 805, 799, 796, 795,
   790, 787, 785, 783, 781, 777, 776, 772, 770, 768, 769, 764, 762, 760, 754, 743, 717, 712, 668, 661,
   643, 627, 608, 594, 587, 568, 559, 552, 548, 542, 539, 537, 534, 533, 531, 525, 521, 510, 505, 497,
   496, 491, 486, 485, 478, 477, 466, 469, 463, 458, 460, 444, 440, 424, 433, 403, 410, 394, 393, 385,
   377, 379, 382, 383, 380, 384, 372, 370, 375, 366, 354, 363, 349, 357, 347, 364, 367, 359, 369, 360,
   374, 344, 376, 335, 371, 339, 361, 348, 356, 362, 381, 386, 391, 397, 399, 398, 412, 408, 414, 422,
   416, 430, 417, 434, 400, 436, 437, 438, 442, 443, 447, 406, 451, 413, 454, 431, 455, 445, 461, 464,
   471, 479, 481, 484, 489, 488, 499, 500, 509, 530, 523, 538, 526, 549, 554, 563, 602, 596, 673, 567,
   748, 575, 766, 709, 779, 780, 789, 813, 811, 838, 842, 866, 942, 935, 944, 943, 947, 952, 951, 955,
   954, 957, 960, 959, 967, 966, 969, 962, 968, 953, 972, 961, 982, 979, 978, 981, 980, 990, 987, 988,
   984, 983, 989, 985, 986, 977, 976, 975, 973, 974, 970, 971, 965, 964, 963, 956, 958, 524, 950, 948,
   949, 945, 946, 800, 801, 802, 791, 792, 501, 502, 503, 0, 0, 0, 0, 0, 0, 0, 0, 0,
   0
  ]

/-! ## `sdbf_core.c` : building a stream digest -/

/-- Constant `ENTR_POWER`. -/
def ENTR_POWER : Nat := 10

/-- Constant `MB` (of `util.h`, which is not among the sources). -/
def MB : Nat := 1024 * 1024

/-- Modelled from the spec: the functions `entr64_init_int` and `entr64_inc_int` of
`entr64.c`, which is not among the sources. They compute the scaled entropy of the
64-byte window at an offset of the buffer, from scratch or from the entropy of the
window one byte earlier, using the 256-byte scratch array `ascii`; each returns the
entropy and the scratch array after the call. -/
structure Entr64 where
  init_int : List Nat → Nat → List Nat → Nat × List Nat
  inc_int : Nat → List Nat → Nat → List Nat → Nat × List Nat

/-- Modelled from the spec: the entropy functions on windows that hold a single byte
value, whose Shannon entropy `H = −Σ (cᵢ/64)·log₂(cᵢ/64)` is 0. -/
def entr64_constant : Entr64 :=
  { init_int := fun _ _ ascii => (0, ascii), inc_int := fun _ _ _ ascii => (0, ascii) }

/-- Function `sdbf_create`: an empty stream digest (the structure is zero-allocated). -/
def sdbf_create (sys : sdbf_parameters_t) (name : List Nat) : sdbf_t :=
  { name := name, bf_count := 1, bf_size := sys.bf_size, hash_count := 5,
    mask := BF_CLASS_MASKS.getD 0 0, max_elem := sys.max_elem, last_count := 0,
    buffer := [], hamming := none, elem_counts := none, dd_block_size := 0 }

/-- Function `gen_chunk_ranks` on the chunk of `chunk_size` bytes starting at `base` in
`file_buffer`: the ranks array after the call. The state of the loop is the current
entropy, the scratch array and the ranks. -/
def gen_chunk_ranks (sys : sdbf_parameters_t) (E : Entr64) (file_buffer : List Nat)
    (base chunk_size : Nat) (chunk_ranks : List Nat) (carryover : Nat) :
    Except Fault (List Nat) :=
  if chunk_ranks.length < chunk_size ∨ chunk_size < carryover then .error .out_of_bounds
  else
    let copied :=
      if carryover > 0
      then ((chunk_ranks.drop (chunk_size - carryover)).take carryover)
             ++ chunk_ranks.drop carryover
      else chunk_ranks
    let zeroed := copied.take carryover ++ List.replicate (chunk_size - carryover) 0
      ++ copied.drop chunk_size
    (List.range (usub64 chunk_size sys.entr_win_size)).foldlM
      (fun (st : Nat × List Nat × List Nat) offset =>
        let e := if offset % sys.block_size = 0
                 then E.init_int file_buffer (base + offset) st.2.1
                 else E.inc_int st.1 file_buffer (base + offset - 1) st.2.1
        match ENTR64_RANKS[e.1 >>> ENTR_POWER]? with
        | none => Except.error Fault.out_of_bounds
        | some r =>
          if offset < st.2.2.length
          then Except.ok (e.1, e.2, st.2.2.set offset (r % U16))
          else Except.error Fault.out_of_bounds)
      (0, List.replicate 256 0, zeroed)
    |>.map (fun (st : Nat × List Nat × List Nat) => st.2.2)

/-- State of the loop of `gen_chunk_hash`: the filter buffer, the offset of `curr_bf` in
it, `bf_count` and `last_count`. -/
structure HashState where
  buffer : List Nat
  curr_bf : Nat
  bf_count : Nat
  last_count : Nat
deriving DecidableEq, Repr

/-- Body of the loop of `gen_chunk_hash` at position `i`. `SHA1` is the hash function of
the library (64 bytes to five 32-bit words). -/
def gen_chunk_hash_step (sys : sdbf_parameters_t) (SHA1 : List Nat → List Nat)
    (file_buffer : List Nat) (chunk_pos : Nat) (chunk_scores : List Nat) (bf_size : Nat)
    (st : HashState) (i : Nat) : Except Fault HashState :=
  match rd chunk_scores i with
  | .error e => .error e
  | .ok score =>
    if score > sys.threshold then
      if st.curr_bf + 256 ≤ st.buffer.length then
        let sha1_hash := SHA1 ((file_buffer.drop (chunk_pos + i)).take sys.pop_win_size)
        let r := bf_sha1_insert (st.buffer.drop st.curr_bf) 0 sha1_hash
        let buffer := st.buffer.take st.curr_bf ++ r.bf
        if r.insert_cnt = 0 then .ok { st with buffer := buffer }
        else if (st.last_count + 1) % U32 = sys.max_elem then
          .ok { buffer := buffer, curr_bf := st.curr_bf + bf_size,
                bf_count := (st.bf_count + 1) % U32, last_count := 0 }
        else .ok { st with buffer := buffer, last_count := (st.last_count + 1) % U32 }
      else .error .out_of_bounds
    else .ok st

/-- Function `gen_chunk_hash`: hash the selected features of a chunk into the digest. -/
def gen_chunk_hash (sys : sdbf_parameters_t) (SHA1 : List Nat → List Nat)
    (file_buffer : List Nat) (chunk_pos : Nat) (chunk_scores : List Nat) (chunk_size : Nat)
    (sdbf : sdbf_t) : Except Fault sdbf_t :=
  ((List.range (usub64 chunk_size sys.pop_win_size)).foldlM
    (gen_chunk_hash_step sys SHA1 file_buffer chunk_pos chunk_scores sdbf.bf_size)
    { buffer := sdbf.buffer, curr_bf := (usub32 sdbf.bf_count 1) * sdbf.bf_size,
      bf_count := sdbf.bf_count, last_count := sdbf.last_count }).map
    (fun (st : HashState) =>
      { sdbf with buffer := st.buffer, bf_count := st.bf_count, last_count := st.last_count })

/-- The work of `gen_chunk_sdbf` on one chunk of `size` bytes at `chunk_pos`: ranks,
scores (with a zeroed 66-entry histogram when `histo` is set) and hashing. The rank and
score arrays handed to the three functions are modelled with exactly `size` entries
(what lies behind them in the allocation has not been written for this chunk). In stream
mode the threshold `k` and `allowed` derived from the histogram are not used. -/
def gen_chunk_sdbf_chunk (sys : sdbf_parameters_t) (E : Entr64) (SHA1 : List Nat → List Nat)
    (file_buffer : List Nat) (chunk_pos size : Nat) (histo : Bool) (sdbf : sdbf_t) :
    Except Fault sdbf_t :=
  match gen_chunk_ranks sys E file_buffer chunk_pos size (List.replicate size 0) 0 with
  | .error e => .error e
  | .ok ranks =>
    match gen_chunk_scores sys ranks size (List.replicate size 0)
        (if histo then some (List.replicate 66 0) else none) with
    | .error e => .error e
    | .ok scores => gen_chunk_hash sys SHA1 file_buffer chunk_pos scores.1 size sdbf

/-- The estimate `buff_size` of `gen_chunk_sdbf`: `((file_size >> 11) + 1) << 8`, at
least 256. -/
def gen_chunk_sdbf_buff_size (file_size : Nat) : Nat :=
  if (((file_size >>> 11) + 1) <<< 8) % U64 < 256 then 256
  else (((file_size >>> 11) + 1) <<< 8) % U64

/-- The end of `gen_chunk_sdbf`: "chop off last BF if its membership is too low". -/
def gen_chunk_sdbf_trim (sys : sdbf_parameters_t) (d : sdbf_t) : sdbf_t :=
  if d.bf_count > 1 ∧ d.last_count < d.max_elem / 8
  then { d with bf_count := d.bf_count - 1, last_count := sys.max_elem }
  else d

/-- The end of `gen_chunk_sdbf`: "trim BF allocation to size". -/
def gen_chunk_sdbf_realloc (buff_size : Nat) (d : sdbf_t) : sdbf_t :=
  if d.bf_count * d.bf_size < buff_size
  then { d with buffer := d.buffer.take (d.bf_count * d.bf_size) }
  else d

/-- Function `gen_chunk_sdbf`: the stream digest of a buffer of `file_size` bytes. -/
def gen_chunk_sdbf (sys : sdbf_parameters_t) (E : Entr64) (SHA1 : List Nat → List Nat)
    (file_buffer : List Nat) (file_size chunk_size : Nat) (sdbf : sdbf_t) :
    Except Fault sdbf_t :=
  match (List.range (file_size / chunk_size)).foldlM
      (fun (d : sdbf_t) i =>
        gen_chunk_sdbf_chunk sys E SHA1 file_buffer (chunk_size * i) chunk_size true d)
      { sdbf with buffer := List.replicate (gen_chunk_sdbf_buff_size file_size) 0 } with
  | .error e => .error e
  | .ok d1 =>
    match (if file_size % chunk_size > 0
           then gen_chunk_sdbf_chunk sys E SHA1 file_buffer
                  (file_size / chunk_size * chunk_size) (file_size % chunk_size) false d1
           else .ok d1) with
    | .error e => .error e
    | .ok d2 =>
      .ok (gen_chunk_sdbf_realloc (gen_chunk_sdbf_buff_size file_size)
            (gen_chunk_sdbf_trim sys d2))

/-- Function `sdbf_hash_buffer`: the stream digest of a memory buffer. -/
def sdbf_hash_buffer (sys : sdbf_parameters_t) (E : Entr64) (SHA1 : List Nat → List Nat)
    (buffer : List Nat) (buffer_size : Nat) (name : List Nat) : Except Fault sdbf_t :=
  gen_chunk_sdbf sys E SHA1 buffer buffer_size (32 * MB) (sdbf_create sys name)

/-- The cut-off `sdbf_max_score` computes when it compares filter `i` of a digest with
itself, from the uncached estimate. -/
def self_cut_off (fm : FloatModel) (d : sdbf_t) (i : Nat) : Nat :=
  toU32 (c_lround (fm.rnd (fm.rnd (fm.rnd (3 / 10)
    * (usub32 (popcount_bytes (d.buffer.drop (i * 256)) 256)
        (bf_match_est_formula fm ((8 * d.bf_size) % U32) d.hash_count
          (toU32 (get_elem_count d i)) (toU32 (get_elem_count d i)) 0) : ℚ))
    + (bf_match_est_formula fm ((8 * d.bf_size) % U32) d.hash_count
          (toU32 (get_elem_count d i)) (toU32 (get_elem_count d i)) 0 : ℚ))))

/-- Every filter of the digest is compared and matches itself: it has at least
`MIN_ELEM_COUNT` elements, at least `MIN_REF_ELEM_COUNT` when the digest has more than
one filter, and its tiered overlap with itself exceeds its cut-off. -/
def SelfMatch (fm : FloatModel) (d : sdbf_t) : Prop :=
  ∀ i, i < d.bf_count →
    MIN_ELEM_COUNT ≤ toU32 (get_elem_count d i)
    ∧ (d.bf_count > 1 → MIN_REF_ELEM_COUNT ≤ toU32 (get_elem_count d i))
    ∧ self_cut_off fm d i
        < bf_bitcount_cut_256 (d.buffer.drop (i * 256)) (d.buffer.drop (i * 256))
            (self_cut_off fm d i) 48

/-- A stand-in for the library function `SHA1` (five zero words). -/
def sha1_zero : List Nat → List Nat := fun _ => [0, 0, 0, 0, 0]

/-- The digest with one empty filter that `sdbf_create` and `gen_chunk_sdbf` leave when no
feature is selected. -/
def empty_digest (name : List Nat) : sdbf_t :=
  { sdbf_create sdbf_sys name with buffer := List.replicate 256 0 }

/-! ## `sdbf_core.c` : building a block digest -/

/-- Constant `MIN_FILE_SIZE`. -/
def MIN_FILE_SIZE : Nat := 512

/-- State of the loop of `gen_block_hash`: the 256 bytes of the filter `bf`, `hash_cnt`
and `allowed`. -/
structure BlockState where
  bf : List Nat
  hash_cnt : Nat
  allowed : Int
deriving DecidableEq, Repr

/-- The test of `gen_block_hash` that selects a position of score `score`. -/
def block_accepts (threshold : Nat) (allowed : Int) (score : Nat) : Prop :=
  score > threshold ∨ (score = threshold ∧ allowed > 0)

instance (threshold : Nat) (allowed : Int) (score : Nat) :
    Decidable (block_accepts threshold allowed score) := by
  unfold block_accepts; infer_instance

/-- One turn of the loop of `gen_block_hash` at position `i`: the guard
`hash_cnt < sdbf_sys.max_elem` and the body. Once the guard fails the loop has ended and
the state stays as it is. `data` is the offset of the block in `file_buffer`; `fits`
tells whether the 256 bytes of the filter lie inside the filter buffer. `allowed--` is
reached with `allowed > 0` or not at all when `score = threshold`. -/
def gen_block_hash_step (sys : sdbf_parameters_t) (SHA1 : List Nat → List Nat)
    (file_buffer : List Nat) (data : Nat) (chunk_scores : List Nat) (threshold : Nat)
    (fits : Bool) (st : BlockState) (i : Nat) : Except Fault BlockState :=
  if st.hash_cnt < sys.max_elem then
    match rd chunk_scores i with
    | .error e => .error e
    | .ok score =>
      if block_accepts threshold st.allowed score then
        if fits = true then
          let r := bf_sha1_insert st.bf 0
            (SHA1 ((file_buffer.drop (data + i)).take sys.pop_win_size))
          if r.insert_cnt = 0 then .ok (BlockState.mk r.bf st.hash_cnt st.allowed)
          else .ok (BlockState.mk r.bf ((st.hash_cnt + 1) % U32)
                 (if score = threshold then st.allowed - 1 else st.allowed))
        else .error .out_of_bounds
      else .ok st
  else .ok st

/-- The loop of `gen_block_hash` over `i < max_offset - pop_win_size` (`uint32_t`), from
`hash_cnt = 0`. -/
def gen_block_hash_loop (sys : sdbf_parameters_t) (SHA1 : List Nat → List Nat)
    (file_buffer : List Nat) (data : Nat) (chunk_scores : List Nat) (max_offset : Nat)
    (threshold : Nat) (allowed : Int) (fits : Bool) (bf : List Nat) :
    Except Fault BlockState :=
  (List.range (usub32 max_offset sys.pop_win_size)).foldlM
    (gen_block_hash_step sys SHA1 file_buffer data chunk_scores threshold fits)
    (BlockState.mk bf 0 allowed)

/-- The filter buffer after the 256 bytes at offset `off` have been replaced by `bf`
(nothing is written when they do not lie inside the buffer). -/
def write_filter (buffer : List Nat) (off : Nat) (bf : List Nat) : List Nat :=
  if off + 256 ≤ buffer.length then buffer.take off ++ bf ++ buffer.drop (off + 256)
  else buffer

/-- Function `gen_block_hash`: hash the selected features of block `block_num` into filter
`block_num` of the digest and record their number in `elem_counts[block_num]`
(`uint16_t`). `rem` and `threshold` are `uint32_t`, `allowed` is `int32_t`. -/
def gen_block_hash (sys : sdbf_parameters_t) (SHA1 : List Nat → List Nat)
    (file_buffer : List Nat) (block_num : Nat) (chunk_scores : List Nat) (block_size : Nat)
    (sdbf : sdbf_t) (rem threshold : Nat) (allowed : Int) : Except Fault sdbf_t :=
  match gen_block_hash_loop sys SHA1 file_buffer (block_num * block_size) chunk_scores
      (if rem > 0 then rem else block_size % U32) threshold allowed
      (decide (block_num * sdbf.bf_size + 256 ≤ sdbf.buffer.length))
      ((sdbf.buffer.drop (block_num * sdbf.bf_size)).take 256) with
  | .error e => .error e
  | .ok st =>
    match sdbf.elem_counts with
    | none => .error .out_of_bounds
    | some ec =>
      if block_num < ec.length then
        .ok { sdbf with
              buffer := write_filter sdbf.buffer (block_num * sdbf.bf_size) st.bf,
              elem_counts := some (ec.set block_num (st.hash_cnt % U16)) }
      else .error .out_of_bounds

/-- The loop "calculate thresholding parameters" of `gen_block_sdbf`, from the state
`(k, sum)` (both `uint32_t`; the entries of the histogram are `int32_t` and are converted
to unsigned in the sum). Returns `k` and `sum` after the loop. -/
def threshold_loop (sys : sdbf_parameters_t) (score_histo : List Int) :
    Nat → Nat → Nat → Except Fault (Nat × Nat)
  | 0, _, _ => .error .out_of_fuel
  | fuel + 1, k, sum =>
    if k ≥ sys.threshold then
      match score_histo[k]? with
      | none => .error .out_of_bounds
      | some h =>
        if sum ≤ sys.max_elem ∧ (sum + toU32 h) % U32 > sys.max_elem then .ok (k, sum)
        else threshold_loop sys score_histo fuel (usub32 k 1) ((sum + toU32 h) % U32)
    else .ok (k, sum)

/-- The thresholding parameters of a block: the loop from `k = 65`, `sum = 0`, followed by
`allowed = sdbf_sys.max_elem-sum`. Returns `k` and `allowed` (`uint32_t`). The loop takes
at most 67 turns: `k` decreases from 65 and the read at `k = 2^32-1` is a fault. -/
def threshold_params (sys : sdbf_parameters_t) (score_histo : List Int) :
    Except Fault (Nat × Nat) :=
  match threshold_loop sys score_histo 67 65 0 with
  | .error e => .error e
  | .ok ks => .ok (ks.1, usub32 sys.max_elem ks.2)

/-- The part of the body of the loop of `gen_block_sdbf` (and of
`thread_gen_block_sdbf`) for the regular block `i` that precedes the hashing: ranks,
scores with a zeroed histogram, thresholding parameters. The rank and score arrays have
`block_size` entries. Returns the scores, `k` and `allowed`. -/
def gen_block_sdbf_params (sys : sdbf_parameters_t) (E : Entr64) (file_buffer : List Nat)
    (block_size : Nat) (i : Nat) : Except Fault (List Nat × Nat × Nat) :=
  match gen_chunk_ranks sys E file_buffer (block_size * i) block_size
      (List.replicate block_size 0) 0 with
  | .error e => .error e
  | .ok ranks =>
    match gen_chunk_scores sys ranks block_size (List.replicate block_size 0)
        (some (List.replicate 66 0)) with
    | .error e => .error e
    | .ok scores =>
      match threshold_params sys (scores.2.getD []) with
      | .error e => .error e
      | .ok ka => .ok (scores.1, ka.1, ka.2)

/-- The body of the loop of `gen_block_sdbf` (and of `thread_gen_block_sdbf`) for the
regular block `i`. -/
def gen_block_sdbf_block (sys : sdbf_parameters_t) (E : Entr64) (SHA1 : List Nat → List Nat)
    (file_buffer : List Nat) (block_size : Nat) (sdbf : sdbf_t) (i : Nat) :
    Except Fault sdbf_t :=
  match gen_block_sdbf_params sys E file_buffer block_size i with
  | .error e => .error e
  | .ok p =>
    gen_block_hash sys SHA1 file_buffer i p.1 block_size sdbf 0 p.2.1 (toI32 p.2.2)

/-- The tail of `gen_block_sdbf` (and of `gen_block_sdbf_mt`): the remainder of the file
after the last regular block, hashed into filter `qt` when it has at least
`MIN_FILE_SIZE` bytes. The rank and score arrays are modelled with the `rem` entries
written for the remainder (what lies behind them in the allocation is left over from
another block, or not initialised). -/
def gen_block_sdbf_tail (sys : sdbf_parameters_t) (E : Entr64) (SHA1 : List Nat → List Nat)
    (file_buffer : List Nat) (file_size block_size : Nat) (sdbf : sdbf_t) :
    Except Fault sdbf_t :=
  if file_size % block_size ≥ MIN_FILE_SIZE then
    match gen_chunk_ranks sys E file_buffer (block_size * (file_size / block_size))
        (file_size % block_size) (List.replicate (file_size % block_size) 0) 0 with
    | .error e => .error e
    | .ok ranks =>
      match gen_chunk_scores sys ranks (file_size % block_size)
          (List.replicate (file_size % block_size) 0) none with
      | .error e => .error e
      | .ok scores =>
        gen_block_hash sys SHA1 file_buffer (file_size / block_size) scores.1 block_size sdbf
          ((file_size % block_size) % U32) sys.threshold (toI32 sys.max_elem)
  else .ok sdbf

/-- The loop over the regular blocks of `gen_block_sdbf`, `for( i=0; i<qt; i++)`, and of
`thread_gen_block_sdbf`, `for( i=tid; i<qt; i+=tcount)`, from the counter value `i`. The
counter is a `uint32_t` and is compared with the `uint64_t` value `qt`: the increment
`i += step` is taken modulo 2^32, so that a counter that passes 2^32 - 1 starts again
from a small value (and the loop goes on when that value is below `qt`). Every turn uses
one unit of fuel. -/
def gen_block_sdbf_loop (sys : sdbf_parameters_t) (E : Entr64) (SHA1 : List Nat → List Nat)
    (file_buffer : List Nat) (block_size qt step : Nat) :
    Nat → Nat → sdbf_t → Except Fault sdbf_t
  | 0, _, _ => .error .out_of_fuel
  | fuel + 1, i, sdbf =>
    if i < qt then
      match gen_block_sdbf_block sys E SHA1 file_buffer block_size sdbf i with
      | .error e => .error e
      | .ok d =>
        gen_block_sdbf_loop sys E SHA1 file_buffer block_size qt step fuel
          ((i + step) % U32) d
    else .ok sdbf

/-- Function `gen_block_sdbf`: the loop over the regular blocks from `i = 0` in steps of
one, then the tail. The fuel is 2^32 + 1: the counter has 2^32 values, so a loop that is
still running after 2^32 turns repeats a counter value it had before and never ends. -/
def gen_block_sdbf (sys : sdbf_parameters_t) (E : Entr64) (SHA1 : List Nat → List Nat)
    (file_buffer : List Nat) (file_size block_size : Nat) (sdbf : sdbf_t) :
    Except Fault sdbf_t :=
  match gen_block_sdbf_loop sys E SHA1 file_buffer block_size (file_size / block_size) 1
      (U32 + 1) 0 sdbf with
  | .error e => .error e
  | .ok d => gen_block_sdbf_tail sys E SHA1 file_buffer file_size block_size d

/-- Function `thread_gen_block_sdbf` for the task `(tid, tcount)`: the loop over the
regular blocks from `i = tid` in steps of `tcount` (fuel as in `gen_block_sdbf`). -/
def thread_gen_block_sdbf (sys : sdbf_parameters_t) (E : Entr64) (SHA1 : List Nat → List Nat)
    (file_buffer : List Nat) (file_size block_size : Nat) (tid tcount : Nat) (sdbf : sdbf_t) :
    Except Fault sdbf_t :=
  gen_block_sdbf_loop sys E SHA1 file_buffer block_size (file_size / block_size) tcount
    (U32 + 1) tid sdbf

/-- Function `gen_block_sdbf_mt`: with fewer than two threads it is `gen_block_sdbf`;
otherwise the workers `t = 0 .. thread_cnt-1` (here one after the other; each writes the
filters and counts of its own blocks only), then the tail on the calling thread. -/
def gen_block_sdbf_mt (sys : sdbf_parameters_t) (E : Entr64) (SHA1 : List Nat → List Nat)
    (file_buffer : List Nat) (file_size block_size : Nat) (sdbf : sdbf_t) (thread_cnt : Nat) :
    Except Fault sdbf_t :=
  if thread_cnt < 2 then gen_block_sdbf sys E SHA1 file_buffer file_size block_size sdbf
  else
    match (List.range thread_cnt).foldlM
        (fun (d : sdbf_t) t =>
          thread_gen_block_sdbf sys E SHA1 file_buffer file_size block_size t thread_cnt d)
        sdbf with
    | .error e => .error e
    | .ok d => gen_block_sdbf_tail sys E SHA1 file_buffer file_size block_size d

/-- The number of filters `dd_block_cnt` computed by `sdbf_hashfile` and `sdbf_hash_dd`
(`uint64_t`). -/
def dd_block_cnt (file_size dd_block_size : Nat) : Nat :=
  if file_size % dd_block_size ≥ MIN_FILE_SIZE
  then (file_size / dd_block_size + 1) % U64 else file_size / dd_block_size

/-- The descriptor `sdbf_hash_dd` sets up before it calls `gen_block_sdbf_mt`:
`bf_count` (`uint32_t`) receives `dd_block_cnt`, the filter buffer and the element counts
are zero-allocated. -/
def sdbf_hash_dd_alloc (sys : sdbf_parameters_t) (file_size : Nat) (name : List Nat)
    (dd_block_size : Nat) : sdbf_t :=
  { name := name, bf_count := dd_block_cnt file_size dd_block_size % U32,
    bf_size := sys.bf_size, hash_count := 5, mask := BF_CLASS_MASKS.getD 0 0,
    max_elem := sys.max_elem, last_count := 0,
    buffer := List.replicate ((dd_block_cnt file_size dd_block_size * sys.bf_size) % U64) 0,
    hamming := none,
    elem_counts := some (List.replicate (dd_block_cnt file_size dd_block_size) 0),
    dd_block_size := dd_block_size }

/-- Function `sdbf_hash_dd` on a file with the bytes `file`: `none` (a null pointer) when
the file has fewer than `MIN_FILE_SIZE` bytes and `mmap_file` refuses it. -/
def sdbf_hash_dd (sys : sdbf_parameters_t) (E : Entr64) (SHA1 : List Nat → List Nat)
    (file : List Nat) (name : List Nat) (dd_block_size : Nat) : Except Fault (Option sdbf_t) :=
  if file.length < MIN_FILE_SIZE then .ok none
  else
    (gen_block_sdbf_mt sys E SHA1 file file.length dd_block_size
      (sdbf_hash_dd_alloc sys file.length name dd_block_size) sys.thread_cnt).map some

/-- Function `sdbf_hashfile` on a file with the bytes `file`: the stream digest when
`dd_block_size = 0`, otherwise the block digest, set up on the descriptor of `sdbf_create`
as in `sdbf_hash_dd`. -/
def sdbf_hashfile (sys : sdbf_parameters_t) (E : Entr64) (SHA1 : List Nat → List Nat)
    (file : List Nat) (name : List Nat) (dd_block_size : Nat) : Except Fault (Option sdbf_t) :=
  if file.length < MIN_FILE_SIZE then .ok none
  else if dd_block_size = 0 then
    (gen_chunk_sdbf sys E SHA1 file file.length (32 * MB) (sdbf_create sys name)).map some
  else
    (gen_block_sdbf_mt sys E SHA1 file file.length dd_block_size
      { sdbf_create sys name with
        bf_count := dd_block_cnt file.length dd_block_size % U32,
        dd_block_size := dd_block_size,
        buffer := List.replicate
          ((dd_block_cnt file.length dd_block_size * sys.bf_size) % U64) 0,
        elem_counts := some (List.replicate (dd_block_cnt file.length dd_block_size) 0) }
      sys.thread_cnt).map some

/-- Sum of the histogram entries at the levels above `k`, up to level 65. -/
def histo_above (score_histo : List Int) (k : Nat) : Int :=
  ((List.range' (k + 1) (65 - k)).map (fun j => score_histo.getD j 0)).sum

/-- The insertion made by `gen_block_hash` at position `i` into the filter `bf`. -/
def block_insert (sys : sdbf_parameters_t) (SHA1 : List Nat → List Nat)
    (file_buffer : List Nat) (data : Nat) (bf : List Nat) (i : Nat) : InsertResult :=
  bf_sha1_insert bf 0 (SHA1 ((file_buffer.drop (data + i)).take sys.pop_win_size))

/-- Histogram with 3 positions at each of the levels 20 to 65 and 100 at each level
below. -/
def histo_example : List Int := List.replicate 20 100 ++ List.replicate 46 3

/-- A one-filter block digest with an empty filter and a zero count. -/
def block_digest_one : sdbf_t :=
  { sdbf_create sdbf_sys [97] with buffer := List.replicate 256 0, elem_counts := some [0] }

/-- The loop of `gen_block_hash` for block `i` of the digest `d`, as called on a regular
block or the remainder. -/
def block_run (sys : sdbf_parameters_t) (SHA1 : List Nat → List Nat)
    (file_buffer : List Nat) (block_size : Nat) (d : sdbf_t) (i : Nat) (scores : List Nat)
    (rem k : Nat) (a : Int) : Except Fault BlockState :=
  gen_block_hash_loop sys SHA1 file_buffer (i * block_size) scores
    (if rem > 0 then rem else block_size % U32) k a
    (decide (i * d.bf_size + 256 ≤ d.buffer.length))
    ((d.buffer.drop (i * d.bf_size)).take 256)

/-- The body of the loop of `gen_block_sdbf` on a digest that may be missing (after a
fault). -/
def block_opt (sys : sdbf_parameters_t) (E : Entr64) (SHA1 : List Nat → List Nat)
    (file_buffer : List Nat) (block_size : Nat) (o : Option sdbf_t) (i : Nat) :
    Option sdbf_t :=
  o.bind (fun d => (gen_block_sdbf_block sys E SHA1 file_buffer block_size d i).toOption)

/-- The blocks of the workers `ts`, one worker after the other. -/
def worker_blocks (tcount qt : Nat) (ts : List Nat) : List Nat :=
  ts.foldr (fun t acc => target_indices t tcount qt ++ acc) []

/-- The shape of a block digest: filter size, filter count, size of the filter buffer and
number of element counts. -/
def block_shape (d : sdbf_t) : Nat × Nat × Nat × Option Nat :=
  (d.bf_size, d.bf_count, d.buffer.length, d.elem_counts.map List.length)

/-! ## `sdbf_api.c` : the collection of digests -/

/-- Constant `MAX_FILES`. -/
def MAX_FILES : Nat := 1000000

/-- The static state of `sdbf_api.c`: whether `sdbf_list` has been allocated by
`sdbf_init`, its slots (a digest stands for the pointer to it, `none` for a null pointer)
and `curr_sdbf`. -/
structure Registry where
  allocated : Bool
  sdbf_list : Nat → Option sdbf_t
  curr_sdbf : Nat

/-- The state after `sdbf_init`: the slots are zero-allocated. -/
def sdbf_init : Registry := Registry.mk true (fun _ => none) 0

/-- Function `sdbf_add`; `none` when the assertion fails. Returns the `int` returned by
the call and the state after it. -/
def sdbf_add (reg : Registry) (sdbf : Option sdbf_t) : Option (Int × Registry) :=
  if reg.allocated = true ∧ reg.curr_sdbf < MAX_FILES then
    some (toI32 ((reg.curr_sdbf + 1) % U32),
      Registry.mk reg.allocated
        (fun i => if i = reg.curr_sdbf then sdbf else reg.sdbf_list i)
        ((reg.curr_sdbf + 1) % U32))
  else none

/-- Function `sdbf_get_size`. -/
def sdbf_get_size (reg : Registry) : Int := toI32 reg.curr_sdbf

/-- Function `sdbf_get`. -/
def sdbf_get (reg : Registry) (index : Nat) : Option sdbf_t :=
  if index < reg.curr_sdbf then reg.sdbf_list index else none

/-- Function `sdbf_get_name`: `none` is the null pointer; reading the name through a null
slot is a fault. -/
def sdbf_get_name (reg : Registry) (index : Nat) : Except Fault (Option (List Nat)) :=
  if index < reg.curr_sdbf then
    match reg.sdbf_list index with
    | some d => .ok (some d.name)
    | none => .error .out_of_bounds
  else .ok none

/-- C `strncmp` on strings given by their bytes (the end of a string reads as the byte
0): compares at most `n` bytes. -/
def strncmp : List Nat → List Nat → Nat → Int
  | _, _, 0 => 0
  | [], [], _ + 1 => 0
  | [], b :: _, _ + 1 => - (b : Int)
  | a :: _, [], _ + 1 => (a : Int)
  | a :: as, b :: bs, n + 1 => if a = b then strncmp as bs n else (a : Int) - (b : Int)

/-- The loop of `sdbf_remove` from index `i`: at the first entry whose name matches, the
later entries move down by one slot and `curr_sdbf` is decremented. -/
def sdbf_remove_loop (reg : Registry) (sdbf_name : List Nat) :
    Nat → Nat → Except Fault Registry
  | 0, _ => .error .out_of_fuel
  | fuel + 1, i =>
    if i < reg.curr_sdbf then
      match reg.sdbf_list i with
      | none => .error .out_of_bounds
      | some d =>
        if strncmp sdbf_name d.name (sdbf_name.length % U32) = 0 then
          .ok (Registry.mk reg.allocated
            (fun j => if i ≤ j ∧ j < usub32 reg.curr_sdbf 1 then reg.sdbf_list (j + 1)
                      else reg.sdbf_list j)
            (usub32 reg.curr_sdbf 1))
        else sdbf_remove_loop reg sdbf_name fuel ((i + 1) % U32)
    else .ok reg

/-- Function `sdbf_remove`: returns the `int` returned by the call and the state after
it. -/
def sdbf_remove (reg : Registry) (sdbf_name : List Nat) : Except Fault (Int × Registry) :=
  match sdbf_remove_loop reg sdbf_name (reg.curr_sdbf + 1) 0 with
  | .error e => .error e
  | .ok r => .ok (toI32 r.curr_sdbf, r)

/-- Function `sdbf_lookup`. The body of the `for` loop is the assignment to `score` alone
(the loop has no braces); the test of `score` follows the loop, with `i = curr_sdbf`.
`score0` is the indeterminate initial value of `score`; the store that `sdbf_score` makes
through the uninitialised pointer `swap` is left out. Returns the pointer returned and the
value stored in `*result`, if any. -/
def sdbf_lookup (fm : FloatModel) (thread_cnt : Nat) (st : CmpState) (reg : Registry)
    (query : sdbf_t) (threshold : Int) (score0 : Int) :
    Except Fault (Option sdbf_t × Option Int) :=
  match (List.range reg.curr_sdbf).foldlM
      (fun (s : Int × CmpState) i =>
        match reg.sdbf_list i with
        | none => Except.error Fault.out_of_bounds
        | some d =>
          Except.ok ((sdbf_score fm thread_cnt s.2 (with_hamming query) d).score,
            (sdbf_score fm thread_cnt s.2 (with_hamming query) d).state))
      (score0, st) with
  | .error e => .error e
  | .ok s =>
    if s.1 ≥ threshold then .ok (reg.sdbf_list reg.curr_sdbf, some s.1)
    else .ok (none, none)

/-- The lookup the claim describes: the first entry whose score against the query reaches
the threshold, with that score. -/
def lookup_first (fm : FloatModel) (thread_cnt : Nat) (st : CmpState) (reg : Registry)
    (query : sdbf_t) (threshold : Int) : Option sdbf_t × Option Int :=
  match (List.range reg.curr_sdbf).find?
      (fun i => match reg.sdbf_list i with
        | none => false
        | some d => decide ((sdbf_score fm thread_cnt st query d).score ≥ threshold)) with
  | none => (none, none)
  | some i =>
    (reg.sdbf_list i,
      (reg.sdbf_list i).map (fun d => (sdbf_score fm thread_cnt st query d).score))

/-- The registry that holds the single digest `digest_m100`. -/
def registry_one : Registry :=
  Registry.mk true (fun i => if i = 0 then some digest_m100 else none) 1

/-- The registry after the entry at index `m` has been removed. -/
def registry_without (reg : Registry) (m : Nat) : Registry :=
  Registry.mk reg.allocated
    (fun j => if m ≤ j ∧ j < usub32 reg.curr_sdbf 1 then reg.sdbf_list (j + 1)
              else reg.sdbf_list j)
    (usub32 reg.curr_sdbf 1)

/-- A registry that holds `digest_b3` (name "b"), `digest_a10` (name "a") and
`digest_m10` (name "a"), in this order. -/
def registry_three : Registry :=
  Registry.mk true
    (fun i => if i = 0 then some digest_b3 else if i = 1 then some digest_a10
              else if i = 2 then some digest_m10 else none) 3

/-! ## `sdhash_opts.c` : command-line options -/

/-- Constant `MAX_THREADS`. -/
def MAX_THREADS : Nat := 512

/-- Index `OPT_MODE` of the option array. -/
def OPT_MODE : Nat := 0

/-- Index `OPT_MAP` of the option array. -/
def OPT_MAP : Nat := 1

/-- Flag `MODE_GEN`. -/
def MODE_GEN : Nat := 0x01

/-- Flag `MODE_COMP`. -/
def MODE_COMP : Nat := 0x02

/-- Flag `MODE_DIR`. -/
def MODE_DIR : Nat := 0x04

/-- Flag `MODE_FIRST`. -/
def MODE_FIRST : Nat := 0x10

/-- Constant `FLAG_ON`. -/
def FLAG_ON : Nat := 0x01

/-- What a call of the library function `getopt` with the option string `":cgmwp:t:s:"`
yields: an option, with the value of `atoi( optarg)` (an `int`) for the options that take
a parameter; `missing` is the return value `':'` and `unknown` any other return value. -/
inductive GetOpt where
  | c
  | g
  | m
  | w
  | p (v : Int)
  | t (v : Int)
  | s (v : Int)
  | missing
  | unknown
deriving DecidableEq, Repr

/-- The `while` loop of `process_opts` over the options that `getopt` yields in turn. The
state is `sdbf_sys` and the array `opts`; the flag is `false` when the loop ends by
`return -1`. -/
def process_opts_loop (sys : sdbf_parameters_t) (opts : List Nat) :
    List GetOpt → Bool × sdbf_parameters_t × List Nat
  | [] => (true, sys, opts)
  | GetOpt.c :: rest =>
    process_opts_loop sys (opts.set OPT_MODE (opts.getD OPT_MODE 0 ||| MODE_COMP)) rest
  | GetOpt.g :: rest =>
    process_opts_loop sys
      (opts.set OPT_MODE ((opts.getD OPT_MODE 0 ||| MODE_GEN) ||| MODE_DIR)) rest
  | GetOpt.m :: rest => process_opts_loop sys (opts.set OPT_MAP FLAG_ON) rest
  | GetOpt.w :: rest => process_opts_loop { sys with warnings := FLAG_ON } opts rest
  | GetOpt.p v :: rest => process_opts_loop { sys with thread_cnt := toU32 v } opts rest
  | GetOpt.t v :: rest => process_opts_loop { sys with output_threshold := v } opts rest
  | GetOpt.s v :: rest => process_opts_loop { sys with sample_size := toU32 v } opts rest
  | GetOpt.missing :: _ => (false, sys, opts)
  | GetOpt.unknown :: _ => (false, sys, opts)

/-- The first statement of `process_opts` after the loop: without `-c` and `-g` the mode
is `MODE_GEN`. -/
def process_opts_default (opts : List Nat) : List Nat :=
  if ¬ (opts.getD OPT_MODE 0 &&& MODE_COMP ≠ 0) ∧ ¬ (opts.getD OPT_MODE 0 &&& MODE_GEN ≠ 0)
  then opts.set OPT_MODE MODE_GEN else opts

/-- The statements of `process_opts` that follow, on the state `sdbf_sys` the loop left
and the array `opts` after the default mode has been set. `optind` is the index `getopt`
stopped at. -/
def process_opts_check (sys : sdbf_parameters_t) (opts : List Nat) (optind argc : Int) :
    Int × sdbf_parameters_t × List Nat :=
  if opts.getD OPT_MODE 0 &&& MODE_COMP ≠ 0 ∧ opts.getD OPT_MODE 0 &&& MODE_GEN ≠ 0
  then (-1, sys, opts)
  else if sys.thread_cnt < 1 ∨ sys.thread_cnt > MAX_THREADS then (-1, sys, opts)
  else
    (optind,
     (if sys.output_threshold < 0 ∨ sys.output_threshold > 100
      then { sys with output_threshold := 1 } else sys),
     (if opts.getD OPT_MODE 0 &&& MODE_COMP ≠ 0
      then (if optind + 2 = argc
            then opts.set OPT_MODE (opts.getD OPT_MODE 0 ||| MODE_FIRST)
            else opts.set OPT_MODE (opts.getD OPT_MODE 0 ||| MODE_DIR))
      else opts))

/-- Function `process_opts`: the value returned, `sdbf_sys` and `opts` after the call.
`parsed` lists what the successive calls of `getopt` yield before it returns -1. -/
def process_opts (sys : sdbf_parameters_t) (opts : List Nat) (parsed : List GetOpt)
    (optind argc : Int) : Int × sdbf_parameters_t × List Nat :=
  if (process_opts_loop sys opts parsed).1 = true
  then process_opts_check (process_opts_loop sys opts parsed).2.1
         (process_opts_default (process_opts_loop sys opts parsed).2.2) optind argc
  else (-1, (process_opts_loop sys opts parsed).2.1, (process_opts_loop sys opts parsed).2.2)





/-- The bound on the score of position `p` once the windows starting below `i` have been
processed: the number of window starts `j < i` with `p - w ≤ j ≤ p`. -/
def score_bound (w i p : Nat) : Nat := min i (p + 1) - (p - w)

/-- The scores of the positions below `n` respect the bound for the window starts below
`i`, in a score array of `len` entries. -/
def ScoresBounded (w n len i : Nat) (scores : List Nat) : Prop :=
  scores.length = len ∧ ∀ p, p < n → scores.getD p 0 ≤ score_bound w i p

/-- Ranks of 130 positions: 9 throughout, except 5 at positions 2 and 65. -/
def ranks_jump : List Nat := [9, 9, 5] ++ List.replicate 62 9 ++ [5] ++ List.replicate 64 9

/-- The loop of `gen_chunk_hash`, from the state read from the descriptor. -/
def gen_chunk_hash_loop (sys : sdbf_parameters_t) (SHA1 : List Nat → List Nat)
    (file_buffer : List Nat) (chunk_pos : Nat) (chunk_scores : List Nat) (chunk_size : Nat)
    (sdbf : sdbf_t) : Except Fault HashState :=
  (List.range (usub64 chunk_size sys.pop_win_size)).foldlM
    (gen_chunk_hash_step sys SHA1 file_buffer chunk_pos chunk_scores sdbf.bf_size)
    { buffer := sdbf.buffer, curr_bf := (usub32 sdbf.bf_count 1) * sdbf.bf_size,
      bf_count := sdbf.bf_count, last_count := sdbf.last_count }

/-- C `isspace` in the "C" locale: blank, `\t`, `\n`, `\v`, `\f`, `\r`. -/
def isspace (c : Nat) : Bool := decide (c = 32 ∨ (9 ≤ c ∧ c ≤ 13))

/-- C `isdigit`. -/
def isdigit (c : Nat) : Bool := decide (48 ≤ c ∧ c ≤ 57)

/-- The value of a hexadecimal digit character, `none` for another character. -/
def hexval (c : Nat) : Option Nat :=
  if 48 ≤ c ∧ c ≤ 57 then some (c - 48)
  else if 97 ≤ c ∧ c ≤ 102 then some (c - 87)
  else if 65 ≤ c ∧ c ≤ 70 then some (c - 55)
  else none

/-- C `isxdigit`. -/
def isxdigit (c : Nat) : Bool := (hexval c).isSome

/-- The bytes of a string literal of the source. -/
def str (s : String) : List Nat := s.toList.map Char.toNat

/-- The C string held in an array: the bytes before the first NUL. -/
def cstr (a : List Nat) : List Nat := a.takeWhile (fun c => decide (c ≠ 0))

/-- The digits of `n` in base `b`, least significant first (at most `fuel` of them). -/
def digits_rev (b : Nat) : Nat → Nat → List Nat
  | 0, _ => []
  | fuel + 1, n => if n < b then [n] else (n % b) :: digits_rev b fuel (n / b)

/-- The character of a digit value: `0`-`9`, then `a`-`f` or `A`-`F`. -/
def digit_char (upper : Bool) (d : Nat) : Nat :=
  if d < 10 then 48 + d else if upper then 55 + d else 87 + d

/-- The text of an unsigned value in base `b`, as `printf` writes it (no padding). -/
def fmt_u (b : Nat) (upper : Bool) (n : Nat) : List Nat :=
  (digits_rev b 64 n).reverse.map (digit_char upper)

/-- Conversion `%d` of `printf` for an `int`. -/
def fmt_d (v : Int) : List Nat :=
  if v < 0 then 45 :: fmt_u 10 false (-v).toNat else fmt_u 10 false v.toNat

/-- Conversion `%02d` of `printf` for an `int`: zero padding to a width of 2. -/
def fmt_02d (v : Int) : List Nat :=
  if v < 0
  then 45 :: (List.replicate (1 - (fmt_u 10 false (-v).toNat).length) 48
    ++ fmt_u 10 false (-v).toNat)
  else List.replicate (2 - (fmt_u 10 false v.toNat).length) 48 ++ fmt_u 10 false v.toNat

/-- Conversion `%x` of `printf` for an `unsigned int`. -/
def fmt_x (n : Nat) : List Nat := fmt_u 16 false (n % U32)

/-- Conversion `%02X` of `printf` for an `unsigned int`. -/
def fmt_02X (n : Nat) : List Nat :=
  List.replicate (2 - (fmt_u 16 true (n % U32)).length) 48 ++ fmt_u 16 true (n % U32)

/-- The base64 routines of the library that `base64.c` calls (OpenSSL `BIO_f_base64` with
`BIO_FLAGS_BASE64_NO_NL`): `encode` maps bytes to characters, `decode` maps characters
to bytes. -/
structure Base64 where
  encode : List Nat → List Nat
  decode : List Nat → List Nat

/-- What the digest codec relies on in the base64 routines: the characters written are
neither NUL nor white space; `n` bytes give `4 * ceil(n / 3)` characters; a prefix whose
length is a multiple of 3 is encoded on its own; decoding the text of a byte string, also
when it is followed by at most two NUL bytes, gives the byte string back. -/
def Base64.Sound (B : Base64) : Prop :=
  (∀ x, ∀ c ∈ B.encode x, c ≠ 0 ∧ isspace c = false)
  ∧ (∀ x, (B.encode x).length = 4 * ((x.length + 2) / 3))
  ∧ (∀ x y, x.length % 3 = 0 → B.encode (x ++ y) = B.encode x ++ B.encode y)
  ∧ (∀ x k, (∀ b ∈ x, b < 256) → k ≤ 2 →
      B.decode (B.encode x ++ List.replicate k 0) = x)

/-- Character of a 6-bit value in the base64 alphabet of RFC 4648. -/
def b64_char (v : Nat) : Nat :=
  if v < 26 then 65 + v else if v < 52 then 71 + v else if v < 62 then v - 4
  else if v = 62 then 43 else 47

/-- The 6-bit value of a character of the base64 alphabet. -/
def b64_val (c : Nat) : Option Nat :=
  if 65 ≤ c ∧ c ≤ 90 then some (c - 65)
  else if 97 ≤ c ∧ c ≤ 122 then some (c - 71)
  else if 48 ≤ c ∧ c ≤ 57 then some (c + 4)
  else if c = 43 then some 62
  else if c = 47 then some 63
  else none

/-- Base64 encoding of RFC 4648, with padding and without line breaks. -/
def b64_encode : List Nat → List Nat
  | a :: b :: c :: rest =>
    b64_char (a / 4) :: b64_char (a % 4 * 16 + b / 16) :: b64_char (b % 16 * 4 + c / 64)
      :: b64_char (c % 64) :: b64_encode rest
  | [a, b] => [b64_char (a / 4), b64_char (a % 4 * 16 + b / 16), b64_char (b % 16 * 4), 61]
  | [a] => [b64_char (a / 4), b64_char (a % 4 * 16), 61, 61]
  | [] => []

/-- Base64 decoding by groups of four characters; it stops at a padded group, at a
character outside the alphabet and at an incomplete group. -/
def b64_decode : List Nat → List Nat
  | c1 :: c2 :: c3 :: c4 :: rest =>
    match b64_val c1, b64_val c2 with
    | some v1, some v2 =>
      if c3 = 61 ∧ c4 = 61 then [v1 * 4 + v2 / 16]
      else
        match b64_val c3 with
        | none => []
        | some v3 =>
          if c4 = 61 then [v1 * 4 + v2 / 16, v2 % 16 * 16 + v3 / 4]
          else
            match b64_val c4 with
            | none => []
            | some v4 =>
              (v1 * 4 + v2 / 16) :: (v2 % 16 * 16 + v3 / 4) :: (v3 % 4 * 64 + v4)
                :: b64_decode rest
    | _, _ => []
  | _ => []

/-- The base64 routines of RFC 4648. -/
def b64_rfc : Base64 := { encode := b64_encode, decode := b64_decode }

/-- Function `b64encode` called on the `length` bytes at offset `pos` of `buffer`
(`length` is an `int`); the result is the C string it returns. -/
def b64encode (B : Base64) (buffer : List Nat) (pos length : Nat) : Option (List Nat) :=
  if length < 2 ^ 31 ∧ pos + length ≤ buffer.length
  then some (cstr (B.encode ((buffer.drop pos).take length)))
  else none

/-- `MAGIC_STREAM`, the string "sdbf". -/
def MAGIC_STREAM : List Nat := [115, 100, 98, 102]

/-- `MAGIC_DD`, the string "sdbf-dd". -/
def MAGIC_DD : List Nat := [115, 100, 98, 102, 45, 100, 100]

/-- `SDBF_VERSION`. -/
def SDBF_VERSION : Int := 2

/-- The common part of the two `fprintf` calls of `sdbf_to_stream`, format
`"%s:%02d:%d:%s:sha1:%d:%d:%x:%d:%d:%d"`, with the magic string and the last argument. -/
def stream_header (magic : List Nat) (sdbf : sdbf_t) (last : Nat) : List Nat :=
  magic ++ [58] ++ fmt_02d SDBF_VERSION ++ [58] ++ fmt_d (toI32 (cstr sdbf.name).length)
    ++ [58] ++ cstr sdbf.name ++ [58, 115, 104, 97, 49, 58] ++ fmt_d (toI32 sdbf.bf_size)
    ++ [58] ++ fmt_d (toI32 sdbf.hash_count) ++ [58] ++ fmt_x sdbf.mask ++ [58]
    ++ fmt_d (toI32 sdbf.max_elem) ++ [58] ++ fmt_d (toI32 sdbf.bf_count) ++ [58]
    ++ fmt_d (toI32 last)

/-- The base64 pieces that the stream fork of `sdbf_to_stream` writes: `bf_count/6`
pieces of `6*bf_size` bytes and a last piece for the remaining filters. -/
def stream_body (B : Base64) (sdbf : sdbf_t) : Option (List Nat) :=
  match (List.range (sdbf.bf_count / 6)).foldlM
      (fun out i =>
        (b64encode B sdbf.buffer (i * ((6 * sdbf.bf_size) % U32)) ((6 * sdbf.bf_size) % U32)).map
          (fun b64 => out ++ b64)) [] with
  | none => none
  | some out =>
    if sdbf.bf_count % 6 > 0
    then (b64encode B sdbf.buffer (sdbf.bf_count / 6 * ((6 * sdbf.bf_size) % U32))
            (sdbf.bf_count % 6 * sdbf.bf_size)).map (fun b64 => out ++ b64)
    else some out

/-- The items `":%02X:%s"` that the block fork of `sdbf_to_stream` writes, one per
filter. -/
def block_body (B : Base64) (sdbf : sdbf_t) (elem_counts : List Nat) : Option (List Nat) :=
  (List.range sdbf.bf_count).foldlM
    (fun out i =>
      match elem_counts[i]? with
      | none => none
      | some e =>
        (b64encode B sdbf.buffer ((i * sdbf.bf_size) % U32) sdbf.bf_size).map
          (fun b64 => out ++ [58] ++ fmt_02X e ++ [58] ++ b64)) []

/-- Function `sdbf_to_stream`: the bytes written to `out`, or `none` when a read leaves
the filter buffer or the count array. -/
def sdbf_to_stream (B : Base64) (sdbf : sdbf_t) : Option (List Nat) :=
  match sdbf.elem_counts with
  | none =>
    (stream_body B sdbf).map
      (fun body => stream_header MAGIC_STREAM sdbf sdbf.last_count ++ [58] ++ body ++ [10])
  | some elem_counts =>
    (block_body B sdbf elem_counts).map
      (fun body => stream_header MAGIC_DD sdbf sdbf.dd_block_size ++ body ++ [10])

/-- Function `sdbf_encode`: the string returned, or `none` when a read leaves the filter
buffer or the result does not fit the allocation of
`strlen(header) + bf_size*bf_count*8/6 + 4` bytes. The header format is
`"%s sdbf:sha1:%d:%d:%x:%d:%d:%d:"`. -/
def sdbf_encode (B : Base64) (sdbf : sdbf_t) : Option (List Nat) :=
  match b64encode B sdbf.buffer 0 ((sdbf.bf_size * sdbf.bf_count) % U32) with
  | none => none
  | some b64 =>
    if ((cstr sdbf.name ++ [32, 115, 100, 98, 102, 58, 115, 104, 97, 49, 58]
          ++ fmt_d (toI32 sdbf.bf_size) ++ [58] ++ fmt_d (toI32 sdbf.hash_count) ++ [58]
          ++ fmt_x sdbf.mask ++ [58] ++ fmt_d (toI32 sdbf.max_elem) ++ [58]
          ++ fmt_d (toI32 sdbf.bf_count) ++ [58] ++ fmt_d (toI32 sdbf.last_count)
          ++ [58]).length + b64.length + 1
        ≤ (cstr sdbf.name ++ [32, 115, 100, 98, 102, 58, 115, 104, 97, 49, 58]
          ++ fmt_d (toI32 sdbf.bf_size) ++ [58] ++ fmt_d (toI32 sdbf.hash_count) ++ [58]
          ++ fmt_x sdbf.mask ++ [58] ++ fmt_d (toI32 sdbf.max_elem) ++ [58]
          ++ fmt_d (toI32 sdbf.bf_count) ++ [58] ++ fmt_d (toI32 sdbf.last_count)
          ++ [58]).length + (sdbf.bf_size * sdbf.bf_count * 8) % U32 / 6 + 4)
    then some (cstr sdbf.name ++ [32, 115, 100, 98, 102, 58, 115, 104, 97, 49, 58]
          ++ fmt_d (toI32 sdbf.bf_size) ++ [58] ++ fmt_d (toI32 sdbf.hash_count) ++ [58]
          ++ fmt_x sdbf.mask ++ [58] ++ fmt_d (toI32 sdbf.max_elem) ++ [58]
          ++ fmt_d (toI32 sdbf.bf_count) ++ [58] ++ fmt_d (toI32 sdbf.last_count)
          ++ [58] ++ b64)
    else none

/-- A directive of a `scanf` format: a literal character, white space, `%d`, `%x` and
`%s` with an optional field width, `%c` with a field width. -/
inductive Conv where
  | lit (c : Nat)
  | ws
  | d
  | x (width : Option Nat)
  | s (width : Option Nat)
  | c (width : Nat)
deriving DecidableEq, Repr

/-- A value converted by `scanf`. -/
inductive Val where
  | int (v : Int)
  | nat (n : Nat)
  | str (s : List Nat)
deriving DecidableEq, Repr

/-- The characters a conversion may read: all input, or the first `width` characters. -/
def field (width : Option Nat) (s : List Nat) : List Nat :=
  match width with
  | none => s
  | some w => s.take w

/-- Conversion `%d` after the white space has been skipped: an optional sign and decimal
digits. Returns the value and the number of characters read. -/
def scan_d (s : List Nat) : Option (Int × Nat) :=
  match s with
  | 45 :: r =>
    if r.takeWhile isdigit = [] then none
    else some (- (((r.takeWhile isdigit).foldl (fun a c => 10 * a + (c - 48)) 0 : Nat) : Int),
      1 + (r.takeWhile isdigit).length)
  | 43 :: r =>
    if r.takeWhile isdigit = [] then none
    else some ((((r.takeWhile isdigit).foldl (fun a c => 10 * a + (c - 48)) 0 : Nat) : Int),
      1 + (r.takeWhile isdigit).length)
  | _ =>
    if s.takeWhile isdigit = [] then none
    else some ((((s.takeWhile isdigit).foldl (fun a c => 10 * a + (c - 48)) 0 : Nat) : Int),
      (s.takeWhile isdigit).length)

/-- Conversion `%x` on the characters of the field, after the white space has been
skipped: hexadecimal digits, after an optional prefix `0x` or `0X` (signs are not
modelled). Returns the value as `unsigned int` and the number of characters read. -/
def scan_x (s : List Nat) : Option (Nat × Nat) :=
  match s with
  | 48 :: p :: h :: r =>
    if (p = 120 ∨ p = 88) ∧ isxdigit h = true then
      some (((h :: r).takeWhile isxdigit).foldl (fun a c => 16 * a + (hexval c).getD 0) 0 % U32,
        2 + ((h :: r).takeWhile isxdigit).length)
    else
      some ((s.takeWhile isxdigit).foldl (fun a c => 16 * a + (hexval c).getD 0) 0 % U32,
        (s.takeWhile isxdigit).length)
  | _ =>
    if s.takeWhile isxdigit = [] then none
    else some ((s.takeWhile isxdigit).foldl (fun a c => 16 * a + (hexval c).getD 0) 0 % U32,
      (s.takeWhile isxdigit).length)

/-- Function `scanf` on a list of directives: the values converted, in order, and the
input that is left. The conversions stop at the first directive that fails; `%d`, `%x`
and `%s` skip white space first; a field width of 0 fails. -/
def scanf : List Conv → List Nat → List Val × List Nat
  | [], s => ([], s)
  | Conv.lit c :: f, s =>
    match s with
    | [] => ([], s)
    | x :: r => if x = c then scanf f r else ([], s)
  | Conv.ws :: f, s => scanf f (s.dropWhile isspace)
  | Conv.d :: f, s =>
    match scan_d (s.dropWhile isspace) with
    | none => ([], s.dropWhile isspace)
    | some (v, n) =>
      (Val.int v :: (scanf f ((s.dropWhile isspace).drop n)).1,
        (scanf f ((s.dropWhile isspace).drop n)).2)
  | Conv.x width :: f, s =>
    if width = some 0 then ([], s.dropWhile isspace)
    else
      match scan_x (field width (s.dropWhile isspace)) with
      | none => ([], s.dropWhile isspace)
      | some (v, n) =>
        (Val.nat v :: (scanf f ((s.dropWhile isspace).drop n)).1,
          (scanf f ((s.dropWhile isspace).drop n)).2)
  | Conv.s width :: f, s =>
    if width = some 0
        ∨ (field width (s.dropWhile isspace)).takeWhile (fun c => !isspace c) = []
    then ([], s.dropWhile isspace)
    else
      (Val.str ((field width (s.dropWhile isspace)).takeWhile (fun c => !isspace c))
          :: (scanf f ((s.dropWhile isspace).drop
                ((field width (s.dropWhile isspace)).takeWhile
                  (fun c => !isspace c)).length)).1,
        (scanf f ((s.dropWhile isspace).drop
                ((field width (s.dropWhile isspace)).takeWhile
                  (fun c => !isspace c)).length)).2)
  | Conv.c width :: f, s =>
    if width = 0 ∨ s.length < width then ([], s)
    else (Val.str (s.take width) :: (scanf f (s.drop width)).1, (scanf f (s.drop width)).2)

/-- The variable a conversion was to assign, as `uint32_t`: the converted value, or
`old` when the conversion was not reached. -/
def val_u32 (old : Nat) : Option Val → Nat
  | some (Val.int v) => toU32 v
  | some (Val.nat n) => n % U32
  | _ => old

/-- The array a conversion `%s` or `%c` was to fill: the converted characters, or `old`
when the conversion was not reached. -/
def val_str (old : List Nat) : Option Val → List Nat
  | some (Val.str s) => s
  | _ => old

/-- The field width that `sprintf( fmt+1, "%dc", n)` or `"%ds"` puts in a format, for a
`uint32_t` value `n` printed with `%d`: a negative number gives no width that can be
used. -/
def width_of (n : Nat) : Nat := (toI32 n).toNat

/-- The length `b64_len` that the stream fork of `sdbf_from_stream` computes from
`bf_count*bf_size`, in `uint32_t`: `4*(b64_len + 1 + b64_len % 3)/3`. -/
def stream_b64_len (bf_count bf_size : Nat) : Nat :=
  (4 * (((bf_count * bf_size) % U32 + 1 + (bf_count * bf_size) % U32 % 3) % U32)) % U32 / 3

/-- The first loop of `sdbf_decode`: the index behind the eighth colon and `name_len`
(the index behind the first colon); `none` when the string ends before. -/
def decode_colons : List Nat → Nat → Nat → Nat → Option (Nat × Nat)
  | [], _, _, _ => none
  | c :: rest, i, colon_cnt, name_len =>
    if c = 58 then
      if colon_cnt - 1 = 0 then some (i + 1, if colon_cnt = 8 then i + 1 else name_len)
      else decode_colons rest (i + 1) (colon_cnt - 1) (if colon_cnt = 8 then i + 1 else name_len)
    else decode_colons rest (i + 1) colon_cnt name_len

/-- Function `sdbf_decode` on a C string: the digest returned, `none` when the loop over
the colons leaves the string or the name leaves its allocation of `name_len + 2` bytes.
The format is `"%s:sdbf:sha1:%d:%d:%x:%d:%d:%d:"`; fields that no conversion assigned
keep the zero of the allocation. -/
def sdbf_decode (B : Base64) (sdbf_b64 : List Nat) : Option sdbf_t :=
  match decode_colons (cstr sdbf_b64) 0 8 0 with
  | none => none
  | some (i, name_len) =>
    let r := scanf [Conv.s none, Conv.lit 58, Conv.lit 115, Conv.lit 100, Conv.lit 98,
      Conv.lit 102, Conv.lit 58, Conv.lit 115, Conv.lit 104, Conv.lit 97, Conv.lit 49,
      Conv.lit 58, Conv.d, Conv.lit 58, Conv.d, Conv.lit 58, Conv.x none, Conv.lit 58,
      Conv.d, Conv.lit 58, Conv.d, Conv.lit 58, Conv.d, Conv.lit 58] (cstr sdbf_b64)
    if (val_str [] r.1[0]?).length + 1 > name_len + 2 then none
    else
      some { name := val_str [] r.1[0]?, bf_size := val_u32 0 r.1[1]?,
             hash_count := val_u32 0 r.1[2]?, mask := val_u32 0 r.1[3]?,
             max_elem := val_u32 0 r.1[4]?, bf_count := val_u32 0 r.1[5]?,
             last_count := val_u32 0 r.1[6]?,
             buffer := (B.decode ((cstr sdbf_b64).drop i)).take ((cstr sdbf_b64).drop i).length
               ++ List.replicate (((cstr sdbf_b64).drop i).length
                   - (B.decode ((cstr sdbf_b64).drop i)).length) 0,
             hamming := none, elem_counts := none, dd_block_size := 0 }

/-- The stream digest of the framing example: name "foo", two filters of 256 bytes, 5
hashes, mask `0x7FF`, at most 160 elements, `last_count = 40`. -/
def digest_foo (buffer : List Nat) : sdbf_t := stream_digest [102, 111, 111] buffer 2 40

/-- The cache after a sequence of calls `bf_match_est( m, k, s1, s2, 0)`, one for each pair
`(s1, s2)` of the list. -/
def est_calls (fm : FloatModel) (m k : Nat) (cache : EstCache) (calls : List (Nat × Nat)) :
    EstCache :=
  calls.foldl (fun c a => (bf_match_est fm c m k a.1 a.2 0).2) cache

/-- Two empty filters named "a", recorded with `max_elem = 10` and `last_count = 3`, with
the Hamming weights already computed: the first filter has 10 elements, the second 3. -/
def digest_m10_3 : sdbf_t :=
  { stream_digest [97] (List.replicate 512 0) 2 3 with max_elem := 10, hamming := some [0, 0] }

/-- A comparator state in which both entries of `tasklist` hold the result 7/10. -/
def state_stale : CmpState := { cache := empty_cache, result := fun _ => 7 / 10 }

/-- The feature emission of `gen_chunk_sdbf`: the allocation of the buffer, the loop over
the whole chunks and the work on the remainder, up to the comment "Chop off last BF". -/
def gen_chunk_sdbf_emit (sys : sdbf_parameters_t) (E : Entr64) (SHA1 : List Nat → List Nat)
    (file_buffer : List Nat) (file_size chunk_size : Nat) (sdbf : sdbf_t) :
    Except Fault sdbf_t :=
  match (List.range (file_size / chunk_size)).foldlM
      (fun (d : sdbf_t) i =>
        gen_chunk_sdbf_chunk sys E SHA1 file_buffer (chunk_size * i) chunk_size true d)
      { sdbf with buffer := List.replicate (gen_chunk_sdbf_buff_size file_size) 0 } with
  | .error e => .error e
  | .ok d1 =>
    if file_size % chunk_size > 0
    then gen_chunk_sdbf_chunk sys E SHA1 file_buffer
           (file_size / chunk_size * chunk_size) (file_size % chunk_size) false d1
    else .ok d1

/-- A descriptor as `sdbf_create` leaves it, but with `bf_count = 2`. -/
def descriptor_two : sdbf_t := { sdbf_create sdbf_sys [97] with bf_count := 2 }

/-- Body of the loop of `gen_chunk_ranks` at `offset`, on the state (entropy, scratch
array, ranks). -/
def gen_chunk_ranks_step (sys : sdbf_parameters_t) (E : Entr64) (file_buffer : List Nat)
    (base : Nat) (st : Nat × List Nat × List Nat) (offset : Nat) :
    Except Fault (Nat × List Nat × List Nat) :=
  let e := if offset % sys.block_size = 0
           then E.init_int file_buffer (base + offset) st.2.1
           else E.inc_int st.1 file_buffer (base + offset - 1) st.2.1
  match ENTR64_RANKS[e.1 >>> ENTR_POWER]? with
  | none => Except.error Fault.out_of_bounds
  | some r =>
    if offset < st.2.2.length
    then Except.ok (e.1, e.2, st.2.2.set offset (r % U16))
    else Except.error Fault.out_of_bounds

/-- The rank array of `gen_chunk_ranks` after the `memcpy` of the carry-over and the
`bzero` of the rest of the chunk. -/
def gen_chunk_ranks_zeroed (chunk_size : Nat) (chunk_ranks : List Nat) (carryover : Nat) :
    List Nat :=
  let copied :=
    if carryover > 0
    then ((chunk_ranks.drop (chunk_size - carryover)).take carryover)
           ++ chunk_ranks.drop carryover
    else chunk_ranks
  copied.take carryover ++ List.replicate (chunk_size - carryover) 0
    ++ copied.drop chunk_size

/-- Follows the spec's words, with the re-sync distance `sync` as a parameter: the
entropy and the scratch array before the window at offset `k` is looked at, when the
entropy is recomputed from scratch (`init_int`) at the offsets that are multiples of
`sync` and updated incrementally (`inc_int`) at every other offset. -/
def resync_state (sync : Nat) (E : Entr64) (file_buffer : List Nat) (base : Nat) :
    Nat → Nat × List Nat
  | 0 => (0, List.replicate 256 0)
  | k + 1 =>
    if k % sync = 0
    then E.init_int file_buffer (base + k) (resync_state sync E file_buffer base k).2
    else E.inc_int (resync_state sync E file_buffer base k).1 file_buffer (base + k - 1)
           (resync_state sync E file_buffer base k).2

/-- Follows the spec's words: the rank of the window at offset `o`, as a `uint16_t`, when
the entropy is re-synced every `sync` bytes. -/
def resync_rank (sync : Nat) (E : Entr64) (file_buffer : List Nat) (base o : Nat) : Nat :=
  ENTR64_RANKS.getD ((resync_state sync E file_buffer base (o + 1)).1 >>> ENTR_POWER) 0 % U16

/-- A stand-in for the entropy functions that makes the two calls visible in the ranks:
`init_int` answers an entropy of bin 500 (rank 615) and `inc_int` one of bin 600 (rank
629). -/
def entr64_probe : Entr64 :=
  { init_int := fun _ _ ascii => (500 * 1024, ascii),
    inc_int := fun _ _ _ ascii => (600 * 1024, ascii) }



/-- The entropies answered by the entropy functions fall in the bins of `ENTR64_RANKS`
(1001 bins of width 2^10). -/
def EntrInRange (E : Entr64) : Prop :=
  (∀ buf off ascii, (E.init_int buf off ascii).1 >>> ENTR_POWER < ENTR64_RANKS.length)
  ∧ (∀ prev buf off ascii,
      (E.inc_int prev buf off ascii).1 >>> ENTR_POWER < ENTR64_RANKS.length)

/-- The ranks that `gen_chunk_ranks` leaves for a chunk of `n` bytes with the stand-in
`entr64_probe`: 615 at the offsets that are multiples of 4096, 629 at the other offsets
below `n - 64`, and 0 at the last 64 offsets. -/
def ranks_probe (n : Nat) : List Nat :=
  (List.range n).map (fun j => if j < n - 64 then (if j % 4096 = 0 then 615 else 629) else 0)

/-- The scores of a chunk of 82 bytes with the ranks `ranks_probe 82`: position 0 is
selected by the window that starts at 0, position 17 by the 17 windows that start at
1 .. 17. -/
def scores_probe_82 : List Nat := [1] ++ List.replicate 16 0 ++ [17] ++ List.replicate 64 0

/-- A stand-in for SHA1 that tells windows apart by their first byte: the first of the
five words is that byte. -/
def sha1_first : List Nat → List Nat := fun w => [w.getD 0 0, 0, 0, 0, 0]

/-- A file of 164 bytes: 82 bytes of value 3, then 82 bytes of value 1. -/
def file_3_1 : List Nat := List.replicate 82 3 ++ List.replicate 82 1

/-- The block digest that `sdbf_hash_dd` sets up for a file of 164 bytes in blocks of 82
bytes, once the filters start with the bytes `b0` and `b1` (the other bytes are zero) and
hold `c0` and `c1` elements. -/
def digest_blocks (b0 b1 c0 c1 : Nat) : sdbf_t :=
  { sdbf_hash_dd_alloc sdbf_sys 164 [97] 82 with
    buffer := (b0 :: List.replicate 255 0) ++ (b1 :: List.replicate 255 0),
    elem_counts := some [c0, c1] }

/-- A stream digest of `2^25 + 1` filters: the first filter is `filter_lo` (1024 set
bits), the `2^25` filters behind it are zero. -/
def digest_wrap_25 : sdbf_t :=
  stream_digest [97] (filter_lo ++ List.replicate (33554432 * 256) 0) 33554433 160

/-- A filter whose first 64 bytes are `0xFF` and whose last 192 bytes are zero. -/
def filter_64 : List Nat := List.replicate 64 255 ++ List.replicate 192 0

/-- A stream digest named "a" with the single filter `filter_lo` and 160 elements. -/
def digest_ref_lo : sdbf_t := stream_digest [97] filter_lo 1 160

/-- A stream digest named "b" of `2^24 + 1` filters: the first filter is `filter_lo`
(1024 set bits), the last one, number `2^24`, is `filter_64` (512 set bits), and the
filters between them are zero. -/
def digest_wrap_24 : sdbf_t :=
  stream_digest [98] (filter_lo ++ List.replicate (16777215 * 256) 0 ++ filter_64)
    16777217 160

/-- What the comparator reads for the target filter `2^24` of `digest_wrap_24`: the bytes
of filter 0, which is `filter_lo`, with the Hamming weight 512 and the 160 elements of
filter `2^24`. -/
def digest_alias : sdbf_t :=
  { stream_digest [98] filter_lo 1 160 with hamming := some [512] }

theorem and_bit_ne_zero (x bit : Nat) : (x &&& (0x1 <<< bit) ≠ 0) ↔ x.testBit bit = true := by
  rw [Nat.one_shiftLeft, Nat.and_two_pow]
  cases h : x.testBit bit <;> simp

theorem count_loop (x : Nat) (l : List Nat) (c : Nat) (h : c + l.length < 256) :
    l.foldl (fun cnt bit => if x &&& (0x1 <<< bit) ≠ 0 then (cnt + 1) % U8 else cnt) c
      = c + l.countP (fun b => x.testBit b) := by
  induction l generalizing c with
  | nil => simp
  | cons a l ih =>
    simp only [List.foldl_cons, List.length_cons] at *
    by_cases hb : x.testBit a = true
    · have hc : x &&& (0x1 <<< a) ≠ 0 := (and_bit_ne_zero x a).2 hb
      have hm : (c + 1) % U8 = c + 1 := Nat.mod_eq_of_lt (by unfold U8; omega)
      rw [if_pos hc, hm, ih (c + 1) (by omega), List.countP_cons]
      simp only [hb, if_true]
      omega
    · have hc : ¬ (x &&& (0x1 <<< a) ≠ 0) := fun h' => hb ((and_bit_ne_zero x a).1 h')
      rw [if_neg hc, ih c (by omega), List.countP_cons]
      simp only [hb]
      simp

theorem bit_count_16_eq (x : Nat) : bit_count_16 x = popcount 16 x := by
  unfold bit_count_16 popcount
  rw [count_loop x (List.range 16) 0 (by simp)]
  simp

theorem popcount_le (w x : Nat) : popcount w x ≤ w := by
  unfold popcount
  exact (List.countP_le_length _).trans (by simp)

theorem testBit_le_word (bs : List Nat) (h : ∀ b ∈ bs, b < 256) (n : Nat) :
    (le_word bs).testBit n = (bs.getD (n / 8) 0).testBit (n % 8) := by
  induction bs generalizing n with
  | nil => simp [le_word]
  | cons b bs ih =>
    have hb : b < 2 ^ 8 := h b (List.mem_cons_self _ _)
    have h2 : le_word (b :: bs) = 2 ^ 8 * le_word bs + b := by
      simp only [le_word]; omega
    rw [h2, Nat.testBit_mul_pow_two_add _ hb]
    by_cases hn : n < 8
    · rw [if_pos hn]
      have h0 : n / 8 = 0 := by omega
      have h1 : n % 8 = n := by omega
      rw [h0, h1]; rfl
    · rw [if_neg hn, ih (fun b hb => h b (List.mem_cons_of_mem _ hb))]
      have h0 : n / 8 = (n - 8) / 8 + 1 := by omega
      have h1 : n % 8 = (n - 8) % 8 := by omega
      rw [h0, h1]; rfl

theorem getD_lt_256 (f : List Nat) (h : ∀ x ∈ f, x < 256) (i : Nat) : f.getD i 0 < 256 := by
  by_cases hi : i < f.length
  · rw [List.getD_eq_getElem _ _ hi]; exact h _ (List.getElem_mem _)
  · rw [List.getD_eq_default _ _ (by omega)]; omega

theorem testBit_load64 (p : List Nat) (h : ∀ x ∈ p, x < 256) (i n : Nat) (hn : n < 64) :
    (load64 p i).testBit n = (p.getD (8 * i + n / 8) 0).testBit (n % 8) := by
  unfold load64
  rw [testBit_le_word]
  · have h8 : n / 8 < 8 := by omega
    rw [List.getD_eq_getElem _ _ (by simpa using h8)]
    simp
  · intro b hb
    simp only [List.mem_map, List.mem_range] at hb
    obtain ⟨k, _, rfl⟩ := hb
    exact getD_lt_256 p h _

theorem testBit_buff16 (f1 f2 : List Nat) (h1 : ∀ x ∈ f1, x < 256) (h2 : ∀ x ∈ f2, x < 256)
    (j b : Nat) (hb : b < 16) :
    (buff16 f1 f2 j).testBit b
      = (f1.getD (2 * j + b / 8) 0 &&& f2.getD (2 * j + b / 8) 0).testBit (b % 8) := by
  unfold buff16 U16
  rw [Nat.testBit_mod_two_pow, Nat.testBit_shiftRight, Nat.testBit_and, Nat.testBit_and,
    testBit_load64 f1 h1 _ _ (by omega), testBit_load64 f2 h2 _ _ (by omega)]
  have e1 : 8 * (j / 4) + (16 * (j % 4) + b) / 8 = 2 * j + b / 8 := by omega
  have e2 : (16 * (j % 4) + b) % 8 = b % 8 := by omega
  rw [e1, e2]
  simp [hb]

theorem popcount_16_split (x y z : Nat) (hy : ∀ b, b < 8 → x.testBit b = y.testBit b)
    (hz : ∀ b, b < 8 → x.testBit (8 + b) = z.testBit b) :
    popcount 16 x = popcount 8 y + popcount 8 z := by
  unfold popcount
  have hr : List.range 16 = List.range 8 ++ (List.range 8).map (fun b => 8 + b) := by decide
  rw [hr, List.countP_append, List.countP_map]
  congr 1
  · apply List.countP_congr
    intro b hb
    rw [hy b (List.mem_range.1 hb)]
  · apply List.countP_congr
    intro b hb
    simp only [Function.comp]
    rw [hz b (List.mem_range.1 hb)]

theorem bit_count_buff16 (f1 f2 : List Nat) (h1 : ∀ x ∈ f1, x < 256) (h2 : ∀ x ∈ f2, x < 256)
    (j : Nat) :
    bit_count_16 (buff16 f1 f2 j)
      = popcount 8 (f1.getD (2 * j) 0 &&& f2.getD (2 * j) 0)
        + popcount 8 (f1.getD (2 * j + 1) 0 &&& f2.getD (2 * j + 1) 0) := by
  rw [bit_count_16_eq]
  apply popcount_16_split
  · intro b hb
    rw [testBit_buff16 f1 f2 h1 h2 j b (by omega)]
    have e1 : b / 8 = 0 := by omega
    have e2 : b % 8 = b := by omega
    rw [e1, e2]; rfl
  · intro b hb
    rw [testBit_buff16 f1 f2 h1 h2 j (8 + b) (by omega)]
    have e1 : (8 + b) / 8 = 1 := by omega
    have e2 : (8 + b) % 8 = b := by omega
    rw [e1, e2]

theorem popcount_and_succ (f1 f2 : List Nat) (n : Nat) :
    popcount_and f1 f2 (n + 1)
      = popcount_and f1 f2 n + popcount 8 (f1.getD n 0 &&& f2.getD n 0) := by
  unfold popcount_and
  rw [List.range_succ, List.map_append, List.sum_append]
  simp

theorem popcount_and_le (f1 f2 : List Nat) (n : Nat) : popcount_and f1 f2 n ≤ 8 * n := by
  induction n with
  | zero => simp [popcount_and]
  | succ n ih =>
    rw [popcount_and_succ]
    have := popcount_le 8 (f1.getD n 0 &&& f2.getD n 0)
    omega

theorem add_counts_eq (f1 f2 : List Nat) (h1 : ∀ x ∈ f1, x < 256) (h2 : ∀ x ∈ f2, x < 256)
    (n lo : Nat) (hn : 16 * (lo + n) < U32) :
    add_counts f1 f2 lo n (popcount_and f1 f2 (2 * lo)) = popcount_and f1 f2 (2 * (lo + n)) := by
  induction n generalizing lo with
  | zero => simp [add_counts]
  | succ n ih =>
    unfold add_counts
    rw [List.range', List.foldl_cons, bit_count_buff16 f1 f2 h1 h2]
    have e : popcount_and f1 f2 (2 * lo)
        + (popcount 8 (f1.getD (2 * lo) 0 &&& f2.getD (2 * lo) 0)
          + popcount 8 (f1.getD (2 * lo + 1) 0 &&& f2.getD (2 * lo + 1) 0))
        = popcount_and f1 f2 (2 * (lo + 1)) := by
      have e2 : 2 * (lo + 1) = 2 * lo + 1 + 1 := by omega
      rw [e2, popcount_and_succ, popcount_and_succ]
      omega
    rw [e]
    have hle := popcount_and_le f1 f2 (2 * (lo + 1))
    rw [Nat.mod_eq_of_lt (by omega)]
    have := ih (lo + 1) (by omega)
    unfold add_counts at this
    rw [this]
    congr 1
    omega

theorem bf_bitcount_eq (f1 f2 : List Nat) (h1 : ∀ x ∈ f1, x < 256) (h2 : ∀ x ∈ f2, x < 256)
    (bf_size : Nat) (hs : 8 * bf_size < U32) :
    bf_bitcount f1 f2 bf_size = popcount_and f1 f2 (2 * (bf_size / 2)) := by
  unfold bf_bitcount
  have h := add_counts_eq f1 f2 h1 h2 (bf_size / 2) 0 (by omega)
  simp only [Nat.mul_zero, Nat.zero_add] at h
  rw [← h]
  simp [popcount_and]

theorem tiers_eq (f1 f2 : List Nat) (h1 : ∀ x ∈ f1, x < 256) (h2 : ∀ x ∈ f2, x < 256) :
    add_counts f1 f2 0 16 0 = popcount_and f1 f2 32
    ∧ add_counts f1 f2 16 16 (popcount_and f1 f2 32) = popcount_and f1 f2 64
    ∧ add_counts f1 f2 32 32 (popcount_and f1 f2 64) = popcount_and f1 f2 128
    ∧ add_counts f1 f2 64 64 (popcount_and f1 f2 128) = popcount_and f1 f2 256 := by
  have a := add_counts_eq f1 f2 h1 h2 16 0 (by unfold U32; omega)
  have b := add_counts_eq f1 f2 h1 h2 16 16 (by unfold U32; omega)
  have c := add_counts_eq f1 f2 h1 h2 32 32 (by unfold U32; omega)
  have d := add_counts_eq f1 f2 h1 h2 64 64 (by unfold U32; omega)
  have z : popcount_and f1 f2 (2 * 0) = 0 := by simp [popcount_and]
  rw [z] at a
  exact ⟨a, b, c, d⟩

/-- Unfolding of `bf_bitcount_cut_256` on byte regions: each tier's partial result is
the overlap of the bytes read so far. -/
theorem bf_bitcount_cut_256_unfold (f1 f2 : List Nat) (h1 : ∀ x ∈ f1, x < 256)
    (h2 : ∀ x ∈ f2, x < 256) (cut_off : Nat) (slack : Int) :
    bf_bitcount_cut_256 f1 f2 cut_off slack =
      if cut_off > 0 ∧ (8 * popcount_and f1 f2 32 + toU32 slack) % U32 < cut_off then 0
      else if cut_off > 0 ∧ (4 * popcount_and f1 f2 64 + toU32 slack) % U32 < cut_off then 0
      else if cut_off > 0 ∧ (2 * popcount_and f1 f2 128 + toU32 slack) % U32 < cut_off then 0
      else popcount_and f1 f2 256 := by
  obtain ⟨a, b, c, d⟩ := tiers_eq f1 f2 h1 h2
  unfold bf_bitcount_cut_256
  simp only [a, b, c, d]

/-- Claim C1. For 256-byte filters `f1`, `f2`, any `cut_off` and any `slack`: when
`bf_bitcount_cut_256` returns a value above zero, that value is the number of set bits of
the bytewise AND of the two filters. -/
theorem bf_bitcount_cut_256_pos_exact (f1 f2 : List Nat) (cut_off : Nat) (slack : Int)
    (h1 : IsBytes f1 256) (h2 : IsBytes f2 256)
    (hpos : 0 < bf_bitcount_cut_256 f1 f2 cut_off slack) :
    bf_bitcount_cut_256 f1 f2 cut_off slack = popcount_and f1 f2 256 := by
  rw [bf_bitcount_cut_256_unfold f1 f2 h1.2 h2.2] at hpos ⊢
  split_ifs at hpos ⊢ <;> omega

/-- Claim C2. With `cut_off = 0` no early exit is taken: for 256-byte filters and any
`slack`, `bf_bitcount_cut_256` is the number of set bits of the bytewise AND, and agrees
with `bf_bitcount` on 256 bytes. -/
theorem bf_bitcount_cut_256_zero_cutoff (f1 f2 : List Nat) (slack : Int)
    (h1 : IsBytes f1 256) (h2 : IsBytes f2 256) :
    bf_bitcount_cut_256 f1 f2 0 slack = popcount_and f1 f2 256
    ∧ bf_bitcount_cut_256 f1 f2 0 slack = bf_bitcount f1 f2 256 := by
  have e : bf_bitcount_cut_256 f1 f2 0 slack = popcount_and f1 f2 256 := by
    rw [bf_bitcount_cut_256_unfold f1 f2 h1.2 h2.2]
    simp
  refine ⟨e, ?_⟩
  have hb := bf_bitcount_eq f1 f2 h1.2 h2.2 256 (by unfold U32; omega)
  have h256 : 2 * (256 / 2) = 256 := by norm_num
  rw [h256] at hb
  exact e.trans hb.symm

theorem isBytes_replicate (n m v : Nat) (hv : v < 256) (hn : n ≤ m) :
    IsBytes (List.replicate m v) n := by
  refine ⟨by simpa using hn, ?_⟩
  intro x hx
  rw [List.eq_of_mem_replicate hx]
  exact hv

/-- Witness for C1: two all-ones filters with `cut_off = 100`, `slack = 48`. -/
theorem bf_bitcount_cut_256_pos_exact_witness :
    bf_bitcount_cut_256 (List.replicate 256 255) (List.replicate 256 255) 100 48
      = popcount_and (List.replicate 256 255) (List.replicate 256 255) 256 :=
  bf_bitcount_cut_256_pos_exact (List.replicate 256 255) (List.replicate 256 255) 100 48
    (isBytes_replicate 256 256 255 (by decide) (by decide))
    (isBytes_replicate 256 256 255 (by decide) (by decide))
    (by decide!)

/-- Witness for C2: two all-ones filters, `slack = 48`. -/
theorem bf_bitcount_cut_256_zero_cutoff_witness :
    bf_bitcount_cut_256 (List.replicate 256 255) (List.replicate 256 255) 0 48
        = popcount_and (List.replicate 256 255) (List.replicate 256 255) 256
    ∧ bf_bitcount_cut_256 (List.replicate 256 255) (List.replicate 256 255) 0 48
        = bf_bitcount (List.replicate 256 255) (List.replicate 256 255) 256 :=
  bf_bitcount_cut_256_zero_cutoff (List.replicate 256 255) (List.replicate 256 255) 48
    (isBytes_replicate 256 256 255 (by decide) (by decide))
    (isBytes_replicate 256 256 255 (by decide) (by decide))

/-! ### Insertion of a hash into a filter -/

theorem bf_sha1_insert_five (bf : List Nat) (c a b d e g : Nat) :
    bf_sha1_insert bf c [a, b, d, e, g] =
      (let m := BF_CLASS_MASKS.getD c 0
       let s := [a &&& m, b &&& m, d &&& m, e &&& m, g &&& m].foldl set_pos (bf, 0)
       { bf := s.1, sha1_hash := [a &&& m, b &&& m, d &&& m, e &&& m, g &&& m],
         insert_cnt := s.2 }) := by
  rfl

theorem BITS_getD (x : Nat) : BITS.getD (x &&& 0x7) 0 = 2 ^ (x % 8) := by
  have h : x &&& 0x7 = x % 8 := Nat.and_pow_two_sub_one_eq_mod x 3
  rw [h]
  have h8 : x % 8 < 8 := Nat.mod_lt _ (by decide)
  generalize x % 8 = r at h8
  interval_cases r <;> rfl

theorem bf_bit_eq (bf : List Nat) (p : Nat) :
    bf_bit bf p = (bf.getD (p / 8) 0).testBit (p % 8) := by
  unfold bf_bit
  have h : p &&& 7 = p % 8 := Nat.and_pow_two_sub_one_eq_mod p 3
  rw [h, Nat.shiftRight_eq_div_pow]

theorem getD_set_eq (l : List Nat) (k v : Nat) (hk : k < l.length) :
    (l.set k v).getD k 0 = v := by
  rw [List.getD_eq_getElem?_getD, List.getElem?_set]
  simp [hk]

theorem getD_set_ne (l : List Nat) (k j v : Nat) (hk : k ≠ j) :
    (l.set k v).getD j 0 = l.getD j 0 := by
  rw [List.getD_eq_getElem?_getD, List.getElem?_set, if_neg hk, List.getD_eq_getElem?_getD]

theorem countP_or_eq (l : List Nat) (hnd : l.Nodup) (p : Nat → Bool) (b : Nat) :
    l.countP (fun c => p c || decide (b = c))
      = l.countP p + if b ∈ l ∧ p b = false then 1 else 0 := by
  induction l with
  | nil => simp
  | cons a l ih =>
    rw [List.nodup_cons] at hnd
    rw [List.countP_cons, List.countP_cons, ih hnd.2]
    by_cases hab : b = a
    · subst hab
      have hnm : ¬ (b ∈ l ∧ p b = false) := fun h => hnd.1 h.1
      rw [if_neg hnm]
      cases hp : p b <;> simp [hp]
    · have hm : (b ∈ a :: l) ↔ b ∈ l := by simp [hab]
      simp only [hm, hab, decide_False, Bool.or_false]
      omega

theorem popcount_or_bit (x b : Nat) (hb : b < 8) :
    popcount 8 (x ||| 2 ^ b) = popcount 8 x + if x.testBit b then 0 else 1 := by
  unfold popcount
  have h : (fun c => (x ||| 2 ^ b).testBit c) = (fun c => x.testBit c || decide (b = c)) := by
    funext c
    rw [Nat.testBit_or, Nat.testBit_two_pow]
  rw [h, countP_or_eq _ (List.nodup_range 8)]
  have hm : b ∈ List.range 8 := List.mem_range.2 hb
  cases hx : x.testBit b <;> simp [hm, hx]

theorem popcount_bytes_succ (f : List Nat) (n : Nat) :
    popcount_bytes f (n + 1) = popcount_bytes f n + popcount 8 (f.getD n 0) := by
  unfold popcount_bytes
  rw [List.range_succ, List.map_append, List.sum_append]
  simp

theorem popcount_bytes_set_ge (f : List Nat) (k v n : Nat) (hk : n ≤ k) :
    popcount_bytes (f.set k v) n = popcount_bytes f n := by
  induction n with
  | zero => simp [popcount_bytes]
  | succ n ih =>
    rw [popcount_bytes_succ, popcount_bytes_succ, ih (by omega), getD_set_ne _ _ _ _ (by omega)]

theorem popcount_bytes_set (f : List Nat) (k v n : Nat) (hk : k < n) (hl : k < f.length) :
    popcount_bytes (f.set k v) n + popcount 8 (f.getD k 0)
      = popcount_bytes f n + popcount 8 v := by
  induction n with
  | zero => omega
  | succ n ih =>
    rw [popcount_bytes_succ, popcount_bytes_succ]
    by_cases hkn : k = n
    · subst hkn
      rw [popcount_bytes_set_ge _ _ _ _ (le_refl _), getD_set_eq _ _ _ hl]
      omega
    · have := ih (by omega)
      rw [getD_set_ne _ _ _ _ hkn]
      omega

theorem and_two_pow_eq_zero (y b : Nat) : (y &&& 2 ^ b = 0) ↔ y.testBit b = false := by
  rw [Nat.and_two_pow]
  cases h : y.testBit b <;> simp

theorem set_pos_spec (bf : List Nat) (c x : Nat) (hl : 256 ≤ bf.length)
    (hb : ∀ y ∈ bf, y < 256) (hx : x < 2048) (hc : c + 1 < U32) :
    (set_pos (bf, c) x).1.length = bf.length
    ∧ (∀ y ∈ (set_pos (bf, c) x).1, y < 256)
    ∧ popcount_bytes (set_pos (bf, c) x).1 256
        = popcount_bytes bf 256 + (if bf_bit bf x then 0 else 1)
    ∧ (set_pos (bf, c) x).2 = c + (if bf_bit bf x then 0 else 1)
    ∧ ∀ p, bf_bit (set_pos (bf, c) x).1 p = (bf_bit bf p || decide (p = x)) := by
  have hk : x >>> 3 = x / 8 := by rw [Nat.shiftRight_eq_div_pow]
  have hk256 : x / 8 < 256 := by omega
  have hx8 : x % 8 < 8 := Nat.mod_lt _ (by decide)
  have hold : bf.getD (x / 8) 0 < 2 ^ 8 := getD_lt_256 bf hb _
  have hbit : (2 : Nat) ^ (x % 8) < 2 ^ 8 := Nat.pow_lt_pow_right (by decide) hx8
  simp only [set_pos, hk, BITS_getD, and_two_pow_eq_zero, bf_bit_eq]
  refine ⟨by simp, ?_, ?_, ?_, ?_⟩
  · intro y hy
    rcases List.mem_or_eq_of_mem_set hy with h | h
    · exact hb y h
    · rw [h]; exact Nat.or_lt_two_pow hold hbit
  · have h := popcount_bytes_set bf (x / 8) (bf.getD (x / 8) 0 ||| 2 ^ (x % 8)) 256 hk256
      (by omega)
    rw [popcount_or_bit _ _ hx8] at h
    omega
  · cases hbx : (bf.getD (x / 8) 0).testBit (x % 8)
    · simp only [if_true]
      rw [Nat.mod_eq_of_lt hc]
      simp
    · simp
  · intro p
    by_cases hp : x / 8 = p / 8
    · rw [← hp, getD_set_eq _ _ _ (by omega), Nat.testBit_or, Nat.testBit_two_pow]
      congr 1
      by_cases hpx : p = x
      · subst hpx; simp
      · have : ¬ (x % 8 = p % 8) := by omega
        simp [this, hpx]
    · rw [getD_set_ne _ _ _ _ hp]
      have : ¬ (p = x) := fun h => hp (by rw [h])
      simp [this]

theorem or_bit_self (y b : Nat) (h : y.testBit b = true) : y ||| 2 ^ b = y := by
  apply Nat.eq_of_testBit_eq
  intro i
  rw [Nat.testBit_or, Nat.testBit_two_pow]
  by_cases hi : b = i
  · subst hi; simp [h]
  · simp [hi]

theorem set_getD_self (l : List Nat) (k : Nat) : l.set k (l.getD k 0) = l := by
  apply List.ext_getElem?
  intro j
  rw [List.getElem?_set]
  by_cases hkj : k = j
  · subst hkj
    by_cases hk : k < l.length
    · simp [hk, List.getD_eq_getElem?_getD, List.getElem?_eq_getElem hk]
    · simp [hk, List.getElem?_eq_none (Nat.le_of_not_lt hk)]
  · simp [hkj]

theorem set_pos_id (bf : List Nat) (c x : Nat) (h : bf_bit bf x = true) :
    set_pos (bf, c) x = (bf, c) := by
  rw [bf_bit_eq] at h
  have hk : x >>> 3 = x / 8 := by rw [Nat.shiftRight_eq_div_pow]
  have hz : ¬ ((bf.getD (x / 8) 0).testBit (x % 8) = false) := by rw [h]; decide
  simp only [set_pos, hk, BITS_getD, and_two_pow_eq_zero, or_bit_self _ _ h, set_getD_self,
    if_neg hz]

theorem fold_set_pos_spec (xs : List Nat) (hx : ∀ x ∈ xs, x < 2048) (bf : List Nat) (c : Nat)
    (hl : 256 ≤ bf.length) (hb : ∀ y ∈ bf, y < 256) (hc : c + xs.length < U32) :
    (xs.foldl set_pos (bf, c)).1.length = bf.length
    ∧ (∀ y ∈ (xs.foldl set_pos (bf, c)).1, y < 256)
    ∧ popcount_bytes (xs.foldl set_pos (bf, c)).1 256 + c
        = popcount_bytes bf 256 + (xs.foldl set_pos (bf, c)).2
    ∧ ∀ p, bf_bit (xs.foldl set_pos (bf, c)).1 p = (bf_bit bf p || decide (p ∈ xs)) := by
  induction xs generalizing bf c with
  | nil => exact ⟨rfl, hb, rfl, by simp⟩
  | cons x xs ih =>
    simp only [List.length_cons] at hc
    obtain ⟨s1, s2, s3, s4, s5⟩ :=
      set_pos_spec bf c x hl hb (hx x (List.mem_cons_self _ _)) (by omega)
    have hc2 : (set_pos (bf, c) x).2 + xs.length < U32 := by
      rw [s4]; split <;> omega
    obtain ⟨i1, i2, i3, i4⟩ := ih (fun y hy => hx y (List.mem_cons_of_mem _ hy))
      (set_pos (bf, c) x).1 (set_pos (bf, c) x).2 (by omega) s2 hc2
    have e : ((set_pos (bf, c) x).1, (set_pos (bf, c) x).2) = set_pos (bf, c) x := rfl
    rw [e] at i1 i2 i3 i4
    simp only [List.foldl_cons]
    refine ⟨by omega, i2, ?_, ?_⟩
    · rw [s3, s4] at i3
      omega
    · intro p
      rw [i4 p, s5 p]
      by_cases h1 : p = x <;> by_cases h2 : p ∈ xs <;> simp [h1, h2]

theorem fold_set_pos_id (xs : List Nat) (bf : List Nat) (c : Nat)
    (h : ∀ x ∈ xs, bf_bit bf x = true) : xs.foldl set_pos (bf, c) = (bf, c) := by
  induction xs with
  | nil => rfl
  | cons x xs ih =>
    rw [List.foldl_cons, set_pos_id bf c x (h x (List.mem_cons_self _ _))]
    exact ih (fun y hy => h y (List.mem_cons_of_mem _ hy))

theorem masked_lt (x : Nat) : x &&& 0x7FF < 2048 := by
  have h : x &&& 0x7FF = x % 2 ^ 11 := Nat.and_pow_two_sub_one_eq_mod x 11
  rw [h]
  exact Nat.mod_lt _ (by decide)

theorem length_five (h : List Nat) (hh : h.length = 5) :
    ∃ a b d e g, h = [a, b, d, e, g] := by
  match h, hh with
  | [a, b, d, e, g], _ => exact ⟨a, b, d, e, g, rfl⟩

theorem masked_five_lt (a b d e g : Nat) :
    ∀ x ∈ [a &&& 0x7FF, b &&& 0x7FF, d &&& 0x7FF, e &&& 0x7FF, g &&& 0x7FF], x < 2048 := by
  intro x hx
  simp only [List.mem_cons, List.mem_singleton, List.not_mem_nil, or_false] at hx
  rcases hx with h | h | h | h | h <;> rw [h] <;> exact masked_lt _

/-- Claim C3. For every 256-byte filter `bf` and five-word hash `h`, `bf_sha1_insert bf 0 h`
returns the number of filter bits that were clear before and are set after the call
(the growth of the filter's population count); a bit is set afterwards exactly when it was
set before or it is one of the positions `h[i] & 0x7FF` (byte `>> 3`, bit `& 7`); and the
insertion of `(0, 0x7FF, 0, 0, 0)` into the empty filter sets bit 0 of byte 0 and bit 7 of
byte `0xFF` and returns 2. -/
theorem bf_sha1_insert_count (bf h : List Nat) (hbf : IsBytes bf 256) (hh : h.length = 5) :
    (bf_sha1_insert bf 0 h).insert_cnt
        = popcount_bytes (bf_sha1_insert bf 0 h).bf 256 - popcount_bytes bf 256
    ∧ popcount_bytes bf 256 ≤ popcount_bytes (bf_sha1_insert bf 0 h).bf 256
    ∧ (bf_sha1_insert bf 0 h).bf.length = bf.length
    ∧ (∀ p, bf_bit (bf_sha1_insert bf 0 h).bf p = true
          ↔ (bf_bit bf p = true ∨ ∃ i, i < 5 ∧ p = h.getD i 0 &&& 0x7FF))
    ∧ (bf_sha1_insert (List.replicate 256 0) 0 [0, 0x7FF, 0, 0, 0]).insert_cnt = 2
    ∧ (bf_sha1_insert (List.replicate 256 0) 0 [0, 0x7FF, 0, 0, 0]).bf.getD 0 0 = 0x01
    ∧ (bf_sha1_insert (List.replicate 256 0) 0 [0, 0x7FF, 0, 0, 0]).bf.getD 0xFF 0 = 0x80 := by
  obtain ⟨a, b, d, e, g, rfl⟩ := length_five h hh
  have hm : BF_CLASS_MASKS.getD 0 0 = 0x7FF := rfl
  rw [bf_sha1_insert_five]
  simp only [hm]
  obtain ⟨f1, _, f3, f4⟩ := fold_set_pos_spec _ (masked_five_lt a b d e g) bf 0 hbf.1 hbf.2
    (by unfold U32; simp)
  refine ⟨by omega, by omega, f1, ?_, by decide, by decide, by decide⟩
  intro p
  rw [f4 p]
  simp only [Bool.or_eq_true, decide_eq_true_eq, List.mem_cons, List.mem_singleton,
    List.not_mem_nil, or_false]
  constructor
  · rintro (h | h | h | h | h | h)
    · exact Or.inl h
    · exact Or.inr ⟨0, by omega, h⟩
    · exact Or.inr ⟨1, by omega, h⟩
    · exact Or.inr ⟨2, by omega, h⟩
    · exact Or.inr ⟨3, by omega, h⟩
    · exact Or.inr ⟨4, by omega, h⟩
  · rintro (h | ⟨i, hi, h⟩)
    · exact Or.inl h
    · right
      interval_cases i
      · exact Or.inl h
      · exact Or.inr (Or.inl h)
      · exact Or.inr (Or.inr (Or.inl h))
      · exact Or.inr (Or.inr (Or.inr (Or.inl h)))
      · exact Or.inr (Or.inr (Or.inr (Or.inr h)))

/-- Claim C4. Insertion is idempotent: after `bf_sha1_insert bf 0 h`, inserting the same
hash again (the words as given, or as left masked in place by the first call) into the
resulting filter returns 0 and leaves the filter bytes unchanged. -/
theorem bf_sha1_insert_idempotent (bf h : List Nat) (hbf : IsBytes bf 256)
    (hh : h.length = 5) :
    (bf_sha1_insert (bf_sha1_insert bf 0 h).bf 0 h).insert_cnt = 0
    ∧ (bf_sha1_insert (bf_sha1_insert bf 0 h).bf 0 h).bf = (bf_sha1_insert bf 0 h).bf
    ∧ (bf_sha1_insert (bf_sha1_insert bf 0 h).bf 0 (bf_sha1_insert bf 0 h).sha1_hash).insert_cnt
        = 0
    ∧ (bf_sha1_insert (bf_sha1_insert bf 0 h).bf 0 (bf_sha1_insert bf 0 h).sha1_hash).bf
        = (bf_sha1_insert bf 0 h).bf := by
  obtain ⟨a, b, d, e, g, rfl⟩ := length_five h hh
  have hm : BF_CLASS_MASKS.getD 0 0 = 0x7FF := rfl
  have hidem : ∀ x : Nat, x &&& 0x7FF &&& 0x7FF = x &&& 0x7FF := by
    intro x; rw [Nat.and_assoc, Nat.and_self]
  simp only [bf_sha1_insert_five, hm, hidem]
  obtain ⟨_, _, _, f4⟩ := fold_set_pos_spec _ (masked_five_lt a b d e g) bf 0 hbf.1 hbf.2
    (by unfold U32; simp)
  have hid := fold_set_pos_id [a &&& 0x7FF, b &&& 0x7FF, d &&& 0x7FF, e &&& 0x7FF, g &&& 0x7FF]
    (List.foldl set_pos (bf, 0)
      [a &&& 0x7FF, b &&& 0x7FF, d &&& 0x7FF, e &&& 0x7FF, g &&& 0x7FF]).1 0
    (by
      intro x hx
      rw [f4 x]
      simp [hx])
  rw [hid]
  exact ⟨rfl, rfl, rfl, rfl⟩

/-! ### Hamming weights -/

theorem getD_drop (l : List Nat) (a k : Nat) : (l.drop a).getD k 0 = l.getD (a + k) 0 := by
  rw [List.getD_eq_getElem?_getD, List.getD_eq_getElem?_getD, List.getElem?_drop]

theorem mem_drop_lt (l : List Nat) (h : ∀ x ∈ l, x < 256) (a : Nat) :
    ∀ x ∈ l.drop a, x < 256 :=
  fun x hx => h x (List.mem_of_mem_drop hx)

theorem bit_count_load16 (p : List Nat) (h : ∀ x ∈ p, x < 256) (j : Nat) :
    bit_count_16 (load16 p j) = popcount 8 (p.getD (2 * j) 0) + popcount 8 (p.getD (2 * j + 1) 0) := by
  rw [bit_count_16_eq]
  have hb : ∀ b ∈ [p.getD (2 * j) 0, p.getD (2 * j + 1) 0], b < 256 := by
    intro b hb
    simp only [List.mem_cons, List.mem_singleton, List.not_mem_nil, or_false] at hb
    rcases hb with h1 | h1 <;> rw [h1] <;> exact getD_lt_256 p h _
  apply popcount_16_split
  · intro b hb8
    unfold load16
    rw [testBit_le_word _ hb]
    have e1 : b / 8 = 0 := by omega
    have e2 : b % 8 = b := by omega
    rw [e1, e2]; rfl
  · intro b hb8
    unfold load16
    rw [testBit_le_word _ hb]
    have e1 : (8 + b) / 8 = 1 := by omega
    have e2 : (8 + b) % 8 = b := by omega
    rw [e1, e2]; rfl

theorem popcount_bytes_le (f : List Nat) (n : Nat) : popcount_bytes f n ≤ 8 * n := by
  induction n with
  | zero => simp [popcount_bytes]
  | succ n ih =>
    rw [popcount_bytes_succ]
    have := popcount_le 8 (f.getD n 0)
    omega

theorem hamming_loop (buf : List Nat) (h : ∀ x ∈ buf, x < 256) (base n : Nat)
    (hn : 16 * n < U16) :
    (List.range n).foldl
        (fun acc j => (acc + bit_count_16 (load16 buf (base + j))) % U16) 0
      = popcount_bytes (buf.drop (2 * base)) (2 * n) := by
  induction n with
  | zero => simp [popcount_bytes]
  | succ n ih =>
    rw [List.range_succ, List.foldl_append, ih (by omega)]
    simp only [List.foldl_cons, List.foldl_nil]
    rw [bit_count_load16 buf h]
    have e : 2 * (n + 1) = 2 * n + 1 + 1 := by omega
    have hle := popcount_bytes_le (buf.drop (2 * base)) (2 * (n + 1))
    rw [e, popcount_bytes_succ, popcount_bytes_succ, getD_drop, getD_drop] at *
    have e1 : 2 * (base + n) = 2 * base + 2 * n := by omega
    have e2 : 2 * base + 2 * n + 1 = 2 * base + (2 * n + 1) := by omega
    rw [e1, e2]
    rw [Nat.mod_eq_of_lt (by omega)]
    omega

theorem foldl_congr_mem {α β : Type} (f g : α → β → α) (l : List β)
    (h : ∀ a b, b ∈ l → f a b = g a b) (a : α) : l.foldl f a = l.foldl g a := by
  induction l generalizing a with
  | nil => rfl
  | cons b l ih =>
    rw [List.foldl_cons, List.foldl_cons, h a b (List.mem_cons_self _ _)]
    exact ih (fun a' b' hb' => h a' b' (List.mem_cons_of_mem _ hb')) _

theorem hamming_at_compute (d : sdbf_t) (h : ∀ x ∈ d.buffer, x < 256) (i : Nat)
    (hi : i < d.bf_count) (hc : d.bf_count ≤ 2 ^ 25) :
    hamming_at (compute_hamming d) i = popcount_bytes (d.buffer.drop (i * 256)) 256 := by
  unfold hamming_at compute_hamming
  simp only [Option.getD_some]
  rw [List.getD_eq_getElem?_getD, List.getElem?_map, List.getElem?_range hi]
  simp only [Option.map_some', Option.getD_some]
  rw [foldl_congr_mem
    (fun h j => (h + bit_count_16 (load16 d.buffer ((i * (BF_SIZE / 2) + j) % U32))) % U16)
    (fun h j => (h + bit_count_16 (load16 d.buffer (i * (BF_SIZE / 2) + j))) % U16)
    (List.range (BF_SIZE / 2))
    (fun a b hb => by
      have hb2 : b < 128 := List.mem_range.1 hb
      have e : (i * (BF_SIZE / 2) + b) % U32 = i * (BF_SIZE / 2) + b :=
        Nat.mod_eq_of_lt (by
          have h25 : (2 : Nat) ^ 25 = 33554432 := rfl
          rw [h25] at hc
          unfold BF_SIZE U32; omega)
      simp only [e])]
  have hl := hamming_loop d.buffer h (i * (BF_SIZE / 2)) (BF_SIZE / 2)
    (by unfold BF_SIZE U16; norm_num)
  have e1 : 2 * (i * (BF_SIZE / 2)) = i * 256 := by unfold BF_SIZE; omega
  have e2 : 2 * (BF_SIZE / 2) = 256 := by unfold BF_SIZE; norm_num
  rw [e1, e2] at hl
  exact hl

theorem hammingOK_compute (d : sdbf_t) (h : ∀ x ∈ d.buffer, x < 256)
    (h25 : d.bf_count ≤ 2 ^ 25) : HammingOK (compute_hamming d) := by
  intro i hi
  have hb : (compute_hamming d).buffer = d.buffer := rfl
  have hc : (compute_hamming d).bf_count = d.bf_count := rfl
  rw [hb]
  exact hamming_at_compute d h i (by rw [← hc]; exact hi) h25

theorem popcount_and_le_left (a b : Nat) : popcount 8 (a &&& b) ≤ popcount 8 a := by
  unfold popcount
  apply List.countP_mono_left
  intro x _ hx
  rw [Nat.testBit_and] at hx
  simp only [Bool.and_eq_true] at hx
  exact hx.1

theorem popcount_and_le_right (a b : Nat) : popcount 8 (a &&& b) ≤ popcount 8 b := by
  rw [Nat.land_comm]; exact popcount_and_le_left b a

theorem popcount_and_le_bytes (f1 f2 : List Nat) (n : Nat) :
    popcount_and f1 f2 n ≤ popcount_bytes f1 n ∧ popcount_and f1 f2 n ≤ popcount_bytes f2 n := by
  induction n with
  | zero => simp [popcount_and, popcount_bytes]
  | succ n ih =>
    rw [popcount_and_succ, popcount_bytes_succ, popcount_bytes_succ]
    have h1 := popcount_and_le_left (f1.getD n 0) (f2.getD n 0)
    have h2 := popcount_and_le_right (f1.getD n 0) (f2.getD n 0)
    omega

/-! ### Bounds on the scores -/

theorem usub32_eq (a b : Nat) (hb : b ≤ a) (ha : a < U32) : usub32 a b = a - b := by
  unfold usub32
  have h1 : a % U32 = a := Nat.mod_eq_of_lt ha
  have h2 : b % U32 = b := Nat.mod_eq_of_lt (by omega)
  rw [h1, h2]
  have h3 : a + U32 - b = (a - b) + U32 := by omega
  rw [h3, Nat.add_mod_right]
  exact Nat.mod_eq_of_lt (by omega)

theorem rnd_one (fm : FloatModel) (hfm : fm.Sound) : fm.rnd 1 = 1 := by
  have h := hfm.2 1 (by norm_num)
  simpa using h

theorem rnd_zero (fm : FloatModel) (hfm : fm.Sound) : fm.rnd 0 = 0 := by
  have h := hfm.2 0 (by norm_num)
  simpa using h

theorem rnd_nat (fm : FloatModel) (hfm : fm.Sound) (n : Nat) (hn : n ≤ 2 ^ 53) :
    fm.rnd (n : ℚ) = (n : ℚ) := by
  have h := hfm.2 (n : Int) (by rw [abs_of_nonneg (by positivity)]; exact_mod_cast hn)
  simpa using h

theorem rnd_ratio_le_one (fm : FloatModel) (hfm : fm.Sound) (a b : Nat) (hab : a ≤ b)
    (hb : 0 < b) : fm.rnd ((a : ℚ) / (b : ℚ)) ≤ 1 := by
  have h1 : (a : ℚ) / (b : ℚ) ≤ 1 := by
    rw [div_le_one (by exact_mod_cast hb)]
    exact_mod_cast hab
  have h2 := hfm.1 _ _ h1
  rwa [rnd_one fm hfm] at h2

/-- The overlap found by the two calls of `bf_bitcount_cut_256` in `sdbf_max_score` is at
most the number of set bits of either filter. -/
theorem match_le (bf_1 bf_2 : List Nat) (h1 : ∀ x ∈ bf_1, x < 256) (h2 : ∀ x ∈ bf_2, x < 256)
    (cut_off : Nat) :
    (if bf_bitcount_cut_256 bf_1 bf_2 cut_off 48 > 0 then bf_bitcount_cut_256 bf_1 bf_2 0 0
      else bf_bitcount_cut_256 bf_1 bf_2 cut_off 48) ≤ popcount_bytes bf_1 256
    ∧ (if bf_bitcount_cut_256 bf_1 bf_2 cut_off 48 > 0 then bf_bitcount_cut_256 bf_1 bf_2 0 0
      else bf_bitcount_cut_256 bf_1 bf_2 cut_off 48) ≤ popcount_bytes bf_2 256 := by
  have hz : bf_bitcount_cut_256 bf_1 bf_2 0 0 = popcount_and bf_1 bf_2 256 := by
    rw [bf_bitcount_cut_256_unfold bf_1 bf_2 h1 h2]
    simp
  have hle := popcount_and_le_bytes bf_1 bf_2 256
  split
  · rw [hz]; exact hle
  · omega

/-- One turn of the loop of `sdbf_max_score` keeps `max_score ≤ 1` when the two filters
lie at offsets that fit `uint32_t` and their Hamming weights are their population counts. -/
theorem step_le_one_at (fm : FloatModel) (hfm : fm.Sound) (task : sdbf_task_t) (s1 : Nat)
    (st : ℚ × EstCache) (i : Nat) (hsz : task.ref_sdbf.bf_size = 256)
    (hb1 : ∀ x ∈ task.ref_sdbf.buffer, x < 256) (hb2 : ∀ x ∈ task.tgt_sdbf.buffer, x < 256)
    (he1 : hamming_at task.ref_sdbf task.ref_index
      = popcount_bytes (task.ref_sdbf.buffer.drop (task.ref_index * 256)) 256)
    (he2 : hamming_at task.tgt_sdbf i
      = popcount_bytes (task.tgt_sdbf.buffer.drop (i * 256)) 256)
    (hr32 : 256 * task.ref_index < U32) (hi32 : 256 * i < U32)
    (hst : st.1 ≤ 1) : (sdbf_max_score_step fm task s1 st i).1 ≤ 1 := by
  unfold sdbf_max_score_step
  simp only [hsz]
  have eo1 : task.ref_index * 256 % U32 = task.ref_index * 256 :=
    Nat.mod_eq_of_lt (by omega)
  have eo2 : i * 256 % U32 = i * 256 := Nat.mod_eq_of_lt (by omega)
  rw [eo1, eo2]
  split
  · exact hst
  · rw [he1, he2]
    generalize (bf_match_est fm st.2 (8 * 256 % U32) task.ref_sdbf.hash_count s1
      (toU32 (get_elem_count task.tgt_sdbf i)) 0).1 = min_est
    set e1 := popcount_bytes (List.drop (task.ref_index * 256) task.ref_sdbf.buffer) 256
      with he1
    set e2 := popcount_bytes (List.drop (i * 256) task.tgt_sdbf.buffer) 256 with he2
    generalize hmx : (if e1 < e2 then e1 else e2) = max_est
    generalize toU32 (c_lround (fm.rnd (fm.rnd (fm.rnd (3 / 10)
      * (usub32 max_est min_est : ℚ)) + (min_est : ℚ)))) = cut_off
    obtain ⟨m1, m2⟩ := match_le (List.drop (task.ref_index * 256) task.ref_sdbf.buffer)
      (List.drop (i * 256) task.tgt_sdbf.buffer) (mem_drop_lt _ hb1 _) (mem_drop_lt _ hb2 _)
      cut_off
    generalize (if bf_bitcount_cut_256 (List.drop (task.ref_index * 256) task.ref_sdbf.buffer)
      (List.drop (i * 256) task.tgt_sdbf.buffer) cut_off 48 > 0
      then bf_bitcount_cut_256 (List.drop (task.ref_index * 256) task.ref_sdbf.buffer)
        (List.drop (i * 256) task.tgt_sdbf.buffer) 0 0
      else bf_bitcount_cut_256 (List.drop (task.ref_index * 256) task.ref_sdbf.buffer)
        (List.drop (i * 256) task.tgt_sdbf.buffer) cut_off 48) = mtch at m1 m2
    have hmax : mtch ≤ max_est := by
      rw [← hmx]; split <;> omega
    have hE : max_est < U32 := by
      have := popcount_bytes_le (List.drop (task.ref_index * 256) task.ref_sdbf.buffer) 256
      have : max_est ≤ e1 := by rw [← hmx]; split <;> omega
      unfold U32; omega
    have hscore : (if mtch ≤ cut_off then (0 : ℚ)
        else fm.rnd ((usub32 mtch cut_off : ℚ) / (usub32 max_est cut_off : ℚ))) ≤ 1 := by
      split
      · norm_num
      · rw [usub32_eq mtch cut_off (by omega) (by omega),
          usub32_eq max_est cut_off (by omega) hE]
        exact rnd_ratio_le_one fm hfm _ _ (by omega) (by omega)
    generalize (if mtch ≤ cut_off then (0 : ℚ)
        else fm.rnd ((usub32 mtch cut_off : ℚ) / (usub32 max_est cut_off : ℚ))) = score
      at hscore
    simp only []
    split
    · exact hscore
    · exact hst

theorem step_le_one (fm : FloatModel) (hfm : fm.Sound) (task : sdbf_task_t) (s1 : Nat)
    (st : ℚ × EstCache) (i : Nat) (ht : TaskOK task) (hi : i < task.tgt_sdbf.bf_count)
    (hst : st.1 ≤ 1) : (sdbf_max_score_step fm task s1 st i).1 ≤ 1 := by
  obtain ⟨hsz, hb1, hb2, hh1, hh2, hri, hw1, hw2⟩ := ht
  exact step_le_one_at fm hfm task s1 st i hsz hb1 hb2 (hh1 _ hri) (hh2 _ hi) (by omega)
    (by omega) hst

theorem foldl_invariant {α β : Type} (P : α → Prop) (f : α → β → α) (l : List β) (a : α)
    (h0 : P a) (hs : ∀ a b, b ∈ l → P a → P (f a b)) : P (l.foldl f a) := by
  induction l generalizing a with
  | nil => exact h0
  | cons b l ih =>
    rw [List.foldl_cons]
    exact ih (f a b) (hs a b (List.mem_cons_self _ _) h0)
      (fun a' b' hb' => hs a' b' (List.mem_cons_of_mem _ hb'))

theorem mem_target_indices (tid tcount comp_cnt i : Nat) :
    i ∈ target_indices tid tcount comp_cnt
      ↔ i < comp_cnt ∧ tid ≤ i ∧ (i - tid) % tcount = 0 := by
  unfold target_indices
  simp [List.mem_filter]

theorem max_score_le_one (fm : FloatModel) (hfm : fm.Sound) (st : CmpState)
    (task : sdbf_task_t) (ht : TaskOK task) (hst : ∀ t, st.result t ≤ 1) :
    (sdbf_max_score fm st task).1 ≤ 1 ∧ ∀ t, (sdbf_max_score fm st task).2.result t ≤ 1 := by
  unfold sdbf_max_score
  simp only []
  split
  · exact ⟨by norm_num, hst⟩
  · have h := foldl_invariant (fun (s : ℚ × EstCache) => s.1 ≤ 1)
      (sdbf_max_score_step fm task (toU32 (get_elem_count task.ref_sdbf task.ref_index)))
      (target_indices task.tid task.tcount task.tgt_sdbf.bf_count) (-1, st.cache)
      (by norm_num)
      (fun a b hb ha => step_le_one fm hfm task _ a b ht
        ((mem_target_indices _ _ _ _).1 hb).1 ha)
    refine ⟨h, ?_⟩
    intro t
    simp only []
    split
    · exact h
    · exact hst t

theorem score_max_le_one (fm : FloatModel) (hfm : fm.Sound) (thread_cnt : Nat)
    (ref tgt : sdbf_t) (hp : PairOK ref tgt) (st : CmpState) (i : Nat) (hi : i < ref.bf_count)
    (hst : ∀ t, st.result t ≤ 1) :
    (sdbf_score_max fm thread_cnt ref tgt st i).1 ≤ 1
    ∧ ∀ t, (sdbf_score_max fm thread_cnt ref tgt st i).2.result t ≤ 1 := by
  have htask : ∀ t, TaskOK (sdbf_task_t.mk t thread_cnt ref i tgt) :=
    fun t => ⟨hp.1, hp.2.1, hp.2.2.1, hp.2.2.2.1, hp.2.2.2.2.1, hi, hp.2.2.2.2.2⟩
  unfold sdbf_score_max
  split
  · exact max_score_le_one fm hfm st _ (htask 0) hst
  · have h1 := foldl_invariant (fun (s : CmpState) => ∀ t, s.result t ≤ 1)
      (fun (s : CmpState) t => (sdbf_max_score fm s
        { tid := t, tcount := thread_cnt, ref_sdbf := ref, ref_index := i,
          tgt_sdbf := tgt }).2)
      (List.range thread_cnt) st hst
      (fun a b _ ha => (max_score_le_one fm hfm a _ (htask b) ha).2)
    refine ⟨?_, h1⟩
    simp only []
    apply foldl_invariant (fun (m : ℚ) => m ≤ 1)
    · exact h1 0
    · intro a b _ ha
      split
      · exact h1 b
      · exact ha

theorem score_sum_le (fm : FloatModel) (hfm : fm.Sound) (thread_cnt : Nat)
    (ref tgt : sdbf_t) (hp : PairOK ref tgt) (hc : ref.bf_count < U32) (st : CmpState)
    (hst : ∀ t, st.result t ≤ 1) :
    (sdbf_score_sum fm thread_cnt ref tgt st).1 ≤ (ref.bf_count : ℚ)
    ∧ ∀ t, (sdbf_score_sum fm thread_cnt ref tgt st).2.result t ≤ 1 := by
  unfold sdbf_score_sum
  have key : ∀ n, n ≤ ref.bf_count →
      ((List.range n).foldl
        (fun (acc : ℚ × CmpState) i =>
          ((if acc.1 < 0 then (sdbf_score_max fm thread_cnt ref tgt acc.2 i).1
            else fm.rnd (acc.1 + (sdbf_score_max fm thread_cnt ref tgt acc.2 i).1)),
           (sdbf_score_max fm thread_cnt ref tgt acc.2 i).2)) (-1, st)).1 ≤ (n : ℚ)
      ∧ ∀ t, ((List.range n).foldl
        (fun (acc : ℚ × CmpState) i =>
          ((if acc.1 < 0 then (sdbf_score_max fm thread_cnt ref tgt acc.2 i).1
            else fm.rnd (acc.1 + (sdbf_score_max fm thread_cnt ref tgt acc.2 i).1)),
           (sdbf_score_max fm thread_cnt ref tgt acc.2 i).2)) (-1, st)).2.result t ≤ 1 := by
    intro n
    induction n with
    | zero =>
      intro _
      exact ⟨by norm_num, hst⟩
    | succ n ih =>
      intro hn
      obtain ⟨i1, i2⟩ := ih (by omega)
      rw [List.range_succ, List.foldl_append]
      simp only [List.foldl_cons, List.foldl_nil]
      obtain ⟨m1, m2⟩ := score_max_le_one fm hfm thread_cnt ref tgt hp _ n (by omega) i2
      refine ⟨?_, m2⟩
      split
      · have : (1 : ℚ) ≤ ((n + 1 : Nat) : ℚ) := by exact_mod_cast Nat.le_add_left 1 n
        exact le_trans m1 this
      · have hle := hfm.1 _ _ (add_le_add i1 m1)
        have hcast : ((n : ℚ) + 1) = ((n + 1 : Nat) : ℚ) := by push_cast; ring
        rw [hcast, rnd_nat fm hfm (n + 1) (by unfold U32 at hc; omega)] at hle
        exact hle
  exact key ref.bf_count (le_refl _)

theorem c_lround_range (x : ℚ) (h0 : 0 ≤ x) (h1 : x ≤ 100) :
    0 ≤ c_lround x ∧ c_lround x ≤ 100 := by
  unfold c_lround
  rw [if_pos h0]
  have e : Rat.floor (x + 1 / 2) = ⌊x + 1 / 2⌋ := rfl
  rw [e]
  constructor
  · apply Int.floor_nonneg.2
    linarith
  · have : ⌊x + 1 / 2⌋ < 101 := by
      rw [Int.floor_lt]
      push_cast
      linarith
    omega

theorem with_hamming_ok (d : sdbf_t) (h : WellFormed d) :
    (with_hamming d).bf_size = 256 ∧ (with_hamming d).bf_count = d.bf_count
    ∧ (with_hamming d).buffer = d.buffer ∧ HammingOK (with_hamming d) := by
  obtain ⟨h1, h2, h3, h4, _⟩ := h
  unfold with_hamming
  split
  · exact ⟨h1, rfl, rfl, hammingOK_compute d h3.2 (by
      have h25 : (2 : Nat) ^ 25 = 33554432 := rfl
      rw [h25]; unfold U32 at h2; omega)⟩
  · exact ⟨h1, rfl, rfl, h4 (by assumption)⟩

theorem order_cases (a b : sdbf_t) :
    sdbf_score_order a b = (b, a, 1) ∨ sdbf_score_order a b = (a, b, 0) := by
  unfold sdbf_score_order
  split
  · exact Or.inl rfl
  · exact Or.inr rfl

theorem pairOK_of_wf (a b : sdbf_t) (ha : WellFormed a) (hb : WellFormed b) :
    PairOK (with_hamming a) (with_hamming b) := by
  obtain ⟨a1, a2, a3, a4⟩ := with_hamming_ok a ha
  obtain ⟨_, b2, b3, b4⟩ := with_hamming_ok b hb
  refine ⟨a1, ?_, ?_, a4, b4, ?_, ?_⟩
  · rw [a3]; exact ha.2.2.1.2
  · rw [b3]; exact hb.2.2.1.2
  · rw [a2]; exact ha.2.1
  · rw [b2]; exact hb.2.1

theorem final_score_range (fm : FloatModel) (hfm : fm.Sound) (s : ℚ) (n : Nat)
    (hs : s ≤ (n : ℚ)) (hn : n < U32) :
    -1 ≤ (if s < 0 then (-1 : Int) else c_lround (fm.rnd (fm.rnd (100 * s) / (n : ℚ))))
    ∧ (if s < 0 then (-1 : Int) else c_lround (fm.rnd (fm.rnd (100 * s) / (n : ℚ)))) ≤ 100 := by
  split
  · constructor <;> norm_num
  · rename_i h0
    have h0 : 0 ≤ s := not_lt.1 h0
    have hx0 : 0 ≤ fm.rnd (100 * s) := by
      have := hfm.1 0 (100 * s) (by linarith)
      rwa [rnd_zero fm hfm] at this
    have hx1 : fm.rnd (100 * s) ≤ 100 * (n : ℚ) := by
      have := hfm.1 (100 * s) ((100 * n : Nat) : ℚ) (by push_cast; linarith)
      rw [rnd_nat fm hfm (100 * n) (by unfold U32 at hn; omega)] at this
      push_cast at this
      exact this
    have hy0 : 0 ≤ fm.rnd (100 * s) / (n : ℚ) := div_nonneg hx0 (by positivity)
    have hy1 : fm.rnd (100 * s) / (n : ℚ) ≤ 100 := by
      rcases Nat.eq_zero_or_pos n with hz | hp
      · subst hz; simp
      · rw [div_le_iff₀ (by exact_mod_cast hp)]
        exact hx1
    have hz0 : 0 ≤ fm.rnd (fm.rnd (100 * s) / (n : ℚ)) := by
      have := hfm.1 _ _ hy0
      rwa [rnd_zero fm hfm] at this
    have hz1 : fm.rnd (fm.rnd (100 * s) / (n : ℚ)) ≤ 100 := by
      have := hfm.1 _ _ hy1
      have e := rnd_nat fm hfm 100 (by norm_num)
      push_cast at e
      rwa [e] at this
    have := c_lround_range _ hz0 hz1
    omega

/-- Claim C7, amended. For every pair of well-formed digests of fewer than 2^24 filters
each (256-byte filters, so that the byte offset `i*bf_size` of every filter fits the
`uint32_t` in which it is computed; Hamming weights equal to the population counts of the
filters, element counts at most 255), for every thread count and every comparator state
whose stored worker results are at most 1 (as in a fresh process, and as left by any
earlier comparison), `sdbf_score` returns an integer in `[-1, 100]`. The arithmetic is any
rounding that is monotone and exact on integers. -/
theorem sdbf_score_range (fm : FloatModel) (hfm : fm.Sound) (thread_cnt : Nat)
    (st : CmpState) (hst : ∀ t, st.result t ≤ 1) (a b : sdbf_t)
    (ha : WellFormed a) (hb : WellFormed b) :
    -1 ≤ (sdbf_score fm thread_cnt st a b).score
    ∧ (sdbf_score fm thread_cnt st a b).score ≤ 100
    ∧ ∀ t, (sdbf_score fm thread_cnt st a b).state.result t ≤ 1 := by
  have hab := pairOK_of_wf a b ha hb
  have hba := pairOK_of_wf b a hb ha
  have hca : (with_hamming a).bf_count < U32 := by
    rw [(with_hamming_ok a ha).2.1]; have := ha.2.1; omega
  have hcb : (with_hamming b).bf_count < U32 := by
    rw [(with_hamming_ok b hb).2.1]; have := hb.2.1; omega
  unfold sdbf_score
  simp only []
  rcases order_cases (with_hamming a) (with_hamming b) with ho | ho <;> rw [ho] <;> simp only []
  · obtain ⟨s1, s2⟩ := score_sum_le fm hfm thread_cnt _ _ hba hcb st hst
    obtain ⟨r1, r2⟩ := final_score_range fm hfm _ _ s1 hcb
    exact ⟨r1, r2, s2⟩
  · obtain ⟨s1, s2⟩ := score_sum_le fm hfm thread_cnt _ _ hab hca st hst
    obtain ⟨r1, r2⟩ := final_score_range fm hfm _ _ s1 hca
    exact ⟨r1, r2, s2⟩

/-! ### The estimate cache does not change the scores -/

theorem toU32_toI32_small (x : Nat) (hx : x ≤ 255) : toU32 (toI32 x) = x := by
  unfold toU32 toI32 U32
  have h1 : x % 2 ^ 32 = x := Nat.mod_eq_of_lt (by omega)
  rw [h1, if_pos (by omega)]
  omega

theorem elem_count_small (d : sdbf_t) (h : CountsOK d) (i : Nat) :
    toU32 (get_elem_count d i) ≤ 255 := by
  obtain ⟨h1, h2, h3⟩ := h
  unfold get_elem_count
  cases he : d.elem_counts with
  | none =>
    simp only []
    split
    · rw [toU32_toI32_small _ h1]; exact h1
    · rw [toU32_toI32_small _ h2]; exact h2
  | some ec =>
    simp only []
    have hx : ec.getD i 0 ≤ 255 := by
      by_cases hi : i < ec.length
      · rw [List.getD_eq_getElem _ _ hi]; exact h3 ec he _ (List.getElem_mem _)
      · rw [List.getD_eq_default _ _ (by omega)]; omega
    rw [toU32_toI32_small _ hx]; exact hx

theorem est_coherent (fm : FloatModel) (m k : Nat) (hs : EstSmall fm m k) (cache : EstCache)
    (hc : Coherent fm m k cache) (s1 s2 : Nat) (h1 : s1 < 256) (h2 : s2 < 256) :
    (bf_match_est fm cache m k s1 s2 0).1 = bf_match_est_formula fm m k s1 s2 0
    ∧ Coherent fm m k (bf_match_est fm cache m k s1 s2 0).2 := by
  unfold bf_match_est
  split
  · rename_i h
    exact ⟨hc s1 s2 h1 h2 h.2, hc⟩
  · refine ⟨rfl, ?_⟩
    intro a b ha hb hne
    simp only [] at hne ⊢
    split
    · rename_i hab
      rw [hab.1, hab.2]
      exact Nat.mod_eq_of_lt (hs s1 s2 h1 h2)
    · rename_i hab
      rw [if_neg hab] at hne
      exact hc a b ha hb hne

theorem step_coherent (fm : FloatModel) (task : sdbf_task_t) (s1 : Nat) (hs1 : s1 < 256)
    (hcnt : CountsOK task.tgt_sdbf)
    (hs : EstSmall fm ((8 * task.ref_sdbf.bf_size) % U32) task.ref_sdbf.hash_count)
    (x : ℚ) (c1 c2 : EstCache)
    (h1 : Coherent fm ((8 * task.ref_sdbf.bf_size) % U32) task.ref_sdbf.hash_count c1)
    (h2 : Coherent fm ((8 * task.ref_sdbf.bf_size) % U32) task.ref_sdbf.hash_count c2)
    (i : Nat) :
    (sdbf_max_score_step fm task s1 (x, c1) i).1 = (sdbf_max_score_step fm task s1 (x, c2) i).1
    ∧ Coherent fm ((8 * task.ref_sdbf.bf_size) % U32) task.ref_sdbf.hash_count
        (sdbf_max_score_step fm task s1 (x, c1) i).2
    ∧ Coherent fm ((8 * task.ref_sdbf.bf_size) % U32) task.ref_sdbf.hash_count
        (sdbf_max_score_step fm task s1 (x, c2) i).2 := by
  have hs2 : toU32 (get_elem_count task.tgt_sdbf i) < 256 := by
    have := elem_count_small task.tgt_sdbf hcnt i; omega
  obtain ⟨e1, k1⟩ := est_coherent fm _ _ hs c1 h1 s1 _ hs1 hs2
  obtain ⟨e2, k2⟩ := est_coherent fm _ _ hs c2 h2 s1 _ hs1 hs2
  unfold sdbf_max_score_step
  simp only []
  split
  · exact ⟨rfl, h1, h2⟩
  · rw [e1, e2]
    exact ⟨rfl, k1, k2⟩

theorem fold_coherent (fm : FloatModel) (task : sdbf_task_t) (s1 : Nat) (hs1 : s1 < 256)
    (hcnt : CountsOK task.tgt_sdbf)
    (hs : EstSmall fm ((8 * task.ref_sdbf.bf_size) % U32) task.ref_sdbf.hash_count)
    (l : List Nat) (x : ℚ) (c1 c2 : EstCache)
    (h1 : Coherent fm ((8 * task.ref_sdbf.bf_size) % U32) task.ref_sdbf.hash_count c1)
    (h2 : Coherent fm ((8 * task.ref_sdbf.bf_size) % U32) task.ref_sdbf.hash_count c2) :
    (l.foldl (sdbf_max_score_step fm task s1) (x, c1)).1
      = (l.foldl (sdbf_max_score_step fm task s1) (x, c2)).1
    ∧ Coherent fm ((8 * task.ref_sdbf.bf_size) % U32) task.ref_sdbf.hash_count
        (l.foldl (sdbf_max_score_step fm task s1) (x, c1)).2
    ∧ Coherent fm ((8 * task.ref_sdbf.bf_size) % U32) task.ref_sdbf.hash_count
        (l.foldl (sdbf_max_score_step fm task s1) (x, c2)).2 := by
  induction l generalizing x c1 c2 with
  | nil => exact ⟨rfl, h1, h2⟩
  | cons i l ih =>
    obtain ⟨e, k1, k2⟩ := step_coherent fm task s1 hs1 hcnt hs x c1 c2 h1 h2 i
    simp only [List.foldl_cons]
    have p1 : sdbf_max_score_step fm task s1 (x, c1) i
        = ((sdbf_max_score_step fm task s1 (x, c1) i).1,
           (sdbf_max_score_step fm task s1 (x, c1) i).2) := rfl
    have p2 : sdbf_max_score_step fm task s1 (x, c2) i
        = ((sdbf_max_score_step fm task s1 (x, c1) i).1,
           (sdbf_max_score_step fm task s1 (x, c2) i).2) := by rw [e]
    rw [p1, p2]
    exact ih _ _ _ k1 k2

theorem max_score_coherent (fm : FloatModel) (task : sdbf_task_t)
    (hr : CountsOK task.ref_sdbf) (hcnt : CountsOK task.tgt_sdbf)
    (hs : EstSmall fm ((8 * task.ref_sdbf.bf_size) % U32) task.ref_sdbf.hash_count)
    (st1 st2 : CmpState)
    (h1 : Coherent fm ((8 * task.ref_sdbf.bf_size) % U32) task.ref_sdbf.hash_count st1.cache)
    (h2 : Coherent fm ((8 * task.ref_sdbf.bf_size) % U32) task.ref_sdbf.hash_count st2.cache) :
    (sdbf_max_score fm st1 task).1 = (sdbf_max_score fm st2 task).1
    ∧ Coherent fm ((8 * task.ref_sdbf.bf_size) % U32) task.ref_sdbf.hash_count
        (sdbf_max_score fm st1 task).2.cache
    ∧ Coherent fm ((8 * task.ref_sdbf.bf_size) % U32) task.ref_sdbf.hash_count
        (sdbf_max_score fm st2 task).2.cache := by
  have hs1 : toU32 (get_elem_count task.ref_sdbf task.ref_index) < 256 := by
    have := elem_count_small task.ref_sdbf hr task.ref_index; omega
  unfold sdbf_max_score
  simp only []
  split
  · exact ⟨rfl, h1, h2⟩
  · exact fold_coherent fm task _ hs1 hcnt hs _ (-1) st1.cache st2.cache h1 h2

theorem score_sum_coherent (fm : FloatModel) (ref tgt : sdbf_t)
    (hr : CountsOK ref) (hcnt : CountsOK tgt)
    (hs : EstSmall fm ((8 * ref.bf_size) % U32) ref.hash_count) (st1 st2 : CmpState)
    (h1 : Coherent fm ((8 * ref.bf_size) % U32) ref.hash_count st1.cache)
    (h2 : Coherent fm ((8 * ref.bf_size) % U32) ref.hash_count st2.cache) :
    (sdbf_score_sum fm 1 ref tgt st1).1 = (sdbf_score_sum fm 1 ref tgt st2).1 := by
  unfold sdbf_score_sum
  have key : ∀ (l : List Nat) (x : ℚ) (s1 s2 : CmpState),
      Coherent fm ((8 * ref.bf_size) % U32) ref.hash_count s1.cache →
      Coherent fm ((8 * ref.bf_size) % U32) ref.hash_count s2.cache →
      (l.foldl (fun (acc : ℚ × CmpState) i =>
          ((if acc.1 < 0 then (sdbf_score_max fm 1 ref tgt acc.2 i).1
            else fm.rnd (acc.1 + (sdbf_score_max fm 1 ref tgt acc.2 i).1)),
           (sdbf_score_max fm 1 ref tgt acc.2 i).2)) (x, s1)).1
      = (l.foldl (fun (acc : ℚ × CmpState) i =>
          ((if acc.1 < 0 then (sdbf_score_max fm 1 ref tgt acc.2 i).1
            else fm.rnd (acc.1 + (sdbf_score_max fm 1 ref tgt acc.2 i).1)),
           (sdbf_score_max fm 1 ref tgt acc.2 i).2)) (x, s2)).1 := by
    intro l
    induction l with
    | nil => intro x s1 s2 _ _; rfl
    | cons i l ih =>
      intro x s1 s2 c1 c2
      simp only [List.foldl_cons]
      have hm : ∀ s : CmpState, sdbf_score_max fm 1 ref tgt s i
          = sdbf_max_score fm s (sdbf_task_t.mk 0 1 ref i tgt) := by
        intro s; unfold sdbf_score_max; simp
      obtain ⟨e, k1, k2⟩ := max_score_coherent fm (sdbf_task_t.mk 0 1 ref i tgt) hr hcnt hs
        s1 s2 c1 c2
      rw [hm s1, hm s2, e]
      exact ih _ _ _ k1 k2
  exact key _ _ _ _ h1 h2

/-! ### The exact arithmetic satisfies the hypotheses -/

theorem exactFloat_sound : exactFloat.Sound :=
  ⟨fun _ _ h => h, fun _ _ => rfl⟩

theorem toU32_small (z : Int) (h0 : 0 ≤ z) (h1 : z < 2 ^ 16) : toU32 z < U16 := by
  unfold toU32 U16
  omega

theorem estSmall_exact : EstSmall exactFloat 2048 5 := by
  intro s1 s2 h1 h2
  unfold bf_match_est_formula exactFloat
  simp only []
  have e1 : 5 * s1 % U32 = 5 * s1 := Nat.mod_eq_of_lt (by unfold U32; omega)
  have e2 : 5 * s2 % U32 = 5 * s2 := Nat.mod_eq_of_lt (by unfold U32; omega)
  have e3 : 5 * usub32 (s1 + s2) 0 % U32 = 5 * s1 + 5 * s2 := by
    rw [usub32_eq _ _ (Nat.zero_le _) (by unfold U32; omega)]
    rw [Nat.mod_eq_of_lt (by unfold U32; omega)]
    omega
  rw [e1, e2, e3]
  have hex0 : (0 : ℚ) ≤ 1 - 1 / ((2048 : Nat) : ℚ) := by norm_num
  have hex1 : (1 : ℚ) - 1 / ((2048 : Nat) : ℚ) ≤ 1 := by norm_num
  generalize (1 : ℚ) - 1 / ((2048 : Nat) : ℚ) = ex at hex0 hex1
  have hp0 : 0 ≤ ex ^ (5 * s1) := pow_nonneg hex0 _
  have hp1 : ex ^ (5 * s1) ≤ 1 := pow_le_one₀ hex0 hex1
  have hq0 : 0 ≤ ex ^ (5 * s2) := pow_nonneg hex0 _
  have hq1 : ex ^ (5 * s2) ≤ 1 := pow_le_one₀ hex0 hex1
  rw [pow_add]
  generalize ex ^ (5 * s1) = p at hp0 hp1
  generalize ex ^ (5 * s2) = q at hq0 hq1
  have hv : 1 - p - q + p * q = (1 - p) * (1 - q) := by ring
  rw [hv]
  have hv0 : 0 ≤ (1 - p) * (1 - q) := mul_nonneg (by linarith) (by linarith)
  have hv1 : (1 - p) * (1 - q) ≤ 1 := by nlinarith
  have hx0 : (0 : ℚ) ≤ ((2048 : Nat) : ℚ) * ((1 - p) * (1 - q)) := by positivity
  have hx1 : ((2048 : Nat) : ℚ) * ((1 - p) * (1 - q)) ≤ 2048 := by
    push_cast; nlinarith
  apply toU32_small
  · unfold c_lround
    rw [if_pos hx0]
    have e : Rat.floor (((2048 : Nat) : ℚ) * ((1 - p) * (1 - q)) + 1 / 2)
        = ⌊((2048 : Nat) : ℚ) * ((1 - p) * (1 - q)) + 1 / 2⌋ := rfl
    rw [e]
    apply Int.floor_nonneg.2
    linarith
  · unfold c_lround
    rw [if_pos hx0]
    have e : Rat.floor (((2048 : Nat) : ℚ) * ((1 - p) * (1 - q)) + 1 / 2)
        = ⌊((2048 : Nat) : ℚ) * ((1 - p) * (1 - q)) + 1 / 2⌋ := rfl
    rw [e, Int.floor_lt]
    push_cast
    linarith

theorem coherent_empty (fm : FloatModel) (m k : Nat) : Coherent fm m k empty_cache := by
  intro s1 s2 _ _ h
  exact absurd rfl h

/-! ### Canonical order and symmetry of `sdbf_score` -/

theorem with_hamming_fields (d : sdbf_t) :
    (with_hamming d).bf_size = d.bf_size ∧ (with_hamming d).hash_count = d.hash_count
    ∧ (with_hamming d).bf_count = d.bf_count ∧ (with_hamming d).name = d.name
    ∧ (with_hamming d).max_elem = d.max_elem ∧ (with_hamming d).last_count = d.last_count
    ∧ (with_hamming d).elem_counts = d.elem_counts := by
  unfold with_hamming
  split <;> exact ⟨rfl, rfl, rfl, rfl, rfl, rfl, rfl⟩

theorem countsOK_with_hamming (d : sdbf_t) (h : CountsOK d) : CountsOK (with_hamming d) := by
  obtain ⟨_, _, _, _, f5, f6, f7⟩ := with_hamming_fields d
  unfold CountsOK
  rw [f5, f6, f7]
  exact h

theorem final_score_congr (fm : FloatModel) (x y : ℚ × CmpState) (n : Nat) (h : x.1 = y.1) :
    (if x.1 < 0 then (-1 : Int) else c_lround (fm.rnd (fm.rnd (100 * x.1) / (n : ℚ))))
      = (if y.1 < 0 then (-1 : Int) else c_lround (fm.rnd (fm.rnd (100 * y.1) / (n : ℚ)))) := by
  rw [h]

/-- Claim C5, amended. When exactly one of the calls `sdbf_score(A, B)`, `sdbf_score(B, A)`
exchanges its arguments (their swap flags differ), both calls return the same score: the
sequential comparator, digests of equal filter size and hash count with element counts at
most 255, each call started from any estimate cache whose non-zero entries are estimates.
In each call the swap flag is 1 exactly when the call exchanged its two arguments. -/
theorem sdbf_score_symmetric (fm : FloatModel) (a b : sdbf_t) (st1 st2 : CmpState)
    (hsz : a.bf_size = b.bf_size) (hk : a.hash_count = b.hash_count)
    (ha : CountsOK a) (hb : CountsOK b)
    (hs : EstSmall fm ((8 * a.bf_size) % U32) a.hash_count)
    (h1 : Coherent fm ((8 * a.bf_size) % U32) a.hash_count st1.cache)
    (h2 : Coherent fm ((8 * a.bf_size) % U32) a.hash_count st2.cache)
    (hx : (sdbf_score fm 1 st1 a b).swap ≠ (sdbf_score fm 1 st2 b a).swap) :
    (sdbf_score fm 1 st1 a b).score = (sdbf_score fm 1 st2 b a).score
    ∧ (((sdbf_score fm 1 st1 a b).swap = 1
          ∧ sdbf_score_order (with_hamming a) (with_hamming b)
              = (with_hamming b, with_hamming a, 1))
        ∨ ((sdbf_score fm 1 st1 a b).swap = 0
          ∧ sdbf_score_order (with_hamming a) (with_hamming b)
              = (with_hamming a, with_hamming b, 0))) := by
  obtain ⟨a1, a2, _⟩ := with_hamming_fields a
  obtain ⟨b1, b2, _⟩ := with_hamming_fields b
  have hca := countsOK_with_hamming a ha
  have hcb := countsOK_with_hamming b hb
  unfold sdbf_score at hx ⊢
  simp only [] at hx ⊢
  rcases order_cases (with_hamming a) (with_hamming b) with ho | ho <;>
    rcases order_cases (with_hamming b) (with_hamming a) with hp | hp <;>
    rw [ho] at hx ⊢ <;> rw [hp] at hx ⊢ <;> simp only [] at hx ⊢
  · exact absurd rfl hx
  · refine ⟨?_, Or.inl ⟨trivial, trivial⟩⟩
    apply final_score_congr
    apply score_sum_coherent fm _ _ hcb hca
    · rw [b1, b2, ← hsz, ← hk]; exact hs
    · rw [b1, b2, ← hsz, ← hk]; exact h1
    · rw [b1, b2, ← hsz, ← hk]; exact h2
  · refine ⟨?_, Or.inr ⟨trivial, trivial⟩⟩
    apply final_score_congr
    apply score_sum_coherent fm _ _ hca hcb
    · rw [a1, a2]; exact hs
    · rw [a1, a2]; exact h1
    · rw [a1, a2]; exact h2
  · exact absurd rfl hx

theorem countsOK_stream_digest (name buffer : List Nat) (n last : Nat) (h : last ≤ 255) :
    CountsOK (stream_digest name buffer n last) :=
  ⟨by show (160 : Nat) ≤ 255; decide, h, fun ec hec => by simp [stream_digest] at hec⟩

/-- Witness for the amended C5: a one-filter digest against a two-filter digest, exact
arithmetic, fresh comparator state for both calls. -/
theorem sdbf_score_symmetric_witness :
    (sdbf_score exactFloat 1 init_state digest_a10 digest_lo_lo).score
      = (sdbf_score exactFloat 1 init_state digest_lo_lo digest_a10).score
    ∧ (((sdbf_score exactFloat 1 init_state digest_a10 digest_lo_lo).swap = 1
          ∧ sdbf_score_order (with_hamming digest_a10) (with_hamming digest_lo_lo)
              = (with_hamming digest_lo_lo, with_hamming digest_a10, 1))
        ∨ ((sdbf_score exactFloat 1 init_state digest_a10 digest_lo_lo).swap = 0
          ∧ sdbf_score_order (with_hamming digest_a10) (with_hamming digest_lo_lo)
              = (with_hamming digest_a10, with_hamming digest_lo_lo, 0))) :=
  sdbf_score_symmetric exactFloat digest_a10 digest_lo_lo init_state init_state rfl rfl
    (countsOK_stream_digest _ _ _ _ (by decide)) (countsOK_stream_digest _ _ _ _ (by decide))
    estSmall_exact (coherent_empty _ _ _) (coherent_empty _ _ _) (by decide!)

/-- Counterexample to C5 as stated: two digests with the same name, the same number of
filters and the same last element count, which differ in `max_elem` (10 and 100), so that
their first filters hold 10 and 100 elements. Neither call exchanges its arguments. With
`digest_m10` as the reference its filters (10 elements) are compared with the first filter
of `digest_m100` and the score is 0; with `digest_m100` as the reference every target
filter has fewer than `MIN_REF_ELEM_COUNT` elements and is skipped, and the score is -1. -/
theorem sdbf_score_not_symmetric :
    (sdbf_score exactFloat 1 init_state digest_m10 digest_m100).score = 0
    ∧ (sdbf_score exactFloat 1 init_state digest_m100 digest_m10).score = -1
    ∧ (sdbf_score exactFloat 1 init_state digest_m10 digest_m100).swap = 0
    ∧ (sdbf_score exactFloat 1 init_state digest_m100 digest_m10).swap = 0 := by
  decide!

/-- Claim C6 at the failing input: digest "b" with one filter of 3 elements against digest
"a" with one filter of 10 elements. The order of the claim does not exchange them (equal
filter counts, 3 < 10), `sdbf_score` does (the name test is not guarded by equal element
counts) and makes the digest with more elements the reference. -/
theorem sdbf_score_swap_at_name_slip :
    (sdbf_score exactFloat 1 init_state digest_b3 digest_a10).swap = 1
    ∧ ¬ swap_by_order digest_b3 digest_a10
    ∧ (sdbf_score exactFloat 1 init_state digest_a10 digest_b3).swap = 1
    ∧ (sdbf_score exactFloat 1 init_state digest_b3 digest_a10).score = 0
    ∧ (sdbf_score exactFloat 1 init_state digest_a10 digest_b3).score = -1 := by
  decide!

/-- Claim C9 at the failing input: two worker threads in a fresh process, a digest whose
only filter has 3 elements compared with itself. Every reference filter is skipped and
`sdbf_max_score` returns `-1`, yet `sdbf_score` returns 0: the early return of
`sdbf_max_score` leaves `task->result` at its initial 0. The sequential path returns -1. -/
theorem sdbf_score_all_skipped_threaded :
    toU32 (get_elem_count digest_b3 0) < MIN_ELEM_COUNT
    ∧ (sdbf_max_score exactFloat init_state
        (sdbf_task_t.mk 0 2 (with_hamming digest_b3) 0 (with_hamming digest_b3))).1 = -1
    ∧ (sdbf_score exactFloat 2 init_state digest_b3 digest_b3).score = 0
    ∧ (sdbf_score exactFloat 1 init_state digest_b3 digest_b3).score = -1 := by
  decide!

theorem wellFormed_stream_digest (name buffer : List Nat) (n last : Nat)
    (hn : 256 * n < U32)
    (hb : IsBytes buffer (256 * n)) (hl : last ≤ 255) :
    WellFormed (stream_digest name buffer n last) :=
  ⟨rfl, hn, hb, fun h => absurd rfl h, countsOK_stream_digest name buffer n last hl⟩

theorem isBytes_append (f g : List Nat) (n m : Nat) (hf : IsBytes f n) (hg : IsBytes g m) :
    IsBytes (f ++ g) (n + m) := by
  refine ⟨by rw [List.length_append]; exact Nat.add_le_add hf.1 hg.1, ?_⟩
  intro x hx
  rcases List.mem_append.1 hx with h | h
  · exact hf.2 x h
  · exact hg.2 x h

theorem isBytes_filter_lo : IsBytes filter_lo 256 :=
  isBytes_append _ _ 128 128 (isBytes_replicate 128 128 255 (by decide) (by decide))
    (isBytes_replicate 128 128 0 (by decide) (by decide))

theorem isBytes_filter_hi : IsBytes filter_hi 256 :=
  isBytes_append _ _ 128 128 (isBytes_replicate 128 128 0 (by decide) (by decide))
    (isBytes_replicate 128 128 255 (by decide) (by decide))

theorem wellFormed_digest_lo_hi : WellFormed digest_lo_hi :=
  wellFormed_stream_digest _ _ 2 160 (by decide)
    (isBytes_append _ _ 256 256 isBytes_filter_lo isBytes_filter_hi) (by decide)

theorem wellFormed_digest_lo_lo : WellFormed digest_lo_lo :=
  wellFormed_stream_digest _ _ 2 160 (by decide)
    (isBytes_append _ _ 256 256 isBytes_filter_lo isBytes_filter_lo) (by decide)

/-- Witness for C7: the two-filter digests `digest_lo_hi` and `digest_lo_lo`, exact
arithmetic, sequential comparator in a fresh process. -/
theorem sdbf_score_range_witness :
    -1 ≤ (sdbf_score exactFloat 1 init_state digest_lo_hi digest_lo_lo).score
    ∧ (sdbf_score exactFloat 1 init_state digest_lo_hi digest_lo_lo).score ≤ 100
    ∧ ∀ t, (sdbf_score exactFloat 1 init_state digest_lo_hi digest_lo_lo).state.result t ≤ 1 :=
  sdbf_score_range exactFloat exactFloat_sound 1 init_state
    (fun _ => by show (0 : ℚ) ≤ 1; norm_num)
    digest_lo_hi digest_lo_lo wellFormed_digest_lo_hi wellFormed_digest_lo_lo

/-- Witness for C3: a filter with bit 0 of every byte set and a hash of which two words
hit bits already set. -/
theorem bf_sha1_insert_count_witness :
    (bf_sha1_insert (List.replicate 256 1) 0 [0, 0x7FF, 8, 9, 0xFFFFF801]).insert_cnt = 3
    ∧ (bf_sha1_insert (List.replicate 256 1) 0 [0, 0x7FF, 8, 9, 0xFFFFF801]).insert_cnt
        = popcount_bytes
            (bf_sha1_insert (List.replicate 256 1) 0 [0, 0x7FF, 8, 9, 0xFFFFF801]).bf 256
          - popcount_bytes (List.replicate 256 1) 256 :=
  ⟨by decide,
   (bf_sha1_insert_count (List.replicate 256 1) [0, 0x7FF, 8, 9, 0xFFFFF801]
      (isBytes_replicate 256 256 1 (by decide) (by decide)) rfl).1⟩

/-- Witness for C4: the same filter and hash inserted twice. -/
theorem bf_sha1_insert_idempotent_witness :
    (bf_sha1_insert (bf_sha1_insert (List.replicate 256 1) 0
        [0, 0x7FF, 8, 9, 0xFFFFF801]).bf 0 [0, 0x7FF, 8, 9, 0xFFFFF801]).insert_cnt = 0
    ∧ (bf_sha1_insert (bf_sha1_insert (List.replicate 256 1) 0
        [0, 0x7FF, 8, 9, 0xFFFFF801]).bf 0 [0, 0x7FF, 8, 9, 0xFFFFF801]).bf
      = (bf_sha1_insert (List.replicate 256 1) 0 [0, 0x7FF, 8, 9, 0xFFFFF801]).bf :=
  ⟨(bf_sha1_insert_idempotent (List.replicate 256 1) [0, 0x7FF, 8, 9, 0xFFFFF801]
      (isBytes_replicate 256 256 1 (by decide) (by decide)) rfl).1,
   (bf_sha1_insert_idempotent (List.replicate 256 1) [0, 0x7FF, 8, 9, 0xFFFFF801]
      (isBytes_replicate 256 256 1 (by decide) (by decide)) rfl).2.1⟩

/-! ### Skipped reference filters on the sequential path -/

/-- When `thread_cnt < 2` and every reference filter is skipped (fewer than
`MIN_ELEM_COUNT` elements, or no target filter that is not skipped), the accumulated
score stays at `-1`, and `sdbf_max_score` returns `-1` for each of them. -/
theorem score_sum_all_skipped (fm : FloatModel) (thread_cnt : Nat) (ht : thread_cnt < 2)
    (ref tgt : sdbf_t) (st : CmpState)
    (h : ∀ i, i < ref.bf_count →
      toU32 (get_elem_count ref i) < MIN_ELEM_COUNT
      ∨ (ref.bf_count > 1
          ∧ ∀ j, j < tgt.bf_count → toU32 (get_elem_count tgt j) < MIN_REF_ELEM_COUNT)) :
    (sdbf_score_sum fm thread_cnt ref tgt st).1 = -1 := by
  unfold sdbf_score_sum
  apply foldl_invariant (fun (acc : ℚ × CmpState) => acc.1 = -1)
  · rfl
  · intro acc i hi hacc
    have hi' : i < ref.bf_count := List.mem_range.1 hi
    have hneg : acc.1 < 0 := by rw [hacc]; norm_num
    simp only [if_pos hneg]
    unfold sdbf_score_max
    rw [if_pos ht]
    unfold sdbf_max_score
    simp only []
    split
    · rfl
    · rename_i hs1
      rcases h i hi' with h1 | ⟨h2, h3⟩
      · exact absurd h1 hs1
      · apply foldl_invariant (fun (s : ℚ × EstCache) => s.1 = -1)
        · rfl
        · intro s j hj hs
          have hj' := ((mem_target_indices _ _ _ _).1 hj).1
          unfold sdbf_max_score_step
          simp only []
          rw [if_pos ⟨h2, h3 j hj'⟩]
          exact hs

/-! ### Feature scores -/

theorem rd_ok (a : List Nat) (k : Nat) (h : k < a.length) : rd a k = .ok (a.getD k 0) := by
  unfold rd
  rw [List.getElem?_eq_getElem h, List.getD_eq_getElem _ _ h]

theorem incr16_ok (a : List Nat) (k : Nat) (h : k < a.length) :
    incr16 a k = .ok (a.set k ((a.getD k 0 + 1) % U16)) := by
  unfold incr16
  rw [List.getElem?_eq_getElem h, List.getD_eq_getElem _ _ h]

theorem scan_fold_ok (ranks : List Nat) (l : List Nat) (hl : ∀ j ∈ l, j < ranks.length)
    (st : Nat × Nat) :
    l.foldlM (scan_step ranks) st
      = .ok (l.foldl (fun st j => scan_update st j (ranks.getD j 0)) st) := by
  induction l generalizing st with
  | nil => rfl
  | cons j l ih =>
    rw [List.foldlM_cons, List.foldl_cons]
    have hj : scan_step ranks st j = .ok (scan_update st j (ranks.getD j 0)) := by
      unfold scan_step
      rw [rd_ok ranks j (hl j (List.mem_cons_self _ _))]
    rw [hj]
    exact ih (fun k hk => hl k (List.mem_cons_of_mem _ hk)) _

theorem full_scan_ok (ranks : List Nat) (i w : Nat) (hw : 1 ≤ w) (h : i + w ≤ ranks.length) :
    full_scan ranks i w = .ok (scan_select ranks i w) := by
  unfold full_scan scan_select
  rw [rd_ok ranks i (by omega)]
  simp only []
  apply scan_fold_ok
  intro j hj
  rw [List.mem_range'_1] at hj
  omega

theorem scan_select_bounds (ranks : List Nat) (i w : Nat) (hw : 1 ≤ w) :
    i ≤ (scan_select ranks i w).1 ∧ (scan_select ranks i w).1 < i + w := by
  unfold scan_select
  apply foldl_invariant (fun (st : Nat × Nat) => i ≤ st.1 ∧ st.1 < i + w)
  · exact ⟨le_refl _, by omega⟩
  · intro st j hj hst
    rw [List.mem_range'_1] at hj
    unfold scan_update
    split
    · exact ⟨by show i ≤ j; omega, by show j < i + w; omega⟩
    · split
      · exact ⟨by show i ≤ j; omega, by show j < i + w; omega⟩
      · exact hst

theorem scan_acc_length (ranks : List Nat) (w : Nat) (scores : List Nat) (i : Nat) :
    (scan_acc ranks w scores i).length = scores.length := by
  unfold scan_acc
  split
  · rw [List.length_set]
  · rfl

theorem usub64_eq (a b : Nat) (hb : b ≤ a) (ha : a < U64) : usub64 a b = a - b := by
  unfold usub64
  have h1 : a % U64 = a := Nat.mod_eq_of_lt ha
  have h2 : b % U64 = b := Nat.mod_eq_of_lt (by omega)
  rw [h1, h2]
  have h3 : a + U64 - b = (a - b) + U64 := by omega
  rw [h3, Nat.add_mod_right]
  exact Nat.mod_eq_of_lt (by omega)

/-- On rank arrays on which the cheap slide is not taken, the outer loop of
`gen_chunk_scores` performs one full scan per window start. -/
theorem score_loop_no_slide (ranks : List Nat) (limit w : Nat) (hw : 1 ≤ w)
    (hn : limit + w = ranks.length) (hU : ranks.length < U64)
    (hns : NoSlide ranks ranks.length w) :
    ∀ (fuel i min_pos min_rank : Nat) (scores : List Nat),
      scores.length = ranks.length → i ≤ limit → limit - i < fuel →
      (0 < i → (min_pos, min_rank) = scan_select ranks (i - 1) w) →
      score_loop ranks limit w fuel i min_pos min_rank scores
        = .ok ((List.range' i (limit - i)).foldl (scan_acc ranks w) scores) := by
  intro fuel
  induction fuel with
  | zero => intro i _ _ _ _ _ hf; omega
  | succ fuel ih =>
    intro i min_pos min_rank scores hsc hi hf hprev
    unfold score_loop
    by_cases hlt : i < limit
    · rw [if_pos hlt]
      have hslide : (if i > 0 ∧ min_rank > 0
             then slide_loop ranks limit w min_rank (ranks.length + 1) i min_pos scores
             else .ok (i, scores)) = .ok (i, scores) := by
        split
        · rename_i hc
          unfold slide_loop
          have hmod : (i + w) % U64 = i + w := Nat.mod_eq_of_lt (by omega)
          rw [hmod, rd_ok ranks (i + w) (by omega)]
          simp only []
          have hp := hprev hc.1
          have hmem : i ∈ List.range (ranks.length - w) := List.mem_range.2 (by omega)
          have hno := hns i hmem hc.1
          rw [← hp] at hno
          simp only [] at hno
          have hfalse : ¬ (ranks.getD (i + w) 0 ≥ min_rank ∧ i < min_pos
              ∧ i < (limit + 1) % U64) := by
            intro hcond
            exact hno ⟨hc.2, hcond.1, hcond.2.1⟩
          rw [if_neg hfalse]
        · rfl
      rw [hslide]
      simp only []
      rw [full_scan_ok ranks i w hw (by omega)]
      obtain ⟨b1, b2⟩ := scan_select_bounds ranks i w hw
      simp only []
      rw [rd_ok ranks _ (by omega)]
      simp only []
      have hacc : (if ranks.getD (scan_select ranks i w).1 0 > 0
            then incr16 scores (scan_select ranks i w).1 else .ok scores)
          = .ok (scan_acc ranks w scores i) := by
        unfold scan_acc
        split
        · rw [incr16_ok scores _ (by omega)]
        · rfl
      rw [hacc]
      simp only []
      have hmod : (i + 1) % U64 = i + 1 := Nat.mod_eq_of_lt (by omega)
      rw [hmod, ih (i + 1) (scan_select ranks i w).1 (scan_select ranks i w).2
        (scan_acc ranks w scores i)
        (by rw [scan_acc_length]; exact hsc) (by omega) (by omega)
        (fun _ => by rw [Nat.add_sub_cancel])]
      have hr : List.range' i (limit - i) = i :: List.range' (i + 1) (limit - (i + 1)) := by
        have : limit - i = (limit - (i + 1)) + 1 := by omega
        rw [this, List.range'_succ]
      rw [hr, List.foldl_cons]
    · rw [if_neg hlt]
      have : limit - i = 0 := by omega
      rw [this]
      rfl

theorem scan_acc_getD (ranks : List Nat) (w : Nat) (scores : List Nat) (i p : Nat)
    (hp : p < scores.length) :
    (scan_acc ranks w scores i).getD p 0
      = if (scan_select ranks i w).1 = p ∧ ranks.getD p 0 > 0
        then (scores.getD p 0 + 1) % U16 else scores.getD p 0 := by
  unfold scan_acc
  by_cases hq : (scan_select ranks i w).1 = p
  · by_cases hr : ranks.getD p 0 > 0
    · have hr1 : ranks.getD (scan_select ranks i w).1 0 > 0 := by rw [hq]; exact hr
      rw [if_pos hr1, if_pos (show (scan_select ranks i w).1 = p ∧ ranks.getD p 0 > 0
        from ⟨hq, hr⟩), hq, getD_set_eq _ _ _ hp]
    · have hr1 : ¬ ranks.getD (scan_select ranks i w).1 0 > 0 := by rw [hq]; exact hr
      rw [if_neg hr1, if_neg (show ¬ ((scan_select ranks i w).1 = p ∧ ranks.getD p 0 > 0)
        from fun h => hr h.2)]
  · rw [if_neg (show ¬ ((scan_select ranks i w).1 = p ∧ ranks.getD p 0 > 0)
      from fun h => hq h.1)]
    split
    · rw [getD_set_ne _ _ _ _ hq]
    · rfl

theorem scan_fold_count (ranks : List Nat) (w p : Nat) (l : List Nat) :
    ∀ scores : List Nat, p < scores.length →
      scores.getD p 0
        + l.countP (fun i => decide ((scan_select ranks i w).1 = p ∧ ranks.getD p 0 > 0)) < U16 →
      (l.foldl (scan_acc ranks w) scores).getD p 0
        = scores.getD p 0
          + l.countP (fun i => decide ((scan_select ranks i w).1 = p ∧ ranks.getD p 0 > 0)) := by
  induction l with
  | nil => intro scores _ _; simp
  | cons i l ih =>
    intro scores hp hb
    rw [List.countP_cons] at hb
    rw [List.foldl_cons, List.countP_cons]
    have hg := scan_acc_getD ranks w scores i p hp
    have hl : p < (scan_acc ranks w scores i).length := by rw [scan_acc_length]; exact hp
    by_cases hc : (scan_select ranks i w).1 = p ∧ ranks.getD p 0 > 0
    · have hd : decide ((scan_select ranks i w).1 = p ∧ ranks.getD p 0 > 0) = true :=
        decide_eq_true hc
      have e1 : (if (true = true) then 1 else 0) = 1 := rfl
      rw [hd, e1] at hb ⊢
      rw [if_pos hc, Nat.mod_eq_of_lt (by omega)] at hg
      rw [ih _ hl (by rw [hg]; omega), hg]
      omega
    · have hd : decide ((scan_select ranks i w).1 = p ∧ ranks.getD p 0 > 0) = false :=
        decide_eq_false hc
      have e0 : (if (false = true) then 1 else 0) = 0 := rfl
      rw [hd, e0] at hb ⊢
      rw [if_neg hc] at hg
      rw [ih _ hl (by rw [hg]; omega), hg]
      omega

theorem countP_window (q : Nat → Bool) (p w : Nat)
    (h : ∀ i, q i = true → i ≤ p ∧ p < i + w) (m : Nat) :
    (List.range m).countP q ≤ min m (p + 1) - (p + 1 - w) := by
  induction m with
  | zero => simp
  | succ m ih =>
    rw [List.range_succ, List.countP_append, List.countP_cons, List.countP_nil]
    by_cases hq : q m = true
    · obtain ⟨h1, h2⟩ := h m hq
      rw [if_pos hq]
      omega
    · rw [if_neg hq]
      omega

theorem scan_score_le (ranks : List Nat) (chunk_size w p : Nat) (hw : 1 ≤ w) :
    scan_score ranks chunk_size w p ≤ w := by
  unfold scan_score
  have h := countP_window
    (fun i => decide ((scan_select ranks i w).1 = p ∧ ranks.getD p 0 > 0)) p w
    (by
      intro i hi
      simp only [decide_eq_true_eq] at hi
      have := scan_select_bounds ranks i w hw
      omega)
    (chunk_size - w)
  omega

theorem no_slide_scores (ranks buf : List Nat) (chunk_size : Nat)
    (hlen : ranks.length = chunk_size) (hbuf : buf.length = chunk_size)
    (h64 : 64 < chunk_size) (hU : chunk_size < U64) (hns : NoSlide ranks chunk_size 64) :
    ∃ scores, gen_chunk_scores sdbf_sys ranks chunk_size buf none = .ok (scores, none)
      ∧ scores.length = chunk_size
      ∧ ∀ p, p < chunk_size → scores.getD p 0 = scan_score ranks chunk_size 64 p := by
  subst hlen
  have hw : sdbf_sys.pop_win_size = 64 := rfl
  have hlim : usub64 ranks.length 64 = ranks.length - 64 := usub64_eq _ _ (by omega) hU
  have hloop := score_loop_no_slide ranks (ranks.length - 64) 64 (by omega) (by omega) hU hns
    (ranks.length + 1) 0 0 (ranks.getD 0 0) (List.replicate ranks.length 0)
    (by simp) (by omega) (by omega) (fun h => absurd h (by omega))
  have hz : bzero16 buf ranks.length = .ok (List.replicate ranks.length 0) := by
    unfold bzero16
    rw [if_pos (by omega), List.drop_of_length_le (by omega), List.append_nil]
  refine ⟨(List.range' 0 (ranks.length - 64 - 0)).foldl (scan_acc ranks 64)
    (List.replicate ranks.length 0), ?_, ?_, ?_⟩
  · unfold gen_chunk_scores
    rw [rd_ok ranks 0 (by omega), hw, hlim]
    simp only [hz, hloop]
  · apply foldl_invariant (fun (s : List Nat) => s.length = ranks.length)
    · simp
    · intro s i _ hs
      rw [scan_acc_length]; exact hs
  · intro p hp
    have hle := scan_score_le ranks ranks.length 64 p (by omega)
    have hr : List.range' 0 (ranks.length - 64 - 0) = List.range (ranks.length - 64) := by
      rw [Nat.sub_zero, List.range_eq_range']
    have hg0 : (List.replicate ranks.length 0).getD p 0 = 0 := by
      rw [List.getD_eq_getElem _ _ (by simpa using hp)]
      simp
    rw [hr, scan_fold_count ranks 64 p _ _ (by simpa using hp)
      (by rw [hg0]; unfold scan_score at hle; unfold U16; omega), hg0, Nat.zero_add]
    rfl

/-- Claim C10, amended. For every rank array of length `chunk_size > 64` on which the
cheap slide is not taken, `gen_chunk_scores` returns, and `scores[p]` is the number of
window starts `i` in `[0, chunk_size - 64)` for which `p` is the position selected by the
rule of the full scan (start at `i`; a later non-zero rank strictly below the current
minimum becomes the minimum; an equal rank moves the position only when it directly
follows it) and `rank[p] > 0`. -/
theorem gen_chunk_scores_of_no_slide (ranks buf : List Nat) (chunk_size : Nat)
    (hlen : ranks.length = chunk_size) (hbuf : buf.length = chunk_size)
    (h64 : 64 < chunk_size) (hU : chunk_size < U64) (hns : NoSlide ranks chunk_size 64) :
    ∃ scores, gen_chunk_scores sdbf_sys ranks chunk_size buf none = .ok (scores, none)
      ∧ scores.length = chunk_size
      ∧ ∀ p, p < chunk_size → scores.getD p 0 = scan_score ranks chunk_size 64 p := by
  obtain ⟨scores, h1, h2, h3⟩ := no_slide_scores ranks buf chunk_size hlen hbuf h64 hU hns
  exact ⟨scores, h1, h2, fun p hp => h3 p hp⟩

/-- Witness for the amended C10: a rank array of two windows with a zero rank and two
equal ranks that are not adjacent. -/
theorem gen_chunk_scores_of_no_slide_witness :
    ∃ scores, gen_chunk_scores sdbf_sys ranks_two 66 (List.replicate 66 0) none
        = .ok (scores, none)
      ∧ scores.length = 66
      ∧ ∀ p, p < 66 → scores.getD p 0 = scan_score ranks_two 66 64 p :=
  gen_chunk_scores_of_no_slide ranks_two (List.replicate 66 0) 66 (by decide) (by simp)
    (by decide) (by decide) (by decide!)

/-- Counterexample to C10 as stated, on three rank arrays. (1) A zero rank inside the
window: the definition scores nothing, the code scores position 0. (2) Equal minima that
are not adjacent: the definition scores the rightmost (position 2), the code position 0.
(3) Distinct non-zero ranks: for the window starting at 1 the cheap slide keeps position
10 although position 64 holds a smaller rank, so the code gives `scores[10] = 2`,
`scores[64] = 1` where the definition gives 1 and 2. -/
theorem gen_chunk_scores_not_definitional :
    (gen_chunk_scores sdbf_sys ranks_zero 65 (List.replicate 65 0) none
        = .ok (1 :: List.replicate 64 0, none)
      ∧ def_score ranks_zero 65 64 0 = 0)
    ∧ (gen_chunk_scores sdbf_sys ranks_tie 65 (List.replicate 65 0) none
        = .ok (1 :: List.replicate 64 0, none)
      ∧ def_score ranks_tie 65 64 0 = 0 ∧ def_score ranks_tie 65 64 2 = 1)
    ∧ (gen_chunk_scores sdbf_sys ranks_slide 68 (List.replicate 68 0) none
        = .ok ((((List.replicate 68 0).set 10 2).set 64 1).set 66 1, none)
      ∧ def_score ranks_slide 68 64 10 = 1 ∧ def_score ranks_slide 68 64 64 = 2
      ∧ def_score ranks_slide 68 64 66 = 1) := by
  decide!

/-! ### A digest compared with itself -/

theorem popcount_and_self (f : List Nat) (n : Nat) : popcount_and f f n = popcount_bytes f n := by
  induction n with
  | zero => simp [popcount_and, popcount_bytes]
  | succ n ih => rw [popcount_and_succ, popcount_bytes_succ, ih, Nat.and_self]

theorem strcmp_self (s : List Nat) : strcmp s s = 0 := by
  induction s with
  | nil => rfl
  | cons a s ih => simp [strcmp, ih]

theorem order_self (d : sdbf_t) : sdbf_score_order d d = (d, d, 0) := by
  unfold sdbf_score_order
  rw [if_neg]
  rw [strcmp_self]
  simp

theorem step_mono (fm : FloatModel) (task : sdbf_task_t) (s1 : Nat) (st : ℚ × EstCache)
    (j : Nat) : st.1 ≤ (sdbf_max_score_step fm task s1 st j).1 := by
  have key : ∀ score : ℚ, st.1 ≤ (if score > st.1 then score else st.1) := by
    intro score
    split
    · rename_i h; exact le_of_lt h
    · exact le_refl _
  unfold sdbf_max_score_step
  simp only []
  split
  · exact le_refl _
  · exact key _

theorem step_self (fm : FloatModel) (hfm : fm.Sound) (d : sdbf_t) (i : Nat)
    (st : ℚ × EstCache) (hsz : d.bf_size = 256) (hb : ∀ x ∈ d.buffer, x < 256)
    (hh : HammingOK d) (hi : i < d.bf_count) (hw32 : 256 * d.bf_count < U32)
    (hcnt : CountsOK d)
    (hs : EstSmall fm ((8 * d.bf_size) % U32) d.hash_count)
    (hc : Coherent fm ((8 * d.bf_size) % U32) d.hash_count st.2) (hst : st.1 ≤ 1)
    (h6 : d.bf_count > 1 → MIN_REF_ELEM_COUNT ≤ toU32 (get_elem_count d i))
    (hm : self_cut_off fm d i
        < bf_bitcount_cut_256 (d.buffer.drop (i * 256)) (d.buffer.drop (i * 256))
            (self_cut_off fm d i) 48) :
    (sdbf_max_score_step fm (sdbf_task_t.mk 0 1 d i d) (toU32 (get_elem_count d i)) st i).1
      = 1 := by
  have hsi : toU32 (get_elem_count d i) < 256 := by
    have := elem_count_small d hcnt i; omega
  obtain ⟨e1, _⟩ := est_coherent fm _ _ hs st.2 hc _ _ hsi hsi
  have hbd := mem_drop_lt d.buffer hb (i * 256)
  have hcut : toU32 (c_lround (fm.rnd (fm.rnd (fm.rnd (3 / 10)
      * (usub32 (popcount_bytes (d.buffer.drop (i * 256)) 256)
          (bf_match_est_formula fm ((8 * 256) % U32) d.hash_count
            (toU32 (get_elem_count d i)) (toU32 (get_elem_count d i)) 0) : ℚ))
      + (bf_match_est_formula fm ((8 * 256) % U32) d.hash_count
            (toU32 (get_elem_count d i)) (toU32 (get_elem_count d i)) 0 : ℚ))))
      = self_cut_off fm d i := by
    unfold self_cut_off
    rw [hsz]
  generalize self_cut_off fm d i = cut at hm hcut
  have hle := popcount_bytes_le (d.buffer.drop (i * 256)) 256
  have hz : bf_bitcount_cut_256 (d.buffer.drop (i * 256)) (d.buffer.drop (i * 256)) 0 0
      = popcount_bytes (d.buffer.drop (i * 256)) 256 := by
    rw [bf_bitcount_cut_256_unfold _ _ hbd hbd, popcount_and_self _ 256]
    simp
  have hex : bf_bitcount_cut_256 (d.buffer.drop (i * 256)) (d.buffer.drop (i * 256)) cut 48
      = popcount_bytes (d.buffer.drop (i * 256)) 256 := by
    have hpos : 0 < bf_bitcount_cut_256 (d.buffer.drop (i * 256))
        (d.buffer.drop (i * 256)) cut 48 := by omega
    rw [bf_bitcount_cut_256_unfold _ _ hbd hbd cut 48, popcount_and_self _ 256] at hpos ⊢
    split_ifs at hpos ⊢ <;> omega
  rw [hex] at hm
  have hskip : ¬ (d.bf_count > 1 ∧ toU32 (get_elem_count d i) < MIN_REF_ELEM_COUNT) := by
    intro hcon
    have := h6 hcon.1
    omega
  unfold sdbf_max_score_step
  simp only []
  rw [if_neg hskip]
  simp only [hsz] at e1 ⊢
  have eo : i * 256 % U32 = i * 256 := Nat.mod_eq_of_lt (by omega)
  rw [eo, e1, hh i hi]
  simp only [ite_self]
  rw [hcut, hex, hz]
  generalize popcount_bytes (d.buffer.drop (i * 256)) 256 = h at hm hle
  simp only [ite_self]
  rw [if_neg (show ¬ (h ≤ cut) from by omega)]
  rw [usub32_eq h cut (by omega) (by unfold U32; omega)]
  have hne : ((h - cut : Nat) : ℚ) ≠ 0 := by
    have : 0 < h - cut := by omega
    exact_mod_cast this.ne'
  rw [div_self hne, rnd_one fm hfm]
  split
  · rfl
  · rename_i hgt
    exact le_antisymm hst (not_lt.1 hgt)

theorem fold_self (fm : FloatModel) (hfm : fm.Sound) (d : sdbf_t) (i : Nat)
    (hsz : d.bf_size = 256) (hb : ∀ x ∈ d.buffer, x < 256)
    (hh : HammingOK d) (hi : i < d.bf_count) (hw32 : 256 * d.bf_count < U32)
    (hcnt : CountsOK d)
    (hs : EstSmall fm ((8 * d.bf_size) % U32) d.hash_count)
    (h6 : d.bf_count > 1 → MIN_REF_ELEM_COUNT ≤ toU32 (get_elem_count d i))
    (hm : self_cut_off fm d i
        < bf_bitcount_cut_256 (d.buffer.drop (i * 256)) (d.buffer.drop (i * 256))
            (self_cut_off fm d i) 48) :
    ∀ (l : List Nat) (st : ℚ × EstCache), (∀ j ∈ l, j < d.bf_count) → st.1 ≤ 1 →
      Coherent fm ((8 * d.bf_size) % U32) d.hash_count st.2 → (i ∈ l ∨ st.1 = 1) →
      (l.foldl (sdbf_max_score_step fm (sdbf_task_t.mk 0 1 d i d)
          (toU32 (get_elem_count d i))) st).1 = 1
      ∧ Coherent fm ((8 * d.bf_size) % U32) d.hash_count
          (l.foldl (sdbf_max_score_step fm (sdbf_task_t.mk 0 1 d i d)
            (toU32 (get_elem_count d i))) st).2 := by
  have hsi : toU32 (get_elem_count d i) < 256 := by
    have := elem_count_small d hcnt i; omega
  have htask : TaskOK (sdbf_task_t.mk 0 1 d i d) := ⟨hsz, hb, hb, hh, hh, hi, hw32, hw32⟩
  intro l
  induction l with
  | nil =>
    intro st _ _ hc hor
    rcases hor with h | h
    · exact absurd h (List.not_mem_nil _)
    · exact ⟨h, hc⟩
  | cons j l ih =>
    intro st hl hst hc hor
    rw [List.foldl_cons]
    have hj : j < d.bf_count := hl j (List.mem_cons_self _ _)
    have h1 := step_le_one fm hfm (sdbf_task_t.mk 0 1 d i d) (toU32 (get_elem_count d i))
      st j htask hj hst
    have h2 := (step_coherent fm (sdbf_task_t.mk 0 1 d i d) (toU32 (get_elem_count d i)) hsi
      hcnt hs st.1 st.2 st.2 hc hc j).2.1
    have h3 := step_mono fm (sdbf_task_t.mk 0 1 d i d) (toU32 (get_elem_count d i)) st j
    apply ih _ (fun k hk => hl k (List.mem_cons_of_mem _ hk)) h1 h2
    rcases hor with h | h
    · rcases List.mem_cons.1 h with h' | h'
      · right
        rw [← h']
        exact step_self fm hfm d i st hsz hb hh hi hw32 hcnt hs hc hst h6 hm
      · exact Or.inl h'
    · right
      rw [h] at h3
      exact le_antisymm h1 h3

theorem max_score_self (fm : FloatModel) (hfm : fm.Sound) (d : sdbf_t) (i : Nat)
    (st : CmpState) (hsz : d.bf_size = 256) (hb : ∀ x ∈ d.buffer, x < 256)
    (hh : HammingOK d) (hi : i < d.bf_count) (hw32 : 256 * d.bf_count < U32)
    (hcnt : CountsOK d)
    (hs : EstSmall fm ((8 * d.bf_size) % U32) d.hash_count)
    (hc : Coherent fm ((8 * d.bf_size) % U32) d.hash_count st.cache)
    (hself : SelfMatch fm d) :
    (sdbf_score_max fm 1 d d st i).1 = 1
    ∧ Coherent fm ((8 * d.bf_size) % U32) d.hash_count (sdbf_score_max fm 1 d d st i).2.cache := by
  obtain ⟨g1, g2, g3⟩ := hself i hi
  have hseq : sdbf_score_max fm 1 d d st i
      = sdbf_max_score fm st (sdbf_task_t.mk 0 1 d i d) := by
    unfold sdbf_score_max; simp
  rw [hseq]
  unfold sdbf_max_score
  simp only []
  rw [if_neg (by omega)]
  simp only []
  apply fold_self fm hfm d i hsz hb hh hi hw32 hcnt hs g2 g3
  · intro j hj
    exact ((mem_target_indices _ _ _ _).1 hj).1
  · norm_num
  · exact hc
  · left
    rw [mem_target_indices]
    exact ⟨hi, Nat.zero_le _, Nat.mod_one _⟩

theorem score_sum_self (fm : FloatModel) (hfm : fm.Sound) (d : sdbf_t) (st : CmpState)
    (hsz : d.bf_size = 256) (hb : ∀ x ∈ d.buffer, x < 256) (hh : HammingOK d)
    (hcnt : CountsOK d) (hn : 256 * d.bf_count < U32)
    (hs : EstSmall fm ((8 * d.bf_size) % U32) d.hash_count)
    (hc : Coherent fm ((8 * d.bf_size) % U32) d.hash_count st.cache)
    (hself : SelfMatch fm d) (h1 : 1 ≤ d.bf_count) :
    (sdbf_score_sum fm 1 d d st).1 = (d.bf_count : ℚ) := by
  unfold sdbf_score_sum
  have key : ∀ n, n ≤ d.bf_count →
      ((n = 0 → ((List.range n).foldl
        (fun (acc : ℚ × CmpState) i =>
          ((if acc.1 < 0 then (sdbf_score_max fm 1 d d acc.2 i).1
            else fm.rnd (acc.1 + (sdbf_score_max fm 1 d d acc.2 i).1)),
           (sdbf_score_max fm 1 d d acc.2 i).2)) (-1, st)).1 = -1)
      ∧ (1 ≤ n → ((List.range n).foldl
        (fun (acc : ℚ × CmpState) i =>
          ((if acc.1 < 0 then (sdbf_score_max fm 1 d d acc.2 i).1
            else fm.rnd (acc.1 + (sdbf_score_max fm 1 d d acc.2 i).1)),
           (sdbf_score_max fm 1 d d acc.2 i).2)) (-1, st)).1 = (n : ℚ))
      ∧ Coherent fm ((8 * d.bf_size) % U32) d.hash_count ((List.range n).foldl
        (fun (acc : ℚ × CmpState) i =>
          ((if acc.1 < 0 then (sdbf_score_max fm 1 d d acc.2 i).1
            else fm.rnd (acc.1 + (sdbf_score_max fm 1 d d acc.2 i).1)),
           (sdbf_score_max fm 1 d d acc.2 i).2)) (-1, st)).2.cache) := by
    intro n
    induction n with
    | zero =>
      intro _
      exact ⟨fun _ => rfl, fun h => absurd h (by omega), hc⟩
    | succ n ih =>
      intro hle
      obtain ⟨i0, i1, i2⟩ := ih (by omega)
      rw [List.range_succ, List.foldl_append]
      simp only [List.foldl_cons, List.foldl_nil]
      obtain ⟨m1, m2⟩ := max_score_self fm hfm d n _ hsz hb hh (by omega) hn hcnt hs i2 hself
      refine ⟨fun h => absurd h (by omega), fun _ => ?_, m2⟩
      rw [m1]
      rcases Nat.eq_zero_or_pos n with hz | hp
      · subst hz
        rw [i0 rfl]
        norm_num
      · rw [i1 hp]
        have hnn : ¬ ((n : ℚ) < 0) := not_lt.2 (by positivity)
        rw [if_neg hnn]
        have hcast : ((n : ℚ) + 1) = ((n + 1 : Nat) : ℚ) := by push_cast; ring
        rw [hcast, rnd_nat fm hfm (n + 1) (by unfold U32 at hn; omega)]
  exact (key d.bf_count (le_refl _)).2.1 h1

theorem selfMatch_with_hamming (fm : FloatModel) (d : sdbf_t) (h : SelfMatch fm d) :
    SelfMatch fm (with_hamming d) := by
  unfold with_hamming
  split
  · exact h
  · exact h

theorem c_lround_hundred : c_lround 100 = 100 := by
  unfold c_lround
  rw [if_pos (by norm_num)]
  have e : Rat.floor ((100 : ℚ) + 1 / 2) = ⌊(100 : ℚ) + 1 / 2⌋ := rfl
  rw [e, Int.floor_eq_iff]
  constructor <;> norm_num

/-- Claim C8, amended. For every well-formed digest `D` with at least one filter and
fewer than 2^24 filters (the byte offset `i*bf_size` of every filter fits `uint32_t`), in
which every filter has at least `MIN_ELEM_COUNT = 6` elements (at least
`MIN_REF_ELEM_COUNT = 64` when there is more than one filter) and overlaps itself above
its cut-off,
`sdbf_score(D, D)` returns 100 with `swap = 0` (sequential comparator, any estimate cache
whose non-zero entries are estimates, any monotone rounding exact on integers). -/
theorem sdbf_score_self (fm : FloatModel) (hfm : fm.Sound) (d : sdbf_t) (st : CmpState)
    (hw : WellFormed d) (h1 : 1 ≤ d.bf_count)
    (hs : EstSmall fm ((8 * d.bf_size) % U32) d.hash_count)
    (hc : Coherent fm ((8 * d.bf_size) % U32) d.hash_count st.cache)
    (hself : SelfMatch fm d) :
    (sdbf_score fm 1 st d d).score = 100 ∧ (sdbf_score fm 1 st d d).swap = 0 := by
  obtain ⟨w1, w2, w3, w4⟩ := with_hamming_ok d hw
  obtain ⟨f1, f2, _⟩ := with_hamming_fields d
  have hsum := score_sum_self fm hfm (with_hamming d) st w1 (by rw [w3]; exact hw.2.2.1.2) w4
    (countsOK_with_hamming d hw.2.2.2.2) (by rw [w2]; exact hw.2.1)
    (by rw [f1, f2]; exact hs) (by rw [f1, f2]; exact hc)
    (selfMatch_with_hamming fm d hself) (by rw [w2]; exact h1)
  unfold sdbf_score
  simp only []
  rw [order_self]
  simp only []
  refine ⟨?_, trivial⟩
  rw [hsum, w2]
  have hpos : (0 : ℚ) < (d.bf_count : ℚ) := by exact_mod_cast h1
  rw [if_neg (not_lt.2 (le_of_lt hpos))]
  have e1 : (100 : ℚ) * (d.bf_count : ℚ) = ((100 * d.bf_count : Nat) : ℚ) := by push_cast; ring
  have hn := hw.2.1
  rw [e1, rnd_nat fm hfm _ (by unfold U32 at hn; omega)]
  have e2 : ((100 * d.bf_count : Nat) : ℚ) / (d.bf_count : ℚ) = ((100 : Nat) : ℚ) := by
    push_cast
    field_simp
  rw [e2, rnd_nat fm hfm 100 (by norm_num)]
  push_cast
  exact c_lround_hundred

theorem selfMatch_digest_lo_lo : SelfMatch exactFloat digest_lo_lo := by
  intro i hi
  have hi2 : i < 2 := hi
  interval_cases i <;> decide!

/-- Witness for the amended C8: the two-filter digest `digest_lo_lo`, exact arithmetic,
fresh comparator state. -/
theorem sdbf_score_self_witness :
    (sdbf_score exactFloat 1 init_state digest_lo_lo digest_lo_lo).score = 100
    ∧ (sdbf_score exactFloat 1 init_state digest_lo_lo digest_lo_lo).swap = 0 :=
  sdbf_score_self exactFloat exactFloat_sound digest_lo_lo init_state wellFormed_digest_lo_lo
    (by decide) estSmall_exact (coherent_empty _ _ _) selfMatch_digest_lo_lo

/-! ### The digest of a buffer of zero bytes -/

theorem foldlM_fixed {α β : Type} (f : α → β → Except Fault α) (l : List β) (a : α)
    (h : ∀ b ∈ l, f a b = .ok a) : l.foldlM f a = .ok a := by
  induction l with
  | nil => rfl
  | cons b l ih =>
    rw [List.foldlM_cons, h b (List.mem_cons_self _ _)]
    exact ih (fun c hc => h c (List.mem_cons_of_mem _ hc))

theorem getD_replicate_zero (n k : Nat) : (List.replicate n 0).getD k 0 = 0 := by
  by_cases hk : k < n
  · rw [List.getD_eq_getElem _ _ (by simpa using hk)]
    simp
  · rw [List.getD_eq_default _ _ (by simpa using Nat.le_of_not_lt hk)]

theorem set_replicate_zero (n k : Nat) : (List.replicate n 0).set k 0 = List.replicate n 0 := by
  have h := set_getD_self (List.replicate n 0) k
  rwa [getD_replicate_zero] at h

theorem ENTR64_RANKS_zero : ENTR64_RANKS[0 >>> ENTR_POWER]? = some 0 := by
  have h0 : 0 >>> ENTR_POWER = 0 := Nat.zero_shiftRight _
  rw [h0]
  unfold ENTR64_RANKS
  exact List.getElem?_cons_zero

theorem gen_chunk_ranks_zero (file_buffer : List Nat) (base n : Nat) (hn : 64 ≤ n)
    (hU : n < U64) :
    gen_chunk_ranks sdbf_sys entr64_constant file_buffer base n (List.replicate n 0) 0
      = .ok (List.replicate n 0) := by
  unfold gen_chunk_ranks
  have hlen : ¬ ((List.replicate n 0).length < n ∨ n < 0) := by simp
  rw [if_neg hlen]
  have hw : sdbf_sys.entr_win_size = 64 := rfl
  simp only [hw, usub64_eq n 64 hn hU, lt_irrefl, if_false, List.take_zero, List.nil_append,
    Nat.sub_zero, List.drop_replicate, Nat.sub_self, List.replicate_zero, List.append_nil]
  rw [foldlM_fixed]
  · rfl
  · intro offset hoff
    have ho : offset < (List.replicate n 0).length := by
      rw [List.mem_range] at hoff
      simp; omega
    have he : ∀ x : Nat × List Nat,
        (if offset % sdbf_sys.block_size = 0 then x else x) = x := fun x => ite_self x
    simp only [entr64_constant, he, if_pos ho]
    rw [ENTR64_RANKS_zero]
    simp only []
    have hz : 0 % U16 = 0 := by decide
    rw [hz, set_replicate_zero]

theorem scan_score_zero_ranks (n w p : Nat) : scan_score (List.replicate n 0) n w p = 0 := by
  unfold scan_score
  rw [List.countP_eq_zero]
  intro i _
  simp [getD_replicate_zero]

theorem noSlide_zero_ranks (n w : Nat) : NoSlide (List.replicate n 0) n w := by
  intro i _ _ hcon
  have hz : (scan_select (List.replicate n 0) (i - 1) w).2 = 0 := by
    unfold scan_select
    apply foldl_invariant (fun (st : Nat × Nat) => st.2 = 0)
    · exact getD_replicate_zero _ _
    · intro st j _ hst
      unfold scan_update
      rw [getD_replicate_zero]
      split
      · rfl
      · split
        · exact hst
        · exact hst
  omega

theorem gen_chunk_scores_zero (n : Nat) (hn : 64 < n) (hU : n < U64) :
    gen_chunk_scores sdbf_sys (List.replicate n 0) n (List.replicate n 0) none
      = .ok (List.replicate n 0, none) := by
  obtain ⟨scores, h1, h2, h3⟩ := no_slide_scores (List.replicate n 0)
    (List.replicate n 0) n (by simp) (by simp) hn hU (noSlide_zero_ranks n 64)
  have hs : scores = List.replicate n 0 := by
    apply List.ext_getElem
    · rw [h2]; simp
    · intro k hk1 hk2
      have := h3 k (by omega)
      rw [List.getD_eq_getElem _ _ hk1, scan_score_zero_ranks] at this
      rw [this]
      simp
  rw [h1, hs]

theorem gen_chunk_hash_zero (SHA1 : List Nat → List Nat) (file_buffer : List Nat)
    (chunk_pos n : Nat) (hn : 64 ≤ n) (hU : n < U64) (sdbf : sdbf_t) :
    gen_chunk_hash sdbf_sys SHA1 file_buffer chunk_pos (List.replicate n 0) n sdbf
      = .ok sdbf := by
  unfold gen_chunk_hash
  have hw : sdbf_sys.pop_win_size = 64 := rfl
  rw [hw, usub64_eq n 64 hn hU, foldlM_fixed]
  · rfl
  · intro i hi
    rw [List.mem_range] at hi
    unfold gen_chunk_hash_step
    rw [rd_ok _ _ (by simp; omega), getD_replicate_zero]
    simp only []
    rw [if_neg (by decide)]

theorem realloc_empty (name : List Nat) (bs : Nat) (hbs : 256 ≤ bs) :
    gen_chunk_sdbf_realloc bs
        { sdbf_create sdbf_sys name with buffer := List.replicate bs 0 }
      = empty_digest name := by
  unfold gen_chunk_sdbf_realloc empty_digest
  have hb : (sdbf_create sdbf_sys name).bf_count * (sdbf_create sdbf_sys name).bf_size = 256 := by
    simp [sdbf_create, sdbf_sys]
  simp only [hb]
  split
  · rw [List.take_replicate, Nat.min_eq_left hbs]
  · have : bs = 256 := by omega
    rw [this]

/-- For every buffer of `n` zero bytes, `64 < n < 32 MiB`, `sdbf_hash_buffer` returns the
digest with one empty filter, whatever `SHA1` is. -/
theorem sdbf_hash_buffer_zero (SHA1 : List Nat → List Nat) (n : Nat) (name : List Nat)
    (hn : 64 < n) (hM : n < 32 * MB) :
    sdbf_hash_buffer sdbf_sys entr64_constant SHA1 (List.replicate n 0) n name
      = .ok (empty_digest name) := by
  have hU : n < U64 := by unfold MB at hM; unfold U64; omega
  have hq : n / (32 * MB) = 0 := Nat.div_eq_of_lt hM
  have hr : n % (32 * MB) = n := Nat.mod_eq_of_lt hM
  have hchunk : ∀ d : sdbf_t, gen_chunk_sdbf_chunk sdbf_sys entr64_constant SHA1
      (List.replicate n 0) 0 n false d = .ok d := by
    intro d
    unfold gen_chunk_sdbf_chunk
    rw [gen_chunk_ranks_zero _ _ _ (by omega) hU]
    simp only [Bool.false_eq_true, if_false]
    rw [gen_chunk_scores_zero n hn hU]
    simp only []
    exact gen_chunk_hash_zero SHA1 _ 0 n (by omega) hU d
  have hbs : 256 ≤ gen_chunk_sdbf_buff_size n := by
    unfold gen_chunk_sdbf_buff_size
    split <;> omega
  have htrim : ∀ bs : Nat, gen_chunk_sdbf_trim sdbf_sys
      { sdbf_create sdbf_sys name with buffer := List.replicate bs 0 }
      = { sdbf_create sdbf_sys name with buffer := List.replicate bs 0 } := by
    intro bs
    unfold gen_chunk_sdbf_trim
    rw [if_neg (fun h => absurd h.1 (Nat.lt_irrefl 1))]
  unfold sdbf_hash_buffer gen_chunk_sdbf
  rw [hq, hr, List.range_zero, List.foldlM_nil]
  simp only [pure, Except.pure]
  rw [if_pos (show n > 0 by omega), Nat.zero_mul, hchunk]
  simp only []
  rw [htrim, realloc_empty name _ hbs]

/-- Counterexample to C8 as stated: the stream digest built from a buffer of 10 MiB of zero
bytes has one filter and no element (every window has entropy 0 and rank 0, no position
is scored and `SHA1` is never called); compared with itself it scores `-1`. -/
theorem sdbf_score_self_empty_digest :
    (sdbf_hash_buffer sdbf_sys entr64_constant sha1_zero (List.replicate (10 * MB) 0)
        (10 * MB) [97]).map
        (fun d => (d.bf_count, d.last_count, (sdbf_score exactFloat 1 init_state d d).score))
      = .ok (1, 0, -1) := by
  rw [sdbf_hash_buffer_zero sha1_zero (10 * MB) [97] (by decide) (by decide)]
  decide!

/-! ### Block digests -/

theorem foldlM_inv {σ α : Type} (P : σ → Prop) (f : σ → α → Except Fault σ) :
    ∀ (l : List α) (s r : σ), P s → (∀ s a s', a ∈ l → P s → f s a = .ok s' → P s') →
      l.foldlM f s = .ok r → P r := by
  intro l
  induction l with
  | nil =>
    intro s r h0 _ h
    have e : s = r := by simpa [List.foldlM, pure, Except.pure] using h
    exact e ▸ h0
  | cons a l ih =>
    intro s r h0 hstep h
    rw [List.foldlM_cons] at h
    cases hfa : f s a with
    | error e => rw [hfa] at h; cases h
    | ok s1 =>
      rw [hfa] at h
      exact ih s1 r (hstep s a s1 (List.mem_cons_self _ _) h0 hfa)
        (fun s2 b s3 hb => hstep s2 b s3 (List.mem_cons_of_mem _ hb)) h

theorem toU32_nonneg (z : Int) (h0 : 0 ≤ z) (h1 : z < 2 ^ 32) : toU32 z = z.toNat := by
  unfold toU32
  rw [Int.emod_eq_of_lt h0 h1]

theorem histo_above_pred (score_histo : List Int) (k : Nat) (h1 : 1 ≤ k) (h2 : k ≤ 65) :
    histo_above score_histo (k - 1) = score_histo.getD k 0 + histo_above score_histo k := by
  unfold histo_above
  have e1 : k - 1 + 1 = k := by omega
  have e2 : 65 - (k - 1) = (65 - k) + 1 := by omega
  rw [e1, e2, List.range'_succ, List.map_cons, List.sum_cons]

theorem threshold_loop_spec (sys : sdbf_parameters_t) (score_histo : List Int)
    (hlen : score_histo.length = 66) (hnn : ∀ h ∈ score_histo, 0 ≤ h ∧ h < 2 ^ 31)
    (ht : 1 ≤ sys.threshold) (hm : sys.max_elem < 2 ^ 31) :
    ∀ fuel k sum, k ≤ 65 → sys.threshold ≤ k + 1 → k + 2 ≤ fuel + sys.threshold →
      sum ≤ sys.max_elem → (sum : Int) = histo_above score_histo k →
      ∃ k1 sum1, threshold_loop sys score_histo fuel k sum = .ok (k1, sum1)
        ∧ sys.threshold ≤ k1 + 1 ∧ k1 ≤ 65 ∧ sum1 ≤ sys.max_elem
        ∧ (sum1 : Int) = histo_above score_histo k1
        ∧ (sys.threshold ≤ k1 → (sum1 : Int) + score_histo.getD k1 0 > sys.max_elem) := by
  intro fuel
  induction fuel with
  | zero => intro k sum _ h2 h3; omega
  | succ fuel ih =>
    intro k sum hk h2 h3 hs he
    unfold threshold_loop
    by_cases hge : k ≥ sys.threshold
    · rw [if_pos hge]
      have hkl : k < score_histo.length := by omega
      rw [List.getElem?_eq_getElem hkl]
      have hmem := hnn _ (List.getElem_mem hkl)
      have hg : score_histo.getD k 0 = score_histo[k] := List.getD_eq_getElem _ _ hkl
      have hu : toU32 score_histo[k] = score_histo[k].toNat :=
        toU32_nonneg _ hmem.1 (by omega)
      have hmod : (sum + toU32 score_histo[k]) % U32 = sum + score_histo[k].toNat := by
        rw [hu]
        apply Nat.mod_eq_of_lt
        unfold U32
        omega
      simp only []
      rw [hmod]
      by_cases hb : sum ≤ sys.max_elem ∧ sum + score_histo[k].toNat > sys.max_elem
      · rw [if_pos hb]
        refine ⟨k, sum, rfl, h2, hk, hs, he, fun _ => ?_⟩
        rw [hg]
        omega
      · rw [if_neg hb]
        have hk1 : usub32 k 1 = k - 1 := usub32_eq k 1 (by omega) (by unfold U32; omega)
        rw [hk1]
        apply ih (k - 1) (sum + score_histo[k].toNat) (by omega) (by omega) (by omega)
          (by omega)
        rw [histo_above_pred score_histo k (by omega) hk, hg]
        omega
    · rw [if_neg hge]
      exact ⟨k, sum, rfl, h2, hk, hs, he, fun h => absurd h hge⟩

theorem histo_above_top (score_histo : List Int) : histo_above score_histo 65 = 0 := by
  unfold histo_above
  rfl

/-- Claim C28. For every histogram of 66 non-negative `int32_t` entries (thresholds from 1
to 66, `max_elem` below 2^31) the threshold descent returns, with `sum ≤ max_elem`, `sum`
the total of the entries at the levels above the final `k`, `allowed = max_elem - sum`
without wrap-around, and `sum + histo[k] > max_elem` when the loop stopped by its
`break` (the final `k` is not below the floor). -/
theorem threshold_descent_sum (sys : sdbf_parameters_t) (score_histo : List Int)
    (hlen : score_histo.length = 66) (hnn : ∀ h ∈ score_histo, 0 ≤ h ∧ h < 2 ^ 31)
    (ht : 1 ≤ sys.threshold) (ht2 : sys.threshold ≤ 66) (hm : sys.max_elem < 2 ^ 31) :
    ∃ k sum, threshold_loop sys score_histo 67 65 0 = .ok (k, sum)
      ∧ sum ≤ sys.max_elem
      ∧ (sum : Int) = histo_above score_histo k
      ∧ threshold_params sys score_histo = .ok (k, sys.max_elem - sum)
      ∧ sys.max_elem - sum ≤ sys.max_elem
      ∧ (sys.threshold ≤ k → (sum : Int) + score_histo.getD k 0 > sys.max_elem) := by
  obtain ⟨k, sum, h1, _, _, h4, h5, h6⟩ :=
    threshold_loop_spec sys score_histo hlen hnn ht hm 67 65 0 (le_refl _) (by omega)
      (by omega) (Nat.zero_le _) (by rw [histo_above_top]; rfl)
  refine ⟨k, sum, h1, h4, h5, ?_, Nat.sub_le _ _, h6⟩
  unfold threshold_params
  rw [h1]
  simp only []
  rw [usub32_eq _ _ h4 (by unfold U32; omega)]

/-- Witness for C28: with the parameters of `sdhash.c` the descent over `histo_example`
consumes the levels 65 to 20 (138 positions) and stops by its `break` at `k = 19`. -/
theorem threshold_descent_sum_witness :
    ∃ k sum, threshold_loop sdbf_sys histo_example 67 65 0 = .ok (k, sum)
      ∧ sum ≤ sdbf_sys.max_elem
      ∧ (sum : Int) = histo_above histo_example k
      ∧ threshold_params sdbf_sys histo_example = .ok (k, sdbf_sys.max_elem - sum)
      ∧ sdbf_sys.max_elem - sum ≤ sdbf_sys.max_elem
      ∧ (sdbf_sys.threshold ≤ k → (sum : Int) + histo_example.getD k 0 > sdbf_sys.max_elem) :=
  threshold_descent_sum sdbf_sys histo_example (by decide) (by decide) (by decide)
    (by decide) (by decide)

/-- Claim C27 at the failing input: the histogram of a block of 4096 bytes in which every
position has score 0 (4032 positions). The loop never takes its `break`, runs until
`k >= 16` fails, and the `k` passed to `gen_block_hash` is 15, with `allowed = 160`. -/
theorem threshold_descent_below_floor :
    threshold_params sdbf_sys ([4032] ++ List.replicate 65 0) = .ok (15, 160) := by
  decide

theorem rd_inv (a : List Nat) (k v : Nat) (h : rd a k = .ok v) :
    k < a.length ∧ v = a.getD k 0 := by
  unfold rd at h
  by_cases hk : k < a.length
  · rw [List.getElem?_eq_getElem hk] at h
    rw [List.getD_eq_getElem _ _ hk]
    injection h with h
    exact ⟨hk, h.symm⟩
  · rw [List.getElem?_eq_none (Nat.le_of_not_lt hk)] at h
    cases h

theorem block_step_cases (sys : sdbf_parameters_t) (SHA1 : List Nat → List Nat)
    (file_buffer : List Nat) (data : Nat) (chunk_scores : List Nat) (threshold : Nat)
    (fits : Bool) (st st1 : BlockState) (i : Nat)
    (h : gen_block_hash_step sys SHA1 file_buffer data chunk_scores threshold fits st i
      = .ok st1) :
    (¬ st.hash_cnt < sys.max_elem ∧ st1 = st)
    ∨ (st.hash_cnt < sys.max_elem ∧ i < chunk_scores.length
        ∧ ¬ block_accepts threshold st.allowed (chunk_scores.getD i 0) ∧ st1 = st)
    ∨ (st.hash_cnt < sys.max_elem ∧ i < chunk_scores.length
        ∧ block_accepts threshold st.allowed (chunk_scores.getD i 0) ∧ fits = true
        ∧ (block_insert sys SHA1 file_buffer data st.bf i).insert_cnt = 0
        ∧ st1 = BlockState.mk (block_insert sys SHA1 file_buffer data st.bf i).bf
            st.hash_cnt st.allowed)
    ∨ (st.hash_cnt < sys.max_elem ∧ i < chunk_scores.length
        ∧ block_accepts threshold st.allowed (chunk_scores.getD i 0) ∧ fits = true
        ∧ (block_insert sys SHA1 file_buffer data st.bf i).insert_cnt ≠ 0
        ∧ st1 = BlockState.mk (block_insert sys SHA1 file_buffer data st.bf i).bf
            ((st.hash_cnt + 1) % U32)
            (if chunk_scores.getD i 0 = threshold then st.allowed - 1 else st.allowed)) := by
  unfold gen_block_hash_step at h
  by_cases hg : st.hash_cnt < sys.max_elem
  · rw [if_pos hg] at h
    cases hrd : rd chunk_scores i with
    | error e => rw [hrd] at h; cases h
    | ok score =>
      obtain ⟨hi, hv⟩ := rd_inv _ _ _ hrd
      rw [hrd] at h
      simp only [] at h
      subst hv
      by_cases ha : block_accepts threshold st.allowed (chunk_scores.getD i 0)
      · rw [if_pos ha] at h
        by_cases hf : fits = true
        · rw [if_pos hf] at h
          by_cases hz : (block_insert sys SHA1 file_buffer data st.bf i).insert_cnt = 0
          · have hz1 := hz
            unfold block_insert at hz1
            rw [if_pos hz1] at h
            injection h with h
            exact Or.inr (Or.inr (Or.inl ⟨hg, hi, ha, hf, hz, h.symm⟩))
          · have hz1 := hz
            unfold block_insert at hz1
            rw [if_neg hz1] at h
            injection h with h
            exact Or.inr (Or.inr (Or.inr ⟨hg, hi, ha, hf, hz, h.symm⟩))
        · rw [if_neg hf] at h
          cases h
      · rw [if_neg ha] at h
        injection h with h
        exact Or.inr (Or.inl ⟨hg, hi, ha, h.symm⟩)
  · rw [if_neg hg] at h
    injection h with h
    exact Or.inl ⟨hg, h.symm⟩

theorem block_step_cnt (sys : sdbf_parameters_t) (SHA1 : List Nat → List Nat)
    (file_buffer : List Nat) (data : Nat) (chunk_scores : List Nat) (threshold : Nat)
    (fits : Bool) (st st1 : BlockState) (i : Nat)
    (h : gen_block_hash_step sys SHA1 file_buffer data chunk_scores threshold fits st i
      = .ok st1) (hc : st.hash_cnt ≤ sys.max_elem) : st1.hash_cnt ≤ sys.max_elem := by
  rcases block_step_cases _ _ _ _ _ _ _ _ _ _ h with
    ⟨_, e⟩ | ⟨_, _, _, e⟩ | ⟨_, _, _, _, _, e⟩ | ⟨hg, _, _, _, _, e⟩
  · rw [e]; exact hc
  · rw [e]; exact hc
  · rw [e]; exact hc
  · rw [e]
    exact le_trans (Nat.mod_le _ _) hg

theorem block_loop_cnt (sys : sdbf_parameters_t) (SHA1 : List Nat → List Nat)
    (file_buffer : List Nat) (data : Nat) (chunk_scores : List Nat) (max_offset : Nat)
    (threshold : Nat) (allowed : Int) (fits : Bool) (bf : List Nat) (st : BlockState)
    (h : gen_block_hash_loop sys SHA1 file_buffer data chunk_scores max_offset threshold
      allowed fits bf = .ok st) : st.hash_cnt ≤ sys.max_elem := by
  unfold gen_block_hash_loop at h
  exact foldlM_inv (fun s => s.hash_cnt ≤ sys.max_elem) _ _ _ _ (Nat.zero_le _)
    (fun s a s1 _ hs hf => block_step_cnt _ _ _ _ _ _ _ _ _ _ hf hs) h

/-- Claim C13. Whenever `gen_block_hash` returns, for any score array, threshold and
`allowed`, for a regular block (`rem = 0`) or the remainder block, the count it records in
`elem_counts[block_num]` is at most `max_elem`, and the other counts are unchanged. -/
theorem gen_block_hash_elem_count (sys : sdbf_parameters_t) (SHA1 : List Nat → List Nat)
    (file_buffer : List Nat) (block_num : Nat) (chunk_scores : List Nat) (block_size : Nat)
    (sdbf d : sdbf_t) (rem threshold : Nat) (allowed : Int)
    (h : gen_block_hash sys SHA1 file_buffer block_num chunk_scores block_size sdbf rem
      threshold allowed = .ok d) :
    ∃ ec ec1, sdbf.elem_counts = some ec ∧ d.elem_counts = some ec1
      ∧ ec1.length = ec.length ∧ block_num < ec1.length
      ∧ 0 ≤ ec1.getD block_num 0 ∧ ec1.getD block_num 0 ≤ sys.max_elem
      ∧ ∀ j, j ≠ block_num → ec1.getD j 0 = ec.getD j 0 := by
  unfold gen_block_hash at h
  cases hl : gen_block_hash_loop sys SHA1 file_buffer (block_num * block_size) chunk_scores
      (if rem > 0 then rem else block_size % U32) threshold allowed
      (decide (block_num * sdbf.bf_size + 256 ≤ sdbf.buffer.length))
      ((sdbf.buffer.drop (block_num * sdbf.bf_size)).take 256) with
  | error e => rw [hl] at h; cases h
  | ok st =>
    rw [hl] at h
    simp only [] at h
    have hc := block_loop_cnt _ _ _ _ _ _ _ _ _ _ _ hl
    cases hec : sdbf.elem_counts with
    | none => rw [hec] at h; cases h
    | some ec =>
      rw [hec] at h
      simp only [] at h
      by_cases hb : block_num < ec.length
      · rw [if_pos hb] at h
        injection h with h
        subst h
        refine ⟨ec, ec.set block_num (st.hash_cnt % U16), rfl, rfl, List.length_set _ _ _,
          by rw [List.length_set]; exact hb, Nat.zero_le _, ?_, ?_⟩
        · rw [List.getD_eq_getElem _ _ (by rw [List.length_set]; exact hb),
            List.getElem_set_self]
          exact le_trans (Nat.mod_le _ _) hc
        · intro j hj
          exact getD_set_ne _ _ _ _ (fun e => hj e.symm)
      · rw [if_neg hb] at h
        cases h

/-- Witness for C13: a remainder block of 66 bytes (two positions) with the scores 17 and
3, threshold 16: the first position is hashed into the empty filter and counted. -/
theorem gen_block_hash_elem_count_witness :
    ∃ ec ec1, block_digest_one.elem_counts = some ec
      ∧ ({ block_digest_one with
            buffer := [1] ++ List.replicate 255 0, elem_counts := some [1] } : sdbf_t).elem_counts
          = some ec1
      ∧ ec1.length = ec.length ∧ 0 < ec1.length
      ∧ 0 ≤ ec1.getD 0 0 ∧ ec1.getD 0 0 ≤ sdbf_sys.max_elem
      ∧ ∀ j, j ≠ 0 → ec1.getD j 0 = ec.getD j 0 :=
  gen_block_hash_elem_count sdbf_sys sha1_zero (List.replicate 66 0) 0 [17, 3] 4096
    block_digest_one _ 66 16 0 (by decide!)

theorem write_filter_getElem? (buffer : List Nat) (off : Nat) (bf : List Nat)
    (hbf : off + 256 ≤ buffer.length → bf.length = 256) (k : Nat) :
    (write_filter buffer off bf)[k]?
      = if off + 256 ≤ buffer.length ∧ off ≤ k ∧ k < off + 256 then bf[k - off]?
        else buffer[k]? := by
  unfold write_filter
  by_cases hf : off + 256 ≤ buffer.length
  · have hl := hbf hf
    rw [if_pos hf]
    have ht : (buffer.take off).length = off := by
      rw [List.length_take]; omega
    by_cases h1 : k < off
    · rw [if_neg (by omega), List.append_assoc,
        List.getElem?_append_left (by rw [ht]; exact h1), List.getElem?_take_of_lt h1]
    · by_cases h2 : k < off + 256
      · rw [if_pos ⟨hf, by omega, h2⟩, List.append_assoc,
          List.getElem?_append_right (by rw [ht]; omega), ht,
          List.getElem?_append_left (by rw [hl]; omega)]
      · rw [if_neg (by omega), List.append_assoc,
          List.getElem?_append_right (by rw [ht]; omega), ht,
          List.getElem?_append_right (by rw [hl]; omega), hl, List.getElem?_drop]
        have e : ∀ a b : Nat, a = b → buffer[a]? = buffer[b]? := fun a b h => by rw [h]
        exact e _ _ (by omega)
  · rw [if_neg hf, if_neg (fun h => hf h.1)]

theorem write_filter_length (buffer : List Nat) (off : Nat) (bf : List Nat)
    (hbf : off + 256 ≤ buffer.length → bf.length = 256) :
    (write_filter buffer off bf).length = buffer.length := by
  unfold write_filter
  by_cases hf : off + 256 ≤ buffer.length
  · rw [if_pos hf, List.length_append, List.length_append, List.length_take,
      List.length_drop, hbf hf]
    omega
  · rw [if_neg hf]

theorem write_filter_region (buffer : List Nat) (off1 off2 : Nat) (bf : List Nat)
    (hbf : off1 + 256 ≤ buffer.length → bf.length = 256)
    (hd : off2 + 256 ≤ off1 ∨ off1 + 256 ≤ off2) :
    ((write_filter buffer off1 bf).drop off2).take 256 = (buffer.drop off2).take 256 := by
  apply List.ext_getElem?
  intro k
  by_cases hk : k < 256
  · rw [List.getElem?_take_of_lt hk, List.getElem?_take_of_lt hk, List.getElem?_drop,
      List.getElem?_drop, write_filter_getElem? _ _ _ hbf, if_neg (by omega)]
  · rw [List.getElem?_eq_none (by rw [List.length_take]; omega),
      List.getElem?_eq_none (by rw [List.length_take]; omega)]

theorem write_filter_comm (buffer : List Nat) (off1 off2 : Nat) (b1 b2 : List Nat)
    (h1 : off1 + 256 ≤ buffer.length → b1.length = 256)
    (h2 : off2 + 256 ≤ buffer.length → b2.length = 256)
    (hd : off2 + 256 ≤ off1 ∨ off1 + 256 ≤ off2) :
    write_filter (write_filter buffer off1 b1) off2 b2
      = write_filter (write_filter buffer off2 b2) off1 b1 := by
  apply List.ext_getElem?
  intro k
  have l1 := write_filter_length buffer off1 b1 h1
  have l2 := write_filter_length buffer off2 b2 h2
  rw [write_filter_getElem? (write_filter buffer off1 b1) off2 b2 (by rw [l1]; exact h2) k,
    write_filter_getElem? (write_filter buffer off2 b2) off1 b1 (by rw [l2]; exact h1) k,
    write_filter_getElem? buffer off1 b1 h1 k, write_filter_getElem? buffer off2 b2 h2 k,
    l1, l2]
  by_cases c1 : off1 + 256 ≤ buffer.length ∧ off1 ≤ k ∧ k < off1 + 256
  · have c2 : ¬ (off2 + 256 ≤ buffer.length ∧ off2 ≤ k ∧ k < off2 + 256) := by omega
    simp only [if_pos c1, if_neg c2]
  · simp only [if_neg c1]

theorem insert_step_length (m : Nat) (st : InsertResult) (i : Nat) :
    (bf_sha1_insert_step m st i).bf.length = st.bf.length := by
  unfold bf_sha1_insert_step
  simp only [List.length_set]

theorem insert_length (bf : List Nat) (c : Nat) (h : List Nat) :
    (bf_sha1_insert bf c h).bf.length = bf.length := by
  unfold bf_sha1_insert
  have : ∀ (l : List Nat) (st : InsertResult),
      (l.foldl (bf_sha1_insert_step (BF_CLASS_MASKS.getD c 0)) st).bf.length
        = st.bf.length := by
    intro l
    induction l with
    | nil => intro st; rfl
    | cons a l ih =>
      intro st
      rw [List.foldl_cons, ih, insert_step_length]
  exact this _ _

theorem block_loop_length (sys : sdbf_parameters_t) (SHA1 : List Nat → List Nat)
    (file_buffer : List Nat) (data : Nat) (chunk_scores : List Nat) (max_offset : Nat)
    (threshold : Nat) (allowed : Int) (fits : Bool) (bf : List Nat) (st : BlockState)
    (h : gen_block_hash_loop sys SHA1 file_buffer data chunk_scores max_offset threshold
      allowed fits bf = .ok st) : st.bf.length = bf.length := by
  unfold gen_block_hash_loop at h
  refine foldlM_inv (fun s => s.bf.length = bf.length) _ _ _ _ rfl ?_ h
  intro s a s1 _ hs hf
  rcases block_step_cases _ _ _ _ _ _ _ _ _ _ hf with
    ⟨_, e⟩ | ⟨_, _, _, e⟩ | ⟨_, _, _, _, _, e⟩ | ⟨_, _, _, _, _, e⟩
  · rw [e]; exact hs
  · rw [e]; exact hs
  · rw [e]
    show (block_insert sys SHA1 file_buffer data s.bf a).bf.length = _
    unfold block_insert
    rw [insert_length]; exact hs
  · rw [e]
    show (block_insert sys SHA1 file_buffer data s.bf a).bf.length = _
    unfold block_insert
    rw [insert_length]; exact hs

theorem gen_block_hash_ok_iff (sys : sdbf_parameters_t) (SHA1 : List Nat → List Nat)
    (file_buffer : List Nat) (i : Nat) (scores : List Nat) (block_size : Nat)
    (d d1 : sdbf_t) (rem k : Nat) (a : Int) :
    gen_block_hash sys SHA1 file_buffer i scores block_size d rem k a = .ok d1
    ↔ ∃ st ec, block_run sys SHA1 file_buffer block_size d i scores rem k a = .ok st
        ∧ d.elem_counts = some ec ∧ i < ec.length
        ∧ d1 = { d with buffer := write_filter d.buffer (i * d.bf_size) st.bf,
                        elem_counts := some (ec.set i (st.hash_cnt % U16)) } := by
  unfold gen_block_hash block_run
  cases hl : gen_block_hash_loop sys SHA1 file_buffer (i * block_size) scores
      (if rem > 0 then rem else block_size % U32) k a
      (decide (i * d.bf_size + 256 ≤ d.buffer.length))
      ((d.buffer.drop (i * d.bf_size)).take 256) with
  | error e =>
    simp only []
    constructor
    · intro h; cases h
    · rintro ⟨st, ec, h, _⟩; cases h
  | ok st =>
    simp only []
    cases hec : d.elem_counts with
    | none =>
      simp only []
      constructor
      · intro h; cases h
      · rintro ⟨_, ec, _, h, _⟩; cases h
    | some ec =>
      simp only []
      by_cases hb : i < ec.length
      · rw [if_pos hb]
        constructor
        · intro h
          injection h with h
          exact ⟨st, ec, rfl, rfl, hb, h.symm⟩
        · rintro ⟨st1, ec1, h1, h2, _, h4⟩
          injection h1 with h1
          injection h2 with h2
          subst h1 h2
          rw [h4]
      · rw [if_neg hb]
        constructor
        · intro h; cases h
        · rintro ⟨_, ec1, _, h2, h3, _⟩
          injection h2 with h2
          subst h2
          exact absurd h3 hb

theorem block_run_length (sys : sdbf_parameters_t) (SHA1 : List Nat → List Nat)
    (file_buffer : List Nat) (block_size : Nat) (d : sdbf_t) (i : Nat) (scores : List Nat)
    (rem k : Nat) (a : Int) (st : BlockState)
    (h : block_run sys SHA1 file_buffer block_size d i scores rem k a = .ok st) :
    i * d.bf_size + 256 ≤ d.buffer.length → st.bf.length = 256 := by
  intro hf
  unfold block_run at h
  rw [block_loop_length _ _ _ _ _ _ _ _ _ _ _ h, List.length_take, List.length_drop]
  omega

theorem offsets_disjoint (i j n : Nat) (hij : i ≠ j) (hn : 256 ≤ n) :
    j * n + 256 ≤ i * n ∨ i * n + 256 ≤ j * n := by
  rcases Nat.lt_or_gt_of_ne hij with h | h
  · right
    have := Nat.mul_le_mul_right n (Nat.succ_le_of_lt h)
    rw [Nat.succ_mul] at this
    omega
  · left
    have := Nat.mul_le_mul_right n (Nat.succ_le_of_lt h)
    rw [Nat.succ_mul] at this
    omega

theorem block_run_frame (sys : sdbf_parameters_t) (SHA1 : List Nat → List Nat)
    (file_buffer : List Nat) (block_size : Nat) (d : sdbf_t) (i j : Nat) (hij : i ≠ j)
    (hbf : 256 ≤ d.bf_size) (bf1 : List Nat) (ec1 : Option (List Nat))
    (hl : i * d.bf_size + 256 ≤ d.buffer.length → bf1.length = 256)
    (scores : List Nat) (rem k : Nat) (a : Int) :
    block_run sys SHA1 file_buffer block_size
        { d with buffer := write_filter d.buffer (i * d.bf_size) bf1, elem_counts := ec1 }
        j scores rem k a
      = block_run sys SHA1 file_buffer block_size d j scores rem k a := by
  unfold block_run
  simp only []
  rw [write_filter_length _ _ _ hl,
    write_filter_region _ _ _ _ hl (offsets_disjoint i j d.bf_size hij hbf)]

theorem two_blocks (sys : sdbf_parameters_t) (SHA1 : List Nat → List Nat)
    (file_buffer : List Nat) (block_size : Nat) (d x : sdbf_t) (hbf : 256 ≤ d.bf_size)
    (i j : Nat) (hij : i ≠ j) (s1 s2 : List Nat) (r1 r2 k1 k2 : Nat) (a1 a2 : Int) :
    (∃ d1, gen_block_hash sys SHA1 file_buffer i s1 block_size d r1 k1 a1 = .ok d1
        ∧ gen_block_hash sys SHA1 file_buffer j s2 block_size d1 r2 k2 a2 = .ok x)
    ↔ ∃ st1 st2 ec,
        block_run sys SHA1 file_buffer block_size d i s1 r1 k1 a1 = .ok st1
        ∧ block_run sys SHA1 file_buffer block_size d j s2 r2 k2 a2 = .ok st2
        ∧ d.elem_counts = some ec ∧ i < ec.length ∧ j < ec.length
        ∧ x = { d with
                buffer := write_filter (write_filter d.buffer (i * d.bf_size) st1.bf)
                  (j * d.bf_size) st2.bf,
                elem_counts :=
                  some ((ec.set i (st1.hash_cnt % U16)).set j (st2.hash_cnt % U16)) } := by
  constructor
  · rintro ⟨d1, h1, h2⟩
    obtain ⟨st1, ec, hr1, hec, hi, hd1⟩ := (gen_block_hash_ok_iff _ _ _ _ _ _ _ _ _ _ _).1 h1
    obtain ⟨st2, ec2, hr2, hec2, hj, hx⟩ := (gen_block_hash_ok_iff _ _ _ _ _ _ _ _ _ _ _).1 h2
    subst hd1
    rw [block_run_frame _ _ _ _ _ _ _ hij hbf _ _
      (block_run_length _ _ _ _ _ _ _ _ _ _ _ hr1)] at hr2
    simp only [Option.some.injEq] at hec2
    subst hec2
    rw [List.length_set] at hj
    exact ⟨st1, st2, ec, hr1, hr2, hec, hi, hj, hx⟩
  · rintro ⟨st1, st2, ec, hr1, hr2, hec, hi, hj, hx⟩
    refine ⟨{ d with buffer := write_filter d.buffer (i * d.bf_size) st1.bf,
                     elem_counts := some (ec.set i (st1.hash_cnt % U16)) }, ?_, ?_⟩
    · exact (gen_block_hash_ok_iff _ _ _ _ _ _ _ _ _ _ _).2 ⟨st1, ec, hr1, hec, hi, rfl⟩
    · refine (gen_block_hash_ok_iff _ _ _ _ _ _ _ _ _ _ _).2
        ⟨st2, ec.set i (st1.hash_cnt % U16), ?_, rfl, by rw [List.length_set]; exact hj, hx⟩
      rw [block_run_frame _ _ _ _ _ _ _ hij hbf _ _
        (block_run_length _ _ _ _ _ _ _ _ _ _ _ hr1)]
      exact hr2

theorem gen_block_hash_comm (sys : sdbf_parameters_t) (SHA1 : List Nat → List Nat)
    (file_buffer : List Nat) (block_size : Nat) (d x : sdbf_t) (hbf : 256 ≤ d.bf_size)
    (i j : Nat) (hij : i ≠ j) (s1 s2 : List Nat) (r1 r2 k1 k2 : Nat) (a1 a2 : Int) :
    (∃ d1, gen_block_hash sys SHA1 file_buffer i s1 block_size d r1 k1 a1 = .ok d1
        ∧ gen_block_hash sys SHA1 file_buffer j s2 block_size d1 r2 k2 a2 = .ok x)
    ↔ (∃ d2, gen_block_hash sys SHA1 file_buffer j s2 block_size d r2 k2 a2 = .ok d2
        ∧ gen_block_hash sys SHA1 file_buffer i s1 block_size d2 r1 k1 a1 = .ok x) := by
  rw [two_blocks _ _ _ _ _ _ hbf i j hij, two_blocks _ _ _ _ _ _ hbf j i (Ne.symm hij)]
  have hd := offsets_disjoint i j d.bf_size hij hbf
  constructor
  · rintro ⟨st1, st2, ec, hr1, hr2, hec, hi, hj, hx⟩
    refine ⟨st2, st1, ec, hr2, hr1, hec, hj, hi, ?_⟩
    rw [hx, write_filter_comm _ _ _ _ _ (block_run_length _ _ _ _ _ _ _ _ _ _ _ hr1)
      (block_run_length _ _ _ _ _ _ _ _ _ _ _ hr2) hd, List.set_comm _ _ ec hij]
  · rintro ⟨st2, st1, ec, hr2, hr1, hec, hj, hi, hx⟩
    refine ⟨st1, st2, ec, hr1, hr2, hec, hi, hj, ?_⟩
    rw [hx, write_filter_comm _ _ _ _ _ (block_run_length _ _ _ _ _ _ _ _ _ _ _ hr1)
      (block_run_length _ _ _ _ _ _ _ _ _ _ _ hr2) hd, List.set_comm _ _ ec hij]

theorem gen_block_hash_bf_size (sys : sdbf_parameters_t) (SHA1 : List Nat → List Nat)
    (file_buffer : List Nat) (i : Nat) (scores : List Nat) (block_size : Nat)
    (d d1 : sdbf_t) (rem k : Nat) (a : Int)
    (h : gen_block_hash sys SHA1 file_buffer i scores block_size d rem k a = .ok d1) :
    d1.bf_size = d.bf_size ∧ d1.bf_count = d.bf_count
    ∧ d1.buffer.length = d.buffer.length
    ∧ (d1.elem_counts.getD []).length = (d.elem_counts.getD []).length
    ∧ d1.elem_counts ≠ none ∧ d.elem_counts ≠ none := by
  obtain ⟨st, ec, hr, hec, hi, hd⟩ := (gen_block_hash_ok_iff _ _ _ _ _ _ _ _ _ _ _).1 h
  subst hd
  refine ⟨rfl, rfl, ?_, ?_, ?_, ?_⟩
  · exact write_filter_length _ _ _ (block_run_length _ _ _ _ _ _ _ _ _ _ _ hr)
  · rw [hec]
    show (ec.set i _).length = ec.length
    rw [List.length_set]
  · intro hh; cases hh
  · rw [hec]; intro hh; cases hh

theorem toOption_eq_some {α : Type} (x : Except Fault α) (a : α) :
    x.toOption = some a ↔ x = .ok a := by
  cases x with
  | error e => constructor <;> intro h <;> cases h
  | ok b =>
    constructor
    · intro h
      have : b = a := by simpa [Except.toOption] using h
      rw [this]
    · intro h
      injection h with h
      rw [h]; rfl

theorem match_toOption {α β : Type} (x : Except Fault α) (f : α → Except Fault β) :
    (match x with
      | .error e => (Except.error e : Except Fault β)
      | .ok d => f d).toOption = x.toOption.bind (fun d => (f d).toOption) := by
  cases x <;> rfl

theorem foldl_bind_none {α β : Type} (g : α → β → Option α) (l : List β) :
    l.foldl (fun o i => o.bind (fun d => g d i)) none = none := by
  induction l with
  | nil => rfl
  | cons a l ih => rw [List.foldl_cons]; exact ih

theorem foldlM_toOption {α β : Type} (f : α → β → Except Fault α) (l : List β) :
    ∀ d, (l.foldlM f d).toOption
      = l.foldl (fun o i => o.bind (fun d => (f d i).toOption)) (some d) := by
  induction l with
  | nil => intro d; rfl
  | cons a l ih =>
    intro d
    rw [List.foldlM_cons, List.foldl_cons]
    cases h : f d a with
    | error e =>
      show (none : Option α) = _
      rw [Option.some_bind, h]
      exact (foldl_bind_none _ l).symm
    | ok d1 =>
      rw [Option.some_bind, h]
      exact ih d1

theorem perm_foldl_inv {α β : Type} (P : β → Prop) (f : β → α → β)
    (hP : ∀ b a, P b → P (f b a))
    (hcomm : ∀ b a1 a2, P b → f (f b a1) a2 = f (f b a2) a1) {l1 l2 : List α}
    (h : l1.Perm l2) : ∀ b, P b → l1.foldl f b = l2.foldl f b := by
  induction h with
  | nil => intro b _; rfl
  | cons a _ ih => intro b hb; rw [List.foldl_cons, List.foldl_cons]; exact ih _ (hP b a hb)
  | swap a1 a2 l =>
    intro b hb
    rw [List.foldl_cons, List.foldl_cons, List.foldl_cons, List.foldl_cons, hcomm b a2 a1 hb]
  | trans _ _ ih1 ih2 =>
    intro b hb
    rw [ih1 b hb, ih2 b hb]

theorem block_opt_some (sys : sdbf_parameters_t) (E : Entr64) (SHA1 : List Nat → List Nat)
    (file_buffer : List Nat) (block_size : Nat) (o : Option sdbf_t) (i : Nat) (x : sdbf_t) :
    block_opt sys E SHA1 file_buffer block_size o i = some x
    ↔ ∃ d p, o = some d ∧ gen_block_sdbf_params sys E file_buffer block_size i = .ok p
        ∧ gen_block_hash sys SHA1 file_buffer i p.1 block_size d 0 p.2.1 (toI32 p.2.2)
            = .ok x := by
  unfold block_opt
  cases o with
  | none =>
    constructor
    · intro h; cases h
    · rintro ⟨d, p, h, _⟩; cases h
  | some d =>
    rw [Option.some_bind, toOption_eq_some]
    unfold gen_block_sdbf_block
    cases hp : gen_block_sdbf_params sys E file_buffer block_size i with
    | error e =>
      simp only []
      constructor
      · intro h; cases h
      · rintro ⟨_, p, _, h, _⟩; cases h
    | ok p =>
      simp only []
      constructor
      · intro h; exact ⟨d, p, rfl, rfl, h⟩
      · rintro ⟨d1, p1, h1, h2, h3⟩
        injection h1 with h1
        injection h2 with h2
        subst h1 h2
        exact h3

theorem block_opt_bf_size (sys : sdbf_parameters_t) (E : Entr64)
    (SHA1 : List Nat → List Nat) (file_buffer : List Nat) (block_size : Nat)
    (o : Option sdbf_t) (i : Nat) (hP : ∀ d, o = some d → 256 ≤ d.bf_size) :
    ∀ d, block_opt sys E SHA1 file_buffer block_size o i = some d → 256 ≤ d.bf_size := by
  intro x hx
  obtain ⟨d, p, ho, _, hg⟩ := (block_opt_some _ _ _ _ _ _ _ _).1 hx
  rw [(gen_block_hash_bf_size _ _ _ _ _ _ _ _ _ _ _ hg).1]
  exact hP d ho

theorem block_opt_comm (sys : sdbf_parameters_t) (E : Entr64) (SHA1 : List Nat → List Nat)
    (file_buffer : List Nat) (block_size : Nat) (o : Option sdbf_t) (i j : Nat)
    (hP : ∀ d, o = some d → 256 ≤ d.bf_size) :
    block_opt sys E SHA1 file_buffer block_size
        (block_opt sys E SHA1 file_buffer block_size o i) j
      = block_opt sys E SHA1 file_buffer block_size
          (block_opt sys E SHA1 file_buffer block_size o j) i := by
  by_cases hij : i = j
  · rw [hij]
  · apply Option.ext
    intro x
    show _ = some x ↔ _ = some x
    rw [block_opt_some, block_opt_some]
    constructor
    · rintro ⟨d1, p2, h1, hp2, hg2⟩
      obtain ⟨d, p1, ho, hp1, hg1⟩ := (block_opt_some _ _ _ _ _ _ _ _).1 h1
      obtain ⟨d2, hd2, hx⟩ := (gen_block_hash_comm sys SHA1 file_buffer block_size d x
        (hP d ho) i j hij p1.1 p2.1 0 0 p1.2.1 p2.2.1 (toI32 p1.2.2) (toI32 p2.2.2)).1
        ⟨d1, hg1, hg2⟩
      exact ⟨d2, p1, (block_opt_some _ _ _ _ _ _ _ _).2 ⟨d, p2, ho, hp2, hd2⟩, hp1, hx⟩
    · rintro ⟨d2, p1, h2, hp1, hg1⟩
      obtain ⟨d, p2, ho, hp2, hg2⟩ := (block_opt_some _ _ _ _ _ _ _ _).1 h2
      obtain ⟨d1, hd1, hx⟩ := (gen_block_hash_comm sys SHA1 file_buffer block_size d x
        (hP d ho) i j hij p1.1 p2.1 0 0 p1.2.1 p2.2.1 (toI32 p1.2.2) (toI32 p2.2.2)).2
        ⟨d2, hg2, hg1⟩
      exact ⟨d1, p2, (block_opt_some _ _ _ _ _ _ _ _).2 ⟨d, p1, ho, hp1, hd1⟩, hp2, hx⟩

theorem mod_iff_target (t T a : Nat) (ht : t < T) :
    (t ≤ a ∧ (a - t) % T = 0) ↔ a % T = t := by
  constructor
  · rintro ⟨h1, h2⟩
    obtain ⟨k, hk⟩ := Nat.dvd_of_mod_eq_zero h2
    have e : a = t + T * k := by omega
    rw [e, Nat.add_mul_mod_self_left, Nat.mod_eq_of_lt ht]
  · intro h
    have h3 := Nat.div_add_mod a T
    have h4 : a - t = T * (a / T) := by omega
    exact ⟨by omega, by rw [h4, Nat.mul_mod_right]⟩

theorem mem_worker_blocks (T qt : Nat) (ts : List Nat) (hts : ∀ t ∈ ts, t < T) (a : Nat) :
    a ∈ worker_blocks T qt ts ↔ a < qt ∧ a % T ∈ ts := by
  induction ts with
  | nil =>
    unfold worker_blocks
    simp
  | cons t ts ih =>
    have e : worker_blocks T qt (t :: ts)
        = target_indices t T qt ++ worker_blocks T qt ts := rfl
    rw [e, List.mem_append, ih (fun u hu => hts u (List.mem_cons_of_mem _ hu)),
      mem_target_indices, mod_iff_target t T a (hts t (List.mem_cons_self _ _)),
      List.mem_cons]
    constructor
    · rintro (⟨h1, h2⟩ | ⟨h1, h2⟩)
      · exact ⟨h1, Or.inl h2⟩
      · exact ⟨h1, Or.inr h2⟩
    · rintro ⟨h1, h2 | h2⟩
      · exact Or.inl ⟨h1, h2⟩
      · exact Or.inr ⟨h1, h2⟩

theorem nodup_worker_blocks (T qt : Nat) (ts : List Nat) (hts : ∀ t ∈ ts, t < T)
    (hnd : ts.Nodup) : (worker_blocks T qt ts).Nodup := by
  induction ts with
  | nil => exact List.nodup_nil
  | cons t ts ih =>
    have e : worker_blocks T qt (t :: ts)
        = target_indices t T qt ++ worker_blocks T qt ts := rfl
    rw [e, List.nodup_append]
    refine ⟨?_, ih (fun u hu => hts u (List.mem_cons_of_mem _ hu)) (List.nodup_cons.1 hnd).2,
      ?_⟩
    · unfold target_indices
      exact List.Nodup.filter _ (List.nodup_range _)
    · intro a h1 h2
      rw [mem_target_indices, mod_iff_target t T a (hts t (List.mem_cons_self _ _))] at h1
      rw [mem_worker_blocks T qt ts (fun u hu => hts u (List.mem_cons_of_mem _ hu))] at h2
      rw [h1.2] at h2
      exact (List.nodup_cons.1 hnd).1 h2.2

theorem worker_blocks_perm (T qt : Nat) (hT : 0 < T) :
    (worker_blocks T qt (List.range T)).Perm (List.range qt) := by
  rw [List.perm_ext_iff_of_nodup
    (nodup_worker_blocks T qt _ (fun t ht => List.mem_range.1 ht) (List.nodup_range _))
    (List.nodup_range _)]
  intro a
  rw [mem_worker_blocks T qt _ (fun t ht => List.mem_range.1 ht), List.mem_range,
    List.mem_range]
  exact ⟨fun h => h.1, fun h => ⟨h, Nat.mod_lt _ hT⟩⟩

theorem foldl_worker_blocks {β : Type} (g : β → Nat → β) (T qt : Nat) (ts : List Nat) :
    ∀ b, (worker_blocks T qt ts).foldl g b
      = ts.foldl (fun b t => (target_indices t T qt).foldl g b) b := by
  induction ts with
  | nil => intro b; rfl
  | cons t ts ih =>
    intro b
    have e : worker_blocks T qt (t :: ts)
        = target_indices t T qt ++ worker_blocks T qt ts := rfl
    rw [e, List.foldl_append, List.foldl_cons, ih]

theorem target_indices_nil (tid tcount qt : Nat) (h : qt ≤ tid) :
    target_indices tid tcount qt = [] := by
  unfold target_indices
  rw [List.filter_eq_nil_iff]
  intro a ha
  have := List.mem_range.1 ha
  simp only [decide_eq_true_eq, not_and]
  intro h1
  omega

theorem target_indices_sorted (tid tcount qt : Nat) :
    (target_indices tid tcount qt).Sorted (· < ·) := by
  unfold target_indices
  exact (List.sorted_lt_range qt).filter _

theorem target_indices_cons (tid tcount qt : Nat) (h : tid < qt) (hs : 0 < tcount) :
    target_indices tid tcount qt = tid :: target_indices (tid + tcount) tcount qt := by
  have hmem : ∀ x, x ∈ target_indices tid tcount qt
      ↔ x ∈ tid :: target_indices (tid + tcount) tcount qt := by
    intro x
    rw [List.mem_cons, mem_target_indices, mem_target_indices]
    constructor
    · rintro ⟨h1, h2, h3⟩
      by_cases hx : x = tid
      · exact Or.inl hx
      · right
        obtain ⟨k, hk⟩ := Nat.dvd_of_mod_eq_zero h3
        have hk0 : k ≠ 0 := by
          intro h0
          rw [h0, Nat.mul_zero] at hk
          omega
        obtain ⟨k1, rfl⟩ := Nat.exists_eq_succ_of_ne_zero hk0
        have e : x = tid + tcount + tcount * k1 := by
          rw [Nat.mul_succ] at hk; omega
        refine ⟨h1, by omega, ?_⟩
        have e2 : x - (tid + tcount) = tcount * k1 := by omega
        rw [e2, Nat.mul_mod_right]
    · rintro (h1 | ⟨h1, h2, h3⟩)
      · subst h1
        exact ⟨h, le_refl _, by rw [Nat.sub_self, Nat.zero_mod]⟩
      · obtain ⟨k, hk⟩ := Nat.dvd_of_mod_eq_zero h3
        refine ⟨h1, by omega, ?_⟩
        have e2 : x - tid = tcount * (k + 1) := by rw [Nat.mul_succ]; omega
        rw [e2, Nat.mul_mod_right]
  have hs1 := target_indices_sorted tid tcount qt
  have hs2 : (tid :: target_indices (tid + tcount) tcount qt).Sorted (· < ·) := by
    refine List.sorted_cons.2 ⟨?_, target_indices_sorted _ _ _⟩
    intro b hb
    have := ((mem_target_indices _ _ _ _).1 hb).2.1
    omega
  exact List.eq_of_perm_of_sorted
    ((List.perm_ext_iff_of_nodup hs1.nodup hs2.nodup).2 hmem) hs1 hs2

theorem target_indices_zero_one (qt : Nat) : target_indices 0 1 qt = List.range qt := by
  unfold target_indices
  rw [List.filter_eq_self]
  intro a _
  simp [Nat.mod_one]

/-- The loop over the regular blocks visits the blocks `i, i+step, ...` below `qt`, one
after the other, when the counter cannot pass 2^32 - 1 (`qt + step ≤ 2^32`) and the fuel
is at least the number of blocks that remain plus one. -/
theorem gen_block_sdbf_loop_eq (sys : sdbf_parameters_t) (E : Entr64)
    (SHA1 : List Nat → List Nat) (file_buffer : List Nat) (block_size qt step : Nat)
    (hs : 0 < step) (hq : qt + step ≤ U32) :
    ∀ f i d, qt ≤ i + f →
      gen_block_sdbf_loop sys E SHA1 file_buffer block_size qt step (f + 1) i d
        = (target_indices i step qt).foldlM
            (gen_block_sdbf_block sys E SHA1 file_buffer block_size) d := by
  intro f
  induction f with
  | zero =>
    intro i d h
    unfold gen_block_sdbf_loop
    rw [if_neg (by omega), target_indices_nil i step qt (by omega)]
    rfl
  | succ f ih =>
    intro i d h
    unfold gen_block_sdbf_loop
    by_cases hi : i < qt
    · rw [if_pos hi, target_indices_cons i step qt hi hs, List.foldlM_cons]
      cases hb : gen_block_sdbf_block sys E SHA1 file_buffer block_size d i with
      | error e => rfl
      | ok d1 =>
        simp only []
        rw [Nat.mod_eq_of_lt (by omega), ih (i + step) d1 (by omega)]
        rfl
    · rw [if_neg hi, target_indices_nil i step qt (by omega)]
      rfl

/-- A property of the digest that every regular block preserves holds after the loop over
the regular blocks, whenever the loop returns. -/
theorem gen_block_sdbf_loop_inv (sys : sdbf_parameters_t) (E : Entr64)
    (SHA1 : List Nat → List Nat) (file_buffer : List Nat) (block_size qt step : Nat)
    (P : sdbf_t → Prop)
    (hP : ∀ d i d1, P d →
      gen_block_sdbf_block sys E SHA1 file_buffer block_size d i = .ok d1 → P d1) :
    ∀ f i d d1, P d →
      gen_block_sdbf_loop sys E SHA1 file_buffer block_size qt step f i d = .ok d1 →
      P d1 := by
  intro f
  induction f with
  | zero =>
    intro i d d1 _ h
    unfold gen_block_sdbf_loop at h
    cases h
  | succ f ih =>
    intro i d d1 hd h
    unfold gen_block_sdbf_loop at h
    by_cases hi : i < qt
    · rw [if_pos hi] at h
      cases hb : gen_block_sdbf_block sys E SHA1 file_buffer block_size d i with
      | error e => rw [hb] at h; cases h
      | ok d2 =>
        rw [hb] at h
        exact ih _ d2 d1 (hP d i d2 hd hb) h
    · rw [if_neg hi] at h
      injection h with h
      rw [← h]
      exact hd

theorem gen_block_sdbf_toOption (sys : sdbf_parameters_t) (E : Entr64)
    (SHA1 : List Nat → List Nat) (file_buffer : List Nat) (file_size block_size : Nat)
    (sdbf : sdbf_t) (hq : file_size / block_size < U32) :
    (gen_block_sdbf sys E SHA1 file_buffer file_size block_size sdbf).toOption
      = ((List.range (file_size / block_size)).foldl
          (block_opt sys E SHA1 file_buffer block_size) (some sdbf)).bind
          (fun d => (gen_block_sdbf_tail sys E SHA1 file_buffer file_size block_size
            d).toOption) := by
  unfold gen_block_sdbf
  rw [gen_block_sdbf_loop_eq sys E SHA1 file_buffer block_size (file_size / block_size) 1
    (by decide) (by omega) U32 0 sdbf (by omega), target_indices_zero_one]
  have hf := foldlM_toOption (gen_block_sdbf_block sys E SHA1 file_buffer block_size)
    (List.range (file_size / block_size)) sdbf
  have e : (fun (o : Option sdbf_t) (i : Nat) => o.bind (fun d =>
        (gen_block_sdbf_block sys E SHA1 file_buffer block_size d i).toOption))
      = block_opt sys E SHA1 file_buffer block_size := rfl
  rw [e] at hf
  rw [← hf]
  cases List.foldlM (gen_block_sdbf_block sys E SHA1 file_buffer block_size) sdbf
      (List.range (file_size / block_size)) with
  | error e => rfl
  | ok d => rfl

theorem thread_toOption (sys : sdbf_parameters_t) (E : Entr64)
    (SHA1 : List Nat → List Nat) (file_buffer : List Nat) (file_size block_size : Nat)
    (T : Nat) (hT : 0 < T) (hq : file_size / block_size + T ≤ U32) (o : Option sdbf_t)
    (t : Nat) :
    o.bind (fun d => (thread_gen_block_sdbf sys E SHA1 file_buffer file_size block_size t T
        d).toOption)
      = (target_indices t T (file_size / block_size)).foldl
          (block_opt sys E SHA1 file_buffer block_size) o := by
  cases o with
  | none =>
    show none = _
    exact (foldl_bind_none _ _).symm
  | some d =>
    rw [Option.some_bind]
    unfold thread_gen_block_sdbf
    rw [gen_block_sdbf_loop_eq sys E SHA1 file_buffer block_size (file_size / block_size) T
      hT hq U32 t d (by omega), foldlM_toOption]
    rfl

theorem gen_block_sdbf_mt_toOption (sys : sdbf_parameters_t) (E : Entr64)
    (SHA1 : List Nat → List Nat) (file_buffer : List Nat) (file_size block_size : Nat)
    (sdbf : sdbf_t) (T : Nat) (hT : 2 ≤ T) (hq : file_size / block_size + T ≤ U32) :
    (gen_block_sdbf_mt sys E SHA1 file_buffer file_size block_size sdbf T).toOption
      = ((worker_blocks T (file_size / block_size) (List.range T)).foldl
          (block_opt sys E SHA1 file_buffer block_size) (some sdbf)).bind
          (fun d => (gen_block_sdbf_tail sys E SHA1 file_buffer file_size block_size
            d).toOption) := by
  unfold gen_block_sdbf_mt
  rw [if_neg (by omega), foldl_worker_blocks]
  have hf := foldlM_toOption
    (fun (d : sdbf_t) t =>
      thread_gen_block_sdbf sys E SHA1 file_buffer file_size block_size t T d)
    (List.range T) sdbf
  have e : (fun (o : Option sdbf_t) (t : Nat) => o.bind (fun d =>
        (thread_gen_block_sdbf sys E SHA1 file_buffer file_size block_size t T d).toOption))
      = (fun o t => (target_indices t T (file_size / block_size)).foldl
          (block_opt sys E SHA1 file_buffer block_size) o) := by
    funext o t
    exact thread_toOption sys E SHA1 file_buffer file_size block_size T (by omega) hq o t
  rw [e] at hf
  rw [← hf]
  cases List.foldlM (fun (d : sdbf_t) t =>
      thread_gen_block_sdbf sys E SHA1 file_buffer file_size block_size t T d) sdbf
      (List.range T) with
  | error e => rfl
  | ok d => rfl

theorem gen_block_hash_frame (sys : sdbf_parameters_t) (SHA1 : List Nat → List Nat)
    (file_buffer : List Nat) (i : Nat) (scores : List Nat) (block_size : Nat)
    (d d1 : sdbf_t) (rem k : Nat) (a : Int) (hbf : 256 ≤ d.bf_size)
    (h : gen_block_hash sys SHA1 file_buffer i scores block_size d rem k a = .ok d1)
    (j : Nat) (hj : j ≠ i) :
    (d1.buffer.drop (j * d.bf_size)).take 256 = (d.buffer.drop (j * d.bf_size)).take 256
    ∧ (d1.elem_counts.getD []).getD j 0 = (d.elem_counts.getD []).getD j 0 := by
  obtain ⟨st, ec, hr, hec, hi, hd⟩ := (gen_block_hash_ok_iff _ _ _ _ _ _ _ _ _ _ _).1 h
  subst hd
  constructor
  · exact write_filter_region _ _ _ _ (block_run_length _ _ _ _ _ _ _ _ _ _ _ hr)
      (offsets_disjoint i j d.bf_size (Ne.symm hj) hbf)
  · rw [hec]
    exact getD_set_ne _ _ _ _ (Ne.symm hj)

/-- Claim C16, amended. For every input buffer, block size, digest with filters of at
least 256 bytes and thread count `T ≥ 2` with `qt + T ≤ 2^32` for the number `qt` of
regular blocks (the loop index `i` of a worker is a `uint32_t` and `i += tcount` must not
wrap before it reaches `qt`): `gen_block_sdbf_mt` and the sequential `gen_block_sdbf`
return the same digest (whenever one of them returns a digest, so does the other, and the
digests are equal: in particular the filter bytes and `elem_counts`). The blocks of the
workers `0 .. T-1`, worker `t` taking the blocks `i < qt` with `i mod T = t`, are a
rearrangement of the blocks `0 .. qt-1`, each exactly once; and a call of `gen_block_hash`
for block `i` leaves every other filter `j` and every other count `elem_counts[j]` as
they were. -/
theorem gen_block_sdbf_mt_eq (sys : sdbf_parameters_t) (E : Entr64)
    (SHA1 : List Nat → List Nat) (file_buffer : List Nat) (file_size block_size : Nat)
    (sdbf : sdbf_t) (T : Nat) (hT : 2 ≤ T) (hbf : 256 ≤ sdbf.bf_size)
    (hq : file_size / block_size + T ≤ 2 ^ 32) :
    (gen_block_sdbf_mt sys E SHA1 file_buffer file_size block_size sdbf T).toOption
      = (gen_block_sdbf sys E SHA1 file_buffer file_size block_size sdbf).toOption
    ∧ (worker_blocks T (file_size / block_size) (List.range T)).Perm
        (List.range (file_size / block_size))
    ∧ (∀ t a, t < T → (a ∈ target_indices t T (file_size / block_size)
          ↔ a < file_size / block_size ∧ a % T = t))
    ∧ ∀ i scores rem k a d1,
        gen_block_hash sys SHA1 file_buffer i scores block_size sdbf rem k a = .ok d1 →
        ∀ j, j ≠ i →
          (d1.buffer.drop (j * sdbf.bf_size)).take 256
              = (sdbf.buffer.drop (j * sdbf.bf_size)).take 256
          ∧ (d1.elem_counts.getD []).getD j 0 = (sdbf.elem_counts.getD []).getD j 0 := by
  have hperm := worker_blocks_perm T (file_size / block_size) (by omega)
  have hU : U32 = 2 ^ 32 := rfl
  refine ⟨?_, hperm, ?_, ?_⟩
  · rw [gen_block_sdbf_mt_toOption _ _ _ _ _ _ _ _ hT (by rw [hU]; exact hq),
      gen_block_sdbf_toOption _ _ _ _ _ _ _ (by rw [hU]; omega),
      perm_foldl_inv (fun o => ∀ d, o = some d → 256 ≤ d.bf_size)
        (block_opt sys E SHA1 file_buffer block_size)
        (fun b a hb => block_opt_bf_size _ _ _ _ _ _ _ hb)
        (fun b a1 a2 hb => block_opt_comm _ _ _ _ _ _ _ _ hb) hperm (some sdbf)
        (fun d hd => by injection hd with hd; rw [← hd]; exact hbf)]
  · intro t a ht
    rw [mem_target_indices, mod_iff_target t T a ht]
  · intro i scores rem k a d1 h j hj
    exact gen_block_hash_frame _ _ _ _ _ _ _ _ _ _ _ hbf h j hj

theorem ceil_div (n b : Nat) (hb : 1 ≤ b) :
    (n + b - 1) / b = n / b + (if n % b = 0 then 0 else 1) := by
  have h1 := Nat.div_add_mod n b
  have h2 := Nat.mod_lt n (show 0 < b by omega)
  by_cases hr : n % b = 0
  · rw [if_pos hr, Nat.add_zero]
    apply Nat.div_eq_of_lt_le
    · rw [Nat.mul_comm]; omega
    · rw [Nat.succ_mul, Nat.mul_comm]; omega
  · rw [if_neg hr]
    apply Nat.div_eq_of_lt_le
    · rw [Nat.add_mul, Nat.one_mul, Nat.mul_comm]; omega
    · rw [Nat.succ_mul, Nat.add_mul, Nat.one_mul, Nat.mul_comm]; omega

theorem dd_block_cnt_eq (file_size B : Nat) (hn : file_size / B + 1 < U32) :
    dd_block_cnt file_size B % U32
      = if file_size % B ≥ MIN_FILE_SIZE then file_size / B + 1 else file_size / B := by
  unfold dd_block_cnt
  have hu : U32 < U64 := by unfold U32 U64; norm_num
  by_cases h : file_size % B ≥ MIN_FILE_SIZE
  · rw [if_pos h, if_pos h,
      Nat.mod_eq_of_lt (show file_size / B + 1 < U64 by omega), Nat.mod_eq_of_lt hn]
  · rw [if_neg h, if_neg h, Nat.mod_eq_of_lt (show file_size / B < U32 by omega)]

theorem gen_block_hash_shape (sys : sdbf_parameters_t) (SHA1 : List Nat → List Nat)
    (file_buffer : List Nat) (i : Nat) (scores : List Nat) (block_size : Nat)
    (d d1 : sdbf_t) (rem k : Nat) (a : Int)
    (h : gen_block_hash sys SHA1 file_buffer i scores block_size d rem k a = .ok d1) :
    block_shape d1 = block_shape d := by
  obtain ⟨st, ec, hr, hec, hi, hd⟩ := (gen_block_hash_ok_iff _ _ _ _ _ _ _ _ _ _ _).1 h
  subst hd
  unfold block_shape
  simp only [hec, Option.map_some', List.length_set]
  rw [write_filter_length _ _ _ (block_run_length _ _ _ _ _ _ _ _ _ _ _ hr)]

theorem gen_block_sdbf_block_shape (sys : sdbf_parameters_t) (E : Entr64)
    (SHA1 : List Nat → List Nat) (file_buffer : List Nat) (block_size : Nat)
    (d d1 : sdbf_t) (i : Nat)
    (h : gen_block_sdbf_block sys E SHA1 file_buffer block_size d i = .ok d1) :
    block_shape d1 = block_shape d := by
  unfold gen_block_sdbf_block at h
  cases hp : gen_block_sdbf_params sys E file_buffer block_size i with
  | error e => rw [hp] at h; cases h
  | ok p =>
    rw [hp] at h
    exact gen_block_hash_shape _ _ _ _ _ _ _ _ _ _ _ h

theorem gen_block_sdbf_tail_shape (sys : sdbf_parameters_t) (E : Entr64)
    (SHA1 : List Nat → List Nat) (file_buffer : List Nat) (file_size block_size : Nat)
    (d d1 : sdbf_t)
    (h : gen_block_sdbf_tail sys E SHA1 file_buffer file_size block_size d = .ok d1) :
    block_shape d1 = block_shape d := by
  unfold gen_block_sdbf_tail at h
  by_cases hr : file_size % block_size ≥ MIN_FILE_SIZE
  · rw [if_pos hr] at h
    cases h1 : gen_chunk_ranks sys E file_buffer (block_size * (file_size / block_size))
        (file_size % block_size) (List.replicate (file_size % block_size) 0) 0 with
    | error e => rw [h1] at h; cases h
    | ok ranks =>
      rw [h1] at h
      simp only [] at h
      cases h2 : gen_chunk_scores sys ranks (file_size % block_size)
          (List.replicate (file_size % block_size) 0) none with
      | error e => rw [h2] at h; cases h
      | ok scores =>
        rw [h2] at h
        exact gen_block_hash_shape _ _ _ _ _ _ _ _ _ _ _ h
  · rw [if_neg hr] at h
    injection h with h
    rw [h]

theorem gen_block_sdbf_mt_shape (sys : sdbf_parameters_t) (E : Entr64)
    (SHA1 : List Nat → List Nat) (file_buffer : List Nat) (file_size block_size : Nat)
    (d d1 : sdbf_t) (T : Nat)
    (h : gen_block_sdbf_mt sys E SHA1 file_buffer file_size block_size d T = .ok d1) :
    block_shape d1 = block_shape d := by
  unfold gen_block_sdbf_mt at h
  by_cases hT : T < 2
  · rw [if_pos hT] at h
    unfold gen_block_sdbf at h
    cases h1 : gen_block_sdbf_loop sys E SHA1 file_buffer block_size
        (file_size / block_size) 1 (U32 + 1) 0 d with
    | error e => rw [h1] at h; cases h
    | ok d2 =>
      rw [h1] at h
      rw [gen_block_sdbf_tail_shape _ _ _ _ _ _ _ _ h]
      exact gen_block_sdbf_loop_inv sys E SHA1 file_buffer block_size _ 1
        (fun s => block_shape s = block_shape d)
        (fun s a s1 hs hf => (gen_block_sdbf_block_shape _ _ _ _ _ _ _ _ hf).trans hs)
        _ _ _ _ rfl h1
  · rw [if_neg hT] at h
    cases h1 : List.foldlM (fun (d : sdbf_t) t =>
        thread_gen_block_sdbf sys E SHA1 file_buffer file_size block_size t T d) d
        (List.range T) with
    | error e => rw [h1] at h; cases h
    | ok d2 =>
      rw [h1] at h
      rw [gen_block_sdbf_tail_shape _ _ _ _ _ _ _ _ h]
      refine foldlM_inv (fun s => block_shape s = block_shape d) _ _ _ _ rfl ?_ h1
      intro s t s1 _ hs hf
      unfold thread_gen_block_sdbf at hf
      have hs1 : block_shape s1 = block_shape s :=
        gen_block_sdbf_loop_inv sys E SHA1 file_buffer block_size _ T
          (fun s2 => block_shape s2 = block_shape s)
          (fun s2 a s3 hs2 hf2 => (gen_block_sdbf_block_shape _ _ _ _ _ _ _ _ hf2).trans hs2)
          _ _ _ _ rfl hf
      exact hs1.trans hs

theorem alloc_shape (sys : sdbf_parameters_t) (file_size : Nat) (name : List Nat) (B : Nat)
    (hB : 1 ≤ B) (hn : file_size / B + 1 < U32) (hs : sys.bf_size < U32) :
    block_shape (sdbf_hash_dd_alloc sys file_size name B)
      = (sys.bf_size,
         (if file_size % B ≥ MIN_FILE_SIZE then file_size / B + 1 else file_size / B),
         sys.bf_size
           * (if file_size % B ≥ MIN_FILE_SIZE then file_size / B + 1 else file_size / B),
         some (if file_size % B ≥ MIN_FILE_SIZE then file_size / B + 1 else file_size / B))
    := by
  have hc := dd_block_cnt_eq file_size B hn
  have hu : U32 < U64 := by unfold U32 U64; norm_num
  have hc2 : dd_block_cnt file_size B
      = if file_size % B ≥ MIN_FILE_SIZE then file_size / B + 1 else file_size / B := by
    rw [← hc]
    unfold dd_block_cnt
    by_cases h : file_size % B ≥ MIN_FILE_SIZE
    · rw [if_pos h, Nat.mod_eq_of_lt (show file_size / B + 1 < U64 by omega),
        Nat.mod_eq_of_lt hn]
    · rw [if_neg h, Nat.mod_eq_of_lt (show file_size / B < U32 by omega)]
  have hlt : dd_block_cnt file_size B < U32 := by
    rw [hc2]; split <;> omega
  unfold block_shape sdbf_hash_dd_alloc
  simp only [List.length_replicate, Option.map_some']
  rw [hc, hc2]
  have hprod : (if file_size % B ≥ MIN_FILE_SIZE then file_size / B + 1 else file_size / B)
      * sys.bf_size < U64 := by
    rw [← hc2]
    have := Nat.mul_lt_mul'' hlt hs
    unfold U32 at this
    unfold U64
    calc dd_block_cnt file_size B * sys.bf_size < 2 ^ 32 * 2 ^ 32 := this
      _ = 2 ^ 64 := by norm_num
  rw [Nat.mod_eq_of_lt hprod, Nat.mul_comm]

theorem shape_facts (sys : sdbf_parameters_t) (n : Nat) (name : List Nat) (B : Nat)
    (hB : 1 ≤ B) (hn : n / B + 1 < U32) (hs : sys.bf_size < U32) (d : sdbf_t)
    (h : block_shape d = block_shape (sdbf_hash_dd_alloc sys n name B)) :
    (n % B ≥ 512 ∨ n % B = 0 → d.bf_count = (n + B - 1) / B)
    ∧ (0 < n % B ∧ n % B < 512 → d.bf_count = n / B)
    ∧ d.bf_size = sys.bf_size
    ∧ d.buffer.length = d.bf_size * d.bf_count
    ∧ ∃ ec, d.elem_counts = some ec ∧ ec.length = d.bf_count := by
  rw [alloc_shape sys n name B hB hn hs] at h
  unfold block_shape at h
  simp only [Prod.mk.injEq] at h
  obtain ⟨h1, h2, h3, h4⟩ := h
  have hc := ceil_div n B hB
  refine ⟨?_, ?_, h1, ?_, ?_⟩
  · intro hh
    rw [h2, hc]
    unfold MIN_FILE_SIZE
    rcases hh with hh | hh
    · rw [if_pos hh, if_neg (by omega)]
    · rw [if_neg (by omega), if_pos hh, Nat.add_zero]
  · intro hh
    rw [h2]
    unfold MIN_FILE_SIZE
    rw [if_neg (by omega)]
  · rw [h3, h1, h2]
  · cases hec : d.elem_counts with
    | none => rw [hec] at h4; cases h4
    | some ec =>
      rw [hec] at h4
      simp only [Option.map_some', Option.some.injEq] at h4
      exact ⟨ec, rfl, by rw [h4, h2]⟩

/-- Claim C15, amended. For a file of at least 512 bytes, a block size `B ≥ 1` and fewer
than 2^32 blocks (`bf_count` is a `uint32_t`), the descriptor that `sdbf_hash_dd` and the
block fork of `sdbf_hashfile` hand to `gen_block_sdbf_mt`, and the digest they return,
have `bf_count = ceil(file_size / B)` when `file_size mod B ≥ 512` or `= 0`, and
`floor(file_size / B)` when `0 < file_size mod B < 512`; the filter buffer holds
`bf_size * bf_count` bytes and `elem_counts` has `bf_count` entries. -/
theorem block_filter_count (sys : sdbf_parameters_t) (E : Entr64)
    (SHA1 : List Nat → List Nat) (file : List Nat) (file_size : Nat) (name : List Nat)
    (B : Nat) (hlen : file.length = file_size) (hfs : 512 ≤ file_size) (hB : 1 ≤ B)
    (hn : file_size / B + 1 < U32) (hs : sys.bf_size < U32) :
    ∀ d, (d = sdbf_hash_dd_alloc sys file_size name B
          ∨ sdbf_hash_dd sys E SHA1 file name B = .ok (some d)
          ∨ sdbf_hashfile sys E SHA1 file name B = .ok (some d)) →
      (file_size % B ≥ 512 ∨ file_size % B = 0 → d.bf_count = (file_size + B - 1) / B)
      ∧ (0 < file_size % B ∧ file_size % B < 512 → d.bf_count = file_size / B)
      ∧ d.bf_size = sys.bf_size
      ∧ d.buffer.length = d.bf_size * d.bf_count
      ∧ ∃ ec, d.elem_counts = some ec ∧ ec.length = d.bf_count := by
  intro d hd
  subst hlen
  apply shape_facts sys file.length name B hB hn hs
  have hnot : ¬ file.length < MIN_FILE_SIZE := by unfold MIN_FILE_SIZE; omega
  rcases hd with hd | hd | hd
  · rw [hd]
  · unfold sdbf_hash_dd at hd
    rw [if_neg hnot] at hd
    cases hm : gen_block_sdbf_mt sys E SHA1 file file.length B
        (sdbf_hash_dd_alloc sys file.length name B) sys.thread_cnt with
    | error e => rw [hm] at hd; cases hd
    | ok d1 =>
      rw [hm] at hd
      have e : d1 = d := by
        have : (Except.ok (some d1) : Except Fault (Option sdbf_t)) = .ok (some d) := hd
        injection this with this
        injection this
      rw [← e]
      exact gen_block_sdbf_mt_shape _ _ _ _ _ _ _ _ _ hm
  · unfold sdbf_hashfile at hd
    rw [if_neg hnot, if_neg (by omega)] at hd
    cases hm : gen_block_sdbf_mt sys E SHA1 file file.length B
        { sdbf_create sys name with
          bf_count := dd_block_cnt file.length B % U32,
          dd_block_size := B,
          buffer := List.replicate ((dd_block_cnt file.length B * sys.bf_size) % U64) 0,
          elem_counts := some (List.replicate (dd_block_cnt file.length B) 0) }
        sys.thread_cnt with
    | error e => rw [hm] at hd; cases hd
    | ok d1 =>
      rw [hm] at hd
      have e : d1 = d := by
        have : (Except.ok (some d1) : Except Fault (Option sdbf_t)) = .ok (some d) := hd
        injection this with this
        injection this
      rw [← e]
      exact gen_block_sdbf_mt_shape _ _ _ _ _ _ _ _ _ hm

/-- Witness for the amended C15: a file of 1300 bytes with blocks of 512 bytes has two
regular blocks and a remainder of 276 bytes, which is dropped: two filters. -/
theorem block_filter_count_witness :
    ((1300 % 512 ≥ 512 ∨ 1300 % 512 = 0) →
        (sdbf_hash_dd_alloc sdbf_sys 1300 [97] 512).bf_count = (1300 + 512 - 1) / 512)
    ∧ (0 < 1300 % 512 ∧ 1300 % 512 < 512 →
        (sdbf_hash_dd_alloc sdbf_sys 1300 [97] 512).bf_count = 1300 / 512)
    ∧ (sdbf_hash_dd_alloc sdbf_sys 1300 [97] 512).bf_size = sdbf_sys.bf_size
    ∧ (sdbf_hash_dd_alloc sdbf_sys 1300 [97] 512).buffer.length
        = (sdbf_hash_dd_alloc sdbf_sys 1300 [97] 512).bf_size
          * (sdbf_hash_dd_alloc sdbf_sys 1300 [97] 512).bf_count
    ∧ ∃ ec, (sdbf_hash_dd_alloc sdbf_sys 1300 [97] 512).elem_counts = some ec
        ∧ ec.length = (sdbf_hash_dd_alloc sdbf_sys 1300 [97] 512).bf_count :=
  block_filter_count sdbf_sys entr64_constant sha1_zero (List.replicate 1300 0) 1300
    [97] 512 (List.length_replicate _ _) (by decide) (by decide) (by decide) (by decide)
    (sdbf_hash_dd_alloc sdbf_sys 1300 [97] 512) (Or.inl rfl)

/-- Counterexample to C15 as stated: a file of 2^41 bytes with blocks of 512 bytes has
2^32 blocks and no remainder; `bf_count` is a `uint32_t` and receives 0. -/
theorem block_filter_count_truncated :
    2 ^ 41 % 512 = 0 ∧ (2 ^ 41 + 512 - 1) / 512 = 2 ^ 32
    ∧ (sdbf_hash_dd_alloc sdbf_sys (2 ^ 41) [97] 512).bf_count = 0 := by
  decide

/-! ### The collection of digests -/

theorem toI32_small (n : Nat) (h : n < 2 ^ 31) : toI32 n = n := by
  unfold toI32 U32
  have h1 : n % 2 ^ 32 = n := Nat.mod_eq_of_lt (by omega)
  rw [h1, if_pos h]

/-- Claim C20. For a registry of size `n < MAX_FILES` (allocated by `sdbf_init`):
`sdbf_add(d)` returns `n+1`; afterwards `sdbf_get_size()` is `n+1`, `sdbf_get(n)` is `d`,
`sdbf_get(i)` is unchanged for every `i < n`, and `sdbf_get(i)` and `sdbf_get_name(i)`
are null for every `i ≥ n+1`. -/
theorem sdbf_add_order (reg : Registry) (d : Option sdbf_t) (n : Nat)
    (ha : reg.allocated = true) (hn : reg.curr_sdbf = n) (hlt : n < MAX_FILES) :
    ∃ reg1, sdbf_add reg d = some ((n : Int) + 1, reg1)
      ∧ sdbf_get_size reg1 = (n : Int) + 1
      ∧ sdbf_get reg1 n = d
      ∧ (∀ i, i < n → sdbf_get reg1 i = sdbf_get reg i)
      ∧ ∀ i, i ≥ n + 1 → sdbf_get reg1 i = none ∧ sdbf_get_name reg1 i = .ok none := by
  have hM : n < 1000000 := hlt
  have h1 : (n + 1) % U32 = n + 1 := Nat.mod_eq_of_lt (by unfold U32; omega)
  have h2 : toI32 (n + 1) = (n : Int) + 1 := by
    rw [toI32_small _ (by omega)]; push_cast; rfl
  refine ⟨Registry.mk reg.allocated
      (fun i => if i = n then d else reg.sdbf_list i) (n + 1), ?_, ?_, ?_, ?_, ?_⟩
  · unfold sdbf_add
    rw [if_pos ⟨ha, by rw [hn]; exact hlt⟩, hn, h1, h2]
  · unfold sdbf_get_size
    exact h2
  · show (if n < n + 1 then (if n = n then d else reg.sdbf_list n) else none) = d
    rw [if_pos (Nat.lt_succ_self n), if_pos rfl]
  · intro i hi
    show (if i < n + 1 then (if i = n then d else reg.sdbf_list i) else none)
      = if i < reg.curr_sdbf then reg.sdbf_list i else none
    rw [if_pos (by omega), if_neg (by omega), hn, if_pos hi]
  · intro i hi
    constructor
    · show (if i < n + 1 then (if i = n then d else reg.sdbf_list i) else none) = none
      rw [if_neg (by omega)]
    · unfold sdbf_get_name
      show (if i < n + 1 then _ else _) = _
      rw [if_neg (by omega)]

/-- Witness for C20: the digest `digest_b3` added to the registry that holds
`digest_m100`. -/
theorem sdbf_add_order_witness :
    ∃ reg1, sdbf_add registry_one (some digest_b3) = some (((1 : Nat) : Int) + 1, reg1)
      ∧ sdbf_get_size reg1 = ((1 : Nat) : Int) + 1
      ∧ sdbf_get reg1 1 = some digest_b3
      ∧ (∀ i, i < 1 → sdbf_get reg1 i = sdbf_get registry_one i)
      ∧ ∀ i, i ≥ 1 + 1 → sdbf_get reg1 i = none ∧ sdbf_get_name reg1 i = .ok none :=
  sdbf_add_order registry_one (some digest_b3) 1 rfl rfl (by decide)

theorem strncmp_starts (p : List Nat) (hp : ∀ c ∈ p, c ≠ 0) :
    ∀ name : List Nat, strncmp p name p.length = 0 ↔ p <+: name := by
  induction p with
  | nil =>
    intro name
    constructor
    · intro _; exact List.nil_prefix
    · intro _
      cases name <;> rfl
  | cons a as ih =>
    intro name
    have ha : a ≠ 0 := hp a (List.mem_cons_self _ _)
    cases name with
    | nil =>
      constructor
      · intro h
        have h1 : ((a : Nat) : Int) = 0 := h
        exact absurd (Int.natCast_eq_zero.1 h1) ha
      · intro h
        have := List.IsPrefix.length_le h
        simp at this
    | cons b bs =>
      have e : strncmp (a :: as) (b :: bs) (a :: as).length
          = if a = b then strncmp as bs as.length else (a : Int) - (b : Int) := rfl
      rw [e, List.cons_prefix_cons]
      by_cases hab : a = b
      · rw [if_pos hab, ih (fun c hc => hp c (List.mem_cons_of_mem _ hc)) bs]
        exact ⟨fun h => ⟨hab, h⟩, fun h => h.2⟩
      · rw [if_neg hab]
        constructor
        · intro h
          exact absurd (by omega) hab
        · intro h
          exact absurd h.1 hab

theorem remove_loop_spec (reg : Registry) (p : List Nat) (hp : ∀ c ∈ p, c ≠ 0)
    (hpl : p.length < U32) (hc : reg.curr_sdbf < U32)
    (hs : ∀ j, j < reg.curr_sdbf → ∃ d, reg.sdbf_list j = some d) :
    ∀ fuel i, reg.curr_sdbf < fuel + i → 0 < fuel →
      ((∀ m d, i ≤ m → m < reg.curr_sdbf → reg.sdbf_list m = some d → p <+: d.name →
          (∀ j e, i ≤ j → j < m → reg.sdbf_list j = some e → ¬ p <+: e.name) →
          sdbf_remove_loop reg p fuel i = .ok (registry_without reg m))
      ∧ ((∀ j e, i ≤ j → j < reg.curr_sdbf → reg.sdbf_list j = some e → ¬ p <+: e.name) →
          sdbf_remove_loop reg p fuel i = .ok reg)) := by
  intro fuel
  induction fuel with
  | zero =>
    intro i _ h0
    omega
  | succ fuel ih =>
    intro i hf _
    have hplm : p.length % U32 = p.length := Nat.mod_eq_of_lt hpl
    constructor
    · intro m d h1 h2 hm hpre hno
      unfold sdbf_remove_loop
      rw [if_pos (by omega)]
      by_cases him : i = m
      · subst him
        rw [hm]
        simp only []
        rw [hplm, if_pos ((strncmp_starts p hp d.name).2 hpre)]
        rfl
      · obtain ⟨e, he⟩ := hs i (by omega)
        rw [he]
        simp only []
        rw [hplm, if_neg (fun h => hno i e (le_refl _) (by omega) he
          ((strncmp_starts p hp e.name).1 h)),
          Nat.mod_eq_of_lt (show i + 1 < U32 by omega)]
        exact (ih (i + 1) (by omega) (by omega)).1 m d (by omega) h2 hm hpre
          (fun j e1 hj1 hj2 => hno j e1 (by omega) hj2)
    · intro hno
      unfold sdbf_remove_loop
      by_cases hi : i < reg.curr_sdbf
      · rw [if_pos hi]
        obtain ⟨e, he⟩ := hs i hi
        rw [he]
        simp only []
        rw [hplm, if_neg (fun h => hno i e (le_refl _) hi he
          ((strncmp_starts p hp e.name).1 h)),
          Nat.mod_eq_of_lt (show i + 1 < U32 by omega)]
        exact (ih (i + 1) (by omega) (by omega)).2 (fun j e1 hj1 hj2 => hno j e1 (by omega) hj2)
      · rw [if_neg hi]

/-- Claim C21. In a registry whose entries are digests, with `p` a C string:
when the entry at index `m` is the first whose name starts with `p`, `sdbf_remove(p)`
returns the old size minus one, the entries below `m` stay, the entries above `m` move
down by one slot (in particular later entries that share the prefix stay in the
registry), and there is no entry at the new size or above; when no name starts with `p`
the call returns the old size and leaves the registry as it is. -/
theorem sdbf_remove_first (reg : Registry) (p : List Nat) (hp : ∀ c ∈ p, c ≠ 0)
    (hpl : p.length < U32) (hc : reg.curr_sdbf < 2 ^ 31)
    (hs : ∀ j, j < reg.curr_sdbf → ∃ d, reg.sdbf_list j = some d) :
    (∀ m d, m < reg.curr_sdbf → reg.sdbf_list m = some d → p <+: d.name →
        (∀ j e, j < m → reg.sdbf_list j = some e → ¬ p <+: e.name) →
        ∃ reg1, sdbf_remove reg p = .ok ((reg.curr_sdbf : Int) - 1, reg1)
          ∧ sdbf_get_size reg1 = (reg.curr_sdbf : Int) - 1
          ∧ (∀ j, j < m → sdbf_get reg1 j = sdbf_get reg j)
          ∧ (∀ j, m ≤ j → j + 1 < reg.curr_sdbf → sdbf_get reg1 j = sdbf_get reg (j + 1))
          ∧ ∀ j, j + 1 ≥ reg.curr_sdbf → sdbf_get reg1 j = none)
    ∧ ((∀ j e, j < reg.curr_sdbf → reg.sdbf_list j = some e → ¬ p <+: e.name) →
        sdbf_remove reg p = .ok ((reg.curr_sdbf : Int), reg)) := by
  have hcU : reg.curr_sdbf < U32 := by unfold U32; omega
  have hl := remove_loop_spec reg p hp hpl hcU hs (reg.curr_sdbf + 1) 0 (by omega)
    (by omega)
  constructor
  · intro m d hm hd hpre hno
    have h1 := hl.1 m d (Nat.zero_le _) hm hd hpre (fun j e _ hj he => hno j e hj he)
    have hu : usub32 reg.curr_sdbf 1 = reg.curr_sdbf - 1 :=
      usub32_eq _ _ (by omega) hcU
    have hi : toI32 (reg.curr_sdbf - 1) = (reg.curr_sdbf : Int) - 1 := by
      rw [toI32_small _ (by omega)]
      omega
    refine ⟨registry_without reg m, ?_, ?_, ?_, ?_, ?_⟩
    · unfold sdbf_remove
      rw [h1]
      show Except.ok (toI32 (usub32 reg.curr_sdbf 1), registry_without reg m) = _
      rw [hu, hi]
    · show toI32 (usub32 reg.curr_sdbf 1) = _
      rw [hu, hi]
    · intro j hj
      show (if j < usub32 reg.curr_sdbf 1
          then (if m ≤ j ∧ j < usub32 reg.curr_sdbf 1 then reg.sdbf_list (j + 1)
                else reg.sdbf_list j)
          else none) = if j < reg.curr_sdbf then reg.sdbf_list j else none
      rw [hu]
      by_cases hj1 : j < reg.curr_sdbf - 1
      · rw [if_pos hj1, if_neg (by omega), if_pos (by omega)]
      · have : j = reg.curr_sdbf - 1 := by omega
        omega
    · intro j hj hj2
      show (if j < usub32 reg.curr_sdbf 1
          then (if m ≤ j ∧ j < usub32 reg.curr_sdbf 1 then reg.sdbf_list (j + 1)
                else reg.sdbf_list j)
          else none) = if j + 1 < reg.curr_sdbf then reg.sdbf_list (j + 1) else none
      rw [hu, if_pos (by omega), if_pos ⟨hj, by omega⟩, if_pos hj2]
    · intro j hj
      show (if j < usub32 reg.curr_sdbf 1 then _ else none) = none
      rw [hu, if_neg (by omega)]
  · intro hno
    unfold sdbf_remove
    rw [hl.2 (fun j e _ hj he => hno j e hj he)]
    show Except.ok (toI32 reg.curr_sdbf, reg) = _
    rw [toI32_small _ hc]

/-- Witness for C21: the prefix "a" in `registry_three`. The first entry whose name
starts with "a" is at index 1; it is removed, the entry "b" stays at index 0 and the
second entry named "a" moves from index 2 to index 1. -/
theorem sdbf_remove_first_witness :
    ∃ reg1, sdbf_remove registry_three [97] = .ok ((registry_three.curr_sdbf : Int) - 1, reg1)
      ∧ sdbf_get_size reg1 = (registry_three.curr_sdbf : Int) - 1
      ∧ (∀ j, j < 1 → sdbf_get reg1 j = sdbf_get registry_three j)
      ∧ (∀ j, 1 ≤ j → j + 1 < registry_three.curr_sdbf →
          sdbf_get reg1 j = sdbf_get registry_three (j + 1))
      ∧ ∀ j, j + 1 ≥ registry_three.curr_sdbf → sdbf_get reg1 j = none :=
  (sdbf_remove_first registry_three [97] (by decide) (by decide) (by decide)
    (fun j hj => by
      have h3 : j < 3 := hj
      interval_cases j
      · exact ⟨digest_b3, rfl⟩
      · exact ⟨digest_a10, rfl⟩
      · exact ⟨digest_m10, rfl⟩)).1 1 digest_a10 (by decide) rfl ⟨[], rfl⟩
    (fun j e hj he => by
      have h0 : j = 0 := by omega
      subst h0
      have e1 : digest_b3 = e := by
        have : some digest_b3 = some e := he
        injection this
      rw [← e1]
      rintro ⟨t, ht⟩
      have h2 : ([97] ++ t).head? = some 98 := by rw [ht]; rfl
      simp at h2)

/-! ### Command-line options -/

theorem opts_loop_spec (parsed : List GetOpt) :
    ∀ (sys : sdbf_parameters_t) (opts : List Nat), opts.length = 3 →
      (process_opts_loop sys opts parsed).2.2.length = 3
      ∧ ((process_opts_loop sys opts parsed).1 = true →
          (((opts.getD OPT_MODE 0).testBit 1 = true ∨ GetOpt.c ∈ parsed) →
            ((process_opts_loop sys opts parsed).2.2.getD OPT_MODE 0).testBit 1 = true)
          ∧ (((opts.getD OPT_MODE 0).testBit 0 = true ∨ GetOpt.g ∈ parsed) →
            ((process_opts_loop sys opts parsed).2.2.getD OPT_MODE 0).testBit 0 = true)) := by
  induction parsed with
  | nil =>
    intro sys opts hl
    refine ⟨hl, fun _ => ⟨fun h => ?_, fun h => ?_⟩⟩
    · rcases h with h | h
      · exact h
      · cases h
    · rcases h with h | h
      · exact h
      · cases h
  | cons o rest ih =>
    intro sys opts hl
    have hset : ∀ v, (opts.set OPT_MODE v).getD OPT_MODE 0 = v := by
      intro v
      rw [List.getD_eq_getElem _ _ (by rw [List.length_set, hl]; decide),
        List.getElem_set_self]
    have hmap : ∀ v, (opts.set OPT_MAP v).getD OPT_MODE 0 = opts.getD OPT_MODE 0 := by
      intro v
      exact getD_set_ne _ _ _ _ (by decide)
    cases o with
    | c =>
      have e := ih sys (opts.set OPT_MODE (opts.getD OPT_MODE 0 ||| MODE_COMP))
        (by rw [List.length_set]; exact hl)
      refine ⟨e.1, fun hok => ⟨fun _ => ?_, fun h => ?_⟩⟩
      · apply (e.2 hok).1
        left
        have hb : MODE_COMP.testBit 1 = true := by decide
        rw [hset, Nat.testBit_lor, hb, Bool.or_true]
      · apply (e.2 hok).2
        rcases h with h | h
        · left
          rw [hset, Nat.testBit_lor, h]
          rfl
        · right
          rcases List.mem_cons.1 h with h | h
          · cases h
          · exact h
    | g =>
      have e := ih sys
        (opts.set OPT_MODE ((opts.getD OPT_MODE 0 ||| MODE_GEN) ||| MODE_DIR))
        (by rw [List.length_set]; exact hl)
      refine ⟨e.1, fun hok => ⟨fun h => ?_, fun _ => ?_⟩⟩
      · apply (e.2 hok).1
        rcases h with h | h
        · left
          rw [hset, Nat.testBit_lor, Nat.testBit_lor, h]
          rfl
        · right
          rcases List.mem_cons.1 h with h | h
          · cases h
          · exact h
      · apply (e.2 hok).2
        left
        have hb : MODE_GEN.testBit 0 = true := by decide
        rw [hset, Nat.testBit_lor, Nat.testBit_lor, hb, Bool.or_true, Bool.true_or]
    | m =>
      have e := ih sys (opts.set OPT_MAP FLAG_ON) (by rw [List.length_set]; exact hl)
      refine ⟨e.1, fun hok => ⟨fun h => ?_, fun h => ?_⟩⟩
      · apply (e.2 hok).1
        rcases h with h | h
        · left; rw [hmap]; exact h
        · right
          rcases List.mem_cons.1 h with h | h
          · cases h
          · exact h
      · apply (e.2 hok).2
        rcases h with h | h
        · left; rw [hmap]; exact h
        · right
          rcases List.mem_cons.1 h with h | h
          · cases h
          · exact h
    | w =>
      have e := ih { sys with warnings := FLAG_ON } opts hl
      refine ⟨e.1, fun hok => ⟨fun h => ?_, fun h => ?_⟩⟩
      · apply (e.2 hok).1
        rcases h with h | h
        · exact Or.inl h
        · right
          rcases List.mem_cons.1 h with h | h
          · cases h
          · exact h
      · apply (e.2 hok).2
        rcases h with h | h
        · exact Or.inl h
        · right
          rcases List.mem_cons.1 h with h | h
          · cases h
          · exact h
    | p v =>
      have e := ih { sys with thread_cnt := toU32 v } opts hl
      refine ⟨e.1, fun hok => ⟨fun h => ?_, fun h => ?_⟩⟩
      · apply (e.2 hok).1
        rcases h with h | h
        · exact Or.inl h
        · right
          rcases List.mem_cons.1 h with h | h
          · cases h
          · exact h
      · apply (e.2 hok).2
        rcases h with h | h
        · exact Or.inl h
        · right
          rcases List.mem_cons.1 h with h | h
          · cases h
          · exact h
    | t v =>
      have e := ih { sys with output_threshold := v } opts hl
      refine ⟨e.1, fun hok => ⟨fun h => ?_, fun h => ?_⟩⟩
      · apply (e.2 hok).1
        rcases h with h | h
        · exact Or.inl h
        · right
          rcases List.mem_cons.1 h with h | h
          · cases h
          · exact h
      · apply (e.2 hok).2
        rcases h with h | h
        · exact Or.inl h
        · right
          rcases List.mem_cons.1 h with h | h
          · cases h
          · exact h
    | s v =>
      have e := ih { sys with sample_size := toU32 v } opts hl
      refine ⟨e.1, fun hok => ⟨fun h => ?_, fun h => ?_⟩⟩
      · apply (e.2 hok).1
        rcases h with h | h
        · exact Or.inl h
        · right
          rcases List.mem_cons.1 h with h | h
          · cases h
          · exact h
      · apply (e.2 hok).2
        rcases h with h | h
        · exact Or.inl h
        · right
          rcases List.mem_cons.1 h with h | h
          · cases h
          · exact h
    | missing => exact ⟨hl, fun hok => by cases hok⟩
    | unknown => exact ⟨hl, fun hok => by cases hok⟩

theorem and_two_ne_zero (x : Nat) : x &&& MODE_COMP ≠ 0 ↔ x.testBit 1 = true :=
  and_bit_ne_zero x 1

theorem and_one_ne_zero (x : Nat) : x &&& MODE_GEN ≠ 0 ↔ x.testBit 0 = true :=
  and_bit_ne_zero x 0

/-- Claim C23, amended. `process_opts` returns -1 whenever both `-c` and `-g` are given,
and whenever the thread count left by the options is outside 1..512. An output threshold
outside 0..100 is not a failure: when the call does not return -1 for another reason it
returns `optind`, and the threshold is 1 if the options left it outside 0..100 and
unchanged otherwise, so that it lies in 0..100 afterwards. -/
theorem process_opts_validation (sys : sdbf_parameters_t) (opts : List Nat)
    (parsed : List GetOpt) (optind argc : Int) (hl : opts.length = 3) :
    (GetOpt.c ∈ parsed → GetOpt.g ∈ parsed →
        (process_opts sys opts parsed optind argc).1 = -1)
    ∧ ((process_opts_loop sys opts parsed).2.1.thread_cnt < 1
        ∨ (process_opts_loop sys opts parsed).2.1.thread_cnt > 512 →
        (process_opts sys opts parsed optind argc).1 = -1)
    ∧ ((process_opts sys opts parsed optind argc).1 ≠ -1 →
        (process_opts sys opts parsed optind argc).1 = optind
        ∧ (process_opts sys opts parsed optind argc).2.1.output_threshold
            = (if (process_opts_loop sys opts parsed).2.1.output_threshold < 0
                  ∨ (process_opts_loop sys opts parsed).2.1.output_threshold > 100
               then 1 else (process_opts_loop sys opts parsed).2.1.output_threshold)
        ∧ 0 ≤ (process_opts sys opts parsed optind argc).2.1.output_threshold
        ∧ (process_opts sys opts parsed optind argc).2.1.output_threshold ≤ 100) := by
  obtain ⟨hlen, hbits⟩ := opts_loop_spec parsed sys opts hl
  refine ⟨?_, ?_, ?_⟩
  · intro hc hg
    unfold process_opts
    by_cases hok : (process_opts_loop sys opts parsed).1 = true
    · rw [if_pos hok]
      have hb1 := (hbits hok).1 (Or.inr hc)
      have hb0 := (hbits hok).2 (Or.inr hg)
      have hd : process_opts_default (process_opts_loop sys opts parsed).2.2
          = (process_opts_loop sys opts parsed).2.2 := by
        unfold process_opts_default
        rw [if_neg (fun h => h.1 ((and_two_ne_zero _).2 hb1))]
      rw [hd]
      unfold process_opts_check
      rw [if_pos ⟨(and_two_ne_zero _).2 hb1, (and_one_ne_zero _).2 hb0⟩]
    · rw [if_neg hok]
  · intro ht
    unfold process_opts
    by_cases hok : (process_opts_loop sys opts parsed).1 = true
    · rw [if_pos hok]
      unfold process_opts_check
      split
      · rfl
      · rw [if_pos (by unfold MAX_THREADS; exact ht)]
    · rw [if_neg hok]
  · intro hne
    unfold process_opts at hne ⊢
    by_cases hok : (process_opts_loop sys opts parsed).1 = true
    · rw [if_pos hok] at hne ⊢
      unfold process_opts_check at hne ⊢
      split at hne
      · exact absurd rfl hne
      · split at hne
        · exact absurd rfl hne
        · rename_i h1 h2
          rw [if_neg h1, if_neg h2]
          by_cases h3 : (process_opts_loop sys opts parsed).2.1.output_threshold < 0
              ∨ (process_opts_loop sys opts parsed).2.1.output_threshold > 100
          · simp only [if_pos h3]
            exact ⟨trivial, trivial, by decide, by decide⟩
          · simp only [if_neg h3]
            exact ⟨trivial, trivial, by omega, by omega⟩
    · rw [if_neg hok] at hne
      exact absurd rfl hne

/-- Witness for the amended C23: the options `-c -g` on the parameters of `sdhash.c`. -/
theorem process_opts_validation_witness :
    (GetOpt.c ∈ [GetOpt.c, GetOpt.g] → GetOpt.g ∈ [GetOpt.c, GetOpt.g] →
        (process_opts sdbf_sys [0, 0, 0] [GetOpt.c, GetOpt.g] 3 4).1 = -1)
    ∧ ((process_opts_loop sdbf_sys [0, 0, 0] [GetOpt.c, GetOpt.g]).2.1.thread_cnt < 1
        ∨ (process_opts_loop sdbf_sys [0, 0, 0] [GetOpt.c, GetOpt.g]).2.1.thread_cnt > 512 →
        (process_opts sdbf_sys [0, 0, 0] [GetOpt.c, GetOpt.g] 3 4).1 = -1)
    ∧ ((process_opts sdbf_sys [0, 0, 0] [GetOpt.c, GetOpt.g] 3 4).1 ≠ -1 →
        (process_opts sdbf_sys [0, 0, 0] [GetOpt.c, GetOpt.g] 3 4).1 = 3
        ∧ (process_opts sdbf_sys [0, 0, 0] [GetOpt.c, GetOpt.g] 3 4).2.1.output_threshold
            = (if (process_opts_loop sdbf_sys [0, 0, 0]
                      [GetOpt.c, GetOpt.g]).2.1.output_threshold < 0
                  ∨ (process_opts_loop sdbf_sys [0, 0, 0]
                      [GetOpt.c, GetOpt.g]).2.1.output_threshold > 100
               then 1
               else (process_opts_loop sdbf_sys [0, 0, 0]
                      [GetOpt.c, GetOpt.g]).2.1.output_threshold)
        ∧ 0 ≤ (process_opts sdbf_sys [0, 0, 0] [GetOpt.c, GetOpt.g] 3 4).2.1.output_threshold
        ∧ (process_opts sdbf_sys [0, 0, 0] [GetOpt.c, GetOpt.g] 3 4).2.1.output_threshold
            ≤ 100) :=
  process_opts_validation sdbf_sys [0, 0, 0] [GetOpt.c, GetOpt.g] 3 4 rfl

/-- Counterexample to C23 as stated: the single option `-t 150`. `process_opts` does not
fail: it returns `optind` (here 3) and resets the output threshold to 1. -/
theorem process_opts_threshold_reset :
    (process_opts sdbf_sys [0, 0, 0] [GetOpt.t 150] 3 4).1 = 3
    ∧ (process_opts_loop sdbf_sys [0, 0, 0] [GetOpt.t 150]).2.1.output_threshold = 150
    ∧ (process_opts sdbf_sys [0, 0, 0] [GetOpt.t 150] 3 4).2.1.output_threshold = 1 := by
  decide

/-! ### Lookup in the collection -/

/-- Claim C22 at the failing input: the registry holds the single digest `digest_m100`,
the query is `digest_m10` and the threshold is 0. The score of the query against entry 0
is 0, so that entry 0 is the first entry that reaches the threshold (`lookup_first`).
`sdbf_lookup` runs its loop to the end, tests the last score with `i = curr_sdbf = 1`,
stores the score 0 in `*result` and returns the slot `sdbf_list[1]`, a null pointer. -/
theorem sdbf_lookup_past_the_end :
    sdbf_lookup exactFloat 1 init_state registry_one digest_m10 0 0 = .ok (none, some 0)
    ∧ lookup_first exactFloat 1 init_state registry_one digest_m10 0
        = (some digest_m100, some 0) := by
  decide!

/-! ### Bit counts, revisited -/

/-- Claim C24. After `init_bit_count_16`, for every `x` in `[0, 65535]` the entry
`bit_count_16[x]` is the number of positions `b < 16` at which bit `b` of `x` is set; `x`
has no set bit at a position `b ≥ 16`, and the entry is at most 16. -/
theorem init_bit_count_16_popcount (x : Nat) (hx : x < 65536) :
    bit_count_16 x = ((List.range 16).filter (fun b => x.testBit b)).length
    ∧ (∀ b, 16 ≤ b → x.testBit b = false)
    ∧ bit_count_16 x ≤ 16 := by
  refine ⟨?_, ?_, ?_⟩
  · rw [bit_count_16_eq]
    unfold popcount
    rw [List.countP_eq_length_filter]
  · intro b hb
    apply Nat.testBit_eq_false_of_lt
    calc x < 2 ^ 16 := hx
      _ ≤ 2 ^ b := Nat.pow_le_pow_right (by decide) hb
  · rw [bit_count_16_eq]
    exact popcount_le 16 x

/-- Witness for C24: the word `0xFFFF`. -/
theorem init_bit_count_16_popcount_witness :
    bit_count_16 65535 = ((List.range 16).filter (fun b => (65535 : Nat).testBit b)).length
    ∧ (∀ b, 16 ≤ b → (65535 : Nat).testBit b = false)
    ∧ bit_count_16 65535 ≤ 16 :=
  init_bit_count_16_popcount 65535 (by decide)

theorem popcount_bytes_words (f : List Nat) (h : ∀ x ∈ f, x < 256) (n : Nat) :
    popcount_bytes f (2 * n)
      = ((List.range n).map (fun j => popcount 16 (load16 f j))).sum := by
  induction n with
  | zero => rfl
  | succ n ih =>
    have e : 2 * (n + 1) = 2 * n + 1 + 1 := by ring
    rw [e, popcount_bytes_succ, popcount_bytes_succ, ih, List.range_succ, List.map_append,
      List.sum_append, List.map_singleton, List.sum_singleton, ← bit_count_16_eq,
      bit_count_load16 f h n]
    ring

/-- Claim C25, amended. For every digest of at most 2^25 filters (the word index `pos` is
a `uint32_t` and a filter has 128 words) whose buffer holds bytes, and every filter `i`
below `bf_count`, `compute_hamming` sets `hamming[i]` to the number of set bits of the 256
bytes of filter `i`; this is the sum of the 16-bit population counts of its 128 words and
also the sum of the population counts of its 256 bytes. -/
theorem compute_hamming_popcount (d : sdbf_t) (hb : ∀ x ∈ d.buffer, x < 256) (i : Nat)
    (hi : i < d.bf_count) (hc : d.bf_count ≤ 2 ^ 25) :
    hamming_at (compute_hamming d) i
      = ((List.range 256).map (fun k => popcount 8 (d.buffer.getD (i * 256 + k) 0))).sum
    ∧ hamming_at (compute_hamming d) i
      = ((List.range 128).map
          (fun j => popcount 16 (load16 (d.buffer.drop (i * 256)) j))).sum := by
  have h1 := hamming_at_compute d hb i hi hc
  constructor
  · rw [h1]
    unfold popcount_bytes
    congr 1
    apply List.map_congr_left
    intro k _
    rw [getD_drop]
  · rw [h1]
    exact popcount_bytes_words _ (mem_drop_lt _ hb _) 128

/-- Witness for C25: the second filter of `digest_lo_hi`. -/
theorem compute_hamming_popcount_witness :
    hamming_at (compute_hamming digest_lo_hi) 1
      = ((List.range 256).map
          (fun k => popcount 8 (digest_lo_hi.buffer.getD (1 * 256 + k) 0))).sum
    ∧ hamming_at (compute_hamming digest_lo_hi) 1
      = ((List.range 128).map
          (fun j => popcount 16 (load16 (digest_lo_hi.buffer.drop (1 * 256)) j))).sum :=
  compute_hamming_popcount digest_lo_hi wellFormed_digest_lo_hi.2.2.1.2 1 (by decide)
    (by decide)

/-- The weight that `compute_hamming` stores for filter `i` is the weight of the filter
`i mod 2^25`: the word index `pos` is a `uint32_t` and a filter has `2^7` words. -/
theorem hamming_at_compute_mod (d : sdbf_t) (h : ∀ x ∈ d.buffer, x < 256) (i : Nat)
    (hi : i < d.bf_count) :
    hamming_at (compute_hamming d) i
      = popcount_bytes (d.buffer.drop (i % 33554432 * 256)) 256 := by
  unfold hamming_at compute_hamming
  simp only [Option.getD_some]
  rw [List.getD_eq_getElem?_getD, List.getElem?_map, List.getElem?_range hi]
  simp only [Option.map_some', Option.getD_some]
  rw [foldl_congr_mem
    (fun h j => (h + bit_count_16 (load16 d.buffer ((i * (BF_SIZE / 2) + j) % U32))) % U16)
    (fun h j => (h + bit_count_16 (load16 d.buffer (i % 33554432 * (BF_SIZE / 2) + j))) % U16)
    (List.range (BF_SIZE / 2))
    (fun a b hb => by
      have hb2 : b < 128 := List.mem_range.1 hb
      have e : (i * (BF_SIZE / 2) + b) % U32 = i % 33554432 * (BF_SIZE / 2) + b := by
        unfold BF_SIZE U32
        omega
      simp only [e])]
  have hl := hamming_loop d.buffer h (i % 33554432 * (BF_SIZE / 2)) (BF_SIZE / 2)
    (by unfold BF_SIZE U16; norm_num)
  have e1 : 2 * (i % 33554432 * (BF_SIZE / 2)) = i % 33554432 * 256 := by
    unfold BF_SIZE; omega
  have e2 : 2 * (BF_SIZE / 2) = 256 := by unfold BF_SIZE; norm_num
  rw [e1, e2] at hl
  exact hl

theorem sum_map_zero (l : List Nat) : (l.map (fun _ => 0)).sum = 0 := by
  induction l with
  | nil => rfl
  | cons a l ih =>
    show 0 + (l.map (fun _ => 0)).sum = 0
    rw [ih]

theorem popcount_bytes_append_left (a b : List Nat) (n : Nat) (hn : n ≤ a.length) :
    popcount_bytes (a ++ b) n = popcount_bytes a n := by
  unfold popcount_bytes
  congr 1
  apply List.map_congr_left
  intro k hk
  have hk2 := List.mem_range.1 hk
  rw [List.getD_append _ _ _ _ (by omega)]

/-- Counterexample to C25 as stated: in the digest `digest_wrap_25` of `2^25 + 1` filters
the last filter, number `2^25`, holds no set bit, but `compute_hamming` stores the weight
1024 for it: the word index `pos` has wrapped to 0 and the words read are those of
filter 0. -/
theorem compute_hamming_wraps :
    digest_wrap_25.bf_size = 256 ∧ digest_wrap_25.bf_count = 2 ^ 25 + 1
    ∧ digest_wrap_25.buffer.length = 256 * (2 ^ 25 + 1)
    ∧ ((List.range 256).map
        (fun k => popcount 8 (digest_wrap_25.buffer.getD (2 ^ 25 * 256 + k) 0))).sum = 0
    ∧ hamming_at (compute_hamming digest_wrap_25) (2 ^ 25) = 1024 := by
  have hbuf : digest_wrap_25.buffer = filter_lo ++ List.replicate (33554432 * 256) 0 := rfl
  have hlo : filter_lo.length = 256 := by
    unfold filter_lo
    rw [List.length_append, List.length_replicate, List.length_replicate]
  have hbytes : ∀ x ∈ digest_wrap_25.buffer, x < 256 := by
    rw [hbuf]
    intro x hx
    rcases List.mem_append.1 hx with h | h
    · exact isBytes_filter_lo.2 x h
    · rw [List.eq_of_mem_replicate h]
      decide
  have e25 : (2 : Nat) ^ 25 = 33554432 := rfl
  refine ⟨rfl, rfl, ?_, ?_, ?_⟩
  · rw [hbuf, List.length_append, hlo, List.length_replicate, e25]
  · have hz : ∀ k ∈ List.range 256,
        popcount 8 (digest_wrap_25.buffer.getD (2 ^ 25 * 256 + k) 0) = 0 := by
      intro k _
      rw [hbuf, e25, List.getD_append_right _ _ _ _ (by rw [hlo]; omega),
        getD_replicate_zero]
      rfl
    rw [List.map_congr_left hz]
    exact sum_map_zero _
  · rw [e25, hamming_at_compute_mod digest_wrap_25 hbytes 33554432
      (show 33554432 < 33554433 by decide)]
    have e0 : 33554432 % 33554432 * 256 = 0 := by decide
    rw [e0, List.drop_zero, hbuf, popcount_bytes_append_left _ _ 256 (by rw [hlo])]
    decide!

/-! ### A target digest of 2^24 + 1 filters -/

theorem step_max (fm : FloatModel) (task : sdbf_task_t) (s1 : Nat) (x : ℚ) (c : EstCache)
    (i : Nat) (hx : -1 ≤ x) :
    (sdbf_max_score_step fm task s1 (x, c) i).1
      = max x (sdbf_max_score_step fm task s1 (-1, c) i).1 := by
  unfold sdbf_max_score_step
  simp only []
  split
  · exact (max_eq_left hx).symm
  · generalize (if (if bf_bitcount_cut_256 _ _ _ 48 > 0 then bf_bitcount_cut_256 _ _ 0 0
        else bf_bitcount_cut_256 _ _ _ 48) ≤ _ then (0 : ℚ) else _) = score
    by_cases h1 : score > x
    · rw [if_pos h1, if_pos (lt_of_le_of_lt hx h1)]
      exact (max_eq_right (le_of_lt h1)).symm
    · rw [if_neg h1]
      have h2 : score ≤ x := not_lt.1 h1
      by_cases h3 : score > -1
      · rw [if_pos h3]
        exact (max_eq_left h2).symm
      · rw [if_neg h3]
        exact (max_eq_left hx).symm

theorem step_congr_tgt (fm : FloatModel) (ref : sdbf_t) (ri : Nat) (tg1 tg2 : sdbf_t)
    (tid tc s1 : Nat) (st : ℚ × EstCache) (i j : Nat)
    (h5 : hamming_at tg1 i = hamming_at tg2 j)
    (h6 : get_elem_count tg1 i = get_elem_count tg2 j)
    (h7 : ∀ c s,
      bf_bitcount_cut_256 (ref.buffer.drop ((ri * ref.bf_size) % U32))
          (tg1.buffer.drop ((i * ref.bf_size) % U32)) c s
        = bf_bitcount_cut_256 (ref.buffer.drop ((ri * ref.bf_size) % U32))
            (tg2.buffer.drop ((j * ref.bf_size) % U32)) c s) :
    sdbf_max_score_step fm (sdbf_task_t.mk tid tc ref ri tg1) s1 st i
      = sdbf_max_score_step fm (sdbf_task_t.mk tid tc ref ri tg2) s1 st j := by
  unfold sdbf_max_score_step
  simp only [h5, h6, h7]

/-- The maximum over the target filters `0 .. n` when the turns for the filters below `n`
keep `max_score ≤ 1` and the turn for filter `n` scores `v ≥ 1`: the result is `v`. -/
theorem max_score_fold_last (fm : FloatModel) (task : sdbf_task_t) (s1 n : Nat) (v : ℚ)
    (P : EstCache → Prop)
    (hstep : ∀ st i, i < n → st.1 ≤ 1 → P st.2 →
      (sdbf_max_score_step fm task s1 st i).1 ≤ 1 ∧ P (sdbf_max_score_step fm task s1 st i).2)
    (c0 : EstCache) (hc0 : P c0)
    (hlast : ∀ c, P c → (sdbf_max_score_step fm task s1 (-1, c) n).1 = v) (hv : 1 ≤ v) :
    ((List.range (n + 1)).foldl (sdbf_max_score_step fm task s1) (-1, c0)).1 = v := by
  rw [List.range_succ, List.foldl_append]
  simp only [List.foldl_cons, List.foldl_nil]
  have hinv := foldl_invariant (fun (s : ℚ × EstCache) => -1 ≤ s.1 ∧ s.1 ≤ 1 ∧ P s.2)
    (sdbf_max_score_step fm task s1) (List.range n) (-1, c0)
    ⟨le_refl _, by norm_num, hc0⟩
    (fun a b hb ha =>
      ⟨le_trans ha.1 (step_mono fm task s1 a b),
        (hstep a b (List.mem_range.1 hb) ha.2.1 ha.2.2).1,
        (hstep a b (List.mem_range.1 hb) ha.2.1 ha.2.2).2⟩)
  generalize (List.range n).foldl (sdbf_max_score_step fm task s1) (-1, c0) = st at hinv
  show (sdbf_max_score_step fm task s1 (st.1, st.2) n).1 = v
  rw [step_max fm task s1 st.1 st.2 n hinv.1, hlast st.2 hinv.2.2]
  exact max_eq_right (le_trans hinv.2.1 hv)

/-- The accumulated score of a reference digest `a` of one filter against a target digest
`b` of `n + 1` filters, when the turn for the last target filter scores `v ≥ 1` and the
offsets of the filters before it fit `uint32_t`. -/
theorem score_sum_last (fm : FloatModel) (hfm : fm.Sound) (a b : sdbf_t) (st : CmpState)
    (n : Nat) (v : ℚ)
    (hsa : a.bf_size = 256) (hca : a.bf_count = 1) (hcb : b.bf_count = n + 1)
    (hn : 256 * n ≤ U32)
    (hba : ∀ x ∈ a.buffer, x < 256) (hbb : ∀ x ∈ b.buffer, x < 256)
    (hha : HammingOK a) (hhb : HammingOK b) (hcb2 : CountsOK b) (hca2 : CountsOK a)
    (hs1 : MIN_ELEM_COUNT ≤ toU32 (get_elem_count a 0))
    (hs : EstSmall fm ((8 * a.bf_size) % U32) a.hash_count)
    (hc : Coherent fm ((8 * a.bf_size) % U32) a.hash_count st.cache)
    (hlast : (sdbf_max_score_step fm (sdbf_task_t.mk 0 1 a 0 b)
        (toU32 (get_elem_count a 0)) (-1, empty_cache) n).1 = v)
    (hv : 1 ≤ v) :
    (sdbf_score_sum fm 1 a b st).1 = v := by
  have hU : U32 = 4294967296 := rfl
  have hs256 : toU32 (get_elem_count a 0) < 256 := by
    have := elem_count_small a hca2 0; omega
  have hfold : ((List.range (n + 1)).foldl
      (sdbf_max_score_step fm (sdbf_task_t.mk 0 1 a 0 b) (toU32 (get_elem_count a 0)))
      (-1, st.cache)).1 = v := by
    apply max_score_fold_last fm (sdbf_task_t.mk 0 1 a 0 b) (toU32 (get_elem_count a 0)) n v
      (Coherent fm ((8 * a.bf_size) % U32) a.hash_count)
    · intro s i hi hs1' hcs
      refine ⟨step_le_one_at fm hfm (sdbf_task_t.mk 0 1 a 0 b) _ s i hsa hba hbb
        (hha 0 (by rw [hca]; decide)) (hhb i (by rw [hcb]; omega)) (by show 256 * 0 < U32; decide)
        (by show 256 * i < U32; omega) hs1', ?_⟩
      exact (step_coherent fm (sdbf_task_t.mk 0 1 a 0 b) _ hs256 hcb2 hs s.1 s.2 s.2 hcs hcs
        i).2.1
    · exact hc
    · intro c hcc
      rw [(step_coherent fm (sdbf_task_t.mk 0 1 a 0 b) _ hs256 hcb2 hs (-1) c empty_cache hcc
        (coherent_empty _ _ _) n).1]
      exact hlast
    · exact hv
  unfold sdbf_score_sum
  have hr : List.range a.bf_count = [0] := by rw [hca]; rfl
  rw [hr]
  simp only [List.foldl_cons, List.foldl_nil]
  rw [if_pos (by norm_num)]
  unfold sdbf_score_max
  rw [if_pos (by decide)]
  unfold sdbf_max_score
  simp only []
  rw [if_neg (by omega)]
  simp only []
  rw [hcb, target_indices_zero_one]
  exact hfold

theorem order_of_lt (a b : sdbf_t) (h : a.bf_count < b.bf_count) :
    sdbf_score_order a b = (a, b, 0) := by
  unfold sdbf_score_order
  rw [if_neg]
  rintro (h1 | ⟨h1, _⟩) <;> omega

theorem with_hamming_buffer (d : sdbf_t) : (with_hamming d).buffer = d.buffer := by
  unfold with_hamming
  split <;> rfl

theorem popcount_and_append_right (f a b : List Nat) (n : Nat) (hn : n ≤ a.length) :
    popcount_and f (a ++ b) n = popcount_and f a n := by
  unfold popcount_and
  congr 1
  apply List.map_congr_left
  intro k hk
  have hk2 := List.mem_range.1 hk
  rw [List.getD_append _ _ _ _ (by omega)]

/-- The tiered count reads the first 256 bytes of its second region only. -/
theorem bf_bitcount_cut_256_append (f a b : List Nat) (hf : ∀ x ∈ f, x < 256)
    (ha : ∀ x ∈ a, x < 256) (hb : ∀ x ∈ b, x < 256) (hl : 256 ≤ a.length)
    (cut_off : Nat) (slack : Int) :
    bf_bitcount_cut_256 f (a ++ b) cut_off slack = bf_bitcount_cut_256 f a cut_off slack := by
  have hab : ∀ x ∈ a ++ b, x < 256 := by
    intro x hx
    rcases List.mem_append.1 hx with h | h
    · exact ha x h
    · exact hb x h
  rw [bf_bitcount_cut_256_unfold f (a ++ b) hf hab, bf_bitcount_cut_256_unfold f a hf ha,
    popcount_and_append_right f a b 32 (by omega), popcount_and_append_right f a b 64 (by omega),
    popcount_and_append_right f a b 128 (by omega),
    popcount_and_append_right f a b 256 (by omega)]

theorem length_filter_lo : filter_lo.length = 256 := by
  unfold filter_lo
  rw [List.length_append, List.length_replicate, List.length_replicate]

theorem isBytes_filter_64 : IsBytes filter_64 256 :=
  isBytes_append _ _ 64 192 (isBytes_replicate 64 64 255 (by decide) (by decide))
    (isBytes_replicate 192 192 0 (by decide) (by decide))

theorem bytes_replicate_zero (n : Nat) : ∀ x ∈ List.replicate n 0, x < 256 := by
  intro x hx
  rw [List.eq_of_mem_replicate hx]
  decide

theorem bytes_digest_wrap_24 : ∀ x ∈ digest_wrap_24.buffer, x < 256 := by
  intro x hx
  have hbuf : digest_wrap_24.buffer
      = filter_lo ++ List.replicate (16777215 * 256) 0 ++ filter_64 := rfl
  rw [hbuf] at hx
  rcases List.mem_append.1 hx with h | h
  · rcases List.mem_append.1 h with h | h
    · exact isBytes_filter_lo.2 x h
    · exact bytes_replicate_zero _ x h
  · exact isBytes_filter_64.2 x h

theorem length_digest_wrap_24 : digest_wrap_24.buffer.length = 256 * 16777217 := by
  have hbuf : digest_wrap_24.buffer
      = filter_lo ++ List.replicate (16777215 * 256) 0 ++ filter_64 := rfl
  have h64 : filter_64.length = 256 := by
    unfold filter_64
    rw [List.length_append, List.length_replicate, List.length_replicate]
  rw [hbuf, List.length_append, List.length_append, length_filter_lo, List.length_replicate,
    h64]

/-- The weight that `compute_hamming` stores for the last filter of `digest_wrap_24` is
the weight 512 of that filter. -/
theorem hamming_last_wrap_24 : hamming_at (with_hamming digest_wrap_24) 16777216 = 512 := by
  have hw : with_hamming digest_wrap_24 = compute_hamming digest_wrap_24 := if_pos rfl
  have hbuf : digest_wrap_24.buffer
      = filter_lo ++ List.replicate (16777215 * 256) 0 ++ filter_64 := rfl
  rw [hw, hamming_at_compute digest_wrap_24 bytes_digest_wrap_24 16777216
    (show 16777216 < 16777217 by decide) (show 16777217 ≤ 2 ^ 25 by decide), hbuf,
    List.drop_left' (by
      rw [List.length_append, length_filter_lo, List.length_replicate])]
  decide!

/-- The turn of the loop of `sdbf_max_score` for the target filter `2^24` of
`digest_wrap_24` against the filter of `digest_ref_lo`: the byte offset `2^24 * 256` is 0
in `uint32_t`, the bytes compared are those of filter 0, which equals the reference
filter, and the score is `(1024 - 303)/(512 - 303)`. -/
theorem step_wrap_24 :
    (sdbf_max_score_step exactFloat
      (sdbf_task_t.mk 0 1 (with_hamming digest_ref_lo) 0 (with_hamming digest_wrap_24))
      (toU32 (get_elem_count (with_hamming digest_ref_lo) 0)) (-1, empty_cache) 16777216).1
      = 721 / 209 := by
  have hbuf : (with_hamming digest_wrap_24).buffer
      = filter_lo ++ (List.replicate (16777215 * 256) 0 ++ filter_64) := by
    rw [with_hamming_buffer]
    exact List.append_assoc _ _ _
  have hrest : ∀ x ∈ List.replicate (16777215 * 256) 0 ++ filter_64, x < 256 := by
    intro x hx
    rcases List.mem_append.1 hx with h | h
    · exact bytes_replicate_zero _ x h
    · exact isBytes_filter_64.2 x h
  rw [step_congr_tgt exactFloat (with_hamming digest_ref_lo) 0 (with_hamming digest_wrap_24)
    digest_alias 0 1 _ _ 16777216 0 (by rw [hamming_last_wrap_24]; rfl) (by decide!)
    (by
      intro c s
      have e1 : (with_hamming digest_ref_lo).bf_size = 256 := rfl
      have e2 : (16777216 * 256) % U32 = 0 := by decide
      have e3 : (0 * 256) % U32 = 0 := by decide
      have e4 : (with_hamming digest_ref_lo).buffer = filter_lo := rfl
      have e5 : digest_alias.buffer = filter_lo := rfl
      rw [e1, e2, e3, List.drop_zero, List.drop_zero, List.drop_zero, hbuf, e4, e5]
      exact bf_bitcount_cut_256_append filter_lo filter_lo _ isBytes_filter_lo.2
        isBytes_filter_lo.2 hrest (by rw [length_filter_lo]) c s)]
  decide!

/-- Counterexample to C7 as stated: the reference `digest_ref_lo` has the single filter
`filter_lo`; the target `digest_wrap_24` has `2^24 + 1` filters of 256 bytes, every
element count is 160 and the Hamming weights are those `compute_hamming` stores, the
population counts of the filters. For the target filter `2^24` the byte offset
`i*bf_size` is `2^32`, which is 0 in `uint32_t`: the comparator reads the bytes of filter 0
(all 1024 bits of the reference in common) with the weight 512 of filter `2^24`, the score
of that turn is `721/209`, and `sdbf_score` returns 345. -/
theorem sdbf_score_above_100 :
    digest_ref_lo.bf_size = 256 ∧ digest_wrap_24.bf_size = 256
    ∧ digest_ref_lo.bf_count = 1 ∧ digest_wrap_24.bf_count = 2 ^ 24 + 1
    ∧ IsBytes digest_ref_lo.buffer (256 * digest_ref_lo.bf_count)
    ∧ IsBytes digest_wrap_24.buffer (256 * digest_wrap_24.bf_count)
    ∧ HammingOK (with_hamming digest_ref_lo) ∧ HammingOK (with_hamming digest_wrap_24)
    ∧ CountsOK digest_ref_lo ∧ CountsOK digest_wrap_24
    ∧ (sdbf_score exactFloat 1 init_state digest_ref_lo digest_wrap_24).score = 345 := by
  have hwa : with_hamming digest_ref_lo = compute_hamming digest_ref_lo := if_pos rfl
  have hwb : with_hamming digest_wrap_24 = compute_hamming digest_wrap_24 := if_pos rfl
  have hha : HammingOK (with_hamming digest_ref_lo) := by
    rw [hwa]
    exact hammingOK_compute digest_ref_lo isBytes_filter_lo.2 (by decide)
  have hhb : HammingOK (with_hamming digest_wrap_24) := by
    rw [hwb]
    exact hammingOK_compute digest_wrap_24 bytes_digest_wrap_24 (by decide)
  have hca : CountsOK digest_ref_lo := countsOK_stream_digest _ _ _ _ (by decide)
  have hcb : CountsOK digest_wrap_24 := countsOK_stream_digest _ _ _ _ (by decide)
  have hsum := score_sum_last exactFloat exactFloat_sound (with_hamming digest_ref_lo)
    (with_hamming digest_wrap_24) init_state 16777216 (721 / 209) rfl rfl rfl (by decide)
    (by rw [with_hamming_buffer]; exact isBytes_filter_lo.2)
    (by rw [with_hamming_buffer]; exact bytes_digest_wrap_24)
    hha hhb (countsOK_with_hamming _ hcb) (countsOK_with_hamming _ hca) (by decide)
    estSmall_exact (coherent_empty _ _ _) step_wrap_24 (by norm_num)
  have hla : 256 * digest_ref_lo.bf_count ≤ digest_ref_lo.buffer.length := by
    have e : digest_ref_lo.buffer = filter_lo := rfl
    rw [e, length_filter_lo]
    decide
  have hlb : 256 * digest_wrap_24.bf_count ≤ digest_wrap_24.buffer.length := by
    rw [length_digest_wrap_24]
    decide
  refine ⟨rfl, rfl, rfl, rfl, ⟨hla, isBytes_filter_lo.2⟩, ⟨hlb, bytes_digest_wrap_24⟩, hha, hhb, hca, hcb, ?_⟩
  unfold sdbf_score
  simp only []
  rw [order_of_lt (with_hamming digest_ref_lo) (with_hamming digest_wrap_24)
    (show 1 < 16777217 by decide)]
  simp only []
  rw [hsum]
  decide!

/-- Claim C26. For filters of 256 bytes, `cut_off > 0` and a non-negative `slack`, with
`p32`, `p64`, `p128` the numbers of common bits of the first 32, 64 and 128 bytes:
`bf_bitcount_cut_256` returns 0 if `8*p32 + slack < cut_off`, or else if
`4*p64 + slack < cut_off`, or else if `2*p128 + slack < cut_off`, and otherwise the number
of common bits of the 256 bytes. -/
theorem bf_bitcount_cut_256_tiers (f1 f2 : List Nat) (cut_off : Nat) (slack : Int)
    (h1 : IsBytes f1 256) (h2 : IsBytes f2 256) (hc : 0 < cut_off) (hs0 : 0 ≤ slack)
    (hs1 : slack < 2 ^ 31) :
    bf_bitcount_cut_256 f1 f2 cut_off slack
      = if 8 * (popcount_and f1 f2 32 : Int) + slack < cut_off then 0
        else if 4 * (popcount_and f1 f2 64 : Int) + slack < cut_off then 0
        else if 2 * (popcount_and f1 f2 128 : Int) + slack < cut_off then 0
        else popcount_and f1 f2 256 := by
  rw [bf_bitcount_cut_256_unfold f1 f2 h1.2 h2.2]
  have hu : toU32 slack = slack.toNat := toU32_nonneg slack hs0 (by omega)
  have b32 := popcount_and_le f1 f2 32
  have b64 := popcount_and_le f1 f2 64
  have b128 := popcount_and_le f1 f2 128
  have m1 : (8 * popcount_and f1 f2 32 + toU32 slack) % U32
      = 8 * popcount_and f1 f2 32 + slack.toNat := by
    rw [hu]; apply Nat.mod_eq_of_lt; unfold U32; omega
  have m2 : (4 * popcount_and f1 f2 64 + toU32 slack) % U32
      = 4 * popcount_and f1 f2 64 + slack.toNat := by
    rw [hu]; apply Nat.mod_eq_of_lt; unfold U32; omega
  have m3 : (2 * popcount_and f1 f2 128 + toU32 slack) % U32
      = 2 * popcount_and f1 f2 128 + slack.toNat := by
    rw [hu]; apply Nat.mod_eq_of_lt; unfold U32; omega
  rw [m1, m2, m3]
  by_cases c1 : 8 * (popcount_and f1 f2 32 : Int) + slack < cut_off
  · rw [if_pos c1, if_pos ⟨hc, by omega⟩]
  · rw [if_neg c1, if_neg (fun h => c1 (by omega))]
    by_cases c2 : 4 * (popcount_and f1 f2 64 : Int) + slack < cut_off
    · rw [if_pos c2, if_pos ⟨hc, by omega⟩]
    · rw [if_neg c2, if_neg (fun h => c2 (by omega))]
      by_cases c3 : 2 * (popcount_and f1 f2 128 : Int) + slack < cut_off
      · rw [if_pos c3, if_pos ⟨hc, by omega⟩]
      · rw [if_neg c3, if_neg (fun h => c3 (by omega))]

/-- Witness for C26: the filters `filter_lo` and `filter_hi`, the cut-off 200 and the
slack 48 of `sdbf_max_score`. -/
theorem bf_bitcount_cut_256_tiers_witness :
    bf_bitcount_cut_256 filter_lo filter_hi 200 48
      = if 8 * (popcount_and filter_lo filter_hi 32 : Int) + 48 < (200 : Nat) then 0
        else if 4 * (popcount_and filter_lo filter_hi 64 : Int) + 48 < (200 : Nat) then 0
        else if 2 * (popcount_and filter_lo filter_hi 128 : Int) + 48 < (200 : Nat) then 0
        else popcount_and filter_lo filter_hi 256 :=
  bf_bitcount_cut_256_tiers filter_lo filter_hi 200 48 isBytes_filter_lo isBytes_filter_hi
    (by decide) (by decide) (by decide)

/-! ### Bounds on the feature scores and the score histogram -/

theorem score_bound_le (w i p : Nat) : score_bound w i p ≤ w + 1 := by
  unfold score_bound
  omega

theorem incr16_inv (scores scores1 : List Nat) (q : Nat) (h : incr16 scores q = .ok scores1) :
    scores1.length = scores.length
    ∧ scores1.getD q 0 ≤ scores.getD q 0 + 1
    ∧ ∀ p, p ≠ q → scores1.getD p 0 = scores.getD p 0 := by
  unfold incr16 at h
  by_cases hq : q < scores.length
  · rw [List.getElem?_eq_getElem hq] at h
    injection h with h
    subst h
    refine ⟨List.length_set _ _ _, ?_, fun p hp => getD_set_ne _ _ _ _ (Ne.symm hp)⟩
    rw [List.getD_eq_getElem _ _ (by rw [List.length_set]; exact hq), List.getElem_set_self,
      List.getD_eq_getElem _ _ hq]
    exact Nat.mod_le _ _
  · rw [List.getElem?_eq_none (Nat.le_of_not_lt hq)] at h
    cases h

theorem scoresBounded_incr (w n len i q : Nat) (scores scores1 : List Nat)
    (hs : ScoresBounded w n len i scores) (h1 : i ≤ q) (h2 : q ≤ i + w)
    (h : incr16 scores q = .ok scores1) : ScoresBounded w n len (i + 1) scores1 := by
  obtain ⟨e1, e2, e3⟩ := incr16_inv _ _ _ h
  refine ⟨by rw [e1]; exact hs.1, fun p hp => ?_⟩
  have hb := hs.2 p hp
  by_cases hpq : p = q
  · subst hpq
    unfold score_bound at hb ⊢
    omega
  · rw [e3 p hpq]
    unfold score_bound at hb ⊢
    omega

theorem scoresBounded_mono (w n len i : Nat) (scores : List Nat)
    (hs : ScoresBounded w n len i scores) : ScoresBounded w n len (i + 1) scores := by
  refine ⟨hs.1, fun p hp => ?_⟩
  have hb := hs.2 p hp
  unfold score_bound at hb ⊢
  omega

theorem slide_loop_bounded (ranks : List Nat) (limit w min_rank n len : Nat)
    (hU : ranks.length + w < U64) (hw : 1 ≤ w) :
    ∀ (fuel i min_pos : Nat) (scores : List Nat) (res : Nat × List Nat),
      slide_loop ranks limit w min_rank fuel i min_pos scores = .ok res →
      ScoresBounded w n len i scores → i ≤ ranks.length → min_pos ≤ i + w →
      ScoresBounded w n len res.1 res.2 ∧ res.1 ≤ ranks.length := by
  intro fuel
  induction fuel with
  | zero =>
    intro i min_pos scores res h
    cases h
  | succ fuel ih =>
    intro i min_pos scores res h hs hi hm
    unfold slide_loop at h
    have hmod : (i + w) % U64 = i + w := Nat.mod_eq_of_lt (by omega)
    rw [hmod] at h
    cases hrd : rd ranks (i + w) with
    | error e => rw [hrd] at h; cases h
    | ok r =>
      rw [hrd] at h
      simp only [] at h
      obtain ⟨hlt, _⟩ := rd_inv _ _ _ hrd
      by_cases hc : r ≥ min_rank ∧ i < min_pos ∧ i < (limit + 1) % U64
      · rw [if_pos hc] at h
        cases hin : incr16 scores (if r = min_rank then i + w else min_pos) with
        | error e => rw [hin] at h; cases h
        | ok scores1 =>
          rw [hin] at h
          simp only [] at h
          rw [Nat.mod_eq_of_lt (show i + 1 < U64 by omega)] at h
          have hq1 : i ≤ (if r = min_rank then i + w else min_pos) := by
            split <;> omega
          have hq2 : (if r = min_rank then i + w else min_pos) ≤ i + w := by
            split <;> omega
          exact ih (i + 1) _ scores1 res h
            (scoresBounded_incr w n len i _ scores scores1 hs hq1 hq2 hin) (by omega)
            (by omega)
      · rw [if_neg hc] at h
        injection h with h
        subst h
        exact ⟨hs, hi⟩

theorem full_scan_bounds (ranks : List Nat) (i w mp mr : Nat)
    (h : full_scan ranks i w = .ok (mp, mr)) :
    i ≤ mp ∧ mp ≤ i + w ∧ i < ranks.length := by
  unfold full_scan at h
  cases hrd : rd ranks i with
  | error e => rw [hrd] at h; cases h
  | ok r =>
    rw [hrd] at h
    simp only [] at h
    obtain ⟨hlt, _⟩ := rd_inv _ _ _ hrd
    have := foldlM_inv (fun (st : Nat × Nat) => i ≤ st.1 ∧ st.1 ≤ i + w)
      (scan_step ranks) _ _ _ ⟨le_refl _, by omega⟩
      (fun st j st1 hj hst hf => by
        unfold scan_step at hf
        cases hr : rd ranks j with
        | error e => rw [hr] at hf; cases hf
        | ok r1 =>
          rw [hr] at hf
          injection hf with hf
          rw [← hf]
          have hj2 := List.mem_range'_1.1 hj
          unfold scan_update
          split
          · exact ⟨by show i ≤ j; omega, by show j ≤ i + w; omega⟩
          · split
            · exact ⟨by show i ≤ j; omega, by show j ≤ i + w; omega⟩
            · exact hst) h
    exact ⟨this.1, this.2, hlt⟩

theorem score_loop_bounded (ranks : List Nat) (limit w n len : Nat)
    (hU : ranks.length + w < U64) (hw : 1 ≤ w) :
    ∀ (fuel i min_pos min_rank : Nat) (scores res : List Nat),
      score_loop ranks limit w fuel i min_pos min_rank scores = .ok res →
      ScoresBounded w n len i scores → i ≤ ranks.length → min_pos ≤ i + w →
      res.length = len ∧ ∀ p, p < n → res.getD p 0 ≤ w + 1 := by
  intro fuel
  induction fuel with
  | zero =>
    intro i min_pos min_rank scores res h
    cases h
  | succ fuel ih =>
    intro i min_pos min_rank scores res h hs hi hm
    unfold score_loop at h
    by_cases hlim : i < limit
    · rw [if_pos hlim] at h
      have hslide : ∃ i1 scores1,
          (if i > 0 ∧ min_rank > 0
           then slide_loop ranks limit w min_rank (ranks.length + 1) i min_pos scores
           else .ok (i, scores)) = .ok (i1, scores1)
          ∧ ScoresBounded w n len i1 scores1 ∧ i1 ≤ ranks.length := by
        by_cases hc : i > 0 ∧ min_rank > 0
        · rw [if_pos hc]
          rw [if_pos hc] at h
          cases hsl : slide_loop ranks limit w min_rank (ranks.length + 1) i min_pos
              scores with
          | error e => rw [hsl] at h; cases h
          | ok r =>
            have := slide_loop_bounded ranks limit w min_rank n len hU hw _ _ _ _ _ hsl hs
              hi hm
            exact ⟨r.1, r.2, rfl, this.1, this.2⟩
        · rw [if_neg hc]
          exact ⟨i, scores, rfl, hs, hi⟩
      obtain ⟨i1, scores1, hsl, hs1, hi1⟩ := hslide
      rw [hsl] at h
      simp only [] at h
      cases hfs : full_scan ranks i1 w with
      | error e => rw [hfs] at h; cases h
      | ok st =>
        obtain ⟨mp, mr⟩ := st
        rw [hfs] at h
        simp only [] at h
        obtain ⟨b1, b2, b3⟩ := full_scan_bounds ranks i1 w mp mr hfs
        cases hrd : rd ranks mp with
        | error e => rw [hrd] at h; cases h
        | ok r =>
          rw [hrd] at h
          simp only [] at h
          rw [Nat.mod_eq_of_lt (show i1 + 1 < U64 by omega)] at h
          by_cases hr : r > 0
          · rw [if_pos hr] at h
            cases hin : incr16 scores1 mp with
            | error e => rw [hin] at h; cases h
            | ok scores2 =>
              rw [hin] at h
              simp only [] at h
              exact ih (i1 + 1) mp mr scores2 res h
                (scoresBounded_incr w n len i1 mp scores1 scores2 hs1 b1 b2 hin) (by omega)
                (by omega)
          · rw [if_neg hr] at h
            simp only [] at h
            exact ih (i1 + 1) mp mr scores1 res h (scoresBounded_mono w n len i1 scores1 hs1)
              (by omega) (by omega)
    · rw [if_neg hlim] at h
      injection h with h
      subst h
      exact ⟨hs.1, fun p hp => le_trans (hs.2 p hp) (score_bound_le w i p)⟩

theorem sum_set_incr (l : List Int) : ∀ (k : Nat), k < l.length →
    (l.set k (l.getD k 0 + 1)).sum = l.sum + 1 := by
  induction l with
  | nil => intro k hk; cases hk
  | cons a l ih =>
    intro k hk
    cases k with
    | zero =>
      show (a + 1) + l.sum = (a + l.sum) + 1
      ring
    | succ k =>
      have hk1 : k < l.length := Nat.lt_of_succ_lt_succ hk
      have := ih k hk1
      show a + (l.set k (l.getD k 0 + 1)).sum = (a + l.sum) + 1
      rw [this]
      ring

theorem incr32_ok (h : List Int) (s : Nat) (hs : s < h.length) :
    incr32 h s = .ok (h.set s (toI32 (toU32 (h.getD s 0 + 1)))) := by
  unfold incr32
  rw [List.getElem?_eq_getElem hs, List.getD_eq_getElem _ _ hs]

theorem wrap32_small (z : Int) (h0 : 0 ≤ z) (h1 : z < 2 ^ 31) : toI32 (toU32 z) = z := by
  rw [toU32_nonneg z h0 (by omega), toI32_small _ (by omega)]
  exact Int.toNat_of_nonneg h0

theorem getD_set_int (l : List Int) (k j : Nat) (v : Int) (hk : k < l.length) :
    (l.set k v).getD j 0 = if j = k then v else l.getD j 0 := by
  by_cases hj : j = k
  · subst hj
    rw [if_pos rfl, List.getD_eq_getElem _ _ (by rw [List.length_set]; exact hk),
      List.getElem_set_self]
  · rw [if_neg hj, List.getD_eq_getElem?_getD, List.getElem?_set,
      if_neg (fun e => hj e.symm), List.getD_eq_getElem?_getD]

/-- The histogram loop returns whenever the scores it reads are indices of the histogram;
when moreover no entry can reach 2^31 (the entries are `int32_t`), every entry has grown
by the number of positions with that score. -/
theorem histo_loop_spec (chunk_scores : List Nat) (score_histo : List Int) :
    ∀ limit, limit ≤ chunk_scores.length →
      (∀ i, i < limit → chunk_scores.getD i 0 < score_histo.length) →
      ∃ h, histo_loop chunk_scores limit score_histo = .ok h
        ∧ h.length = score_histo.length
        ∧ ((∀ s, 0 ≤ score_histo.getD s 0 ∧ score_histo.getD s 0 + (limit : Int) < 2 ^ 31) →
          (∀ s, h.getD s 0 = score_histo.getD s 0
            + ((List.range limit).countP (fun i => decide (chunk_scores.getD i 0 = s)) : Nat))
          ∧ h.sum = score_histo.sum + limit) := by
  intro limit
  induction limit with
  | zero =>
    intro _ _
    refine ⟨score_histo, rfl, rfl, fun _ => ⟨fun s => ?_, ?_⟩⟩
    · simp
    · simp
  | succ n ih =>
    intro hl hb
    obtain ⟨h, h1, h2, h3⟩ := ih (by omega) (fun i hi => hb i (by omega))
    have hs : chunk_scores.getD n 0 < h.length := by rw [h2]; exact hb n (by omega)
    refine ⟨h.set (chunk_scores.getD n 0)
      (toI32 (toU32 (h.getD (chunk_scores.getD n 0) 0 + 1))), ?_, ?_, ?_⟩
    · unfold histo_loop at h1 ⊢
      rw [List.range_succ, List.foldlM_append, h1]
      show (match rd chunk_scores n with
          | .ok s => incr32 h s
          | .error e => .error e) >>= pure = _
      rw [rd_ok chunk_scores n (by omega)]
      simp only []
      rw [incr32_ok h _ hs]
      rfl
    · rw [List.length_set, h2]
    · intro hbd
      obtain ⟨h3, h4⟩ := h3 (fun s => ⟨(hbd s).1, by have := (hbd s).2; push_cast at this; omega⟩)
      have hcnt : ((List.range n).countP
          (fun i => decide (chunk_scores.getD i 0 = chunk_scores.getD n 0))) ≤ n := by
        have := List.countP_le_length
          (fun i => decide (chunk_scores.getD i 0 = chunk_scores.getD n 0)) (l := List.range n)
        rwa [List.length_range] at this
      have hw : toI32 (toU32 (h.getD (chunk_scores.getD n 0) 0 + 1))
          = h.getD (chunk_scores.getD n 0) 0 + 1 := by
        have b1 := (hbd (chunk_scores.getD n 0)).1
        have b2 := (hbd (chunk_scores.getD n 0)).2
        push_cast at b2
        apply wrap32_small
        · rw [h3]; omega
        · rw [h3]; omega
      rw [hw]
      constructor
      · intro s
        rw [getD_set_int _ _ _ _ hs, List.range_succ, List.countP_append,
          List.countP_singleton]
        by_cases hsn : s = chunk_scores.getD n 0
        · subst hsn
          rw [if_pos rfl, h3]
          simp
          ring
        · rw [if_neg hsn, h3]
          have hne : ¬ chunk_scores.getD n 0 = s := fun e => hsn e.symm
          rw [decide_eq_false hne]
          simp
      · rw [sum_set_incr h _ hs, h4]
        push_cast
        ring

theorem gen_chunk_scores_some (sys : sdbf_parameters_t) (chunk_ranks : List Nat)
    (chunk_size : Nat) (chunk_scores : List Nat) (h0 : List Int) :
    gen_chunk_scores sys chunk_ranks chunk_size chunk_scores (some h0)
      = match gen_chunk_scores sys chunk_ranks chunk_size chunk_scores none with
        | .error e => .error e
        | .ok res =>
          match histo_loop res.1 (usub64 chunk_size sys.pop_win_size) h0 with
          | .error e => .error e
          | .ok h => .ok (res.1, some h) := by
  unfold gen_chunk_scores
  cases rd chunk_ranks 0 with
  | error e => rfl
  | ok min_rank =>
    simp only []
    cases bzero16 chunk_scores chunk_size with
    | error e => rfl
    | ok scores0 =>
      simp only []
      cases score_loop chunk_ranks (usub64 chunk_size sys.pop_win_size) sys.pop_win_size
          (chunk_ranks.length + 1) 0 0 min_rank scores0 with
      | error e => rfl
      | ok sc => rfl

theorem gen_chunk_scores_parts (sys : sdbf_parameters_t) (chunk_ranks : List Nat)
    (chunk_size : Nat) (chunk_scores scores : List Nat) (hw : sys.pop_win_size = 64)
    (hU : chunk_ranks.length + 64 < U64) (hc : 64 ≤ chunk_size) (hcU : chunk_size < U64)
    (hres : gen_chunk_scores sys chunk_ranks chunk_size chunk_scores none
      = .ok (scores, none)) :
    (∀ p, p < chunk_size → scores.getD p 0 ≤ 65)
    ∧ chunk_size ≤ scores.length
    ∧ ∀ h0 : List Int,
        gen_chunk_scores sys chunk_ranks chunk_size chunk_scores (some h0)
          = match histo_loop scores (chunk_size - 64) h0 with
            | .error e => .error e
            | .ok h => .ok (scores, some h) := by
  have horig := hres
  unfold gen_chunk_scores at hres
  cases hrd : rd chunk_ranks 0 with
  | error e => rw [hrd] at hres; cases hres
  | ok min_rank =>
    rw [hrd] at hres
    simp only [] at hres
    cases hbz : bzero16 chunk_scores chunk_size with
    | error e => rw [hbz] at hres; cases hres
    | ok scores0 =>
      rw [hbz] at hres
      simp only [] at hres
      have hlim : usub64 chunk_size sys.pop_win_size = chunk_size - 64 := by
        rw [hw]; exact usub64_eq _ _ hc hcU
      rw [hw] at hres
      cases hsl : score_loop chunk_ranks (usub64 chunk_size 64) 64
          (chunk_ranks.length + 1) 0 0 min_rank scores0 with
      | error e => rw [hsl] at hres; cases hres
      | ok sc =>
        rw [hsl] at hres
        simp only [] at hres
        have esc : sc = scores := (Prod.mk.inj (Except.ok.inj hres)).1
        subst esc
        unfold bzero16 at hbz
        by_cases hle : chunk_size ≤ chunk_scores.length
        · rw [if_pos hle] at hbz
          injection hbz with hbz
          have h0 : ScoresBounded 64 chunk_size chunk_scores.length 0 scores0 := by
            rw [← hbz]
            refine ⟨?_, fun p hp => ?_⟩
            · rw [List.length_append, List.length_replicate, List.length_drop]
              omega
            · rw [List.getD_eq_getElem?_getD,
                List.getElem?_append_left (by rw [List.length_replicate]; exact hp),
                ← List.getD_eq_getElem?_getD, getD_replicate_zero]
              exact Nat.zero_le _
          have hb := score_loop_bounded chunk_ranks (usub64 chunk_size 64) 64 chunk_size
            chunk_scores.length hU (by decide) _ 0 0 min_rank scores0 sc hsl h0
            (Nat.zero_le _) (Nat.zero_le _)
          refine ⟨hb.2, by rw [hb.1]; exact hle, fun h0 => ?_⟩
          rw [gen_chunk_scores_some, horig]
          simp only []
          rw [hw, usub64_eq _ _ hc hcU]
        · rw [if_neg hle] at hbz
          cases hbz

theorem getD_replicate_zero_int (n k : Nat) : (List.replicate n (0 : Int)).getD k 0 = 0 := by
  rw [List.getD_eq_getElem?_getD, List.getElem?_replicate]
  split <;> rfl

theorem sum_replicate_zero_int (n : Nat) : (List.replicate n (0 : Int)).sum = 0 := by
  induction n with
  | zero => rfl
  | succ n ih =>
    show (0 : Int) + (List.replicate n (0 : Int)).sum = 0
    rw [ih]
    rfl

/-- C11 (amended): when the scoring phase of `gen_chunk_scores` returns on a chunk of at
least 64 positions (window of 64), every score is at most 65, so every index
`chunk_scores[i]` used to update a histogram of 66 entries is within its bounds and the
call with the histogram returns too, with the same scores. -/
theorem gen_chunk_scores_le_65 (sys : sdbf_parameters_t) (chunk_ranks : List Nat)
    (chunk_size : Nat) (chunk_scores scores : List Nat) (score_histo : List Int)
    (hw : sys.pop_win_size = 64) (hU : chunk_ranks.length + 64 < U64)
    (hc : 64 ≤ chunk_size) (hcU : chunk_size < U64) (hlen : score_histo.length = 66)
    (hres : gen_chunk_scores sys chunk_ranks chunk_size chunk_scores none
      = .ok (scores, none)) :
    (∀ p, p < chunk_size → scores.getD p 0 ≤ 65)
    ∧ (∀ i, i < chunk_size - 64 → scores.getD i 0 < score_histo.length)
    ∧ ∃ h, gen_chunk_scores sys chunk_ranks chunk_size chunk_scores (some score_histo)
        = .ok (scores, some h) ∧ h.length = 66 := by
  obtain ⟨h1, h2, h3⟩ := gen_chunk_scores_parts sys chunk_ranks chunk_size chunk_scores
    scores hw hU hc hcU hres
  have hidx : ∀ i, i < chunk_size - 64 → scores.getD i 0 < score_histo.length := by
    intro i hi
    have := h1 i (by omega)
    omega
  obtain ⟨h, e1, e2, _⟩ := histo_loop_spec scores score_histo (chunk_size - 64)
    (by omega) hidx
  refine ⟨h1, hidx, h, ?_, by rw [e2, hlen]⟩
  rw [h3 score_histo, e1]

theorem gen_chunk_scores_le_65_witness :
    gen_chunk_scores sdbf_sys ranks_slide 68 (List.replicate 68 0) none
      = .ok (List.replicate 10 0 ++ [2] ++ List.replicate 53 0 ++ [1, 0, 1, 0], none)
    ∧ ((∀ p, p < 68 →
          (List.replicate 10 0 ++ [2] ++ List.replicate 53 0 ++ [1, 0, 1, 0]).getD p 0 ≤ 65)
      ∧ (∀ i, i < 68 - 64 →
          (List.replicate 10 0 ++ [2] ++ List.replicate 53 0 ++ [1, 0, 1, 0]).getD i 0
            < (List.replicate 66 (0 : Int)).length)
      ∧ ∃ h, gen_chunk_scores sdbf_sys ranks_slide 68 (List.replicate 68 0)
            (some (List.replicate 66 0))
          = .ok (List.replicate 10 0 ++ [2] ++ List.replicate 53 0 ++ [1, 0, 1, 0], some h)
          ∧ h.length = 66) :=
  ⟨by decide!, gen_chunk_scores_le_65 sdbf_sys ranks_slide 68 (List.replicate 68 0) _
    (List.replicate 66 0) rfl (by decide) (by decide) (by decide) rfl (by decide!)⟩

/-- C11, as stated, fails: with rank 9 throughout except rank 5 at positions 2 and 65, the
cheap slide credits position 65 for the window starts 1 to 64 and the full scan at window
start 65 credits it once more, so its score is 65, above the window size 64. -/
theorem gen_chunk_scores_score_65 :
    gen_chunk_scores sdbf_sys ranks_jump 130 (List.replicate 130 0) none
      = .ok ([0, 0, 1] ++ List.replicate 62 0 ++ [65] ++ List.replicate 64 0, none)
    ∧ ([0, 0, 1] ++ List.replicate 62 0 ++ [65] ++ List.replicate 64 0).getD 65 0 = 65
    ∧ sdbf_sys.pop_win_size = 64 := by
  decide!

/-- C12, amended: when the scoring phase of `gen_chunk_scores` returns on a chunk of at
least 64 positions with `chunk_size - 64 < 2^31` (the entries of the histogram are
`int32_t`), the call with a zero-initialised histogram of 66 entries returns a histogram
whose entry `s` is the number of positions `p` in `[0, chunk_size - 64)` with
`scores[p] = s`, for every `s`, and whose entries sum to `chunk_size - 64`. -/
theorem gen_chunk_scores_histogram (sys : sdbf_parameters_t) (chunk_ranks : List Nat)
    (chunk_size : Nat) (chunk_scores scores : List Nat)
    (hw : sys.pop_win_size = 64) (hU : chunk_ranks.length + 64 < U64)
    (hc : 64 ≤ chunk_size) (hcU : chunk_size - 64 < 2 ^ 31)
    (hres : gen_chunk_scores sys chunk_ranks chunk_size chunk_scores none
      = .ok (scores, none)) :
    ∃ h, gen_chunk_scores sys chunk_ranks chunk_size chunk_scores
          (some (List.replicate 66 0)) = .ok (scores, some h)
      ∧ (∀ s, h.getD s 0
          = (((List.range (chunk_size - 64)).countP
              (fun p => decide (scores.getD p 0 = s)) : Nat) : Int))
      ∧ h.sum = ((chunk_size - 64 : Nat) : Int) := by
  have h31 : (2 : Nat) ^ 31 = 2147483648 := rfl
  rw [h31] at hcU
  obtain ⟨h1, h2, h3⟩ := gen_chunk_scores_parts sys chunk_ranks chunk_size chunk_scores
    scores hw hU hc (by unfold U64; omega) hres
  have hidx : ∀ i, i < chunk_size - 64 →
      scores.getD i 0 < (List.replicate 66 (0 : Int)).length := by
    intro i hi
    have := h1 i (by omega)
    rw [List.length_replicate]
    omega
  obtain ⟨h, e1, _, e34⟩ := histo_loop_spec scores (List.replicate 66 0) (chunk_size - 64)
    (by omega) hidx
  obtain ⟨e3, e4⟩ := e34 (fun s => by
    rw [getD_replicate_zero_int]
    refine ⟨le_refl _, ?_⟩
    have : ((chunk_size - 64 : Nat) : Int) < 2147483648 := by exact_mod_cast hcU
    omega)
  refine ⟨h, ?_, fun s => ?_, ?_⟩
  · rw [h3 (List.replicate 66 0), e1]
  · rw [e3 s, getD_replicate_zero_int, Int.zero_add]
  · rw [e4, sum_replicate_zero_int, Int.zero_add]

theorem gen_chunk_scores_histogram_witness :
    gen_chunk_scores sdbf_sys ranks_two 66 (List.replicate 66 0) none
      = .ok ([1] ++ List.replicate 65 0, none)
    ∧ ∃ h, gen_chunk_scores sdbf_sys ranks_two 66 (List.replicate 66 0)
          (some (List.replicate 66 0)) = .ok ([1] ++ List.replicate 65 0, some h)
      ∧ (∀ s, h.getD s 0
          = (((List.range (66 - 64)).countP
              (fun p => decide (([1] ++ List.replicate 65 0).getD p 0 = s)) : Nat) : Int))
      ∧ h.sum = ((66 - 64 : Nat) : Int) :=
  ⟨by decide!, gen_chunk_scores_histogram sdbf_sys ranks_two 66 (List.replicate 66 0) _
    rfl (by decide) (by decide) (by decide) (by decide!)⟩

/-! ### The histogram of a chunk of 2^31 + 64 zero ranks -/

theorem wrap32_succ (z : Int) : toI32 (toU32 (toI32 (toU32 z) + 1)) = toI32 (toU32 (z + 1)) := by
  have e : toU32 (toI32 (toU32 z) + 1) = toU32 (z + 1) := by
    unfold toU32 toI32 U32
    norm_num
    split_ifs <;> omega
  rw [e]

/-- The histogram loop on scores that are all zero: the entry 0 of the histogram is
incremented `limit` times in `int32_t`. -/
theorem histo_loop_zero_scores (chunk_scores : List Nat) (score_histo : List Int)
    (h0 : 0 < score_histo.length)
    (hx : toI32 (toU32 (score_histo.getD 0 0)) = score_histo.getD 0 0) :
    ∀ limit, limit ≤ chunk_scores.length → (∀ i, i < limit → chunk_scores.getD i 0 = 0) →
      histo_loop chunk_scores limit score_histo
        = .ok (score_histo.set 0 (toI32 (toU32 (score_histo.getD 0 0 + (limit : Int))))) := by
  intro limit
  induction limit with
  | zero =>
    intro _ _
    have e : score_histo.set 0 (toI32 (toU32 (score_histo.getD 0 0 + ((0 : Nat) : Int))))
        = score_histo := by
      rw [Nat.cast_zero, Int.add_zero, hx]
      cases score_histo with
      | nil => rfl
      | cons a l => rfl
    rw [e]
    rfl
  | succ n ih =>
    intro hl hz
    have h1 := ih (by omega) (fun i hi => hz i (by omega))
    unfold histo_loop at h1 ⊢
    rw [List.range_succ, List.foldlM_append, h1]
    show (match rd chunk_scores n with
        | .ok s => incr32 (score_histo.set 0
            (toI32 (toU32 (score_histo.getD 0 0 + (n : Int))))) s
        | .error e => .error e) >>= pure = _
    rw [rd_ok chunk_scores n (by omega), hz n (by omega)]
    simp only []
    rw [incr32_ok _ 0 (by rw [List.length_set]; exact h0),
      getD_set_int _ 0 0 _ h0, if_pos rfl, wrap32_succ, List.set_set]
    have e : score_histo.getD 0 0 + (n : Int) + 1 = score_histo.getD 0 0 + ((n + 1 : Nat) : Int) := by
      push_cast
      ring
    rw [e]
    rfl

/-- On a chunk of `n` zero ranks every score is zero and the entry 0 of a zeroed histogram
of 66 entries is incremented `n - 64` times in `int32_t`. -/
theorem gen_chunk_scores_zero_ranks (n : Nat) (h64 : 64 < n) (hU : n + 64 < U64) :
    gen_chunk_scores sdbf_sys (List.replicate n 0) n (List.replicate n 0) none
      = .ok (List.replicate n 0, none)
    ∧ gen_chunk_scores sdbf_sys (List.replicate n 0) n (List.replicate n 0)
        (some (List.replicate 66 0))
      = .ok (List.replicate n 0,
          some ((List.replicate 66 (0 : Int)).set 0 (toI32 (toU32 ((n - 64 : Nat) : Int))))) := by
  have hlen : (List.replicate n 0).length = n := List.length_replicate _ _
  have h := gen_chunk_scores_zero n h64 (by omega)
  refine ⟨h, ?_⟩
  obtain ⟨_, _, h3⟩ := gen_chunk_scores_parts sdbf_sys (List.replicate n 0) n
    (List.replicate n 0) (List.replicate n 0) rfl (by rw [hlen]; exact hU) (by omega)
    (by omega) h
  rw [h3 (List.replicate 66 0), histo_loop_zero_scores (List.replicate n 0)
    (List.replicate 66 0) (by decide) (by decide) (n - 64) (by rw [hlen]; omega)
    (fun i _ => getD_replicate_zero n i)]
  have e : (List.replicate 66 (0 : Int)).getD 0 0 + ((n - 64 : Nat) : Int)
      = ((n - 64 : Nat) : Int) := by
    rw [getD_replicate_zero_int, Int.zero_add]
  rw [e]

theorem countP_zero_scores (n m : Nat) :
    (List.range m).countP (fun p => decide ((List.replicate n 0).getD p 0 = 0)) = m := by
  have e : (List.range m).countP (fun p => decide ((List.replicate n 0).getD p 0 = 0))
      = (List.range m).length := by
    rw [List.countP_eq_length]
    intro p _
    exact decide_eq_true (getD_replicate_zero n p)
  rw [e, List.length_range]

/-- Counterexample to C12 as stated: a chunk of `2^31 + 64` positions whose ranks are all
zero. Every score is zero, so `2^31` positions in `[0, chunk_size - 64)` have the score 0,
but the entry `histo[0]`, an `int32_t` incremented `2^31` times from zero, holds `-2^31`,
and the entries sum to `-2^31`, not to `chunk_size - 64`. -/
theorem gen_chunk_scores_histogram_wraps :
    gen_chunk_scores sdbf_sys (List.replicate (2 ^ 31 + 64) 0) (2 ^ 31 + 64)
        (List.replicate (2 ^ 31 + 64) 0) none
      = .ok (List.replicate (2 ^ 31 + 64) 0, none)
    ∧ gen_chunk_scores sdbf_sys (List.replicate (2 ^ 31 + 64) 0) (2 ^ 31 + 64)
        (List.replicate (2 ^ 31 + 64) 0) (some (List.replicate 66 0))
      = .ok (List.replicate (2 ^ 31 + 64) 0, some ([-2147483648] ++ List.replicate 65 0))
    ∧ (List.range (2 ^ 31 + 64 - 64)).countP
        (fun p => decide ((List.replicate (2 ^ 31 + 64) 0).getD p 0 = 0)) = 2 ^ 31
    ∧ ([-2147483648] ++ List.replicate 65 (0 : Int)).sum = -2147483648 := by
  obtain ⟨a, b⟩ := gen_chunk_scores_zero_ranks (2 ^ 31 + 64) (by decide) (by decide)
  refine ⟨a, ?_, countP_zero_scores _ _, by decide⟩
  rw [b]
  have e : (List.replicate 66 (0 : Int)).set 0
      (toI32 (toU32 ((2 ^ 31 + 64 - 64 : Nat) : Int)))
        = [-2147483648] ++ List.replicate 65 0 := by
    decide
  rw [e]

/-! ### Stream digests -/

theorem gen_chunk_hash_of_loop (sys : sdbf_parameters_t) (SHA1 : List Nat → List Nat)
    (file_buffer : List Nat) (chunk_pos : Nat) (chunk_scores : List Nat) (chunk_size : Nat)
    (sdbf d : sdbf_t)
    (h : gen_chunk_hash sys SHA1 file_buffer chunk_pos chunk_scores chunk_size sdbf
      = .ok d) :
    ∃ st, gen_chunk_hash_loop sys SHA1 file_buffer chunk_pos chunk_scores chunk_size sdbf
        = .ok st
      ∧ d = { sdbf with buffer := st.buffer, bf_count := st.bf_count,
                        last_count := st.last_count } := by
  unfold gen_chunk_hash at h
  unfold gen_chunk_hash_loop
  cases hl : List.foldlM (gen_chunk_hash_step sys SHA1 file_buffer chunk_pos chunk_scores
      sdbf.bf_size)
      (HashState.mk sdbf.buffer ((usub32 sdbf.bf_count 1) * sdbf.bf_size) sdbf.bf_count
        sdbf.last_count)
      (List.range (usub64 chunk_size sys.pop_win_size)) with
  | error e => rw [hl] at h; cases h
  | ok st =>
    rw [hl] at h
    exact ⟨st, rfl, (Except.ok.inj h).symm⟩

theorem cstr_eq_self (l : List Nat) (h : ∀ c ∈ l, c ≠ 0) : cstr l = l := by
  unfold cstr
  rw [List.takeWhile_eq_self_iff]
  intro c hc
  exact decide_eq_true (h c hc)

theorem b64_char_props (v : Nat) :
    b64_char v ≠ 0 ∧ isspace (b64_char v) = false ∧ b64_char v ≠ 61 := by
  unfold b64_char isspace
  refine ⟨?_, ?_, ?_⟩
  · split_ifs <;> omega
  · rw [decide_eq_false_iff_not]
    split_ifs <;> omega
  · split_ifs <;> omega

theorem b64_val_char (v : Nat) (h : v < 64) : b64_val (b64_char v) = some v := by
  unfold b64_char
  split_ifs with h1 h2 h3 h4
  · unfold b64_val
    rw [if_pos (by omega)]
    congr 1
    omega
  · unfold b64_val
    rw [if_neg (by omega), if_pos (by omega)]
    congr 1
    omega
  · unfold b64_val
    rw [if_neg (by omega), if_neg (by omega), if_pos (by omega)]
    congr 1
    omega
  · subst h4
    rfl
  · have : v = 63 := by omega
    subst this
    rfl

theorem b64_encode_chars : ∀ (x : List Nat), ∀ c ∈ b64_encode x, c ≠ 0 ∧ isspace c = false
  | a :: b :: c :: rest => by
    intro ch hch
    rw [b64_encode] at hch
    simp only [List.mem_cons] at hch
    rcases hch with h | h | h | h | h
    · rw [h]; exact ⟨(b64_char_props _).1, (b64_char_props _).2.1⟩
    · rw [h]; exact ⟨(b64_char_props _).1, (b64_char_props _).2.1⟩
    · rw [h]; exact ⟨(b64_char_props _).1, (b64_char_props _).2.1⟩
    · rw [h]; exact ⟨(b64_char_props _).1, (b64_char_props _).2.1⟩
    · exact b64_encode_chars rest ch h
  | [a, b] => by
    intro ch hch
    rw [b64_encode] at hch
    simp only [List.mem_cons, List.mem_singleton, List.not_mem_nil, or_false] at hch
    rcases hch with h | h | h | h
    · rw [h]; exact ⟨(b64_char_props _).1, (b64_char_props _).2.1⟩
    · rw [h]; exact ⟨(b64_char_props _).1, (b64_char_props _).2.1⟩
    · rw [h]; exact ⟨(b64_char_props _).1, (b64_char_props _).2.1⟩
    · rw [h]; exact ⟨by decide, by decide⟩
  | [a] => by
    intro ch hch
    rw [b64_encode] at hch
    simp only [List.mem_cons, List.mem_singleton, List.not_mem_nil, or_false] at hch
    rcases hch with h | h | h | h
    · rw [h]; exact ⟨(b64_char_props _).1, (b64_char_props _).2.1⟩
    · rw [h]; exact ⟨(b64_char_props _).1, (b64_char_props _).2.1⟩
    · rw [h]; exact ⟨by decide, by decide⟩
    · rw [h]; exact ⟨by decide, by decide⟩
  | [] => by
    intro ch hch
    rw [b64_encode] at hch
    cases hch

theorem b64_encode_length : ∀ (x : List Nat), (b64_encode x).length = 4 * ((x.length + 2) / 3)
  | a :: b :: c :: rest => by
    rw [b64_encode]
    simp only [List.length_cons]
    rw [b64_encode_length rest]
    omega
  | [a, b] => by rw [b64_encode]; simp
  | [a] => by rw [b64_encode]; simp
  | [] => by rw [b64_encode]; rfl

theorem b64_encode_append : ∀ (x y : List Nat), x.length % 3 = 0 →
    b64_encode (x ++ y) = b64_encode x ++ b64_encode y
  | a :: b :: c :: rest, y => by
    intro h
    have h1 : rest.length % 3 = 0 := by
      simp only [List.length_cons] at h
      omega
    show b64_encode (a :: b :: c :: (rest ++ y)) = _
    rw [b64_encode, b64_encode, b64_encode_append rest y h1]
    rfl
  | [a, b], y => by intro h; simp at h
  | [a], y => by intro h; simp at h
  | [], y => by
    intro _
    rw [b64_encode]
    rfl

theorem b64_decode_encode : ∀ (x : List Nat) (k : Nat), (∀ b ∈ x, b < 256) → k ≤ 2 →
    b64_decode (b64_encode x ++ List.replicate k 0) = x
  | a :: b :: c :: rest, k => by
    intro hb hk
    have ha : a < 256 := hb a (by simp)
    have hb1 : b < 256 := hb b (by simp)
    have hc : c < 256 := hb c (by simp)
    have hr : ∀ z ∈ rest, z < 256 := fun z hz => hb z (by simp [hz])
    rw [b64_encode]
    show b64_decode (b64_char (a / 4) :: b64_char (a % 4 * 16 + b / 16)
      :: b64_char (b % 16 * 4 + c / 64) :: b64_char (c % 64)
      :: (b64_encode rest ++ List.replicate k 0)) = _
    rw [b64_decode, b64_val_char _ (by omega), b64_val_char _ (by omega)]
    simp only []
    rw [if_neg (fun h => (b64_char_props _).2.2 h.1), b64_val_char _ (by omega)]
    simp only []
    rw [if_neg (b64_char_props _).2.2, b64_val_char _ (by omega)]
    simp only []
    rw [b64_decode_encode rest k hr hk]
    have e1 : a / 4 * 4 + (a % 4 * 16 + b / 16) / 16 = a := by omega
    have e2 : (a % 4 * 16 + b / 16) % 16 * 16 + (b % 16 * 4 + c / 64) / 4 = b := by omega
    have e3 : (b % 16 * 4 + c / 64) % 4 * 64 + c % 64 = c := by omega
    rw [e1, e2, e3]
  | [a, b], k => by
    intro hb hk
    have ha : a < 256 := hb a (by simp)
    have hb1 : b < 256 := hb b (by simp)
    rw [b64_encode]
    show b64_decode (b64_char (a / 4) :: b64_char (a % 4 * 16 + b / 16)
      :: b64_char (b % 16 * 4) :: 61 :: List.replicate k 0) = _
    rw [b64_decode, b64_val_char _ (by omega), b64_val_char _ (by omega)]
    simp only []
    rw [if_neg (fun h => (b64_char_props _).2.2 h.1), b64_val_char _ (by omega)]
    simp only []
    rw [if_pos trivial]
    have e1 : a / 4 * 4 + (a % 4 * 16 + b / 16) / 16 = a := by omega
    have e2 : (a % 4 * 16 + b / 16) % 16 * 16 + (b % 16 * 4) / 4 = b := by omega
    rw [e1, e2]
  | [a], k => by
    intro hb hk
    have ha : a < 256 := hb a (by simp)
    rw [b64_encode]
    show b64_decode (b64_char (a / 4) :: b64_char (a % 4 * 16) :: 61 :: 61
      :: List.replicate k 0) = _
    rw [b64_decode, b64_val_char _ (by omega), b64_val_char _ (by omega)]
    simp only []
    rw [if_pos ⟨trivial, trivial⟩]
    have e1 : a / 4 * 4 + (a % 4 * 16) / 16 = a := by omega
    rw [e1]
  | [], k => by
    intro _ hk
    rw [b64_encode]
    have : k = 0 ∨ k = 1 ∨ k = 2 := by omega
    rcases this with h | h | h <;> subst h <;> rfl

theorem b64_rfc_sound : b64_rfc.Sound :=
  ⟨b64_encode_chars, b64_encode_length, b64_encode_append, b64_decode_encode⟩

theorem b64encode_ok (B : Base64) (hB : B.Sound) (buffer : List Nat) (pos length : Nat)
    (h1 : length < 2 ^ 31) (h2 : pos + length ≤ buffer.length) :
    b64encode B buffer pos length = some (B.encode ((buffer.drop pos).take length)) := by
  unfold b64encode
  rw [if_pos ⟨h1, h2⟩, cstr_eq_self _ (fun c hc => (hB.1 _ c hc).1)]

theorem stream_pieces (B : Base64) (hB : B.Sound) (buffer : List Nat) (blk : Nat)
    (h3 : blk % 3 = 0) (hb : blk < 2 ^ 31) :
    ∀ q, q * blk ≤ buffer.length →
      (List.range q).foldlM
        (fun out i => (b64encode B buffer (i * blk) blk).map (fun b64 => out ++ b64)) []
      = some (B.encode (buffer.take (q * blk))) := by
  intro q
  induction q with
  | zero =>
    intro _
    have e : B.encode [] = [] := by
      have := hB.2.1 []
      exact List.length_eq_zero.1 (by rw [this]; rfl)
    rw [Nat.zero_mul, List.take_zero, e]
    rfl
  | succ q ih =>
    intro hq
    have hq1 : q * blk + blk ≤ buffer.length := by rw [Nat.succ_mul] at hq; exact hq
    rw [List.range_succ, List.foldlM_append, ih (by omega)]
    simp only [Option.bind_eq_bind, Option.some_bind, List.foldlM_cons, List.foldlM_nil]
    rw [b64encode_ok B hB buffer (q * blk) blk hb hq1]
    show some (B.encode (List.take (q * blk) buffer)
      ++ B.encode (List.take blk (List.drop (q * blk) buffer))) = _
    rw [← hB.2.2.1 _ _ (by
      rw [List.length_take, Nat.min_eq_left (by omega), Nat.mul_mod, h3, Nat.mul_zero]),
      Nat.succ_mul, List.take_add]

theorem stream_body_eq (B : Base64) (hB : B.Sound) (sdbf : sdbf_t)
    (hs : 6 * sdbf.bf_size < 2 ^ 31)
    (hlen : sdbf.buffer.length = sdbf.bf_size * sdbf.bf_count) :
    stream_body B sdbf = some (B.encode sdbf.buffer) := by
  have hU : U32 = 4294967296 := rfl
  have h31 : (2 : Nat) ^ 31 = 2147483648 := rfl
  rw [h31] at hs
  have hblk : (6 * sdbf.bf_size) % U32 = 6 * sdbf.bf_size :=
    Nat.mod_eq_of_lt (by rw [hU]; omega)
  have hsplit : sdbf.bf_size * sdbf.bf_count
      = sdbf.bf_count / 6 * (6 * sdbf.bf_size) + sdbf.bf_count % 6 * sdbf.bf_size := by
    have := Nat.div_add_mod sdbf.bf_count 6
    calc sdbf.bf_size * sdbf.bf_count
        = sdbf.bf_size * (6 * (sdbf.bf_count / 6) + sdbf.bf_count % 6) := by rw [this]
      _ = _ := by ring
  have hrem : sdbf.bf_count % 6 * sdbf.bf_size < 2 ^ 31 := by
    have : sdbf.bf_count % 6 < 6 := Nat.mod_lt _ (by decide)
    rw [h31]
    nlinarith
  unfold stream_body
  rw [hblk, stream_pieces B hB sdbf.buffer (6 * sdbf.bf_size) (by omega)
    (by rw [h31]; exact hs) (sdbf.bf_count / 6) (by rw [hlen, hsplit]; omega)]
  simp only []
  by_cases hr : sdbf.bf_count % 6 > 0
  · rw [if_pos hr, b64encode_ok B hB _ _ _ hrem (by rw [hlen, hsplit])]
    show some (B.encode _ ++ B.encode _) = _
    have h3 : (sdbf.bf_count / 6 * (6 * sdbf.bf_size)) % 3 = 0 := by
      have e : sdbf.bf_count / 6 * (6 * sdbf.bf_size)
          = 3 * (sdbf.bf_count / 6 * (2 * sdbf.bf_size)) := by ring
      rw [e, Nat.mul_mod_right]
    have e2 : List.take (sdbf.bf_count % 6 * sdbf.bf_size)
        (List.drop (sdbf.bf_count / 6 * (6 * sdbf.bf_size)) sdbf.buffer)
        = List.drop (sdbf.bf_count / 6 * (6 * sdbf.bf_size)) sdbf.buffer :=
      List.take_of_length_le (by
        rw [List.length_drop, hlen, hsplit]
        omega)
    rw [← hB.2.2.1 _ _ (by
      rw [List.length_take, Nat.min_eq_left (by rw [hlen, hsplit]; omega)]
      exact h3), e2, List.take_append_drop]
  · rw [if_neg hr]
    have h0 : sdbf.bf_count % 6 = 0 := by omega
    rw [List.take_of_length_le (by rw [hlen, hsplit, h0]; omega)]

/-- C19: for base64 routines that are sound. (1) For the stream digest with name "foo",
`bf_size` 256, `hash_count` 5, mask `0x7FF`, `max_elem` 160, `bf_count` 2,
`last_count` 40 and any filter buffer of 512 bytes, `sdbf_to_stream` writes the header
`"sdbf:02:3:foo:sha1:256:5:7ff:160:2:40:"`, the base64 text of the buffer, which has 684
characters, and a newline. (2) For every stream digest whose buffer holds
`bf_size * bf_count` bytes (with `6 * bf_size` below 2^31), the pieces written for groups
of six filters and for the remaining filters are together the base64 text of the whole
buffer, of `4 * ceil(bf_size * bf_count / 3)` characters. -/
theorem sdbf_to_stream_text (B : Base64) (hB : B.Sound) :
    (∀ buffer : List Nat, buffer.length = 512 →
      sdbf_to_stream B (digest_foo buffer)
        = some (str "sdbf:02:3:foo:sha1:256:5:7ff:160:2:40:" ++ B.encode buffer ++ [10])
      ∧ (B.encode buffer).length = 684)
    ∧ (∀ sdbf : sdbf_t, sdbf.elem_counts = none → 6 * sdbf.bf_size < 2 ^ 31 →
      sdbf.buffer.length = sdbf.bf_size * sdbf.bf_count →
      stream_body B sdbf = some (B.encode sdbf.buffer)
      ∧ sdbf_to_stream B sdbf
          = some (stream_header MAGIC_STREAM sdbf sdbf.last_count ++ [58]
              ++ B.encode sdbf.buffer ++ [10])
      ∧ (B.encode sdbf.buffer).length = 4 * ((sdbf.bf_size * sdbf.bf_count + 2) / 3)) := by
  have hgen : ∀ sdbf : sdbf_t, sdbf.elem_counts = none → 6 * sdbf.bf_size < 2 ^ 31 →
      sdbf.buffer.length = sdbf.bf_size * sdbf.bf_count →
      stream_body B sdbf = some (B.encode sdbf.buffer)
      ∧ sdbf_to_stream B sdbf
          = some (stream_header MAGIC_STREAM sdbf sdbf.last_count ++ [58]
              ++ B.encode sdbf.buffer ++ [10])
      ∧ (B.encode sdbf.buffer).length
          = 4 * ((sdbf.bf_size * sdbf.bf_count + 2) / 3) := by
    intro sdbf he hs hlen
    have hbody := stream_body_eq B hB sdbf hs hlen
    refine ⟨hbody, ?_, ?_⟩
    · unfold sdbf_to_stream
      rw [he]
      simp only []
      rw [hbody]
      rfl
    · rw [hB.2.1, hlen]
  refine ⟨fun buffer hlen => ?_, hgen⟩
  obtain ⟨_, h2, h3⟩ := hgen (digest_foo buffer) rfl (show 6 * 256 < 2 ^ 31 by decide) hlen
  refine ⟨?_, ?_⟩
  · rw [h2]
    have hh : stream_header MAGIC_STREAM (digest_foo buffer) (digest_foo buffer).last_count
        ++ [58] = str "sdbf:02:3:foo:sha1:256:5:7ff:160:2:40:" := by
      have e : stream_header MAGIC_STREAM (digest_foo buffer) (digest_foo buffer).last_count
          = stream_header MAGIC_STREAM (digest_foo []) 40 := rfl
      rw [e]
      decide
    rw [hh]
    rfl
  · have h4 : (B.encode buffer).length = 4 * ((256 * 2 + 2) / 3) := h3
    rw [h4]

theorem sdbf_to_stream_text_witness :
    b64_rfc.Sound
    ∧ sdbf_to_stream b64_rfc (digest_foo (List.replicate 512 0))
        = some (str "sdbf:02:3:foo:sha1:256:5:7ff:160:2:40:"
            ++ b64_rfc.encode (List.replicate 512 0) ++ [10])
    ∧ (b64_rfc.encode (List.replicate 512 0)).length = 684 :=
  ⟨b64_rfc_sound,
    (sdbf_to_stream_text b64_rfc b64_rfc_sound).1 (List.replicate 512 0)
      (List.length_replicate _ _)⟩

/-- C18 at the failing input: the stream digest named "foo" with two filters whose bytes
are all `0xFF`. `sdbf_encode` returns the header `"foo sdbf:sha1:256:5:7ff:160:2:40:"`
followed by the base64 text; in `sdbf_decode` the conversion `%s` reads `"foo"`, the
literal `:` of the format meets the blank, and no numeric field is assigned: the digest
returned has the name and the filter bytes (in an allocation of 684 bytes), and
`bf_size`, `hash_count`, `mask`, `max_elem`, `bf_count` and `last_count` are all 0. -/
theorem sdbf_decode_loses_fields :
    sdbf_encode b64_rfc (digest_foo (List.replicate 512 255))
      = some (str "foo sdbf:sha1:256:5:7ff:160:2:40:"
          ++ b64_encode (List.replicate 512 255))
    ∧ sdbf_decode b64_rfc
        (str "foo sdbf:sha1:256:5:7ff:160:2:40:" ++ b64_encode (List.replicate 512 255))
      = some { name := [102, 111, 111], bf_count := 0, bf_size := 0, hash_count := 0,
               mask := 0, max_elem := 0, last_count := 0,
               buffer := List.replicate 512 255 ++ List.replicate 172 0,
               hamming := none, elem_counts := none, dd_block_size := 0 } := by
  decide!

/-! ### Reads past the rank array, the estimate cache, and skipped reference filters -/

/-- C38, amended: for `n = bf_count*bf_size` with `n + 3 < 2^30` (the computation is in
`uint32_t`), the length `b64_len = 4*(n + 1 + n mod 3)/3` of `sdbf_from_stream` is at
least `4*ceil(n/3)`, the length of the base64 text of `n` bytes, it is equal to it
exactly when `n mod 3 = 1`, and it is the field width put in the format. -/
theorem stream_b64_len_bound (bf_count bf_size : Nat) (h : bf_count * bf_size + 3 < 2 ^ 30) :
    4 * ((bf_count * bf_size + 2) / 3) ≤ stream_b64_len bf_count bf_size
    ∧ (stream_b64_len bf_count bf_size = 4 * ((bf_count * bf_size + 2) / 3)
        ↔ bf_count * bf_size % 3 = 1)
    ∧ width_of (stream_b64_len bf_count bf_size) = stream_b64_len bf_count bf_size := by
  have hU : U32 = 4294967296 := rfl
  have h30 : (2 : Nat) ^ 30 = 1073741824 := rfl
  rw [h30] at h
  unfold stream_b64_len
  rw [hU]
  generalize bf_count * bf_size = n at h ⊢
  have e1 : n % 4294967296 = n := Nat.mod_eq_of_lt (by omega)
  rw [e1]
  have e2 : (n + 1 + n % 3) % 4294967296 = n + 1 + n % 3 := Nat.mod_eq_of_lt (by omega)
  rw [e2]
  have e3 : 4 * (n + 1 + n % 3) % 4294967296 = 4 * (n + 1 + n % 3) :=
    Nat.mod_eq_of_lt (by omega)
  rw [e3]
  have hw : ∀ x : Nat, x < 2147483648 → width_of x = x := by
    intro x hx
    unfold width_of
    rw [toI32_small x (by rw [show (2 : Nat) ^ 31 = 2147483648 from rfl]; exact hx)]
    exact Int.toNat_ofNat x
  have h3 : n % 3 = 0 ∨ n % 3 = 1 ∨ n % 3 = 2 := by omega
  refine ⟨?_, ?_, hw _ (by omega)⟩
  · rcases h3 with e | e | e <;> rw [e] <;> omega
  · rcases h3 with e | e | e <;> rw [e] <;> omega

theorem stream_b64_len_bound_witness :
    2 * 256 + 3 < 2 ^ 30
    ∧ 4 * ((2 * 256 + 2) / 3) ≤ stream_b64_len 2 256
    ∧ (stream_b64_len 2 256 = 4 * ((2 * 256 + 2) / 3) ↔ 2 * 256 % 3 = 1)
    ∧ width_of (stream_b64_len 2 256) = stream_b64_len 2 256 :=
  ⟨by decide, stream_b64_len_bound 2 256 (by decide)⟩

/-- Counterexample to C38 as stated: for 2^22 filters of 256 bytes, `n = 2^30`, the
product `4*(n + 1 + n mod 3)` is `2^32 + 8` and wraps to 8 in `uint32_t`: `b64_len` is 2,
below the 1431655768 characters of the base64 text. -/
theorem stream_b64_len_wraps :
    stream_b64_len (2 ^ 22) 256 = 2
    ∧ 4 * ((2 ^ 22 * 256 + 2) / 3) = 1431655768 := by
  decide

theorem est_calls_coherent (fm : FloatModel) (m k : Nat) (hs : EstSmall fm m k)
    (calls : List (Nat × Nat)) (hc : ∀ a ∈ calls, a.1 < 256 ∧ a.2 < 256) :
    ∀ cache, Coherent fm m k cache → Coherent fm m k (est_calls fm m k cache calls) := by
  induction calls with
  | nil => intro cache h; exact h
  | cons a l ih =>
    intro cache h
    have ha := hc a (List.mem_cons_self _ _)
    exact ih (fun b hb => hc b (List.mem_cons_of_mem _ hb)) _
      (est_coherent fm m k hs cache h a.1 a.2 ha.1 ha.2).2

/-- C37, amended: for fixed `m` and `k` whose estimates fit the 16-bit cache entries,
element counts below 256, and every sequence of prior calls with `common = 0` on the
cache zeroed by `init_bit_count_16`: `bf_match_est( m, k, s1, s2, 0)` returns the value of
the uncached formula, and every non-zero cache entry holds the estimate for
`common = 0`. -/
theorem bf_match_est_cache_transparent (fm : FloatModel) (m k : Nat) (hs : EstSmall fm m k)
    (calls : List (Nat × Nat)) (hc : ∀ a ∈ calls, a.1 < 256 ∧ a.2 < 256) (s1 s2 : Nat)
    (h1 : s1 < 256) (h2 : s2 < 256) :
    (bf_match_est fm (est_calls fm m k empty_cache calls) m k s1 s2 0).1
      = bf_match_est_formula fm m k s1 s2 0
    ∧ Coherent fm m k (est_calls fm m k empty_cache calls)
    ∧ Coherent fm m k (bf_match_est fm (est_calls fm m k empty_cache calls) m k s1 s2 0).2 := by
  have hco := est_calls_coherent fm m k hs calls hc empty_cache (coherent_empty fm m k)
  have := est_coherent fm m k hs _ hco s1 s2 h1 h2
  exact ⟨this.1, hco, this.2⟩

theorem bf_match_est_cache_transparent_witness :
    EstSmall exactFloat 2048 5
    ∧ (∀ a ∈ [(160, 160), (6, 64)], a.1 < 256 ∧ a.2 < 256)
    ∧ (bf_match_est exactFloat (est_calls exactFloat 2048 5 empty_cache [(160, 160), (6, 64)])
          2048 5 160 160 0).1
        = bf_match_est_formula exactFloat 2048 5 160 160 0 :=
  ⟨estSmall_exact, by decide,
    (bf_match_est_cache_transparent exactFloat 2048 5 estSmall_exact [(160, 160), (6, 64)]
      (by decide) 160 160 (by decide) (by decide)).1⟩

/-- Counterexample to C37 as stated: with `m = 2048` and `k = 5`, a prior call with
`common = 6` stores its result 30 in the entry `[6][6]`, and the call with `common = 0`
that follows returns 30, while the uncached formula gives 0. -/
theorem bf_match_est_cache_polluted :
    (bf_match_est exactFloat empty_cache 2048 5 6 6 6).1 = 30
    ∧ (bf_match_est exactFloat (bf_match_est exactFloat empty_cache 2048 5 6 6 6).2
        2048 5 6 6 0).1 = 30
    ∧ bf_match_est_formula exactFloat 2048 5 6 6 0 = 0 := by
  decide!

/-- C40 at the failing input: reference `digest_m10_3` (10 and 3 elements), target
`digest_m100`, sequential comparator in a fresh process. The reference filter 0 is
compared with the target filter 0 and scores 0; the reference filter 1 has fewer than
`MIN_ELEM_COUNT` elements and `sdbf_max_score` returns -1 for it; `score_sum` is then
`0 + (-1) = -1` and `sdbf_score` returns -1, although a reference filter produced a
score: the sum over the reference filters that produced one is 0, and the value of the
claim is `round(100 * 0 / 2) = 0`. -/
theorem sdbf_score_skipped_lowers_sum :
    (sdbf_score_max exactFloat 1 digest_m10_3 digest_m100 init_state 0).1 = 0
    ∧ (sdbf_score_max exactFloat 1 digest_m10_3 digest_m100
        (sdbf_score_max exactFloat 1 digest_m10_3 digest_m100 init_state 0).2 1).1 = -1
    ∧ (sdbf_score_sum exactFloat 1 digest_m10_3 digest_m100 init_state).1 = -1
    ∧ (sdbf_score exactFloat 1 init_state digest_m10_3 digest_m100).swap = 0
    ∧ (sdbf_score exactFloat 1 init_state digest_m10_3 digest_m100).score = -1 := by
  decide!

/-- C39 at the failing input: reference `digest_m10_3`, target `digest_m100`, two workers,
reference filter 1 (3 elements). Both workers return -1 from `sdbf_max_score` before
`task->result` is assigned, and `max_score` is the maximum of the fields `result` as the
comparison of reference filter 0 left them, which is 0 (and it is 7/10 when both fields
hold 7/10 before the call); with one thread the value is -1. The scores of `sdbf_score`
are 0 with two threads and -1 with one. -/
theorem sdbf_score_max_threaded_stale :
    (sdbf_score_max exactFloat 2 digest_m10_3 digest_m100 init_state 0).1 = 0
    ∧ (sdbf_score_max exactFloat 2 digest_m10_3 digest_m100
        (sdbf_score_max exactFloat 2 digest_m10_3 digest_m100 init_state 0).2 1).1 = 0
    ∧ (sdbf_score_max exactFloat 1 digest_m10_3 digest_m100
        (sdbf_score_max exactFloat 2 digest_m10_3 digest_m100 init_state 0).2 1).1 = -1
    ∧ (sdbf_score_max exactFloat 2 digest_m10_3 digest_m100 state_stale 1).1 = 7 / 10
    ∧ (sdbf_score_max exactFloat 1 digest_m10_3 digest_m100 state_stale 1).1 = -1
    ∧ (sdbf_score exactFloat 2 init_state digest_m10_3 digest_m100).score = 0
    ∧ (sdbf_score exactFloat 1 init_state digest_m10_3 digest_m100).score = -1 := by
  decide!

/-! ### The tail trim and short remainders of the stream digest -/

theorem gen_chunk_sdbf_of_emit (sys : sdbf_parameters_t) (E : Entr64)
    (SHA1 : List Nat → List Nat) (file_buffer : List Nat) (file_size chunk_size : Nat)
    (sdbf : sdbf_t) :
    gen_chunk_sdbf sys E SHA1 file_buffer file_size chunk_size sdbf
      = (gen_chunk_sdbf_emit sys E SHA1 file_buffer file_size chunk_size sdbf).map
          (fun d2 => gen_chunk_sdbf_realloc (gen_chunk_sdbf_buff_size file_size)
            (gen_chunk_sdbf_trim sys d2)) := by
  unfold gen_chunk_sdbf gen_chunk_sdbf_emit
  generalize gen_chunk_sdbf_buff_size file_size = bs
  cases List.foldlM
      (fun (d : sdbf_t) i =>
        gen_chunk_sdbf_chunk sys E SHA1 file_buffer (chunk_size * i) chunk_size true d)
      { sdbf with buffer := List.replicate bs 0 }
      (List.range (file_size / chunk_size)) with
  | error e => rfl
  | ok d1 =>
    simp only []
    cases (if file_size % chunk_size > 0
           then gen_chunk_sdbf_chunk sys E SHA1 file_buffer
                  (file_size / chunk_size * chunk_size) (file_size % chunk_size) false d1
           else .ok d1) with
    | error e => rfl
    | ok d2 => rfl

theorem gen_chunk_sdbf_chunk_max_elem (sys : sdbf_parameters_t) (E : Entr64)
    (SHA1 : List Nat → List Nat) (file_buffer : List Nat) (chunk_pos size : Nat)
    (histo : Bool) (sdbf d : sdbf_t)
    (h : gen_chunk_sdbf_chunk sys E SHA1 file_buffer chunk_pos size histo sdbf = .ok d) :
    d.max_elem = sdbf.max_elem := by
  unfold gen_chunk_sdbf_chunk at h
  cases hr : gen_chunk_ranks sys E file_buffer chunk_pos size (List.replicate size 0) 0 with
  | error e => rw [hr] at h; cases h
  | ok ranks =>
    rw [hr] at h
    simp only [] at h
    cases hsc : gen_chunk_scores sys ranks size (List.replicate size 0)
        (if histo then some (List.replicate 66 0) else none) with
    | error e => rw [hsc] at h; cases h
    | ok scores =>
      rw [hsc] at h
      obtain ⟨st, _, hd⟩ := gen_chunk_hash_of_loop _ _ _ _ _ _ _ _ h
      rw [hd]

theorem gen_chunk_sdbf_emit_max_elem (sys : sdbf_parameters_t) (E : Entr64)
    (SHA1 : List Nat → List Nat) (file_buffer : List Nat) (file_size chunk_size : Nat)
    (sdbf d2 : sdbf_t)
    (h : gen_chunk_sdbf_emit sys E SHA1 file_buffer file_size chunk_size sdbf = .ok d2) :
    d2.max_elem = sdbf.max_elem := by
  unfold gen_chunk_sdbf_emit at h
  generalize gen_chunk_sdbf_buff_size file_size = bs at h
  cases hf : List.foldlM
      (fun (d : sdbf_t) i =>
        gen_chunk_sdbf_chunk sys E SHA1 file_buffer (chunk_size * i) chunk_size true d)
      { sdbf with buffer := List.replicate bs 0 }
      (List.range (file_size / chunk_size)) with
  | error e => rw [hf] at h; cases h
  | ok d1 =>
    rw [hf] at h
    simp only [] at h
    have h1 : d1.max_elem = sdbf.max_elem := by
      refine foldlM_inv (fun (x : sdbf_t) => x.max_elem = sdbf.max_elem) _ _ _ _ ?_
        (fun s a s1 _ hs hstep => ?_) hf
      · rfl
      · exact (gen_chunk_sdbf_chunk_max_elem sys E SHA1 file_buffer _ _ _ s s1 hstep).trans hs
    by_cases hrem : file_size % chunk_size > 0
    · rw [if_pos hrem] at h
      exact (gen_chunk_sdbf_chunk_max_elem sys E SHA1 file_buffer _ _ _ d1 d2 h).trans h1
    · rw [if_neg hrem] at h
      rw [← Except.ok.inj h]
      exact h1

theorem gen_chunk_sdbf_emit_zero (SHA1 : List Nat → List Nat) (n : Nat) (sdbf : sdbf_t)
    (hn : 64 < n) (hM : n < 32 * MB) :
    gen_chunk_sdbf_emit sdbf_sys entr64_constant SHA1 (List.replicate n 0) n (32 * MB) sdbf
      = .ok { sdbf with buffer := List.replicate (gen_chunk_sdbf_buff_size n) 0 } := by
  have hU : n < U64 := by unfold MB at hM; unfold U64; omega
  have hq : n / (32 * MB) = 0 := Nat.div_eq_of_lt hM
  have hr : n % (32 * MB) = n := Nat.mod_eq_of_lt hM
  have hchunk : ∀ d : sdbf_t, gen_chunk_sdbf_chunk sdbf_sys entr64_constant SHA1
      (List.replicate n 0) 0 n false d = .ok d := by
    intro d
    unfold gen_chunk_sdbf_chunk
    rw [gen_chunk_ranks_zero _ _ _ (by omega) hU]
    simp only [Bool.false_eq_true, if_false]
    rw [gen_chunk_scores_zero n hn hU]
    simp only []
    exact gen_chunk_hash_zero SHA1 _ 0 n (by omega) hU d
  unfold gen_chunk_sdbf_emit
  rw [hq, hr, List.range_zero, List.foldlM_nil]
  simp only [pure, Except.pure]
  rw [if_pos (show n > 0 by omega), Nat.zero_mul, hchunk]

/-- C31: whenever the feature emission of `gen_chunk_sdbf` (chunk loop and remainder)
completes with a digest `d2`, `gen_chunk_sdbf` returns a digest `d` such that: if
`d2.bf_count > 1` and `d2.last_count < max_elem/8` (the `max_elem` of the digest, which is
the one of the descriptor passed in; 20 for 160), then `d.bf_count = d2.bf_count - 1` and
`d.last_count` is `sdbf_sys.max_elem`; otherwise `bf_count` and `last_count` are those of
`d2`. In particular, when `max_elem ≥ 8`, a `d2` with `bf_count > 1` whose last filter
was filled exactly (`last_count = 0`) loses its empty trailing filter. -/
theorem gen_chunk_sdbf_tail_trim (sys : sdbf_parameters_t) (E : Entr64)
    (SHA1 : List Nat → List Nat) (file_buffer : List Nat) (file_size chunk_size : Nat)
    (sdbf d2 : sdbf_t)
    (h : gen_chunk_sdbf_emit sys E SHA1 file_buffer file_size chunk_size sdbf = .ok d2) :
    d2.max_elem = sdbf.max_elem ∧ sdbf_sys.max_elem / 8 = 20
    ∧ ∃ d, gen_chunk_sdbf sys E SHA1 file_buffer file_size chunk_size sdbf = .ok d
      ∧ (d2.bf_count > 1 ∧ d2.last_count < sdbf.max_elem / 8 →
          d.bf_count = d2.bf_count - 1 ∧ d.last_count = sys.max_elem)
      ∧ (¬ (d2.bf_count > 1 ∧ d2.last_count < sdbf.max_elem / 8) →
          d.bf_count = d2.bf_count ∧ d.last_count = d2.last_count)
      ∧ (8 ≤ sdbf.max_elem → d2.bf_count > 1 → d2.last_count = 0 →
          d.bf_count = d2.bf_count - 1 ∧ d.last_count = sys.max_elem) := by
  have hme := gen_chunk_sdbf_emit_max_elem sys E SHA1 file_buffer file_size chunk_size sdbf
    d2 h
  refine ⟨hme, rfl, _, by rw [gen_chunk_sdbf_of_emit, h]; rfl, ?_⟩
  have hre : ∀ bs x, (gen_chunk_sdbf_realloc bs x).bf_count = x.bf_count
      ∧ (gen_chunk_sdbf_realloc bs x).last_count = x.last_count := by
    intro bs x
    unfold gen_chunk_sdbf_realloc
    split
    · exact ⟨rfl, rfl⟩
    · exact ⟨rfl, rfl⟩
  have hyes : d2.bf_count > 1 ∧ d2.last_count < sdbf.max_elem / 8 →
      (gen_chunk_sdbf_trim sys d2).bf_count = d2.bf_count - 1
      ∧ (gen_chunk_sdbf_trim sys d2).last_count = sys.max_elem := by
    intro hc
    unfold gen_chunk_sdbf_trim
    rw [if_pos (by rw [hme]; exact hc)]
    exact ⟨rfl, rfl⟩
  have hno : ¬ (d2.bf_count > 1 ∧ d2.last_count < sdbf.max_elem / 8) →
      gen_chunk_sdbf_trim sys d2 = d2 := by
    intro hc
    unfold gen_chunk_sdbf_trim
    rw [if_neg (by rw [hme]; exact hc)]
  refine ⟨fun hc => ?_, fun hc => ?_, fun h8 hb hl => ?_⟩
  · rw [(hre _ _).1, (hre _ _).2]
    exact hyes hc
  · rw [(hre _ _).1, (hre _ _).2, hno hc]
    exact ⟨rfl, rfl⟩
  · rw [(hre _ _).1, (hre _ _).2]
    exact hyes ⟨hb, by rw [hl]; omega⟩

theorem gen_chunk_sdbf_tail_trim_witness :
    gen_chunk_sdbf_emit sdbf_sys entr64_constant sha1_zero (List.replicate 100 0) 100
        (32 * MB) descriptor_two
      = .ok { descriptor_two with buffer := List.replicate (gen_chunk_sdbf_buff_size 100) 0 }
    ∧ descriptor_two.bf_count = 2 ∧ descriptor_two.last_count = 0
    ∧ descriptor_two.max_elem = 160
    ∧ ∃ d, gen_chunk_sdbf sdbf_sys entr64_constant sha1_zero (List.replicate 100 0) 100
          (32 * MB) descriptor_two = .ok d
        ∧ d.bf_count = 1 ∧ d.last_count = 160 := by
  have he := gen_chunk_sdbf_emit_zero sha1_zero 100 descriptor_two (by decide) (by decide)
  obtain ⟨_, _, d, hd, _, _, h3⟩ := gen_chunk_sdbf_tail_trim sdbf_sys entr64_constant
    sha1_zero (List.replicate 100 0) 100 (32 * MB) descriptor_two _ he
  exact ⟨he, rfl, rfl, rfl, d, hd, h3 (by decide) (by decide) rfl⟩

theorem foldlM_error_at {σ α : Type} (P : σ → Prop) (f : σ → α → Except Fault σ)
    (e0 : Fault) (a : α)
    (hP : ∀ s b s1, P s → f s b = .ok s1 → P s1)
    (herr : ∀ s b e, P s → f s b = .error e → e = e0)
    (hf : ∀ s, P s → f s a = .error e0) :
    ∀ (l : List α), a ∈ l → ∀ s, P s → l.foldlM f s = .error e0 := by
  intro l
  induction l with
  | nil => intro ha; cases ha
  | cons b l ih =>
    intro ha s hs
    rw [List.foldlM_cons]
    cases hb : f s b with
    | error e =>
      rw [herr s b e hs hb]
      rfl
    | ok s1 =>
      have hne : a ≠ b := by
        intro hab
        rw [← hab, hf s hs] at hb
        cases hb
      have hal : a ∈ l := by
        rcases List.mem_cons.1 ha with h | h
        · exact absurd h hne
        · exact h
      exact ih hal s1 (hP s b s1 hs hb)

theorem gen_chunk_ranks_short (E : Entr64) (file_buffer : List Nat) (base size : Nat)
    (h0 : 0 < size) (h64 : size < 64) :
    gen_chunk_ranks sdbf_sys E file_buffer base size (List.replicate size 0) 0
      = .error .out_of_bounds := by
  unfold gen_chunk_ranks
  have hlen : ¬ ((List.replicate size 0).length < size ∨ size < 0) := by simp
  rw [if_neg hlen]
  have hw : sdbf_sys.entr_win_size = 64 := rfl
  have hu : usub64 size 64 = size + 18446744073709551552 := by
    unfold usub64
    have hU : U64 = 18446744073709551616 := rfl
    rw [hU]
    omega
  simp only [hw, hu, lt_irrefl, if_false, List.take_zero, List.nil_append,
    Nat.sub_zero, List.drop_replicate, Nat.sub_self, List.replicate_zero, List.append_nil]
  rw [foldlM_error_at (fun (st : Nat × List Nat × List Nat) => st.2.2.length = size) _
    Fault.out_of_bounds size ?_ ?_ ?_ _ (List.mem_range.2 (by omega)) _
    (List.length_replicate _ _)]
  · rfl
  · intro s b s1 hs hstep
    simp only [] at hstep
    split at hstep
    · cases hstep
    · split at hstep
      · rw [← Except.ok.inj hstep]
        simp only [List.length_set]
        exact hs
      · cases hstep
  · intro s b e hs hstep
    simp only [] at hstep
    split at hstep
    · exact (Except.error.inj hstep).symm
    · split at hstep
      · cases hstep
      · exact (Except.error.inj hstep).symm
  · intro s hs
    split
    · rfl
    · rw [if_neg (by omega)]

theorem gen_chunk_sdbf_chunk_short (E : Entr64) (SHA1 : List Nat → List Nat)
    (file_buffer : List Nat) (chunk_pos size : Nat) (histo : Bool) (d : sdbf_t)
    (h0 : 0 < size) (h64 : size < 64) :
    gen_chunk_sdbf_chunk sdbf_sys E SHA1 file_buffer chunk_pos size histo d
      = .error .out_of_bounds := by
  unfold gen_chunk_sdbf_chunk
  rw [gen_chunk_ranks_short E file_buffer chunk_pos size h0 h64]

theorem gen_chunk_sdbf_no_digest (E : Entr64) (SHA1 : List Nat → List Nat)
    (file_buffer : List Nat) (file_size chunk_size : Nat) (sdbf : sdbf_t)
    (h0 : 0 < file_size % chunk_size) (h64 : file_size % chunk_size < 64) :
    ∃ e, gen_chunk_sdbf sdbf_sys E SHA1 file_buffer file_size chunk_size sdbf = .error e := by
  rw [gen_chunk_sdbf_of_emit]
  unfold gen_chunk_sdbf_emit
  generalize gen_chunk_sdbf_buff_size file_size = bs
  cases List.foldlM
      (fun (d : sdbf_t) i =>
        gen_chunk_sdbf_chunk sdbf_sys E SHA1 file_buffer (chunk_size * i) chunk_size true d)
      { sdbf with buffer := List.replicate bs 0 }
      (List.range (file_size / chunk_size)) with
  | error e => exact ⟨e, rfl⟩
  | ok d1 =>
    refine ⟨Fault.out_of_bounds, ?_⟩
    simp only []
    rw [if_pos h0, gen_chunk_sdbf_chunk_short E SHA1 file_buffer _ _ false d1 h0 h64]
    rfl

/-- C36 at the failing input: a file of 32 MiB + 1 bytes (at least `MIN_FILE_SIZE`) with
chunks of 32 MiB. The remainder is 1, below 64, and `gen_chunk_sdbf` passes it as chunk
length: the loop bounds `1 - entr_win_size` and `1 - pop_win_size` wrap to 2^64 - 63, the
work on a chunk of 1 byte (and of 63 bytes) leaves its arrays, whatever the entropy
functions, `SHA1`, the bytes and the digest are, and `gen_chunk_sdbf` does not return a
digest. -/
theorem gen_chunk_sdbf_short_remainder :
    MIN_FILE_SIZE ≤ 32 * MB + 1
    ∧ (32 * MB + 1) / (32 * MB) = 1
    ∧ (32 * MB + 1) % (32 * MB) = 1
    ∧ usub64 1 sdbf_sys.entr_win_size = 2 ^ 64 - 63
    ∧ usub64 1 sdbf_sys.pop_win_size = 2 ^ 64 - 63
    ∧ (∀ (E : Entr64) (SHA1 : List Nat → List Nat) (file_buffer : List Nat)
        (chunk_pos : Nat) (histo : Bool) (d : sdbf_t),
        gen_chunk_sdbf_chunk sdbf_sys E SHA1 file_buffer chunk_pos 1 histo d
          = .error .out_of_bounds
        ∧ gen_chunk_sdbf_chunk sdbf_sys E SHA1 file_buffer chunk_pos 63 histo d
          = .error .out_of_bounds)
    ∧ ∀ (E : Entr64) (SHA1 : List Nat → List Nat) (file_buffer : List Nat) (sdbf : sdbf_t),
        ∃ e, gen_chunk_sdbf sdbf_sys E SHA1 file_buffer (32 * MB + 1) (32 * MB) sdbf
          = .error e := by
  have hr : (32 * MB + 1) % (32 * MB) = 1 := by decide
  refine ⟨by decide, by decide, hr, by decide, by decide, fun E SHA1 fb pos histo d =>
    ⟨gen_chunk_sdbf_chunk_short E SHA1 fb pos 1 histo d (by decide) (by decide),
     gen_chunk_sdbf_chunk_short E SHA1 fb pos 63 histo d (by decide) (by decide)⟩,
    fun E SHA1 fb sdbf => gen_chunk_sdbf_no_digest E SHA1 fb (32 * MB + 1) (32 * MB) sdbf
      (by rw [hr]; decide) (by rw [hr]; decide)⟩

/-! ### Re-sync and carry-over in gen_chunk_ranks -/

set_option maxRecDepth 8000 in
theorem gen_chunk_ranks_eq (sys : sdbf_parameters_t) (E : Entr64) (file_buffer : List Nat)
    (base chunk_size : Nat) (chunk_ranks : List Nat) (carryover : Nat) :
    gen_chunk_ranks sys E file_buffer base chunk_size chunk_ranks carryover
      = if chunk_ranks.length < chunk_size ∨ chunk_size < carryover
        then .error .out_of_bounds
        else ((List.range (usub64 chunk_size sys.entr_win_size)).foldlM
                (gen_chunk_ranks_step sys E file_buffer base)
                (0, List.replicate 256 0,
                  gen_chunk_ranks_zeroed chunk_size chunk_ranks carryover)).map
              (fun (st : Nat × List Nat × List Nat) => st.2.2) := by
  unfold gen_chunk_ranks gen_chunk_ranks_zeroed
  rfl

theorem except_ok_bind {α β : Type} (x : α) (g : α → Except Fault β) :
    (Except.ok x >>= g) = g x := rfl

theorem map_getD_range (z : List Nat) :
    (List.range z.length).map (fun j => z.getD j 0) = z := by
  apply List.ext_getElem
  · simp
  · intro k h1 h2
    simp [List.getElem?_eq_getElem h2]

theorem gen_chunk_ranks_loop (sys : sdbf_parameters_t) (E : Entr64) (file_buffer : List Nat)
    (base : Nat) (z : List Nat) :
    ∀ n, n ≤ z.length →
      (∀ o, o < n → (resync_state sys.block_size E file_buffer base (o + 1)).1
          >>> ENTR_POWER < ENTR64_RANKS.length) →
      (List.range n).foldlM (gen_chunk_ranks_step sys E file_buffer base)
          (0, List.replicate 256 0, z)
        = .ok ((resync_state sys.block_size E file_buffer base n).1,
               (resync_state sys.block_size E file_buffer base n).2,
               (List.range z.length).map (fun j =>
                 if j < n then resync_rank sys.block_size E file_buffer base j
                 else z.getD j 0)) := by
  intro n
  induction n with
  | zero =>
    intro _ _
    rw [List.range_zero, List.foldlM_nil]
    have e : (List.range z.length).map (fun j =>
        if j < 0 then resync_rank sys.block_size E file_buffer base j else z.getD j 0)
        = z := by
      have : (fun j => if j < 0 then resync_rank sys.block_size E file_buffer base j
          else z.getD j 0) = (fun j => z.getD j 0) := by
        funext j
        rw [if_neg (Nat.not_lt_zero j)]
      rw [this, map_getD_range]
    rw [e]
    rfl
  | succ n ih =>
    intro hn hE
    rw [List.range_succ, List.foldlM_append, ih (by omega) (fun o ho => hE o (by omega))]
    have hb := hE n (Nat.lt_succ_self n)
    have hstate : resync_state sys.block_size E file_buffer base (n + 1)
        = (if n % sys.block_size = 0
           then E.init_int file_buffer (base + n)
                  (resync_state sys.block_size E file_buffer base n).2
           else E.inc_int (resync_state sys.block_size E file_buffer base n).1 file_buffer
                  (base + n - 1) (resync_state sys.block_size E file_buffer base n).2) := rfl
    have hstep : gen_chunk_ranks_step sys E file_buffer base
        ((resync_state sys.block_size E file_buffer base n).1,
         (resync_state sys.block_size E file_buffer base n).2,
         (List.range z.length).map (fun j =>
           if j < n then resync_rank sys.block_size E file_buffer base j else z.getD j 0)) n
        = .ok ((resync_state sys.block_size E file_buffer base (n + 1)).1,
               (resync_state sys.block_size E file_buffer base (n + 1)).2,
               (List.range z.length).map (fun j =>
                 if j < n + 1 then resync_rank sys.block_size E file_buffer base j
                 else z.getD j 0)) := by
      unfold gen_chunk_ranks_step
      simp only []
      rw [← hstate, List.getElem?_eq_getElem hb]
      simp only []
      rw [if_pos (by simp; omega)]
      congr 3
      apply List.ext_getElem
      · simp
      · intro k h1 h2
        have hk : k < z.length := by simpa using h2
        rw [List.getElem_set]
        by_cases hkn : n = k
        · subst hkn
          rw [if_pos rfl]
          simp only [List.getElem_map, List.getElem_range]
          rw [if_pos (Nat.lt_succ_self _)]
          unfold resync_rank
          rw [List.getD_eq_getElem _ _ hb]
        · rw [if_neg hkn]
          simp only [List.getElem_map, List.getElem_range]
          by_cases hlt : k < n
          · rw [if_pos hlt, if_pos (by omega)]
          · rw [if_neg hlt, if_neg (by omega)]
    rw [except_ok_bind, List.foldlM_cons, hstep, except_ok_bind, List.foldlM_nil]
    rfl

theorem gen_chunk_ranks_zeroed_spec (chunk_size : Nat) (chunk_ranks : List Nat)
    (carryover : Nat) (hlen : chunk_size ≤ chunk_ranks.length) (hc : carryover ≤ chunk_size) :
    (gen_chunk_ranks_zeroed chunk_size chunk_ranks carryover).length = chunk_ranks.length
    ∧ ∀ j, (gen_chunk_ranks_zeroed chunk_size chunk_ranks carryover).getD j 0
        = if j < carryover then chunk_ranks.getD (chunk_size - carryover + j) 0
          else if j < chunk_size then 0 else chunk_ranks.getD j 0 := by
  unfold gen_chunk_ranks_zeroed
  by_cases h0 : carryover > 0
  · simp only [if_pos h0]
    have hl1 : ((chunk_ranks.drop (chunk_size - carryover)).take carryover).length
        = carryover := by
      rw [List.length_take, List.length_drop]
      omega
    have ht : (List.take carryover (List.drop (chunk_size - carryover) chunk_ranks)
        ++ List.drop carryover chunk_ranks).take carryover
        = (chunk_ranks.drop (chunk_size - carryover)).take carryover := by
      rw [List.take_append_of_le_length (by omega), List.take_take, Nat.min_self]
    have hd : (List.take carryover (List.drop (chunk_size - carryover) chunk_ranks)
        ++ List.drop carryover chunk_ranks).drop chunk_size
        = chunk_ranks.drop chunk_size := by
      rw [List.drop_append_eq_append_drop, hl1, List.drop_drop,
        List.drop_eq_nil_of_le (by omega), List.nil_append]
      congr 1
      omega
    rw [ht, hd]
    refine ⟨?_, fun j => ?_⟩
    · simp only [List.length_append, hl1, List.length_replicate, List.length_drop]
      omega
    · by_cases hj : j < carryover
      · rw [if_pos hj, List.append_assoc,
          List.getD_append _ _ _ _ (by rw [hl1]; exact hj)]
        rw [List.getD_eq_getElem?_getD, List.getElem?_take_of_lt hj, List.getElem?_drop,
          ← List.getD_eq_getElem?_getD]
      · rw [if_neg hj, List.append_assoc,
          List.getD_append_right _ _ _ _ (by rw [hl1]; omega), hl1]
        by_cases hj2 : j < chunk_size
        · rw [if_pos hj2, List.getD_append _ _ _ _ (by simp; omega)]
          rw [List.getD_eq_getElem?_getD, List.getElem?_replicate, if_pos (by omega)]
          rfl
        · rw [if_neg hj2, List.getD_append_right _ _ _ _ (by simp; omega)]
          rw [List.getD_eq_getElem?_getD, List.getElem?_drop, ← List.getD_eq_getElem?_getD]
          congr 1
          simp only [List.length_replicate]
          omega
  · have hc0 : carryover = 0 := by omega
    subst hc0
    simp only [lt_irrefl, if_false, List.take_zero, List.nil_append, Nat.sub_zero]
    refine ⟨?_, fun j => ?_⟩
    · simp only [List.length_append, List.length_replicate, List.length_drop]
      omega
    · rw [if_neg (Nat.not_lt_zero j)]
      by_cases hj2 : j < chunk_size
      · rw [if_pos hj2, List.getD_append _ _ _ _ (by simp; omega)]
        rw [List.getD_eq_getElem?_getD, List.getElem?_replicate, if_pos hj2]
        rfl
      · rw [if_neg hj2, List.getD_append_right _ _ _ _ (by simp; omega)]
        rw [List.getD_eq_getElem?_getD, List.getElem?_drop, ← List.getD_eq_getElem?_getD]
        congr 1
        simp only [List.length_replicate]
        omega

theorem gen_chunk_ranks_spec (sys : sdbf_parameters_t) (E : Entr64) (file_buffer : List Nat)
    (base chunk_size : Nat) (chunk_ranks : List Nat) (carryover : Nat)
    (hlen : chunk_size ≤ chunk_ranks.length) (hc : carryover ≤ chunk_size)
    (hw : sys.entr_win_size ≤ chunk_size) (hU : chunk_size < U64)
    (hE : ∀ o, o < chunk_size - sys.entr_win_size →
      (resync_state sys.block_size E file_buffer base (o + 1)).1 >>> ENTR_POWER
        < ENTR64_RANKS.length) :
    ∃ ranks, gen_chunk_ranks sys E file_buffer base chunk_size chunk_ranks carryover
        = .ok ranks
      ∧ ranks.length = chunk_ranks.length
      ∧ ∀ j, ranks.getD j 0
          = if j < chunk_size - sys.entr_win_size
            then resync_rank sys.block_size E file_buffer base j
            else if j < carryover then chunk_ranks.getD (chunk_size - carryover + j) 0
            else if j < chunk_size then 0 else chunk_ranks.getD j 0 := by
  obtain ⟨hz1, hz2⟩ := gen_chunk_ranks_zeroed_spec chunk_size chunk_ranks carryover hlen hc
  rw [gen_chunk_ranks_eq, if_neg (by omega), usub64_eq _ _ hw hU,
    gen_chunk_ranks_loop sys E file_buffer base _ _ (by omega) hE]
  refine ⟨_, rfl, by simp [hz1], fun j => ?_⟩
  show ((List.range _).map _).getD j 0 = _
  rw [hz1]
  by_cases hj : j < chunk_ranks.length
  · rw [List.getD_eq_getElem _ _ (by simpa using hj)]
    simp only [List.getElem_map, List.getElem_range]
    by_cases h1 : j < chunk_size - sys.entr_win_size
    · rw [if_pos h1, if_pos h1]
    · rw [if_neg h1, if_neg h1, hz2]
  · have h1 : ¬ j < chunk_size - sys.entr_win_size := by omega
    rw [if_neg h1, if_neg (by omega), if_neg (by omega)]
    rw [List.getD_eq_default _ _ (by simp; omega), List.getD_eq_default _ _ (by omega)]

theorem resync_state_probe (sync : Nat) (file_buffer : List Nat) (base k : Nat) :
    (resync_state sync entr64_probe file_buffer base (k + 1)).1
      = if k % sync = 0 then 500 * 1024 else 600 * 1024 := by
  show (if k % sync = 0 then _ else _ : Nat × List Nat).1 = _
  split
  · rfl
  · rfl

theorem resync_rank_probe (sync : Nat) (file_buffer : List Nat) (base o : Nat) :
    resync_rank sync entr64_probe file_buffer base o = if o % sync = 0 then 615 else 629 := by
  unfold resync_rank
  rw [resync_state_probe]
  split
  · decide!
  · decide!

theorem resync_bin_probe (sync : Nat) (file_buffer : List Nat) (base o : Nat) :
    (resync_state sync entr64_probe file_buffer base (o + 1)).1 >>> ENTR_POWER
      < ENTR64_RANKS.length := by
  rw [resync_state_probe]
  split
  · decide!
  · decide!

/-- C32, amended: on a chunk of at least `entr_win_size` bytes whose entropies fall in the
1001 bins of `ENTR64_RANKS`, `gen_chunk_ranks` returns, and the rank it leaves at every
offset below `chunk_size - entr_win_size` is the rank of the entropy that is recomputed
from scratch (`entr64_init_int`) exactly at the offsets that are multiples of
`sdbf_sys.block_size` and updated incrementally (`entr64_inc_int`) at every other offset;
`sdbf_sys.block_size` is 4096. -/
theorem gen_chunk_ranks_resync (sys : sdbf_parameters_t) (E : Entr64)
    (file_buffer : List Nat) (base chunk_size : Nat) (chunk_ranks : List Nat)
    (hlen : chunk_size ≤ chunk_ranks.length)
    (hw : sys.entr_win_size ≤ chunk_size) (hU : chunk_size < U64)
    (hE : ∀ o, o < chunk_size - sys.entr_win_size →
      (resync_state sys.block_size E file_buffer base (o + 1)).1 >>> ENTR_POWER
        < ENTR64_RANKS.length) :
    sdbf_sys.block_size = 4096
    ∧ ∃ ranks, gen_chunk_ranks sys E file_buffer base chunk_size chunk_ranks 0 = .ok ranks
      ∧ ranks.length = chunk_ranks.length
      ∧ (∀ o, o < chunk_size - sys.entr_win_size →
          ranks.getD o 0 = resync_rank sys.block_size E file_buffer base o)
      ∧ (∀ o, chunk_size - sys.entr_win_size ≤ o → o < chunk_size → ranks.getD o 0 = 0) := by
  obtain ⟨ranks, h1, h2, h3⟩ := gen_chunk_ranks_spec sys E file_buffer base chunk_size
    chunk_ranks 0 hlen (Nat.zero_le _) hw hU hE
  refine ⟨rfl, ranks, h1, h2, fun o ho => ?_, fun o ho1 ho2 => ?_⟩
  · rw [h3, if_pos ho]
  · rw [h3, if_neg (by omega), if_neg (Nat.not_lt_zero o), if_pos ho2]

theorem gen_chunk_ranks_resync_witness :
    4200 ≤ (List.replicate 4200 7).length ∧ sdbf_sys.entr_win_size ≤ 4200 ∧ 4200 < U64
    ∧ ∃ ranks, gen_chunk_ranks sdbf_sys entr64_probe [] 0 4200 (List.replicate 4200 7) 0
          = .ok ranks
        ∧ ranks.getD 0 0 = 615 ∧ ranks.getD 1 0 = 629 ∧ ranks.getD 4095 0 = 629
        ∧ ranks.getD 4096 0 = 615 ∧ ranks.getD 4097 0 = 629 ∧ ranks.getD 4136 0 = 0 := by
  have hlen : 4200 ≤ (List.replicate 4200 7).length := by
    rw [List.length_replicate]
  obtain ⟨_, ranks, h1, _, h3, h4⟩ := gen_chunk_ranks_resync sdbf_sys entr64_probe [] 0 4200
    (List.replicate 4200 7) hlen (by decide) (by decide)
    (fun o _ => resync_bin_probe _ [] 0 o)
  refine ⟨hlen, by decide, by decide, ranks, h1, ?_, ?_, ?_, ?_, ?_, ?_⟩
  · rw [h3 0 (by decide), resync_rank_probe]; rfl
  · rw [h3 1 (by decide), resync_rank_probe]; rfl
  · rw [h3 4095 (by decide), resync_rank_probe]; rfl
  · rw [h3 4096 (by decide), resync_rank_probe]; rfl
  · rw [h3 4097 (by decide), resync_rank_probe]; rfl
  · exact h4 4136 (by decide) (by decide)

/-- Counterexample to C32 as stated: on a chunk of 4200 bytes, with entropy functions
whose two answers have the ranks 615 (from scratch) and 629 (incremental), the rank left
at offset 4096 is 615, the one of an entropy recomputed from scratch, although 4096 is not
a multiple of 16384; with a re-sync every 16384 bytes it would be 629. -/
theorem gen_chunk_ranks_resync_at_4096 :
    4096 % 16384 = 4096
    ∧ resync_rank 16384 entr64_probe [] 0 4096 = 629
    ∧ resync_rank sdbf_sys.block_size entr64_probe [] 0 4096 = 615
    ∧ ∃ ranks, gen_chunk_ranks sdbf_sys entr64_probe [] 0 4200 (List.replicate 4200 0) 0
          = .ok ranks
        ∧ ranks.getD 4096 0 = 615 := by
  have hlen : 4200 ≤ (List.replicate 4200 0).length := by
    rw [List.length_replicate]
  obtain ⟨ranks, h1, _, h3⟩ := gen_chunk_ranks_spec sdbf_sys entr64_probe [] 0 4200
    (List.replicate 4200 0) 0 hlen (by decide) (by decide) (by decide)
    (fun o _ => resync_bin_probe _ [] 0 o)
  refine ⟨by decide, ?_, ?_, ranks, h1, ?_⟩
  · rw [resync_rank_probe]; rfl
  · rw [resync_rank_probe]; rfl
  · rw [h3, if_pos (by decide), resync_rank_probe]; rfl

/-- C33, amended: `gen_chunk_ranks` called with a carry-over `c ≤ chunk_size` on a chunk
of at least `entr_win_size` bytes (entropies within the bins of `ENTR64_RANKS`) returns,
and on return `chunk_ranks[j]` is the rank of the window at offset `j` for
`j < chunk_size - entr_win_size`, whatever `c` is; it is the previous
`chunk_ranks[chunk_size - c + j]` only for `chunk_size - entr_win_size ≤ j < c`, it is 0
for the other `j < chunk_size`, and the entries from `chunk_size` on are unchanged. The
work of `gen_chunk_sdbf` on a chunk calls `gen_chunk_ranks` with carry-over 0. -/
theorem gen_chunk_ranks_carryover (sys : sdbf_parameters_t) (E : Entr64)
    (file_buffer : List Nat) (base chunk_size : Nat) (chunk_ranks : List Nat)
    (carryover : Nat)
    (hlen : chunk_size ≤ chunk_ranks.length) (hc : carryover ≤ chunk_size)
    (hw : sys.entr_win_size ≤ chunk_size) (hU : chunk_size < U64)
    (hE : ∀ o, o < chunk_size - sys.entr_win_size →
      (resync_state sys.block_size E file_buffer base (o + 1)).1 >>> ENTR_POWER
        < ENTR64_RANKS.length) :
    (∃ ranks, gen_chunk_ranks sys E file_buffer base chunk_size chunk_ranks carryover
        = .ok ranks
      ∧ ∀ j, ranks.getD j 0
          = if j < chunk_size - sys.entr_win_size
            then resync_rank sys.block_size E file_buffer base j
            else if j < carryover then chunk_ranks.getD (chunk_size - carryover + j) 0
            else if j < chunk_size then 0 else chunk_ranks.getD j 0)
    ∧ ∀ (SHA1 : List Nat → List Nat) (chunk_pos size : Nat) (histo : Bool) (d : sdbf_t),
        gen_chunk_sdbf_chunk sys E SHA1 file_buffer chunk_pos size histo d
          = (gen_chunk_ranks sys E file_buffer chunk_pos size (List.replicate size 0) 0
              >>= fun ranks =>
                gen_chunk_scores sys ranks size (List.replicate size 0)
                    (if histo then some (List.replicate 66 0) else none)
                  >>= fun scores =>
                    gen_chunk_hash sys SHA1 file_buffer chunk_pos scores.1 size d) := by
  obtain ⟨ranks, h1, _, h3⟩ := gen_chunk_ranks_spec sys E file_buffer base chunk_size
    chunk_ranks carryover hlen hc hw hU hE
  refine ⟨⟨ranks, h1, h3⟩, fun SHA1 chunk_pos size histo d => ?_⟩
  unfold gen_chunk_sdbf_chunk
  cases gen_chunk_ranks sys E file_buffer chunk_pos size (List.replicate size 0) 0 with
  | error e => rfl
  | ok r =>
    rw [except_ok_bind]
    simp only []
    cases gen_chunk_scores sys r size (List.replicate size 0)
        (if histo then some (List.replicate 66 0) else none) with
    | error e => rfl
    | ok s => rfl

theorem gen_chunk_ranks_carryover_witness :
    70 ≤ (List.replicate 7 0 ++ List.replicate 63 7).length ∧ 63 ≤ 70
    ∧ sdbf_sys.entr_win_size ≤ 70 ∧ 70 < U64
    ∧ ∃ ranks, gen_chunk_ranks sdbf_sys entr64_probe [] 0 70
          (List.replicate 7 0 ++ List.replicate 63 7) 63 = .ok ranks
        ∧ ranks.getD 0 0 = 615 ∧ ranks.getD 5 0 = 629 ∧ ranks.getD 6 0 = 7
        ∧ ranks.getD 62 0 = 7 ∧ ranks.getD 63 0 = 0 := by
  have hlen : 70 ≤ (List.replicate 7 0 ++ List.replicate 63 7).length := by decide
  obtain ⟨⟨ranks, h1, h3⟩, _⟩ := gen_chunk_ranks_carryover sdbf_sys entr64_probe [] 0 70
    (List.replicate 7 0 ++ List.replicate 63 7) 63 hlen (by decide) (by decide) (by decide)
    (fun o _ => resync_bin_probe _ [] 0 o)
  refine ⟨hlen, by decide, by decide, by decide, ranks, h1, ?_, ?_, ?_, ?_, ?_⟩
  · rw [h3, if_pos (by decide), resync_rank_probe]; rfl
  · rw [h3, if_pos (by decide), resync_rank_probe]; rfl
  · rw [h3, if_neg (by decide), if_pos (by decide)]; decide
  · rw [h3, if_neg (by decide), if_pos (by decide)]; decide
  · rw [h3, if_neg (by decide), if_neg (by decide), if_pos (by decide)]

/-- Counterexample to C33 as stated: a rank array of 128 entries whose last 63 entries
are 7, a chunk of 128 bytes and carry-over 63. On return the first 63 entries hold the
ranks of the windows of the chunk itself (615 at offset 0, 629 after it, shown at the
offsets 0, 1 and 62), not the values 7 of the previous entries 65, 66 and 127. -/
theorem gen_chunk_ranks_carryover_overwritten :
    (List.replicate 65 0 ++ List.replicate 63 7).getD (128 - 63 + 0) 0 = 7
    ∧ (List.replicate 65 0 ++ List.replicate 63 7).getD (128 - 63 + 1) 0 = 7
    ∧ (List.replicate 65 0 ++ List.replicate 63 7).getD (128 - 63 + 62) 0 = 7
    ∧ ∃ ranks, gen_chunk_ranks sdbf_sys entr64_probe [] 0 128
          (List.replicate 65 0 ++ List.replicate 63 7) 63 = .ok ranks
        ∧ ranks.getD 0 0 = 615 ∧ ranks.getD 1 0 = 629 ∧ ranks.getD 62 0 = 629 := by
  have hlen : 128 ≤ (List.replicate 65 0 ++ List.replicate 63 7).length := by
    rw [List.length_append, List.length_replicate, List.length_replicate]
  obtain ⟨ranks, h1, _, h3⟩ := gen_chunk_ranks_spec sdbf_sys entr64_probe [] 0 128
    (List.replicate 65 0 ++ List.replicate 63 7) 63 hlen (by decide) (by decide) (by decide)
    (fun o _ => resync_bin_probe _ [] 0 o)
  refine ⟨by decide, by decide, by decide, ranks, h1, ?_, ?_, ?_⟩
  · rw [h3, if_pos (by decide), resync_rank_probe]; rfl
  · rw [h3, if_pos (by decide), resync_rank_probe]; rfl
  · rw [h3, if_pos (by decide), resync_rank_probe]; rfl

/-! ### The filter buffer of a stream digest is never exceeded -/

/-- On a rank array whose last 64 entries are zero (as `gen_chunk_ranks` leaves it), the
cheap slide of `gen_chunk_scores` stays inside the arrays and returns: a turn is taken
only when the rank read at `i + 64` is at least `min_rank > 0`, so that `i + 64` lies
before the zero tail. -/
theorem slide_loop_total (ranks : List Nat) (limit min_rank : Nat)
    (hU : ranks.length + 64 < U64)
    (hz : ∀ j, ranks.length - 64 ≤ j → ranks.getD j 0 = 0) (hmr : 0 < min_rank) :
    ∀ (fuel i min_pos : Nat) (scores : List Nat),
      scores.length = ranks.length → i + 64 < ranks.length → min_pos ≤ i + 64 →
      ranks.length - i ≤ fuel →
      ∃ i1 scores1, slide_loop ranks limit 64 min_rank fuel i min_pos scores
          = .ok (i1, scores1)
        ∧ i ≤ i1 ∧ i1 + 64 < ranks.length ∧ scores1.length = ranks.length := by
  intro fuel
  induction fuel with
  | zero => intro i _ _ _ hi _ hf; omega
  | succ fuel ih =>
    intro i min_pos scores hs hi hm hf
    unfold slide_loop
    have hmod : (i + 64) % U64 = i + 64 := Nat.mod_eq_of_lt (by omega)
    rw [hmod, rd_ok ranks (i + 64) hi]
    simp only []
    by_cases hc : ranks.getD (i + 64) 0 ≥ min_rank ∧ i < min_pos ∧ i < (limit + 1) % U64
    · rw [if_pos hc]
      have hnz : i + 64 < ranks.length - 64 := by
        by_contra hcon
        have := hz (i + 64) (by omega)
        omega
      have hidx : (if ranks.getD (i + 64) 0 = min_rank then i + 64 else min_pos)
          < scores.length := by
        rw [hs]; split <;> omega
      rw [incr16_ok scores _ hidx]
      simp only []
      rw [Nat.mod_eq_of_lt (show i + 1 < U64 by omega)]
      obtain ⟨i1, scores1, g1, g2, g3, g4⟩ := ih (i + 1)
        (if ranks.getD (i + 64) 0 = min_rank then i + 64 else min_pos)
        (scores.set (if ranks.getD (i + 64) 0 = min_rank then i + 64 else min_pos)
          ((scores.getD (if ranks.getD (i + 64) 0 = min_rank then i + 64 else min_pos) 0 + 1)
            % U16))
        (by rw [List.length_set]; exact hs) (by omega) (by split <;> omega) (by omega)
      exact ⟨i1, scores1, g1, by omega, g3, g4⟩
    · rw [if_neg hc]
      exact ⟨i, scores, rfl, le_refl _, hi, hs⟩

/-- On a rank array whose last 64 entries are zero, the outer loop of `gen_chunk_scores`
returns. -/
theorem score_loop_total (ranks : List Nat) (hU : ranks.length + 64 < U64)
    (h64 : 64 ≤ ranks.length)
    (hz : ∀ j, ranks.length - 64 ≤ j → ranks.getD j 0 = 0) :
    ∀ (fuel i min_pos min_rank : Nat) (scores : List Nat),
      scores.length = ranks.length → i ≤ ranks.length - 64 → min_pos ≤ i + 64 →
      ranks.length - 64 - i < fuel →
      ∃ res, score_loop ranks (ranks.length - 64) 64 fuel i min_pos min_rank scores
          = .ok res ∧ res.length = ranks.length := by
  intro fuel
  induction fuel with
  | zero => intro i _ _ _ _ _ _ hf; omega
  | succ fuel ih =>
    intro i min_pos min_rank scores hs hi hm hf
    unfold score_loop
    by_cases hlt : i < ranks.length - 64
    · rw [if_pos hlt]
      have hslide : ∃ i1 scores1, (if i > 0 ∧ min_rank > 0
             then slide_loop ranks (ranks.length - 64) 64 min_rank (ranks.length + 1) i
                    min_pos scores
             else .ok (i, scores)) = .ok (i1, scores1)
          ∧ i ≤ i1 ∧ i1 + 64 < ranks.length ∧ scores1.length = ranks.length := by
        split
        · rename_i hc
          exact slide_loop_total ranks _ min_rank hU hz hc.2 _ i min_pos scores hs
            (by omega) hm (by omega)
        · exact ⟨i, scores, rfl, le_refl _, by omega, hs⟩
      obtain ⟨i1, scores1, g1, g2, g3, g4⟩ := hslide
      rw [g1]
      simp only []
      rw [full_scan_ok ranks i1 64 (by decide) (by omega)]
      obtain ⟨b1, b2⟩ := scan_select_bounds ranks i1 64 (by decide)
      simp only []
      rw [rd_ok ranks _ (by omega)]
      simp only []
      have hacc : (if ranks.getD (scan_select ranks i1 64).1 0 > 0
            then incr16 scores1 (scan_select ranks i1 64).1 else .ok scores1)
          = .ok (scan_acc ranks 64 scores1 i1) := by
        unfold scan_acc
        split
        · rw [incr16_ok scores1 _ (by omega)]
        · rfl
      rw [hacc]
      simp only []
      rw [Nat.mod_eq_of_lt (show i1 + 1 < U64 by omega)]
      exact ih (i1 + 1) (scan_select ranks i1 64).1 (scan_select ranks i1 64).2
        (scan_acc ranks 64 scores1 i1) (by rw [scan_acc_length]; exact g4) (by omega)
        (by omega) (by omega)
    · rw [if_neg hlt]
      exact ⟨scores, rfl, hs⟩

/-- On a rank array of `size ≥ 64` entries whose last 64 entries are zero,
`gen_chunk_scores` returns, with or without a zeroed histogram of 66 entries. -/
theorem gen_chunk_scores_total (sys : sdbf_parameters_t) (ranks : List Nat) (size : Nat)
    (histo : Bool) (hw : sys.pop_win_size = 64)
    (hl : ranks.length = size) (h64 : 64 ≤ size) (hU : size + 64 < U64)
    (hz : ∀ j, size - 64 ≤ j → ranks.getD j 0 = 0) :
    ∃ res, gen_chunk_scores sys ranks size (List.replicate size 0)
        (if histo then some (List.replicate 66 0) else none) = .ok res := by
  have hU64 : U64 = 18446744073709551616 := rfl
  subst hl
  have hnone : ∃ sc, gen_chunk_scores sys ranks ranks.length
      (List.replicate ranks.length 0) none = .ok (sc, none) := by
    obtain ⟨res, g1, _⟩ := score_loop_total ranks (by omega) (by omega)
      (fun j hj => hz j (by omega)) (ranks.length + 1) 0 0 (ranks.getD 0 0)
      (List.replicate ranks.length 0 ++ (List.replicate ranks.length 0).drop ranks.length)
      (by rw [List.length_append, List.length_replicate, List.length_drop,
            List.length_replicate]; omega)
      (Nat.zero_le _) (Nat.zero_le _) (by omega)
    unfold gen_chunk_scores
    rw [rd_ok ranks 0 (by omega)]
    simp only []
    unfold bzero16
    rw [if_pos (show ranks.length ≤ (List.replicate ranks.length 0).length by
      rw [List.length_replicate])]
    simp only []
    rw [hw, usub64_eq ranks.length 64 h64 (by omega), g1]
    exact ⟨res, rfl⟩
  obtain ⟨sc, hsc⟩ := hnone
  cases histo with
  | false =>
    rw [if_neg Bool.false_ne_true]
    exact ⟨_, hsc⟩
  | true =>
    obtain ⟨h1, h2, h3⟩ := gen_chunk_scores_parts sys ranks ranks.length
      (List.replicate ranks.length 0) sc hw (by omega) h64 (by omega) hsc
    obtain ⟨h, e1, _⟩ := histo_loop_spec sc (List.replicate 66 0) (ranks.length - 64)
      (by omega)
      (fun i hi => by
        have := h1 i (by omega)
        rw [List.length_replicate]
        omega)
    rw [if_pos rfl, h3, e1]
    exact ⟨_, rfl⟩

theorem entrInRange_probe : EntrInRange entr64_probe := by
  constructor
  · intro buf off ascii
    show (500 * 1024) >>> ENTR_POWER < ENTR64_RANKS.length
    decide!
  · intro prev buf off ascii
    show (600 * 1024) >>> ENTR_POWER < ENTR64_RANKS.length
    decide!

theorem resync_state_in_range (sync : Nat) (E : Entr64) (hE : EntrInRange E)
    (file_buffer : List Nat) (base o : Nat) :
    (resync_state sync E file_buffer base (o + 1)).1 >>> ENTR_POWER < ENTR64_RANKS.length := by
  show (if o % sync = 0 then _ else _ : Nat × List Nat).1 >>> ENTR_POWER < _
  split
  · exact hE.1 _ _ _
  · exact hE.2 _ _ _ _

theorem gen_chunk_ranks_probe (file_buffer : List Nat) (base n : Nat) (h64 : 64 ≤ n)
    (hU : n < U64) :
    gen_chunk_ranks sdbf_sys entr64_probe file_buffer base n (List.replicate n 0) 0
      = .ok (ranks_probe n) := by
  obtain ⟨ranks, h1, h2, h3⟩ := gen_chunk_ranks_spec sdbf_sys entr64_probe file_buffer base n
    (List.replicate n 0) 0 (by rw [List.length_replicate]) (Nat.zero_le _) h64 hU
    (fun o _ => resync_bin_probe _ file_buffer base o)
  rw [h1]
  congr 1
  rw [← map_getD_range ranks, h2, List.length_replicate]
  unfold ranks_probe
  apply List.map_congr_left
  intro j hj
  have hj2 := List.mem_range.1 hj
  rw [h3 j]
  have e1 : sdbf_sys.entr_win_size = 64 := rfl
  have e2 : sdbf_sys.block_size = 4096 := rfl
  rw [e1, e2]
  by_cases hlt : j < n - 64
  · rw [if_pos hlt, if_pos hlt, resync_rank_probe]
  · rw [if_neg hlt, if_neg hlt, if_neg (Nat.not_lt_zero j), if_pos hj2]

/-- On a rank array on which the cheap slide is not taken, the scores are those of one
full scan per window start. -/
theorem no_slide_scores_eq (ranks : List Nat) (h64 : 64 < ranks.length)
    (hU : ranks.length < U64) (hns : NoSlide ranks ranks.length 64) :
    gen_chunk_scores sdbf_sys ranks ranks.length (List.replicate ranks.length 0) none
      = .ok ((List.range' 0 (ranks.length - 64)).foldl (scan_acc ranks 64)
          (List.replicate ranks.length 0), none) := by
  have hw : sdbf_sys.pop_win_size = 64 := rfl
  have hlim : usub64 ranks.length 64 = ranks.length - 64 := usub64_eq _ _ (by omega) hU
  have hloop := score_loop_no_slide ranks (ranks.length - 64) 64 (by omega) (by omega) hU hns
    (ranks.length + 1) 0 0 (ranks.getD 0 0) (List.replicate ranks.length 0)
    (by simp) (by omega) (by omega) (fun h => absurd h (by omega))
  have hz : bzero16 (List.replicate ranks.length 0) ranks.length
      = .ok (List.replicate ranks.length 0) := by
    unfold bzero16
    rw [if_pos (by rw [List.length_replicate]),
      List.drop_of_length_le (by rw [List.length_replicate]), List.append_nil]
  unfold gen_chunk_scores
  rw [rd_ok ranks 0 (by omega), hw, hlim]
  simp only [hz, hloop, Nat.sub_zero]

theorem ranks_probe_82 :
    ranks_probe 82 = [615] ++ List.replicate 17 629 ++ List.replicate 64 0 := by
  decide

theorem noSlide_probe_82 :
    NoSlide ([615] ++ List.replicate 17 629 ++ List.replicate 64 0) 82 64 := by
  decide!

theorem scan_fold_probe_82 :
    (List.range' 0 18).foldl
        (scan_acc ([615] ++ List.replicate 17 629 ++ List.replicate 64 0) 64)
        (List.replicate 82 0)
      = scores_probe_82 := by
  decide!

theorem histo_probe_82 :
    histo_loop scores_probe_82 18 (List.replicate 66 0)
      = .ok ([16, 1] ++ List.replicate 15 0 ++ [1] ++ List.replicate 48 0) := by
  decide!

/-- The scores and the histogram of a chunk of 82 bytes with the ranks `ranks_probe 82`:
position 17 has the score 17. -/
theorem probe_scores_82 :
    gen_chunk_scores sdbf_sys (ranks_probe 82) 82 (List.replicate 82 0) none
      = .ok (scores_probe_82, none)
    ∧ gen_chunk_scores sdbf_sys (ranks_probe 82) 82 (List.replicate 82 0)
        (some (List.replicate 66 0))
      = .ok (scores_probe_82,
          some ([16, 1] ++ List.replicate 15 0 ++ [1] ++ List.replicate 48 0)) := by
  have hlen : ([615] ++ List.replicate 17 629 ++ List.replicate 64 0).length = 82 := by
    decide
  have h := no_slide_scores_eq ([615] ++ List.replicate 17 629 ++ List.replicate 64 0)
    (by rw [hlen]; decide) (by rw [hlen]; decide) (by rw [hlen]; exact noSlide_probe_82)
  rw [hlen] at h
  have e18 : 82 - 64 = 18 := rfl
  rw [e18, scan_fold_probe_82] at h
  rw [ranks_probe_82]
  refine ⟨h, ?_⟩
  rw [gen_chunk_scores_some, h]
  simp only []
  have hu : usub64 82 sdbf_sys.pop_win_size = 18 := by decide
  rw [hu, histo_probe_82]

theorem probe_block (SHA1 : List Nat → List Nat) (file_buffer : List Nat) (i : Nat)
    (d : sdbf_t) (n : Nat) (scores : List Nat) (histo : List Int) (k a : Nat)
    (h64 : 64 ≤ n) (hU : n < U64)
    (hs : gen_chunk_scores sdbf_sys (ranks_probe n) n (List.replicate n 0)
        (some (List.replicate 66 0)) = .ok (scores, some histo))
    (ht : threshold_params sdbf_sys histo = .ok (k, a)) :
    gen_block_sdbf_block sdbf_sys entr64_probe SHA1 file_buffer n d i
      = gen_block_hash sdbf_sys SHA1 file_buffer i scores n d 0 k (toI32 a) := by
  unfold gen_block_sdbf_block gen_block_sdbf_params
  rw [gen_chunk_ranks_probe file_buffer (n * i) n h64 hU]
  simp only []
  rw [hs]
  simp only [Option.getD_some]
  rw [ht]

/-- The sequential block builder on a file of two regular blocks without a tail. -/
theorem block_two_seq (sys : sdbf_parameters_t) (E : Entr64) (SHA1 : List Nat → List Nat)
    (file_buffer : List Nat) (file_size block_size : Nat) (sdbf d1 d2 : sdbf_t)
    (hq : file_size / block_size = 2) (hm : file_size % block_size < MIN_FILE_SIZE)
    (h0 : gen_block_sdbf_block sys E SHA1 file_buffer block_size sdbf 0 = .ok d1)
    (h1 : gen_block_sdbf_block sys E SHA1 file_buffer block_size d1 1 = .ok d2) :
    gen_block_sdbf sys E SHA1 file_buffer file_size block_size sdbf = .ok d2 := by
  have hU : U32 = 4294967296 := rfl
  unfold gen_block_sdbf
  rw [hq, gen_block_sdbf_loop_eq sys E SHA1 file_buffer block_size 2 1 (by decide)
    (by rw [hU]; decide) U32 0 sdbf (by omega), target_indices_zero_one]
  have hr : List.range 2 = [0, 1] := rfl
  rw [hr, List.foldlM_cons, h0, except_ok_bind, List.foldlM_cons, h1, except_ok_bind,
    List.foldlM_nil]
  show gen_block_sdbf_tail sys E SHA1 file_buffer file_size block_size d2 = _
  unfold gen_block_sdbf_tail
  rw [if_neg (by omega)]

theorem probe_threshold_82 :
    threshold_params sdbf_sys ([16, 1] ++ List.replicate 15 0 ++ [1] ++ List.replicate 48 0)
      = .ok (15, 159) := by
  decide!

/-- The sequential block digest of `file_3_1` in two blocks of 82 bytes, with the
stand-ins `entr64_probe` and `sha1_first`: position 17 of each block has the score 17,
above the threshold 15 found for the block, and is hashed into the filter of the block. -/
theorem probe_blocks_164 :
    gen_block_sdbf sdbf_sys entr64_probe sha1_first file_3_1 164 82
        (sdbf_hash_dd_alloc sdbf_sys 164 [97] 82)
      = .ok (digest_blocks 9 3 1 1) := by
  have h0 : gen_block_hash sdbf_sys sha1_first file_3_1 0 scores_probe_82 82
      (sdbf_hash_dd_alloc sdbf_sys 164 [97] 82) 0 15 (toI32 159)
      = .ok (digest_blocks 9 0 1 0) := by
    decide!
  have h1 : gen_block_hash sdbf_sys sha1_first file_3_1 1 scores_probe_82 82
      (digest_blocks 9 0 1 0) 0 15 (toI32 159)
      = .ok (digest_blocks 9 3 1 1) := by
    decide!
  refine block_two_seq sdbf_sys entr64_probe sha1_first file_3_1 164 82 _
    (digest_blocks 9 0 1 0) _ (by decide) (by decide) ?_ ?_
  · rw [probe_block sha1_first file_3_1 0 _ 82 _ _ 15 159 (by decide) (by decide)
      probe_scores_82.2 probe_threshold_82]
    exact h0
  · rw [probe_block sha1_first file_3_1 1 _ 82 _ _ 15 159 (by decide) (by decide)
      probe_scores_82.2 probe_threshold_82]
    exact h1

theorem foldlM_total {σ α : Type} (P : σ → Prop) (f : σ → α → Except Fault σ) :
    ∀ (l : List α) (s : σ), P s → (∀ s a, a ∈ l → P s → ∃ s1, f s a = .ok s1 ∧ P s1) →
      ∃ r, l.foldlM f s = .ok r ∧ P r := by
  intro l
  induction l with
  | nil => intro s h0 _; exact ⟨s, rfl, h0⟩
  | cons a l ih =>
    intro s h0 hstep
    obtain ⟨s1, e1, p1⟩ := hstep s a (List.mem_cons_self _ _) h0
    rw [List.foldlM_cons, e1]
    exact ih s1 p1 (fun s2 b hb => hstep s2 b (List.mem_cons_of_mem _ hb))

/-- The scores and the histogram of a chunk whose ranks have a zero tail: the call with a
zeroed histogram of 66 entries returns a histogram of 66 entries. -/
theorem gen_chunk_scores_total_histo (sys : sdbf_parameters_t) (ranks : List Nat)
    (size : Nat) (hw : sys.pop_win_size = 64)
    (hl : ranks.length = size) (h64 : 64 ≤ size) (hU : size + 64 < U64)
    (hz : ∀ j, size - 64 ≤ j → ranks.getD j 0 = 0) :
    ∃ sc h, gen_chunk_scores sys ranks size (List.replicate size 0)
        (some (List.replicate 66 0)) = .ok (sc, some h)
      ∧ h.length = 66 ∧ size ≤ sc.length := by
  have hU64 : U64 = 18446744073709551616 := rfl
  obtain ⟨res, hres⟩ := gen_chunk_scores_total sys ranks size false hw hl h64 hU hz
  rw [if_neg Bool.false_ne_true] at hres
  have hnone : gen_chunk_scores sys ranks size (List.replicate size 0) none
      = .ok (res.1, none) := by
    rw [hres]
    unfold gen_chunk_scores at hres
    cases hrd : rd ranks 0 with
    | error e => rw [hrd] at hres; cases hres
    | ok min_rank =>
      rw [hrd] at hres
      simp only [] at hres
      cases hbz : bzero16 (List.replicate size 0) size with
      | error e => rw [hbz] at hres; cases hres
      | ok scores0 =>
        rw [hbz] at hres
        simp only [] at hres
        cases hsl : score_loop ranks (usub64 size sys.pop_win_size) sys.pop_win_size
            (ranks.length + 1) 0 0 min_rank scores0 with
        | error e => rw [hsl] at hres; cases hres
        | ok sc =>
          rw [hsl] at hres
          simp only [] at hres
          rw [← Except.ok.inj hres]
  obtain ⟨h1, h2, h3⟩ := gen_chunk_scores_parts sys ranks size (List.replicate size 0)
    res.1 hw (by omega) h64 (by omega) hnone
  obtain ⟨h, e1, e2, _⟩ := histo_loop_spec res.1 (List.replicate 66 0) (size - 64) (by omega)
    (fun i hi => by
      have := h1 i (by omega)
      rw [List.length_replicate]
      omega)
  refine ⟨res.1, h, ?_, by rw [e2, List.length_replicate], h2⟩
  rw [h3, e1]

theorem threshold_loop_total (sys : sdbf_parameters_t) (h : List Int)
    (ht : 1 ≤ sys.threshold) (hl : h.length ≤ U32) :
    ∀ f k sum, k < h.length → k + 1 ≤ f + sys.threshold →
      ∃ r, threshold_loop sys h (f + 1) k sum = .ok r := by
  intro f
  induction f with
  | zero =>
    intro k sum _ hk
    unfold threshold_loop
    rw [if_neg (by omega)]
    exact ⟨_, rfl⟩
  | succ f ih =>
    intro k sum hkl hk
    unfold threshold_loop
    by_cases hge : k ≥ sys.threshold
    · rw [if_pos hge, List.getElem?_eq_getElem hkl]
      simp only []
      split
      · exact ⟨_, rfl⟩
      · have e : usub32 k 1 = k - 1 := usub32_eq k 1 (by omega) (by omega)
        rw [e]
        exact ih (k - 1) _ (by omega) (by omega)
    · rw [if_neg hge]
      exact ⟨_, rfl⟩

theorem threshold_params_total (sys : sdbf_parameters_t) (h : List Int)
    (ht : 1 ≤ sys.threshold) (hl : h.length = 66) :
    ∃ ka, threshold_params sys h = .ok ka := by
  have hU : U32 = 4294967296 := rfl
  obtain ⟨r, hr⟩ := threshold_loop_total sys h ht (by omega) 66 65 0 (by omega) (by omega)
  unfold threshold_params
  rw [hr]
  exact ⟨_, rfl⟩

theorem gen_block_hash_step_total (sys : sdbf_parameters_t) (SHA1 : List Nat → List Nat)
    (file_buffer : List Nat) (data : Nat) (scores : List Nat) (threshold : Nat)
    (st : BlockState) (i : Nat) (hi : i < scores.length) :
    ∃ st1, gen_block_hash_step sys SHA1 file_buffer data scores threshold true st i
      = .ok st1 := by
  unfold gen_block_hash_step
  split
  · rw [rd_ok scores i hi]
    simp only []
    split
    · rw [if_pos trivial]
      split
      · exact ⟨_, rfl⟩
      · exact ⟨_, rfl⟩
    · exact ⟨_, rfl⟩
  · exact ⟨_, rfl⟩

/-- A call of `gen_block_hash` returns when the filter of the block lies inside the
filter buffer, the block has an entry in `elem_counts`, and the scores cover the
positions of the loop. -/
theorem gen_block_hash_total (sys : sdbf_parameters_t) (SHA1 : List Nat → List Nat)
    (file_buffer : List Nat) (i : Nat) (scores : List Nat) (block_size : Nat)
    (d : sdbf_t) (rem k : Nat) (a : Int) (ec : List Nat)
    (hec : d.elem_counts = some ec) (hi : i < ec.length)
    (hfit : i * d.bf_size + 256 ≤ d.buffer.length)
    (hsc : usub32 (if rem > 0 then rem else block_size % U32) sys.pop_win_size
      ≤ scores.length) :
    ∃ d1, gen_block_hash sys SHA1 file_buffer i scores block_size d rem k a = .ok d1 := by
  obtain ⟨st, hst, _⟩ := foldlM_total (fun _ => True)
    (gen_block_hash_step sys SHA1 file_buffer (i * block_size) scores k true)
    (List.range (usub32 (if rem > 0 then rem else block_size % U32) sys.pop_win_size))
    (BlockState.mk ((d.buffer.drop (i * d.bf_size)).take 256) 0 a) trivial
    (fun s j hj _ => by
      obtain ⟨s1, h1⟩ := gen_block_hash_step_total sys SHA1 file_buffer (i * block_size)
        scores k s j (by have := List.mem_range.1 hj; omega)
      exact ⟨s1, h1, trivial⟩)
  unfold gen_block_hash gen_block_hash_loop
  rw [decide_eq_true hfit, hst]
  simp only []
  rw [hec]
  simp only []
  rw [if_pos hi]
  exact ⟨_, rfl⟩

/-- The body of the loop over the regular blocks returns, for blocks of at least 64 and
fewer than 2^32 bytes and entropies in the bins of `ENTR64_RANKS`, when the filter of the
block lies inside the filter buffer and the block has an entry in `elem_counts`. -/
theorem gen_block_sdbf_block_total (E : Entr64) (hE : EntrInRange E)
    (SHA1 : List Nat → List Nat) (file_buffer : List Nat) (block_size : Nat) (d : sdbf_t)
    (i : Nat) (ec : List Nat) (h64 : 64 ≤ block_size) (hU : block_size < U32)
    (hec : d.elem_counts = some ec) (hi : i < ec.length)
    (hfit : i * d.bf_size + 256 ≤ d.buffer.length) :
    ∃ d1, gen_block_sdbf_block sdbf_sys E SHA1 file_buffer block_size d i = .ok d1 := by
  have hU32 : U32 = 4294967296 := rfl
  have hU64 : U64 = 18446744073709551616 := rfl
  obtain ⟨ranks, h1, h2, h3⟩ := gen_chunk_ranks_spec sdbf_sys E file_buffer
    (block_size * i) block_size (List.replicate block_size 0) 0
    (by rw [List.length_replicate]) (Nat.zero_le _) h64 (by omega)
    (fun o _ => resync_state_in_range _ E hE file_buffer (block_size * i) o)
  rw [List.length_replicate] at h2
  have e1 : sdbf_sys.entr_win_size = 64 := rfl
  obtain ⟨sc, h, g1, g2, g3⟩ := gen_chunk_scores_total_histo sdbf_sys ranks block_size rfl h2
    h64 (by omega) (fun j hj => by
      rw [h3 j, e1, if_neg (by omega), if_neg (Nat.not_lt_zero j)]
      split
      · rfl
      · exact getD_replicate_zero block_size j)
  obtain ⟨ka, hka⟩ := threshold_params_total sdbf_sys h (by decide) g2
  obtain ⟨d1, hd1⟩ := gen_block_hash_total sdbf_sys SHA1 file_buffer i sc block_size d 0
    ka.1 (toI32 ka.2) ec hec hi hfit (by
      rw [if_neg (Nat.lt_irrefl 0), Nat.mod_eq_of_lt hU]
      have e2 : sdbf_sys.pop_win_size = 64 := rfl
      rw [e2, usub32_eq block_size 64 h64 hU]
      omega)
  unfold gen_block_sdbf_block gen_block_sdbf_params
  rw [h1]
  simp only []
  rw [g1]
  simp only [Option.getD_some]
  rw [hka]
  exact ⟨d1, hd1⟩

/-- On a block digest of `n` filters of 256 bytes with `n` element counts, the body of the
loop over the regular blocks returns for every block below `n`, and keeps the shape. -/
theorem gen_block_sdbf_block_room (E : Entr64) (hE : EntrInRange E)
    (SHA1 : List Nat → List Nat) (file_buffer : List Nat) (block_size : Nat)
    (h64 : 64 ≤ block_size) (hU : block_size < U32) (c n : Nat) (d : sdbf_t) (i : Nat)
    (hsh : block_shape d = (256, c, 256 * n, some n)) (hi : i < n) :
    ∃ d1, gen_block_sdbf_block sdbf_sys E SHA1 file_buffer block_size d i = .ok d1
      ∧ block_shape d1 = (256, c, 256 * n, some n) := by
  have hsh2 := hsh
  unfold block_shape at hsh2
  simp only [Prod.mk.injEq] at hsh2
  obtain ⟨s1, _, s3, s4⟩ := hsh2
  cases hec : d.elem_counts with
  | none => rw [hec] at s4; cases s4
  | some ec =>
    rw [hec] at s4
    simp only [Option.map_some', Option.some.injEq] at s4
    obtain ⟨d1, hd1⟩ := gen_block_sdbf_block_total E hE SHA1 file_buffer block_size d i ec
      h64 hU hec (by omega) (by rw [s1, s3]; omega)
    exact ⟨d1, hd1, (gen_block_sdbf_block_shape _ _ _ _ _ _ _ _ hd1).trans hsh⟩

/-- With `2^32 - 1` regular blocks and steps of two, the loop of the worker that starts
at block 0 never ends: its counter is even, so it is at most `2^32 - 2`, below the number
of blocks, and the step from `2^32 - 2` takes it back to 0. Whatever the fuel, the loop
uses it up. -/
theorem gen_block_sdbf_loop_wraps (E : Entr64) (hE : EntrInRange E)
    (SHA1 : List Nat → List Nat) (file_buffer : List Nat) (block_size : Nat)
    (h64 : 64 ≤ block_size) (hU : block_size < U32) (c : Nat) :
    ∀ (fuel i : Nat) (d : sdbf_t), i % 2 = 0 → i < U32 →
      block_shape d = (256, c, 256 * 4294967295, some 4294967295) →
      gen_block_sdbf_loop sdbf_sys E SHA1 file_buffer block_size 4294967295 2 fuel i d
        = .error .out_of_fuel := by
  have hU32 : U32 = 4294967296 := rfl
  intro fuel
  induction fuel with
  | zero => intro i d _ _ _; rfl
  | succ fuel ih =>
    intro i d hev hi hsh
    unfold gen_block_sdbf_loop
    rw [if_pos (by omega)]
    obtain ⟨d1, hd1, hs1⟩ := gen_block_sdbf_block_room E hE SHA1 file_buffer block_size h64
      hU c 4294967295 d i hsh (by omega)
    rw [hd1]
    simp only []
    exact ih _ d1 (by rw [hU32]; omega) (Nat.mod_lt _ (by rw [hU32]; decide)) hs1

/-- With `2^32 - 1` regular blocks and no tail, the sequential builder returns, while the
builder with two workers does not: the loop of worker 0 never ends. -/
theorem gen_block_sdbf_mt_wraps (E : Entr64) (hE : EntrInRange E)
    (SHA1 : List Nat → List Nat) (file_buffer : List Nat) (file_size block_size : Nat)
    (h64 : 64 ≤ block_size) (hU : block_size < U32) (c : Nat) (d : sdbf_t)
    (hq : file_size / block_size = 4294967295) (hm : file_size % block_size = 0)
    (hsh : block_shape d = (256, c, 256 * 4294967295, some 4294967295)) :
    (∃ d1, gen_block_sdbf sdbf_sys E SHA1 file_buffer file_size block_size d = .ok d1)
    ∧ (∀ fuel, gen_block_sdbf_loop sdbf_sys E SHA1 file_buffer block_size
        (file_size / block_size) 2 fuel 0 d = .error .out_of_fuel)
    ∧ gen_block_sdbf_mt sdbf_sys E SHA1 file_buffer file_size block_size d 2
        = .error .out_of_fuel := by
  have hU32 : U32 = 4294967296 := rfl
  have hw := gen_block_sdbf_loop_wraps E hE SHA1 file_buffer block_size h64 hU c
  refine ⟨?_, ?_, ?_⟩
  · unfold gen_block_sdbf
    rw [hq, gen_block_sdbf_loop_eq sdbf_sys E SHA1 file_buffer block_size 4294967295 1
      (by decide) (by rw [hU32]) U32 0 d (by rw [hU32]; omega), target_indices_zero_one]
    obtain ⟨r, hr, _⟩ := foldlM_total
      (fun s => block_shape s = (256, c, 256 * 4294967295, some 4294967295))
      (gen_block_sdbf_block sdbf_sys E SHA1 file_buffer block_size)
      (List.range 4294967295) d hsh
      (fun s a ha hs => gen_block_sdbf_block_room E hE SHA1 file_buffer block_size h64 hU c
        4294967295 s a hs (List.mem_range.1 ha))
    rw [hr]
    show ∃ d1, gen_block_sdbf_tail sdbf_sys E SHA1 file_buffer file_size block_size r = .ok d1
    unfold gen_block_sdbf_tail
    rw [hm, if_neg (by decide)]
    exact ⟨r, rfl⟩
  · intro fuel
    rw [hq]
    exact hw fuel 0 d rfl (by rw [hU32]; decide) hsh
  · unfold gen_block_sdbf_mt
    rw [if_neg (by decide)]
    have hr : List.range 2 = [0, 1] := rfl
    rw [hr, List.foldlM_cons]
    unfold thread_gen_block_sdbf
    rw [hq, hw (U32 + 1) 0 d rfl (by rw [hU32]; decide) hsh]
    rfl

/-- Counterexample to C16 as stated: a file of `(2^32 - 1) * 1024` bytes in blocks of 1024
bytes (`qt = 2^32 - 1` regular blocks, no tail), on the descriptor set up by
`sdbf_hash_dd`, with two threads. The sequential `gen_block_sdbf` returns a digest. In
`thread_gen_block_sdbf` the counter of worker 0 is a `uint32_t`: from `2^32 - 2`, which
is below `qt`, the step `i += 2` takes it back to 0, and the loop never ends; the threaded
builder returns no digest. -/
theorem gen_block_sdbf_mt_worker_wraps :
    4398046510080 / 1024 = 2 ^ 32 - 1 ∧ 4398046510080 % 1024 = 0
    ∧ (∃ d1, gen_block_sdbf sdbf_sys entr64_probe sha1_zero
        (List.replicate 4398046510080 0) 4398046510080 1024
        (sdbf_hash_dd_alloc sdbf_sys 4398046510080 [97] 1024) = .ok d1)
    ∧ (∀ fuel, gen_block_sdbf_loop sdbf_sys entr64_probe sha1_zero
        (List.replicate 4398046510080 0) 1024 (4398046510080 / 1024) 2 fuel 0
        (sdbf_hash_dd_alloc sdbf_sys 4398046510080 [97] 1024) = .error .out_of_fuel)
    ∧ gen_block_sdbf_mt sdbf_sys entr64_probe sha1_zero
        (List.replicate 4398046510080 0) 4398046510080 1024
        (sdbf_hash_dd_alloc sdbf_sys 4398046510080 [97] 1024) 2 = .error .out_of_fuel := by
  have hsh : block_shape (sdbf_hash_dd_alloc sdbf_sys 4398046510080 [97] 1024)
      = (256, 4294967295, 256 * 4294967295, some 4294967295) := by
    unfold block_shape sdbf_hash_dd_alloc
    simp only [List.length_replicate, Option.map_some']
    decide
  exact ⟨by decide, by decide,
    gen_block_sdbf_mt_wraps entr64_probe entrInRange_probe sha1_zero
      (List.replicate 4398046510080 0) 4398046510080 1024 (by decide) (by decide)
      4294967295 _ (by decide) (by decide) hsh⟩

/-- Witness for the amended C16: the file `file_3_1` of 164 bytes in two blocks of 82
bytes, two threads, on the descriptor set up by `sdbf_hash_dd`, with the stand-ins
`entr64_probe` and `sha1_first`. Position 17 of each block is hashed: the sequential
builder returns the digest with the filters `09 00 ..` and `03 00 ..` and the element
counts 1 and 1, and so does the builder with two workers. -/
theorem gen_block_sdbf_mt_eq_witness :
    2 ≤ 2 ∧ 164 / 82 + 2 ≤ 2 ^ 32
    ∧ gen_block_sdbf sdbf_sys entr64_probe sha1_first file_3_1 164 82
        (sdbf_hash_dd_alloc sdbf_sys 164 [97] 82) = .ok (digest_blocks 9 3 1 1)
    ∧ (gen_block_sdbf_mt sdbf_sys entr64_probe sha1_first file_3_1 164 82
        (sdbf_hash_dd_alloc sdbf_sys 164 [97] 82) 2).toOption
      = (gen_block_sdbf sdbf_sys entr64_probe sha1_first file_3_1 164 82
          (sdbf_hash_dd_alloc sdbf_sys 164 [97] 82)).toOption
    ∧ (worker_blocks 2 (164 / 82) (List.range 2)).Perm (List.range (164 / 82))
    ∧ (∀ t a, t < 2 → (a ∈ target_indices t 2 (164 / 82) ↔ a < 164 / 82 ∧ a % 2 = t)) :=
  ⟨by decide, by decide, probe_blocks_164,
    (gen_block_sdbf_mt_eq sdbf_sys entr64_probe sha1_first file_3_1 164 82
      (sdbf_hash_dd_alloc sdbf_sys 164 [97] 82) 2 (by decide) (by decide) (by decide)).1,
    (gen_block_sdbf_mt_eq sdbf_sys entr64_probe sha1_first file_3_1 164 82
      (sdbf_hash_dd_alloc sdbf_sys 164 [97] 82) 2 (by decide) (by decide) (by decide)).2.1,
    (gen_block_sdbf_mt_eq sdbf_sys entr64_probe sha1_first file_3_1 164 82
      (sdbf_hash_dd_alloc sdbf_sys 164 [97] 82) 2 (by decide) (by decide) (by decide)).2.2.1⟩

/-! ### The round trip through the stream form -/

end Sdhash
